import Mathlib

/-! SMARTS writer of NCI-SLICE (`kekule.io.smarts.js`)

A shallow embedding of `Kekule.IO.SmartsUtils.createGraphDepthSpanningTreesEx`
and of `Kekule.IO.SmartsMolWriter`, followed by the properties proved about
them.

Conventions of the embedding.

* Graph vertices and edges are JavaScript objects compared by identity; they are
  embedded as natural-number identifiers.
* The per-vertex flag `__$visitedEx__` is embedded as the list of the vertices
  whose flag is `true`; it is threaded through the traversal explicitly.
* The recursion of `_doTravers` and `_writeMolVertex` is embedded with a fuel
  argument; `none` means that the fuel ran out.
* A string built by `_writeMolVertex` is embedded as the sequence of the tokens
  it is concatenated from (`Tok`); `render` gives the JavaScript string.
-/

namespace Kekule

/-! ## Graph data model (`Kekule.Graph`, `Kekule.GraphVertex`, `Kekule.GraphEdge`) -/

/-- Identity of a `Kekule.GraphVertex` object. -/
abbrev Vertex := Nat

/-- Identity of a `Kekule.GraphEdge` object. -/
abbrev Edge := Nat

/-- The part of `Kekule.Graph` the writer reads: `graph.getVertexes()`,
`graph.getEdges()`, `vertex.getEdges()` (ordered) and `edge.getVertexes()`
(the two ends of an edge). -/
structure Graph where
  vertexes : List Vertex
  edges : List Edge
  getEdges : Vertex → List Edge
  getVertexes : Edge → Vertex × Vertex

/-- Modelled from the spec: `vertex.getNeighborOnEdge(edge)` of
`kekule.graph.js`, which is not part of the sources at hand. An edge connects
exactly two vertices; the neighbour of `vertex` on `edge` is the other end. -/
def Graph.getNeighborOnEdge (g : Graph) (vertex : Vertex) (edge : Edge) : Vertex :=
  if (g.getVertexes edge).1 = vertex then (g.getVertexes edge).2 else (g.getVertexes edge).1

/-- Well-formedness of the graph handed over by the graph adapter (spec §3):
no vertex or edge is listed twice, an edge connects two different vertices of
the graph, and the adjacency list of a vertex holds, once each, exactly the
edges that end in it. -/
def Graph.WF (g : Graph) : Prop :=
  g.vertexes.Nodup ∧ g.edges.Nodup ∧
  (∀ e ∈ g.edges, (g.getVertexes e).1 ≠ (g.getVertexes e).2 ∧
      (g.getVertexes e).1 ∈ g.vertexes ∧ (g.getVertexes e).2 ∈ g.vertexes ∧
      e ∈ g.getEdges (g.getVertexes e).1 ∧ e ∈ g.getEdges (g.getVertexes e).2) ∧
  (∀ v ∈ g.vertexes, (g.getEdges v).Nodup ∧
      ∀ e ∈ g.getEdges v, e ∈ g.edges ∧
        ((g.getVertexes e).1 = v ∨ (g.getVertexes e).2 = v))

instance (g : Graph) : Decidable g.WF := by
  unfold Graph.WF; infer_instance

/-! ## `Kekule.IO.SmartsUtils.createGraphDepthSpanningTreesEx` -/

/-- The `longestPath` field of a spanning result. -/
structure LongestPath where
  vertexes : List Vertex
  edges : List Edge
  length : Nat
deriving DecidableEq, Repr

/-- One item of the array returned by `createGraphDepthSpanningTreesEx`. -/
structure SpanningResult where
  vertexes : List Vertex
  edges : List Edge
  longestPath : LongestPath
deriving DecidableEq, Repr

/-- The variables the `for` loop of `_doTravers` updates: `result`,
`longestTargetNeighborEdge` and the visited flags. -/
structure TraversState where
  result : SpanningResult
  longestTargetNeighborEdge : Option Edge
  visited : List Vertex
deriving DecidableEq, Repr

/-- The `for` loop of `_doTravers` (source lines 100-122) over the edges still to
be looked at; `recurse` is the recursive call `_doTravers(neighbor)`. -/
def traversEdges (g : Graph)
    (recurse : Vertex → List Vertex → Option (SpanningResult × List Vertex))
    (vertex : Vertex) : List Edge → TraversState → Option TraversState
  | [], st => some st
  | edge :: rest, st =>
    let neighbor := g.getNeighborOnEdge vertex edge
    if neighbor ∈ st.visited then
      traversEdges g recurse vertex rest st
    else
      match recurse neighbor (neighbor :: st.visited) with
      | none => none
      | some (nextResult, visited) =>
        let vertexes := (st.result.vertexes ++ [neighbor]) ++ nextResult.vertexes
        let edges := (st.result.edges ++ [edge]) ++ nextResult.edges
        if nextResult.longestPath.length > st.result.longestPath.length
            ∨ st.result.longestPath.length = 0 then
          traversEdges g recurse vertex rest
            { result := { vertexes := vertexes, edges := edges,
                          longestPath := { vertexes := nextResult.longestPath.vertexes,
                                           edges := nextResult.longestPath.edges,
                                           length := nextResult.longestPath.length } },
              longestTargetNeighborEdge := some edge,
              visited := visited }
        else
          traversEdges g recurse vertex rest
            { result := { vertexes := vertexes, edges := edges,
                          longestPath := st.result.longestPath },
              longestTargetNeighborEdge := st.longestTargetNeighborEdge,
              visited := visited }

/-- The inner function `_doTravers` of `createGraphDepthSpanningTreesEx` (source
lines 80-132). It returns the result together with the visited flags. -/
def doTravers (g : Graph) : Nat → Vertex → List Vertex → Option (SpanningResult × List Vertex)
  | 0, _, _ => none
  | fuel + 1, vertex, visited =>
    let start : TraversState :=
      if vertex ∈ visited then
        { result := { vertexes := [], edges := [],
                      longestPath := { vertexes := [], edges := [], length := 0 } },
          longestTargetNeighborEdge := none, visited := visited }
      else
        { result := { vertexes := [vertex], edges := [],
                      longestPath := { vertexes := [], edges := [], length := 0 } },
          longestTargetNeighborEdge := none, visited := vertex :: visited }
    match traversEdges g (doTravers g fuel) vertex (g.getEdges vertex) start with
    | none => none
    | some st =>
      let lp := st.result.longestPath
      let lp1 : LongestPath :=
        match st.longestTargetNeighborEdge with
        | some e => { vertexes := lp.vertexes, edges := e :: lp.edges, length := lp.length + 1 }
        | none => lp
      some ({ vertexes := st.result.vertexes, edges := st.result.edges,
              longestPath := { vertexes := vertex :: lp1.vertexes, edges := lp1.edges,
                               length := lp1.length } },
            st.visited)

/-- The `while (remainingVertexes.length)` loop of
`createGraphDepthSpanningTreesEx` (source lines 141-164). -/
def spanningLoop (g : Graph) (startingVertex : Option Vertex) :
    Nat → List Vertex → List Vertex → List SpanningResult →
      Option (List SpanningResult × List Vertex)
  | _, [], visited, result => some (result, visited)
  | 0, _ :: _, _, _ => none
  | fuel + 1, first :: rest, visited, result =>
    let remainingVertexes := first :: rest
    let currVertex :=
      match startingVertex with
      | some s => if s ∈ remainingVertexes then s else first
      | none => first
    match doTravers g (g.vertexes.length + 1) currVertex visited with
    | none => none
    | some (partialResult, visited1) =>
      let seq : SpanningResult :=
        { vertexes := [] ++ partialResult.vertexes,
          edges := [] ++ partialResult.edges,
          longestPath := { vertexes := [] ++ partialResult.longestPath.vertexes,
                           edges := [] ++ partialResult.longestPath.edges,
                           length := 0 + partialResult.longestPath.length } }
      spanningLoop g startingVertex fuel
        (remainingVertexes.filter (fun v => v ∉ partialResult.vertexes)) visited1
        (result ++ [seq])

/-- `Kekule.IO.SmartsUtils.createGraphDepthSpanningTreesEx(graph, startingVertex)`.
`flags` are the vertices whose visited flag is set when the function is entered;
the function first clears the flag of every vertex of the graph. The visited
flags left behind are returned with the result. -/
def createGraphDepthSpanningTreesEx (g : Graph) (startingVertex : Option Vertex)
    (flags : List Vertex) : Option (List SpanningResult × List Vertex) :=
  spanningLoop g startingVertex g.vertexes.length g.vertexes
    (flags.filter (fun v => v ∉ g.vertexes)) []

/-! ## Constants (`Kekule.IO.SMARTS`) -/

namespace SMARTS

def ATOM_BRACKET_LEFT : String := "["
def ATOM_BRACKET_RIGHT : String := "]"
def ATOM_WILDCARD : String := "*"
def ATOM_H : String := "H"
def ORGAN_SUBSET_ATOMS : List String := ["B", "C", "N", "O", "S", "P", "F", "Cl", "Br", "I"]
def AROMATIC_SUBSET_ATOMS : List String := ["B", "C", "N", "O", "S", "P"]
def BOND_SINGLE : String := "-"
def BOND_DOUBLE : String := "="
def BOND_TRIPLE : String := "#"
def BOND_QUAD : String := "$"
def BOND_AROMATIC : String := ":"
def BOND_FAKE : String := "."
def RING_BOND_TWO_DIGIT_NO_PREFIX : String := "%"
def BRANCH_BRACKET_LEFT : String := "("
def BRANCH_BRACKET_RIGHT : String := ")"
def ROTATION_DIR_CLOCKWISE : String := "@@"
def ROTATION_DIR_ANTICLOCKWISE : String := "@"
def DIRECTION_BOND_SYMBOLS : String × String := ("/", "\\")

end SMARTS

/-! ## Chemical objects read by the writer

Atoms and bonds are objects of the Kekule library; the writer only calls their
getters. A node or connector is embedded as the record of the values those
getters return, together with the identity of the object. Counts are natural
numbers and the charge is an integer, so `Math.round` is the identity. -/

/-- `Kekule.RotationDir`, as far as `_outputNodeStr` tells its values apart. -/
inductive RotationDir where
  | clockwise
  | anticlockwise
  | unknown
deriving DecidableEq, Repr

/-- A structure node (`Kekule.ChemStructureNode`) as `_outputNodeStr` and
`_getNodeHydrogenCount` see it. -/
structure Node where
  /-- identity of the object -/
  id : Nat
  /-- `node instanceof Kekule.Atom` -/
  isAtom : Bool
  /-- `node.smarts`, the override pattern -/
  smarts : Option String
  /-- `node.getSymbol()` -/
  symbol : String
  /-- `node.getParity && node.getParity()`, 0 when absent or unset -/
  parity : Nat
  /-- `node.getLinkedHydrogenAtomsWithSingleBond()`, as object identities -/
  linkedHydrogenAtomsWithSingleBond : List Nat
  /-- `node.getHydrogenCount ? (node.getHydrogenCount(false) || 0) : 0` -/
  hydrogenCount : Nat
  /-- `node.getRadical ? Math.round(node.getRadical() || 0) : 0` -/
  radical : Nat
  /-- `(node.getValence && node.getValence()) || 0` -/
  valence : Nat
  /-- `Kekule.ValenceUtils.getMaxPossibleValence(node.getAtomicNumber(), node.getCharge()) || 0` -/
  maxPossibleValence : Nat
  /-- `node.hasExplicitHydrogens()` -/
  hasExplicitHydrogens : Bool
  /-- `node.getExplicitHydrogenCount && node.getExplicitHydrogenCount()`, `none` when unset -/
  explicitHydrogenCount : Option Nat
  /-- `(node.getImplicitHydrogenCount && node.getImplicitHydrogenCount()) || 0` -/
  implicitHydrogenCount : Nat
  /-- `(node.getValence && node.getValence(\x7bignoreExplicitHydrogens: true, ignoreBondHydrogens: true\x7d)) || 0` -/
  valenceWithoutH : Nat
  /-- `(node.getLinkedHydrogenAtomsWithSingleBondCount && node.getLinkedHydrogenAtomsWithSingleBondCount(true)) || 0` -/
  linkedHydrogenAtomsWithSingleBondCount : Nat
  /-- `Math.round(node.getCharge())` -/
  charge : Int
  /-- `node.getMassNumber ? node.getMassNumber() : null` -/
  massNumber : Option Int
  /-- `node.chemEnv`, the environment annotation -/
  chemEnv : Option String
deriving DecidableEq, Repr

/-- `Kekule.BondType`, as far as `_outputConnectorStr` tells its values apart. -/
inductive BondType where
  | covalent
  | other
deriving DecidableEq, Repr

/-- `Kekule.BondOrder`, as far as `_outputConnectorStr` tells its values apart. -/
inductive BondOrder where
  | double
  | triple
  | quad
  | other
deriving DecidableEq, Repr

/-- A connector (`Kekule.ChemStructureConnector`) as the writer sees it. -/
structure Connector where
  /-- identity of the object -/
  id : Nat
  /-- `connector.smarts`, the override pattern -/
  smarts : Option String
  /-- `connector instanceof Kekule.Bond` -/
  isBond : Bool
  /-- `connector.getBondType()` -/
  bondType : BondType
  /-- `connector.getBondOrder()` -/
  bondOrder : BondOrder
  /-- `connector.getParity && connector.getParity()`, 0 when absent or unset -/
  parity : Nat
deriving DecidableEq, Repr

/-- The `options` hash of the writer. A stereo sub-flag may be unset (`none`);
the other fields are read for their truthiness only. -/
structure Options where
  ignoreStereo : Bool
  ignoreStereoBond : Option Bool
  ignoreStereoAtom : Option Bool
  ignoreExplicitHydrogens : Bool
  ignoreImplicitHydrogens : Bool
deriving DecidableEq, Repr

/-- The empty options hash. -/
def Options.empty : Options :=
  { ignoreStereo := false, ignoreStereoBond := none, ignoreStereoAtom := none,
    ignoreExplicitHydrogens := false, ignoreImplicitHydrogens := false }

/-- `Kekule.MapEx` from connector identities to direction symbols. -/
abbrev MapEx := List (Nat × String)

/-- Truthiness of a JavaScript value that is either unset or a string. -/
def truthy (s : Option String) : Bool :=
  match s with
  | some t => t ≠ ""
  | none => false

/-- `String.prototype.toLowerCase` on the ASCII letters (element symbols are ASCII). -/
def toLowerCase (s : String) : String := String.mk (s.data.map Char.toLower)

/-! ## `Kekule.IO.SmartsMolWriter`: formatting of atoms and bonds -/

/-- `_getNodeHydrogenCount(node, options)` (source lines 664-679). -/
def getNodeHydrogenCount (node : Node) (options : Options) : Nat :=
  let result := node.linkedHydrogenAtomsWithSingleBondCount
  let explicitHCount := node.explicitHydrogenCount
  let result := if options.ignoreExplicitHydrogens then result else result + explicitHCount.getD 0
  if explicitHCount.isNone ∧ ¬ options.ignoreImplicitHydrogens then
    result + node.implicitHydrogenCount
  else result

/-- The variable `symbol` of `_outputNodeStr` after the symbol step (source lines
482-497); `none` is `undefined`. -/
def nodeSymbol (node : Node) : Option String :=
  if node.isAtom then
    if truthy node.smarts then none else some node.symbol
  else none

/-- The variable `result` of `_outputNodeStr` after the symbol step (source lines
482-497). -/
def nodeSymbolStr (node : Node) (isAromatic : Bool) : String :=
  if node.isAtom then
    if truthy node.smarts then node.smarts.getD ""
    else if isAromatic then toLowerCase node.symbol else node.symbol
  else SMARTS.ATOM_WILDCARD

/-- The variable `schiralRot` of `_outputNodeStr` after the chirality step (source
lines 499-534); the empty string stands for `undefined` as well.
`calcRotation node prevNode nextNodes withImplicitH` is the external routine
`Kekule.MolStereoUtils.calcTetrahedronChiralCenterRotationDirection`. -/
def nodeChiralRot (calcRotation : Node → Option Nat → List Nat → Bool → RotationDir)
    (node : Node) (prevNode : Option Nat) (nextNodes : List Nat) (options : Options) : String :=
  let ignoreAtomStereo : Bool :=
    match options.ignoreStereoAtom with
    | some b => b
    | none => options.ignoreStereo
  if ¬ ignoreAtomStereo ∧ node.parity ≠ 0 then
    if nextNodes.length ≠ 0 then
      let bondedHAtoms := node.linkedHydrogenAtomsWithSingleBond
      let nextNodes :=
        match bondedHAtoms with
        | [h] => if h ∈ nextNodes then nextNodes else nextNodes ++ [h]
        | _ => nextNodes
      let hcount := node.hydrogenCount
      if bondedHAtoms.length ≠ 0 ∧ hcount ≠ 0 then ""
      else
        match calcRotation node prevNode nextNodes (hcount ≠ 0) with
        | RotationDir.clockwise => SMARTS.ROTATION_DIR_CLOCKWISE
        | RotationDir.anticlockwise => SMARTS.ROTATION_DIR_ANTICLOCKWISE
        | RotationDir.unknown => ""
    else ""
  else ""

/-- The variable `outputExplicitH` of `_outputNodeStr` when the hydrogen count is
written (source lines 542-621). -/
def nodeOutputExplicitH (node : Node) (isAromatic : Bool) (schiralRot : String)
    (options : Options) : Bool :=
  let explicitHCount := getNodeHydrogenCount node options
  let symbol := nodeSymbol node
  if schiralRot ≠ "" then true
  else if node.radical ≠ 0 then true
  else if node.isAtom then
    if explicitHCount ≠ 0 ∧ isAromatic ∧ symbol ≠ some "C" then true
    else if (options.ignoreExplicitHydrogens ∨ options.ignoreImplicitHydrogens)
        ∧ explicitHCount ≠ getNodeHydrogenCount node Options.empty then true
    else
      let currValence := node.valence
      let maxPossibleValence := node.maxPossibleValence
      if currValence ≠ 0 then
        if currValence > maxPossibleValence ∧ explicitHCount ≠ 0 then true
        else if node.hasExplicitHydrogens then
          if node.explicitHydrogenCount.getD 0 = node.implicitHydrogenCount then false else true
        else
          if node.valenceWithoutH < currValence then true else false
      else true
  else true

/-- The JavaScript number nearest to the natural number `v`. A number has 53
significant bits: below `2 ^ 53` every natural number is a number, and from there on
the binary digits after the 53rd are rounded away, a value halfway between two
numbers going to the one whose last kept digit is 0. (From `2 ^ 1024` on the result
stands for `Infinity`.) -/
def roundToNumber (v : Nat) : Nat :=
  if v < 2 ^ 53 then v
  else
    let shift := (Nat.toDigits 2 v).length - 53
    let q := v / 2 ^ shift
    let r := v % 2 ^ shift
    if 2 ^ (shift - 1) < r ∨ (r = 2 ^ (shift - 1) ∧ q % 2 = 1) then (q + 1) * 2 ^ shift
    else q * 2 ^ shift

/-- The pairs `(n, s)` with `s` of exactly `k` decimal digits for which
`s * 10 ^ (n - k)` is a value whose nearest number is `x`, among the two multiples of
`10 ^ (n - k)` next to `x`, for `n` the number `d` of decimal digits of `x` or
`d + 1`. -/
def digitCandidates (x d k : Nat) : List (Nat × Nat) :=
  [(d, x / 10 ^ (d - k)), (d, x / 10 ^ (d - k) + 1),
    (d + 1, x / 10 ^ (d + 1 - k)), (d + 1, x / 10 ^ (d + 1 - k) + 1)].filter
    (fun c => 10 ^ (k - 1) ≤ c.2 ∧ c.2 < 10 ^ k ∧ roundToNumber (c.2 * 10 ^ (c.1 - k)) = x)

/-- The distance of two natural numbers. -/
def distance (a b : Nat) : Nat := (a - b) + (b - a)

/-- Of two candidates `(n, s)` the one whose value `s * 10 ^ (n - k)` is closer to
`x`, and the one with the even `s` when both are as close. -/
def closerDigits (x k : Nat) (a b : Nat × Nat) : Nat × Nat :=
  if distance (b.2 * 10 ^ (b.1 - k)) x < distance (a.2 * 10 ^ (a.1 - k)) x
      ∨ (distance (b.2 * 10 ^ (b.1 - k)) x = distance (a.2 * 10 ^ (a.1 - k)) x ∧ b.2 % 2 = 0)
  then b else a

/-- The integers `(n, k, s)` JavaScript prints a number `x` (a natural number) from:
`s` has `k` decimal digits, the number nearest to `s * 10 ^ (n - k)` is `x`, and `k`
is as small as possible; of several such `s` the one whose value is closest to `x`. -/
def shortestDigits (x : Nat) : Nat × Nat × Nat :=
  let d := (Nat.toDigits 10 x).length
  ((List.range d).findSome? (fun i =>
    match digitCandidates x d (i + 1) with
    | [] => none
    | c :: cs => some ((cs.foldl (closerDigits x (i + 1)) c).1, i + 1,
        (cs.foldl (closerDigits x (i + 1)) c).2))).getD (d, d, x)

/-- The string JavaScript gives the number nearest to the natural number `v` when it
is concatenated with a string (`Number::toString` with radix 10). Below `2 ^ 53` it
is the decimal expansion of `v`. From there on it is made of the shortest digit
string `s` that gives the number back (`shortestDigits`): up to 21 digits before the
decimal point the digits of `s` followed by zeros, and beyond that the exponent form
(`1e+21`, `1.2e+21`). -/
def numberToString (v : Nat) : String :=
  if v < 2 ^ 53 then toString v
  else if 1024 < (Nat.toDigits 2 (roundToNumber v)).length then "Infinity"
  else
    let nks := shortestDigits (roundToNumber v)
    let n := nks.1
    let k := nks.2.1
    let digits := Nat.toDigits 10 nks.2.2
    if n ≤ 21 then String.mk (digits ++ List.replicate (n - k) '0')
    else if k = 1 then String.mk digits ++ "e+" ++ toString (n - 1)
    else String.mk (digits.take 1) ++ "." ++ String.mk (digits.drop 1) ++ "e+" ++ toString (n - 1)

/-- The text the hydrogen step of `_outputNodeStr` adds (source lines 624-631); the
count is a JavaScript number, appended to the string as `numberToString` prints it. -/
def nodeHydrogenStr (outputExplicitH : Bool) (explicitHCount : Nat) : String :=
  if outputExplicitH then
    let hcount := explicitHCount
    (if hcount > 0 then SMARTS.ATOM_H else "")
      ++ (if hcount > 1 then numberToString hcount else "")
  else ""

/-- The text the charge step of `_outputNodeStr` adds (source lines 634-641);
`Math.abs(charge)` is a JavaScript number, put in front of the sign as
`numberToString` prints it. -/
def nodeChargeStr (charge : Int) : String :=
  if charge ≠ 0 then
    let chargeStr := if charge > 0 then "+" else "-"
    if charge > 1 ∨ charge < -1 then numberToString charge.natAbs ++ chargeStr else chargeStr
  else ""

/-- The text the isotope step of `_outputNodeStr` puts in front (source lines
644-646); a mass number that is unset or 0 gives nothing, and `Math.abs(massNum)` is
a JavaScript number, put in front as `numberToString` prints it. -/
def nodeMassStr (massNum : Option Int) : String :=
  match massNum with
  | some m => if m ≠ 0 then numberToString m.natAbs else ""
  | none => ""

/-- The variable `result` of `_outputNodeStr` before the bracket decision (source
line 647): isotope, symbol, chirality, hydrogen count, charge. -/
def nodeBody (calcRotation : Node → Option Nat → List Nat → Bool → RotationDir)
    (node : Node) (isAromatic : Bool) (prevNode : Option Nat) (nextNodes : List Nat)
    (options : Options) : String :=
  let schiralRot := nodeChiralRot calcRotation node prevNode nextNodes options
  let outputExplicitH := nodeOutputExplicitH node isAromatic schiralRot options
  nodeMassStr node.massNumber
    ++ (nodeSymbolStr node isAromatic ++ schiralRot
        ++ nodeHydrogenStr outputExplicitH (getNodeHydrogenCount node options)
        ++ nodeChargeStr node.charge)

/-- The variable `simpleOrgAtom` of `_outputNodeStr` (source lines 648-656). -/
def simpleOrgAtom (calcRotation : Node → Option Nat → List Nat → Bool → RotationDir)
    (node : Node) (isAromatic : Bool) (prevNode : Option Nat) (nextNodes : List Nat)
    (options : Options) : Bool :=
  let schiralRot := nodeChiralRot calcRotation node prevNode nextNodes options
  let outputExplicitH := nodeOutputExplicitH node isAromatic schiralRot options
  let massNum := node.massNumber
  if ¬ outputExplicitH ∧ node.charge = 0 ∧ (massNum = none ∨ massNum = some 0)
      ∧ schiralRot = "" ∧ node.radical = 0 then
    match nodeSymbol node with
    | some symbol =>
      (¬ isAromatic ∧ symbol ∈ SMARTS.ORGAN_SUBSET_ATOMS)
        ∨ (isAromatic ∧ symbol ∈ SMARTS.AROMATIC_SUBSET_ATOMS)
    | none => false
  else false

/-- The text added for `node.chemEnv` (source lines 659-660). -/
def nodeChemEnvStr (chemEnv : Option String) : String :=
  if truthy chemEnv then
    SMARTS.BRANCH_BRACKET_LEFT ++ SMARTS.ATOM_BRACKET_LEFT ++ chemEnv.getD ""
      ++ SMARTS.ATOM_BRACKET_RIGHT ++ SMARTS.BRANCH_BRACKET_RIGHT
  else ""

/-- `_outputNodeStr(node, isAromatic, prevNode, nextNodes, options)` (source lines
477-662). -/
def outputNodeStr (calcRotation : Node → Option Nat → List Nat → Bool → RotationDir)
    (node : Node) (isAromatic : Bool) (prevNode : Option Nat) (nextNodes : List Nat)
    (options : Options) : String :=
  let result := nodeBody calcRotation node isAromatic prevNode nextNodes options
  let result :=
    if simpleOrgAtom calcRotation node isAromatic prevNode nextNodes options then result
    else SMARTS.ATOM_BRACKET_LEFT ++ result ++ SMARTS.ATOM_BRACKET_RIGHT
  result ++ nodeChemEnvStr node.chemEnv

/-- `_outputConnectorStr(connector, connectedNode1, connectedNode2, aromaticNodes,
aromaticConnectors, stereoDirectionMap)` (source lines 681-712). -/
def outputConnectorStr (connector : Connector) (connectedNode1 connectedNode2 : Nat)
    (aromaticNodes aromaticConnectors : List Nat) (stereoDirectionMap : Option MapEx) : String :=
  if truthy connector.smarts then connector.smarts.getD ""
  else if connector.isBond ∧ connector.bondType = BondType.covalent then
    if connector.id ∈ aromaticConnectors then ""
    else
      let connectBothAromaticNodes : Bool :=
        connectedNode1 ∈ aromaticNodes ∧ connectedNode2 ∈ aromaticNodes
      let result :=
        match connector.bondOrder with
        | BondOrder.double => SMARTS.BOND_DOUBLE
        | BondOrder.triple => SMARTS.BOND_TRIPLE
        | BondOrder.quad => SMARTS.BOND_QUAD
        | BondOrder.other => if connectBothAromaticNodes then SMARTS.BOND_SINGLE else ""
      match stereoDirectionMap with
      | some map =>
        match map.lookup connector.id with
        | some dir => result ++ dir
        | none => result
      | none => result
  else SMARTS.BOND_FAKE

/-! ## `Kekule.IO.SmartsMolWriter`: writing the spanning trees -/

/-- What `_writeMolVertex` receives besides the vertex and the edge lists: the graph,
the chemical object behind each vertex and edge (`getData('object')`), the
aromatic nodes and connectors, `additionalInfos.bondStereoDirMap`, the options,
and the external routine that computes the rotation direction of a chiral
centre. -/
structure WriterEnv where
  graph : Graph
  node : Vertex → Node
  connector : Edge → Connector
  aromaticNodes : List Nat
  aromaticRingConnectors : List Nat
  bondStereoDirMap : Option MapEx
  options : Options
  calcRotation : Node → Option Nat → List Nat → Bool → RotationDir

/-- A piece of the string `_writeMolVertex` builds. -/
inductive Tok where
  /-- the bond symbol of the edge the vertex was reached by -/
  | connector (edge : Edge)
  /-- the atom token of `vertex`, with the previous vertex and the vertices of `nextNodes` -/
  | node (vertex : Vertex) (prevVertex : Option Vertex) (nextVertexes : List Vertex)
  /-- a ring-closure string pushed to `ringStrs` at `vertex` for `edge` with its closure number -/
  | ring (vertex : Vertex) (edge : Edge) (ringEdgeIndex : Nat)
  /-- `SMI.BRANCH_BRACKET_LEFT` -/
  | branchLeft
  /-- `SMI.BRANCH_BRACKET_RIGHT` -/
  | branchRight
  /-- `SMI.BOND_FAKE` between two components -/
  | fake
deriving DecidableEq, Repr

/-- The text of a closure number (source line 412). -/
def ringNumberStr (ringEdgeIndex : Nat) : String :=
  if ringEdgeIndex < 10 then toString ringEdgeIndex
  else SMARTS.RING_BOND_TWO_DIGIT_NO_PREFIX ++ toString ringEdgeIndex

/-- The call of `_outputConnectorStr` for an edge (source lines 409-410 and 445-446). -/
def edgeConnectorStr (env : WriterEnv) (edge : Edge) : String :=
  outputConnectorStr (env.connector edge)
    (env.node (env.graph.getVertexes edge).1).id (env.node (env.graph.getVertexes edge).2).id
    env.aromaticNodes env.aromaticRingConnectors env.bondStereoDirMap

/-- The JavaScript string of a token. -/
def Tok.text (env : WriterEnv) : Tok → String
  | Tok.connector edge => edgeConnectorStr env edge
  | Tok.node vertex prevVertex nextVertexes =>
    outputNodeStr env.calcRotation (env.node vertex)
      ((env.node vertex).id ∈ env.aromaticNodes)
      (prevVertex.map (fun v => (env.node v).id))
      (nextVertexes.map (fun v => (env.node v).id)) env.options
  | Tok.ring _ edge ringEdgeIndex => edgeConnectorStr env edge ++ ringNumberStr ringEdgeIndex
  | Tok.branchLeft => SMARTS.BRANCH_BRACKET_LEFT
  | Tok.branchRight => SMARTS.BRANCH_BRACKET_RIGHT
  | Tok.fake => SMARTS.BOND_FAKE

/-- The JavaScript string a token sequence stands for. -/
def render (env : WriterEnv) : List Tok → String
  | [] => ""
  | t :: ts => t.text env ++ render env ts

/-- Registration of a ring edge (source lines 402-407 and 411): the closure number
and the registry afterwards. -/
def ringEdgeNumber (ringEdgeRepo : List Edge) (edge : Edge) : Nat × List Edge :=
  if edge ∈ ringEdgeRepo then (ringEdgeRepo.indexOf edge + 1, ringEdgeRepo)
  else (ringEdgeRepo.length + 1, ringEdgeRepo ++ [edge])

/-- The variables the `for` loop of `_writeMolVertex` updates. -/
structure WriteState where
  mainChainStr : Option (List Tok)
  branchStrs : List (List Tok)
  mainChainVertex : Option Vertex
  branchVertexes : List Vertex
  ringStrs : List Tok
  ringedVertexes : List Vertex
  ringEdgeRepo : List Edge
deriving DecidableEq, Repr

/-- The `for` loop of `_writeMolVertex` (source lines 360-415) over the edges still
to be looked at (the caller hands them over last edge first); `recurse` is the
recursive call `_writeMolVertex(nextVertex, edge, ...)` with the registry. -/
def writeEdges (env : WriterEnv)
    (recurse : Vertex → Option Edge → List Edge → Option (List Tok × List Edge))
    (vertex : Vertex) (prevEdge : Option Edge) (mainChainEdges spanningTreeEdges : List Edge) :
    List Edge → WriteState → Option WriteState
  | [], st => some st
  | edge :: rest, st =>
    if some edge = prevEdge then
      writeEdges env recurse vertex prevEdge mainChainEdges spanningTreeEdges rest st
    else if edge ∈ spanningTreeEdges then
      let nextVertex := env.graph.getNeighborOnEdge vertex edge
      match recurse nextVertex (some edge) st.ringEdgeRepo with
      | none => none
      | some (str, ringEdgeRepo) =>
        if edge ∈ mainChainEdges then
          writeEdges env recurse vertex prevEdge mainChainEdges spanningTreeEdges rest
            { st with mainChainVertex := some nextVertex, mainChainStr := some str,
                      ringEdgeRepo := ringEdgeRepo }
        else
          writeEdges env recurse vertex prevEdge mainChainEdges spanningTreeEdges rest
            { st with branchVertexes := st.branchVertexes ++ [nextVertex],
                      branchStrs := st.branchStrs ++ [str],
                      ringEdgeRepo := ringEdgeRepo }
    else
      let reg := ringEdgeNumber st.ringEdgeRepo edge
      writeEdges env recurse vertex prevEdge mainChainEdges spanningTreeEdges rest
        { st with ringedVertexes := st.ringedVertexes ++ [env.graph.getNeighborOnEdge vertex edge],
                  ringStrs := st.ringStrs ++ [Tok.ring vertex edge reg.1],
                  ringEdgeRepo := reg.2 }

/-- Truthiness of `mainChainStr`: set, and not the empty string. -/
def strTruthy (env : WriterEnv) (str : Option (List Tok)) : Bool :=
  match str with
  | some s => render env s ≠ ""
  | none => false

/-- The part of `_writeMolVertex` after the loop (source lines 417-474): the result
string formed from the loop variables. -/
def formResult (env : WriterEnv) (vertex : Vertex) (prevEdge : Option Edge)
    (st : WriteState) : List Tok :=
  let result : List Tok := prevEdge.toList.map Tok.connector
  let prevVertex := prevEdge.map (fun e => env.graph.getNeighborOnEdge vertex e)
  let nextNodes := st.ringedVertexes ++ st.branchVertexes ++ st.mainChainVertex.toList
  let result := result ++ [Tok.node vertex prevVertex nextNodes]
  let result := result ++ st.ringStrs
  let promote : Bool := ¬ strTruthy env st.mainChainStr ∧ st.branchStrs.length ≠ 0
  let mainChainStr := if promote then st.branchStrs.head? else st.mainChainStr
  let branchStrs := if promote then st.branchStrs.tail else st.branchStrs
  let result := result ++
    (branchStrs.map (fun b => [Tok.branchLeft] ++ b ++ [Tok.branchRight])).flatten
  if strTruthy env mainChainStr then result ++ mainChainStr.getD [] else result

/-- `_writeMolVertex(vertex, prevEdge, mainChainEdges, spanningTreeEdges, ringEdgeRepo,
...)` (source lines 344-475). It returns the result string, as tokens, together
with the registry `ringEdgeRepo`, which the source updates in place. -/
def writeMolVertex (env : WriterEnv) :
    Nat → Vertex → Option Edge → List Edge → List Edge → List Edge →
      Option (List Tok × List Edge)
  | 0, _, _, _, _, _ => none
  | fuel + 1, vertex, prevEdge, mainChainEdges, spanningTreeEdges, ringEdgeRepo =>
    let edges := env.graph.getEdges vertex
    let start : WriteState :=
      { mainChainStr := none, branchStrs := [], mainChainVertex := none, branchVertexes := [],
        ringStrs := [], ringedVertexes := [], ringEdgeRepo := ringEdgeRepo }
    match writeEdges env
        (fun v e repo => writeMolVertex env fuel v e mainChainEdges spanningTreeEdges repo)
        vertex prevEdge mainChainEdges spanningTreeEdges edges.reverse start with
    | none => none
    | some st => some (formResult env vertex prevEdge st, st.ringEdgeRepo)

/-- The loop of `writeStructFragment` over the spanning trees (source lines
264-283). `first` tells whether the tree is the first one (`i === 0`); the
registry `ringEdgeRepo` is shared by all trees. `none` also stands for the
failure on a tree without a main-chain vertex. -/
def writeTrees (env : WriterEnv) :
    List SpanningResult → Bool → List Tok → List Edge → Option (List Tok × List Edge)
  | [], _, result, ringEdgeRepo => some (result, ringEdgeRepo)
  | depthSpanningTree :: rest, first, result, ringEdgeRepo =>
    let mainChainPath := depthSpanningTree.longestPath
    match mainChainPath.vertexes with
    | [] => none
    | currVertex :: _ =>
      match writeMolVertex env depthSpanningTree.vertexes.length currVertex none
          mainChainPath.edges depthSpanningTree.edges ringEdgeRepo with
      | none => none
      | some (partResult, ringEdgeRepo1) =>
        writeTrees env rest false
          (if first then partResult else result ++ [Tok.fake] ++ partResult) ringEdgeRepo1


/-! ## `Kekule.IO.SmartsMolWriter`: direction symbols of stereo double bonds -/

namespace StereoParity

/-- Modelled from the spec: the constant `Kekule.StereoParity.ODD` of the Kekule
library, which is not part of the sources at hand. A parity is falsy when the bond
has none; odd and even are two different truthy values. -/
def ODD : Nat := 1

/-- Modelled from the spec: the constant `Kekule.StereoParity.EVEN` of the Kekule
library, which is not part of the sources at hand. -/
def EVEN : Nat := 2

end StereoParity

/-- `map.has(key)` of `Kekule.MapEx`. -/
def mapHas (map : MapEx) (key : Nat) : Bool := (map.lookup key).isSome

/-- `map.set(key, value)` of `Kekule.MapEx`: the new entry hides an older one. -/
def mapSet (map : MapEx) (key : Nat) (value : String) : MapEx := (key, value) :: map

/-- `_getStereoDoubleBondInitialDirectionSymbols(bond)` (source lines 714-724). -/
def getStereoDoubleBondInitialDirectionSymbols (bond : Connector) : String × String :=
  let parity := bond.parity
  if parity = 0 then ("", "")
  else if parity = StereoParity.EVEN then
    (SMARTS.DIRECTION_BOND_SYMBOLS.1, SMARTS.DIRECTION_BOND_SYMBOLS.1)
  else (SMARTS.DIRECTION_BOND_SYMBOLS.1, SMARTS.DIRECTION_BOND_SYMBOLS.2)

/-- `_getInvertBondDirectionSymbol(dirSymbol)` (source lines 726-732). -/
def getInvertBondDirectionSymbol (dirSymbol : String) : String :=
  if dirSymbol = SMARTS.DIRECTION_BOND_SYMBOLS.2 then SMARTS.DIRECTION_BOND_SYMBOLS.1
  else SMARTS.DIRECTION_BOND_SYMBOLS.2

/-- The variable `invertCount` of `_prepareStereoBondsInformation` after the first
loop over the reference connectors (source lines 310-324). -/
def invertCountOf (result : MapEx) (refConnectors : Nat × Nat) (dirSymbols : String × String) :
    Nat :=
  (if mapHas result refConnectors.1 ∧ result.lookup refConnectors.1 ≠ some dirSymbols.1
    then 1 else 0)
  + (if mapHas result refConnectors.2 ∧ result.lookup refConnectors.2 ≠ some dirSymbols.2
    then 1 else 0)

/-- The body of the loop of `_prepareStereoBondsInformation` for a connector with a
parity (source lines 307-337). `keyNeighborConnectors` is the external routine
`Kekule.MolStereoUtils.getStereoBondKeyNeighborConnectors`, which returns the two
reference connectors of the stereo double bond, as object identities. -/
def stereoBondStep (keyNeighborConnectors : Connector → Nat × Nat) (result : MapEx)
    (connector : Connector) : MapEx :=
  let refConnectors := keyNeighborConnectors connector
  let dirSymbols := getStereoDoubleBondInitialDirectionSymbols connector
  let marked0 := mapHas result refConnectors.1
  let marked1 := mapHas result refConnectors.2
  let invertCount := invertCountOf result refConnectors dirSymbols
  if invertCount < 2 then
    let result1 :=
      if marked0 then result
      else mapSet result refConnectors.1
        (if invertCount = 1 then getInvertBondDirectionSymbol dirSymbols.1 else dirSymbols.1)
    if marked1 then result1
    else mapSet result1 refConnectors.2
      (if invertCount = 1 then getInvertBondDirectionSymbol dirSymbols.2 else dirSymbols.2)
  else result

/-- The loop of `_prepareStereoBondsInformation` over the connectors of the
connection table (source lines 301-339), with `stereoBondCount` and `result`. -/
def prepareLoop (keyNeighborConnectors : Connector → Nat × Nat) :
    List Connector → Nat → MapEx → Nat × MapEx
  | [], stereoBondCount, result => (stereoBondCount, result)
  | connector :: rest, stereoBondCount, result =>
    if connector.parity ≠ 0 then
      prepareLoop keyNeighborConnectors rest (stereoBondCount + 1)
        (stereoBondStep keyNeighborConnectors result connector)
    else prepareLoop keyNeighborConnectors rest stereoBondCount result

/-- `_prepareStereoBondsInformation(ctab, options)` (source lines 289-342); `ctab` is
the list of `ctab.getConnectorAt(i)` and `none` is `null`. -/
def prepareStereoBondsInformation (keyNeighborConnectors : Connector → Nat × Nat)
    (ctab : List Connector) (options : Options) : Option MapEx :=
  let ignoreBondStereo : Bool :=
    match options.ignoreStereoBond with
    | some b => b
    | none => options.ignoreStereo
  if ignoreBondStereo then none
  else
    let loop := prepareLoop keyNeighborConnectors ctab 0 []
    if loop.1 ≠ 0 then some loop.2 else none

/-! ## `Kekule.IO.SmartsMolWriter.writeStructFragment` -/

/-- An item of `dupMol.getAromaticRings()`: the identities of its nodes and of its
connectors. -/
structure AromaticRing where
  nodes : List Nat
  connectors : List Nat
deriving DecidableEq, Repr

/-- Modelled from the spec: `Kekule.ArrayUtils.pushUnique(array, items)` of the
Kekule library, which is not part of the sources at hand: every item that is not in
the array yet is appended. -/
def pushUnique (array : List Nat) (items : List Nat) : List Nat :=
  items.foldl (fun acc x => if x ∈ acc then acc else acc ++ [x]) array

/-- The molecule as `writeStructFragment` reads it, after `standardize`: whether it
has a connection table and is empty, its aromatic rings (`none` when the molecule has
no `getAromaticRings`), the connectors of the connection table, the graph the
adapter `ctabToGraph` builds with the object behind each vertex and edge, and the
two external stereo routines. -/
structure Mol where
  hasCtab : Bool
  isEmpty : Bool
  aromaticRings : Option (List AromaticRing)
  connectors : List Connector
  graph : Graph
  node : Vertex → Node
  connector : Edge → Connector
  keyNeighborConnectors : Connector → Nat × Nat
  calcRotation : Node → Option Nat → List Nat → Bool → RotationDir

/-- The arrays `aromaticNodes` and `aromaticConnectors` of `writeStructFragment`
(source lines 237-248). -/
def aromaticArrays (mol : Mol) : List Nat × List Nat :=
  match mol.aromaticRings with
  | some aromaticRings =>
    aromaticRings.foldl
      (fun acc ring => (pushUnique acc.1 ring.nodes, pushUnique acc.2 ring.connectors)) ([], [])
  | none => ([], [])

/-- What `writeStructFragment` hands over to `_writeMolVertex` (source lines
250-276). -/
def writerEnv (mol : Mol) (options : Options) : WriterEnv :=
  { graph := mol.graph, node := mol.node, connector := mol.connector,
    aromaticNodes := (aromaticArrays mol).1,
    aromaticRingConnectors := (aromaticArrays mol).2,
    bondStereoDirMap := prepareStereoBondsInformation mol.keyNeighborConnectors
      mol.connectors options,
    options := options, calcRotation := mol.calcRotation }

/-- The tokens of the string `writeStructFragment` builds for a molecule with a
non-empty connection table (source lines 250-283), with the spanning results and the
visited flags left behind. The starting vertex is the last vertex of the graph. -/
def writeStructFragmentToks (mol : Mol) (options : Options) (flags : List Vertex) :
    Option (List SpanningResult × List Tok × List Vertex) :=
  let molGraph := mol.graph
  let graphVertexes := molGraph.vertexes
  let startingVertex := graphVertexes.getLast?
  match createGraphDepthSpanningTreesEx molGraph startingVertex flags with
  | none => none
  | some (depthSpanningTrees, flags1) =>
    match writeTrees (writerEnv mol options) depthSpanningTrees true [] [] with
    | none => none
    | some (result, _) => some (depthSpanningTrees, result, flags1)

/-- `writeStructFragment(mol, options)` (source lines 219-287). `flags` are the
vertices whose visited flag is set beforehand; the flags left behind are returned
with the result. The inner `none` is the value `undefined`, returned when there is
no spanning result. -/
def writeStructFragment (mol : Mol) (options : Options) (flags : List Vertex) :
    Option (Option String × List Vertex) :=
  if mol.hasCtab ∧ ¬ mol.isEmpty then
    match writeStructFragmentToks mol options flags with
    | none => none
    | some (depthSpanningTrees, result, flags1) =>
      some (if depthSpanningTrees.isEmpty then none
            else some (render (writerEnv mol options) result), flags1)
  else some (some "", flags)

/-! ## `Kekule.IO.SmartsMolWriter.doWriteData` -/

/-- `doWriteData(obj, dataType, format, options)` (source lines 190-208). `mol` is what
`this.getMolecule(obj)` returns, `none` when no molecule can be obtained from the
object. -/
def doWriteData (mol : Option Mol) (options : Options) (flags : List Vertex) :
    Option (Option String × List Vertex) :=
  match mol with
  | some m => writeStructFragment m options flags
  | none => some (some "", flags)
/-! ## Vocabulary of the statements -/

/-- Edge `e` joins the vertices `a` and `b`. -/
def Graph.Joins (g : Graph) (e : Edge) (a b : Vertex) : Prop :=
  g.getVertexes e = (a, b) ∨ g.getVertexes e = (b, a)

instance (g : Graph) (e : Edge) (a b : Vertex) : Decidable (g.Joins e a b) := by
  unfold Graph.Joins; infer_instance

/-- The vertex sequence `vs` and the edge sequence `es` form a walk: there is one
edge less than vertices and `es[i]` joins `vs[i]` and `vs[i+1]`. -/
def Graph.IsPath (g : Graph) : List Vertex → List Edge → Prop
  | [_], [] => True
  | a :: b :: vs, e :: es => g.Joins e a b ∧ g.IsPath (b :: vs) es
  | _, _ => False

/-- Vertex `b` is a neighbour of vertex `a`. -/
def Graph.Adj (g : Graph) (a b : Vertex) : Prop :=
  ∃ e ∈ g.getEdges a, g.getNeighborOnEdge a e = b

/-- Vertex `b` can be reached from vertex `a` along edges of the graph. -/
def Graph.Reach (g : Graph) : Vertex → Vertex → Prop :=
  Relation.ReflTransGen g.Adj

/-- Concatenation of a list of JavaScript strings. -/
def concatStrs : List String → String
  | [] => ""
  | s :: ss => s ++ concatStrs ss

/-- Number of vertices of the graph whose visited flag is not set. -/
def unvisitedCount (g : Graph) (visited : List Vertex) : Nat :=
  g.vertexes.countP (fun x => x ∉ visited)

/-- The result of `_doTravers` before anything is found. -/
def emptyResult : SpanningResult :=
  { vertexes := [], edges := [], longestPath := { vertexes := [], edges := [], length := 0 } }

/-- What one pass of the loop of `_doTravers` that follows an edge does to `result`
and `longestTargetNeighborEdge`; `k` is the edge and the result of the recursive
call (source lines 106-120). -/
def addKid (g : Graph) (vertex : Vertex) (acc : SpanningResult × Option Edge)
    (k : Edge × SpanningResult) : SpanningResult × Option Edge :=
  if k.2.longestPath.length > acc.1.longestPath.length ∨ acc.1.longestPath.length = 0 then
    ({ vertexes := (acc.1.vertexes ++ [g.getNeighborOnEdge vertex k.1]) ++ k.2.vertexes,
       edges := (acc.1.edges ++ [k.1]) ++ k.2.edges,
       longestPath := { vertexes := k.2.longestPath.vertexes, edges := k.2.longestPath.edges,
                        length := k.2.longestPath.length } }, some k.1)
  else
    ({ vertexes := (acc.1.vertexes ++ [g.getNeighborOnEdge vertex k.1]) ++ k.2.vertexes,
       edges := (acc.1.edges ++ [k.1]) ++ k.2.edges,
       longestPath := acc.1.longestPath }, acc.2)

/-- What `_doTravers` does after its loop (source lines 124-131). -/
def finishTravers (vertex : Vertex) (acc : SpanningResult × Option Edge) : SpanningResult :=
  match acc.2 with
  | some e =>
    { vertexes := acc.1.vertexes, edges := acc.1.edges,
      longestPath := { vertexes := vertex :: acc.1.longestPath.vertexes,
                       edges := e :: acc.1.longestPath.edges,
                       length := acc.1.longestPath.length + 1 } }
  | none =>
    { vertexes := acc.1.vertexes, edges := acc.1.edges,
      longestPath := { vertexes := vertex :: acc.1.longestPath.vertexes,
                       edges := acc.1.longestPath.edges,
                       length := acc.1.longestPath.length } }

/-- The vertices a list of followed edges adds to `result.vertexes`. -/
def kidVerts (g : Graph) (vertex : Vertex) (kids : List (Edge × SpanningResult)) : List Vertex :=
  kids.flatMap (fun k => g.getNeighborOnEdge vertex k.1 :: k.2.vertexes)

/-- The edges a list of followed edges adds to `result.edges`. -/
def kidEdges (kids : List (Edge × SpanningResult)) : List Edge :=
  kids.flatMap (fun k => k.1 :: k.2.edges)

/-- `STree g v r`: `r` is what `_doTravers` returns at a vertex `v` whose flag is
already set, as a tree: for each followed edge of `v` the result of the recursive
call at the neighbour, which is a tree again. -/
inductive STree (g : Graph) : Vertex → SpanningResult → Prop
  | mk (v : Vertex) (kids : List (Edge × SpanningResult)) :
      (∀ k ∈ kids, k.1 ∈ g.getEdges v) →
      (∀ k ∈ kids, STree g (g.getNeighborOnEdge v k.1) k.2) →
      STree g v (finishTravers v (kids.foldl (addKid g v) (emptyResult, none)))

/-- What a call of `_doTravers` at a vertex `v` whose flag is set guarantees. -/
def TraversPost (g : Graph) (v : Vertex) (vis : List Vertex) (r : SpanningResult)
    (vis1 : List Vertex) : Prop :=
  STree g v r ∧ (∀ x, x ∈ vis1 ↔ x ∈ vis ∨ x ∈ r.vertexes) ∧ r.vertexes.Nodup ∧
  (∀ x ∈ r.vertexes, x ∉ vis ∧ x ∈ g.vertexes) ∧
  (∀ x ∈ r.vertexes, ∀ e ∈ g.getEdges x, g.getNeighborOnEdge x e ∈ vis1) ∧
  (∀ e ∈ g.getEdges v, g.getNeighborOnEdge v e ∈ vis1)

/-- The result of `_doTravers` at an unflagged vertex `v`, given the result at `v`
with its flag set: `v` is pushed to `result.vertexes` first (source lines 90-95). -/
def withRoot (v : Vertex) (r : SpanningResult) : SpanningResult :=
  { vertexes := v :: r.vertexes, edges := r.edges, longestPath := r.longestPath }

/-- A loop state of `_doTravers` with vertices put in front of `result.vertexes`. -/
def prependVertexes (pre : List Vertex) (st : TraversState) : TraversState :=
  { result := { vertexes := pre ++ st.result.vertexes, edges := st.result.edges,
                longestPath := st.result.longestPath },
    longestTargetNeighborEdge := st.longestTargetNeighborEdge, visited := st.visited }

/-- The vertex `_doTravers` is started at in one pass of the `while` loop of
`createGraphDepthSpanningTreesEx` (source lines 143-147). -/
def currVertexOf (startingVertex : Option Vertex) (first : Vertex) (rest : List Vertex) : Vertex :=
  match startingVertex with
  | some s => if s ∈ first :: rest then s else first
  | none => first

/-- `r` is the spanning result of the connected component of `root`: the result of
`_doTravers` at the unflagged vertex `root`, with exactly the vertices that can be
reached from `root`, each once. -/
def IsComponentResult (g : Graph) (root : Vertex) (r : SpanningResult) : Prop :=
  ∃ inner, r = withRoot root inner ∧ STree g root inner ∧ root ∈ g.vertexes ∧
    r.vertexes.Nodup ∧ (∀ x ∈ r.vertexes, x ∈ g.vertexes) ∧
    (∀ x, x ∈ r.vertexes ↔ g.Reach root x)

/-! ## Examples used as witnesses -/

/-- A graph given by its vertex list, its edges with their two ends, and the
adjacency lists. -/
def listGraph (vs : List Vertex) (es : List (Edge × Vertex × Vertex))
    (adj : List (Vertex × List Edge)) : Graph :=
  { vertexes := vs, edges := es.map (fun e => e.1),
    getEdges := fun v => (adj.lookup v).getD [],
    getVertexes := fun e => (es.lookup e).getD (0, 0) }

/-- A triangle 0-1-2 (edges 10, 11, 12) with a pendant vertex 3 on vertex 1 (edge
13) and an isolated vertex 4. -/
def exampleGraph : Graph :=
  listGraph [0, 1, 2, 3, 4] [(10, 0, 1), (11, 1, 2), (12, 2, 0), (13, 1, 3)]
    [(0, [10, 12]), (1, [10, 11, 13]), (2, [11, 12]), (3, [13]), (4, [])]

/-- A rotation routine that never finds a direction. -/
def noRotation : Node → Option Nat → List Nat → Bool → RotationDir :=
  fun _ _ _ _ => RotationDir.unknown

/-- A carbon atom with two single bonds whose explicit hydrogen count is set to 0
(its implicit hydrogen count is 2). -/
def carbonWithoutHydrogens : Node :=
  { id := 0, isAtom := true, smarts := none, symbol := "C", parity := 0,
    linkedHydrogenAtomsWithSingleBond := [], hydrogenCount := 0, radical := 0, valence := 2,
    maxPossibleValence := 4, hasExplicitHydrogens := true, explicitHydrogenCount := some 0,
    implicitHydrogenCount := 2, valenceWithoutH := 2, linkedHydrogenAtomsWithSingleBondCount := 0,
    charge := 0, massNumber := none, chemEnv := none }

/-- An atom with the override pattern `C,N`, mass number 13, one explicit hydrogen
and charge +1. -/
def overrideAtom : Node :=
  { id := 0, isAtom := true, smarts := some "C,N", symbol := "C", parity := 0,
    linkedHydrogenAtomsWithSingleBond := [], hydrogenCount := 0, radical := 0, valence := 3,
    maxPossibleValence := 4, hasExplicitHydrogens := true, explicitHydrogenCount := some 1,
    implicitHydrogenCount := 0, valenceWithoutH := 2, linkedHydrogenAtomsWithSingleBondCount := 0,
    charge := 1, massNumber := some 13, chemEnv := none }

/-- A plain carbon atom with identity `i`. -/
def plainCarbon (i : Nat) : Node :=
  { id := i, isAtom := true, smarts := none, symbol := "C", parity := 0,
    linkedHydrogenAtomsWithSingleBond := [], hydrogenCount := 0, radical := 0, valence := 4,
    maxPossibleValence := 4, hasExplicitHydrogens := false, explicitHydrogenCount := none,
    implicitHydrogenCount := 2, valenceWithoutH := 4, linkedHydrogenAtomsWithSingleBondCount := 0,
    charge := 0, massNumber := none, chemEnv := none }

/-- A single covalent bond with identity `i`. -/
def singleBond (i : Nat) : Connector :=
  { id := i, smarts := none, isBond := true, bondType := BondType.covalent,
    bondOrder := BondOrder.other, parity := 0 }

/-- The example graph with a carbon atom on every vertex and a single bond on every
edge, nothing aromatic, no stereo bonds and the empty options. -/
def exampleEnv : WriterEnv :=
  { graph := exampleGraph, node := plainCarbon, connector := singleBond, aromaticNodes := [],
    aromaticRingConnectors := [], bondStereoDirMap := none, options := Options.empty,
    calcRotation := noRotation }

/-! ## Vocabulary for the written tokens -/

/-- The vertices whose atom tokens occur in a token sequence, in order. -/
def atomsOf (toks : List Tok) : List Vertex :=
  toks.filterMap (fun t =>
    match t with
    | Tok.node v _ _ => some v
    | _ => none)

/-- The ring-closure tokens of a token sequence, in order: the vertex in whose text
the token stands, the edge, and the closure number. -/
def ringsOf (toks : List Tok) : List (Vertex × Edge × Nat) :=
  toks.filterMap (fun t =>
    match t with
    | Tok.ring v e n => some (v, e, n)
    | _ => none)

/-- The edges of vertex `x` that are not on the spanning tree, each paired with `x`. -/
def ringPairsAt (g : Graph) (T : List Edge) (x : Vertex) : List (Vertex × Edge) :=
  ((g.getEdges x).filter (fun e => e ∉ T)).map (fun e => (x, e))

/-- Every ring-closure token of `toks` carries the position of its edge in the
registry, plus 1. -/
def RingsOK (toks : List Tok) (repo : List Edge) : Prop :=
  ∀ t ∈ ringsOf toks, t.2.1 ∈ repo ∧ t.2.2 = repo.indexOf t.2.1 + 1

/-- All tokens held by the loop variables of `_writeMolVertex`. -/
def payload (st : WriteState) : List Tok :=
  st.ringStrs ++ st.branchStrs.flatten ++ st.mainChainStr.getD []

/-- `Desc g M T v p vs`: the calls of `_writeMolVertex` that the call at vertex `v`
reached by edge `p` gives rise to, with tree edges `T` and main-chain edges `M`, are
finitely many; `vs` lists the vertices of these calls in the order of the calls; and
in no call two of the edges followed are main-chain edges. -/
inductive Desc (g : Graph) (M T : List Edge) : Vertex → Option Edge → List Vertex → Prop
  | mk (v : Vertex) (p : Option Edge) (sub : Edge → List Vertex) :
      (∀ e ∈ g.getEdges v, some e ≠ p → e ∈ T →
        Desc g M T (g.getNeighborOnEdge v e) (some e) (sub e)) →
      ((g.getEdges v).filter (fun e => some e ≠ p ∧ e ∈ T ∧ e ∈ M)).length ≤ 1 →
      Desc g M T v p
        (v :: ((g.getEdges v).reverse.filter (fun e => some e ≠ p ∧ e ∈ T)).flatMap sub)

/-- What a call of `_writeMolVertex` guarantees when `vs` are the vertices of the
calls it gives rise to: every one of them gets one atom token, the ring-closure
tokens are those of the non-tree edges of these vertices, each with the position of
its edge in the registry plus 1, the registry is only appended to and holds
afterwards the edges it held and these non-tree edges, and the string is not
empty. -/
def WritePost (env : WriterEnv) (T : List Edge) (vs : List Vertex) (repo : List Edge)
    (toks : List Tok) (repo1 : List Edge) : Prop :=
  (atomsOf toks).Perm vs ∧
  ((ringsOf toks).map (fun t => (t.1, t.2.1))).Perm (vs.flatMap (ringPairsAt env.graph T)) ∧
  RingsOK toks repo1 ∧
  (∃ ext, repo1 = repo ++ ext) ∧
  (∀ e, e ∈ repo1 ↔ e ∈ repo ∨ ∃ x ∈ vs, e ∈ env.graph.getEdges x ∧ e ∉ T) ∧
  (repo.Nodup → repo1.Nodup) ∧
  render env toks ≠ ""


/-! ## Vocabulary and examples for the stereo bonds -/

/-- Every value of the direction map is one of the two direction symbols. -/
def DirVals (map : MapEx) : Prop :=
  ∀ k v, map.lookup k = some v → v = "/" ∨ v = "\\"

/-- A double bond with identity `i` and the given parity. -/
def doubleBond (i : Nat) (parity : Nat) : Connector :=
  { id := i, smarts := none, isBond := true, bondType := BondType.covalent,
    bondOrder := BondOrder.double, parity := parity }

/-- The connectors of a ring of eight atoms with alternating double and single
bonds: the double bonds 1, 3, 5, 7 and the single bonds 2, 4, 6, 8, in ring order;
the double bond 1 has odd parity, the other three even parity. -/
def ringCtab : List Connector :=
  [doubleBond 1 StereoParity.ODD, singleBond 2, doubleBond 3 StereoParity.EVEN, singleBond 4,
   doubleBond 5 StereoParity.EVEN, singleBond 6, doubleBond 7 StereoParity.EVEN, singleBond 8]

/-- The reference connectors in the ring of `ringCtab`: the two single bonds next to
a double bond. -/
def ringRefs (connector : Connector) : Nat × Nat :=
  if connector.id = 1 then (8, 2) else (connector.id - 1, connector.id + 1)

/-- A rotation routine that always finds the clockwise direction. -/
def alwaysClockwise : Node → Option Nat → List Nat → Bool → RotationDir :=
  fun _ _ _ _ => RotationDir.clockwise

/-- A carbon atom with identity `i` that is a chiral centre. -/
def chiralCarbon (i : Nat) : Node :=
  { plainCarbon i with parity := 1 }

/-- Options with `ignoreStereo` set and both sub-flags explicitly `false`. -/
def ignoreStereoOnly : Options :=
  { ignoreStereo := true, ignoreStereoBond := some false, ignoreStereoAtom := some false,
    ignoreExplicitHydrogens := false, ignoreImplicitHydrogens := false }

/-! ## Vocabulary for the visited flags and the roots -/

/-- Two states of the visited flags agree on the vertices of the graph. -/
def FlagsAgree (g : Graph) (a b : List Vertex) : Prop :=
  ∀ x ∈ g.vertexes, x ∈ a ↔ x ∈ b

/-- The vertex the `while` loop of `createGraphDepthSpanningTreesEx` starts the next
traversal at, given the vertices that remain (source lines 143-147). -/
def rootAt (startingVertex : Option Vertex) (remaining : List Vertex) : Option Vertex :=
  match remaining with
  | [] => none
  | first :: rest => some (currVertexOf startingVertex first rest)

/-! ## Vocabulary for the strings of the components -/

/-- The strings of the components joined by `SMI.BOND_FAKE`, as tokens. -/
def joinParts : List (List Tok) → List Tok
  | [] => []
  | p :: ps => p ++ (ps.map (fun q => Tok.fake :: q)).flatten

/-- `part` is the string `_writeMolVertex` returns for the spanning result `r` in
the loop of `writeStructFragment`, for some state of the registry. -/
def IsPart (env : WriterEnv) (r : SpanningResult) (part : List Tok) : Prop :=
  ∃ root tl repo repo1, r.longestPath.vertexes = root :: tl ∧
    writeMolVertex env r.vertexes.length root none r.longestPath.edges r.edges repo
      = some (part, repo1)

/-- A molecule of two carbon atoms without a bond. -/
def twoCarbons : Mol :=
  { hasCtab := true, isEmpty := false, aromaticRings := some [], connectors := [],
    graph := listGraph [0, 1] [] [(0, []), (1, [])],
    node := plainCarbon, connector := singleBond, keyNeighborConnectors := fun _ => (0, 0),
    calcRotation := noRotation }

/-- The example graph as a molecule of carbon atoms with single bonds. -/
def exampleMol : Mol :=
  { hasCtab := true, isEmpty := false, aromaticRings := some [],
    connectors := [singleBond 10, singleBond 11, singleBond 12, singleBond 13],
    graph := exampleGraph, node := plainCarbon, connector := singleBond,
    keyNeighborConnectors := fun _ => (0, 0), calcRotation := noRotation }

/-! ## Vocabulary for the branches and the nesting of the output -/

/-- The edges `_writeMolVertex` follows from `vertex`, reached by `prevEdge`: the
edges of the vertex on the spanning tree other than `prevEdge`, in the order of the
loop (last edge first). -/
def childEdges (env : WriterEnv) (vertex : Vertex) (prevEdge : Option Edge)
    (spanningTreeEdges : List Edge) : List Edge :=
  (env.graph.getEdges vertex).reverse.filter (fun e => some e ≠ prevEdge ∧ e ∈ spanningTreeEdges)

/-- A branch string between `SMI.BRANCH_BRACKET_LEFT` and
`SMI.BRANCH_BRACKET_RIGHT` (source line 469). -/
def branchGroup (b : List Tok) : List Tok := [Tok.branchLeft] ++ b ++ [Tok.branchRight]

/-- The atom tokens of a token sequence, each with the number of branch brackets that
are open where it stands; `d` brackets are open at the start. -/
def atomDepths : List Tok → Nat → List (Vertex × Nat)
  | [], _ => []
  | Tok.branchLeft :: ts, d => atomDepths ts (d + 1)
  | Tok.branchRight :: ts, d => atomDepths ts (d - 1)
  | Tok.node v _ _ :: ts, d => (v, d) :: atomDepths ts d
  | Tok.connector _ :: ts, d => atomDepths ts d
  | Tok.ring _ _ _ :: ts, d => atomDepths ts d
  | Tok.fake :: ts, d => atomDepths ts d

/-- The vertices whose atom tokens stand outside all branch brackets, in order. -/
def topAtoms (toks : List Tok) : List Vertex :=
  ((atomDepths toks 0).filter (fun x => x.2 = 0)).map (fun x => x.1)

/-- The branch brackets of a token sequence are balanced when `d` brackets are open
at the start: no bracket is closed that is not open, and none is open at the end. -/
def balancedFrom : List Tok → Nat → Bool
  | [], d => d = 0
  | Tok.branchLeft :: ts, d => balancedFrom ts (d + 1)
  | Tok.branchRight :: ts, d => d ≠ 0 ∧ balancedFrom ts (d - 1)
  | Tok.node _ _ _ :: ts, d => balancedFrom ts d
  | Tok.connector _ :: ts, d => balancedFrom ts d
  | Tok.ring _ _ _ :: ts, d => balancedFrom ts d
  | Tok.fake :: ts, d => balancedFrom ts d

/-- A token sequence that is balanced by itself: put in front of any sequence, it
leaves the count of open brackets as it found it, and its atom tokens stand as deep
as in the sequence alone, plus the brackets open at its start. -/
def Seg (toks : List Tok) : Prop :=
  ∀ (d : Nat) (rest : List Tok),
    atomDepths (toks ++ rest) d
      = (atomDepths toks 0).map (fun x => (x.1, x.2 + d)) ++ atomDepths rest d ∧
    balancedFrom (toks ++ rest) d = balancedFrom rest d

/-- `PathOK g M T v p vs es`: from the call of `_writeMolVertex` at `v` reached by
`p`, the vertices `vs` along the edges `es` are each the one main-chain child of the
call before, and the last call follows no edge. -/
def PathOK (g : Graph) (M T : List Edge) : Vertex → Option Edge → List Vertex → List Edge → Prop
  | v, p, [], [] => ∀ e ∈ g.getEdges v, some e ≠ p → e ∉ T
  | v, p, w :: vs, e :: es =>
    e ∈ g.getEdges v ∧ some e ≠ p ∧ e ∈ T ∧ e ∈ M ∧ g.getNeighborOnEdge v e = w ∧
      (∀ e1 ∈ g.getEdges v, some e1 ≠ p → e1 ∈ T → e1 ∈ M → e1 = e) ∧
      PathOK g M T w (some e) vs es
  | _, _, _ :: _, [] => False
  | _, _, [], _ :: _ => False

/-! ## Examples and vocabulary for the atom tokens and the bonds written -/

/-- A nitrogen atom with charge +1 whose explicit hydrogen count is set to 1 (its
implicit hydrogen count is 3). -/
def chargedNitrogen : Node :=
  { id := 0, isAtom := true, smarts := none, symbol := "N", parity := 0,
    linkedHydrogenAtomsWithSingleBond := [], hydrogenCount := 0, radical := 0, valence := 4,
    maxPossibleValence := 4, hasExplicitHydrogens := true, explicitHydrogenCount := some 1,
    implicitHydrogenCount := 3, valenceWithoutH := 3, linkedHydrogenAtomsWithSingleBondCount := 0,
    charge := 1, massNumber := none, chemEnv := none }

/-- A carbon atom with mass number 13 whose hydrogens need no output. -/
def carbon13 : Node :=
  { plainCarbon 0 with massNumber := some 13 }

/-- The edges of the connector tokens of a token sequence, in order: the bonds
written as the incoming bond of an atom. -/
def connectorsOf (toks : List Tok) : List Edge :=
  toks.filterMap (fun t =>
    match t with
    | Tok.connector e => some e
    | _ => none)

/-- A chain 0-1-2-6 (edges 10, 11, 12) with a branch 1-3 (edge 13) that forks into
3-4 (edge 14) and 3-5 (edge 15). Vertex 0 is the last vertex of the vertex list. -/
def forkGraph : Graph :=
  listGraph [6, 5, 4, 3, 2, 1, 0]
    [(10, 0, 1), (11, 1, 2), (12, 2, 6), (13, 1, 3), (14, 3, 4), (15, 3, 5)]
    [(0, [10]), (1, [10, 11, 13]), (2, [11, 12]), (3, [13, 14, 15]), (4, [14]), (5, [15]),
     (6, [12])]

/-- The fork graph with a carbon atom on every vertex and a single bond on every
edge. -/
def forkEnv : WriterEnv :=
  { exampleEnv with graph := forkGraph }

/-- The fork graph as a molecule of carbon atoms with single bonds
(2,3-dimethylpentane). -/
def forkMol : Mol :=
  { exampleMol with
    connectors := [singleBond 10, singleBond 11, singleBond 12, singleBond 13, singleBond 14,
                   singleBond 15],
    graph := forkGraph }

/-- An iron atom with charge `10 ^ 21` whose hydrogens need no output. -/
def ironCation : Node :=
  { plainCarbon 0 with symbol := "Fe", charge := 10 ^ 21 }

/-- A nitrogen atom whose explicit hydrogen count is set to `10 ^ 21` (its implicit
hydrogen count is 3). -/
def hydrogenLoaded : Node :=
  { chargedNitrogen with charge := 0, explicitHydrogenCount := some (10 ^ 21) }

/-- A carbon atom with mass number `10 ^ 21` whose hydrogens need no output. -/
def heavyCarbon : Node :=
  { plainCarbon 0 with massNumber := some (10 ^ 21) }

/-! ## The depth-first traversal -/

theorem unvisitedCount_mono (g : Graph) (vis vis1 : List Vertex)
    (h : ∀ x, x ∈ vis → x ∈ vis1) : unvisitedCount g vis1 ≤ unvisitedCount g vis := by
  unfold unvisitedCount
  apply List.countP_mono_left
  intro x _ hx
  simp only [decide_eq_true_eq] at hx ⊢
  exact fun hc => hx (h x hc)

theorem countP_not_mem_cons_lt (l vis : List Vertex) (nb : Vertex) (hl : nb ∈ l)
    (hn : nb ∉ vis) :
    l.countP (fun x => x ∉ nb :: vis) < l.countP (fun x => x ∉ vis) := by
  induction l with
  | nil => simp at hl
  | cons a l ih =>
    by_cases ha : a = nb
    · subst ha
      have hle : l.countP (fun x => x ∉ a :: vis) ≤ l.countP (fun x => x ∉ vis) := by
        apply List.countP_mono_left
        intro x _ hx
        simp only [List.mem_cons, not_or, decide_eq_true_eq] at hx ⊢
        exact hx.2
      rw [List.countP_cons_of_neg (p := fun x => decide (x ∉ a :: vis)) l (by simp),
        List.countP_cons_of_pos (p := fun x => decide (x ∉ vis)) l (by simpa using hn)]
      omega
    · have hl1 : nb ∈ l := by
        rcases List.mem_cons.mp hl with h | h
        · exact absurd h.symm ha
        · exact h
      have := ih hl1
      by_cases hav : a ∈ vis
      · rw [List.countP_cons_of_neg (p := fun x => decide (x ∉ nb :: vis)) l (by simp [hav]),
          List.countP_cons_of_neg (p := fun x => decide (x ∉ vis)) l (by simpa using hav)]
        exact this
      · rw [List.countP_cons_of_pos (p := fun x => decide (x ∉ nb :: vis)) l (by simp [hav, ha]),
          List.countP_cons_of_pos (p := fun x => decide (x ∉ vis)) l (by simpa using hav)]
        omega

theorem unvisitedCount_cons_lt (g : Graph) (vis : List Vertex) (nb : Vertex)
    (hl : nb ∈ g.vertexes) (hn : nb ∉ vis) :
    unvisitedCount g (nb :: vis) < unvisitedCount g vis :=
  countP_not_mem_cons_lt g.vertexes vis nb hl hn

theorem foldl_addKid_vertexes (g : Graph) (v : Vertex) (kids : List (Edge × SpanningResult))
    (acc : SpanningResult × Option Edge) :
    (kids.foldl (addKid g v) acc).1.vertexes = acc.1.vertexes ++ kidVerts g v kids := by
  induction kids generalizing acc with
  | nil => simp [kidVerts]
  | cons k ks ih =>
    rw [List.foldl_cons, ih]
    unfold addKid kidVerts
    split <;> simp

theorem foldl_addKid_edges (g : Graph) (v : Vertex) (kids : List (Edge × SpanningResult))
    (acc : SpanningResult × Option Edge) :
    (kids.foldl (addKid g v) acc).1.edges = acc.1.edges ++ kidEdges kids := by
  induction kids generalizing acc with
  | nil => simp [kidEdges]
  | cons k ks ih =>
    rw [List.foldl_cons, ih]
    unfold addKid kidEdges
    split <;> simp

theorem Graph.WF.neighbor {g : Graph} (hwf : g.WF) {v : Vertex} {e : Edge}
    (hv : v ∈ g.vertexes) (he : e ∈ g.getEdges v) :
    g.getNeighborOnEdge v e ∈ g.vertexes ∧ e ∈ g.getEdges (g.getNeighborOnEdge v e) ∧
      g.getNeighborOnEdge (g.getNeighborOnEdge v e) e = v ∧ g.getNeighborOnEdge v e ≠ v ∧
      g.Joins e v (g.getNeighborOnEdge v e) ∧ e ∈ g.edges := by
  obtain ⟨_, _, hE, hV⟩ := hwf
  obtain ⟨hmem, hend⟩ := (hV v hv).2 e he
  obtain ⟨hne, h1, h2, h3, h4⟩ := hE e hmem
  unfold Graph.getNeighborOnEdge Graph.Joins
  cases hp : g.getVertexes e with
  | mk a b =>
    rw [hp] at hne h1 h2 h3 h4 hend
    simp only at hne h1 h2 h3 h4 hend ⊢
    rcases hend with h | h
    · subst h
      have hba : ¬ b = a := fun hc => hne hc.symm
      simp [hne, hba, h2, h4, hmem]
    · subst h
      simp [hne, h1, h3, hmem]

theorem Graph.WF.joins_of_mem {g : Graph} (hwf : g.WF) {v : Vertex} {e : Edge}
    (hv : v ∈ g.vertexes) (he : e ∈ g.getEdges v) {a b : Vertex} (hj : g.Joins e a b) :
    (a = v ∧ b = g.getNeighborOnEdge v e) ∨ (b = v ∧ a = g.getNeighborOnEdge v e) := by
  have h := (hwf.neighbor hv he).2.2.2.2.1
  unfold Graph.Joins at h hj
  rcases h with h | h <;> rcases hj with hj | hj <;> rw [h] at hj <;>
    simp only [Prod.mk.injEq] at hj
  · left; exact ⟨hj.1.symm, hj.2.symm⟩
  · right; exact ⟨hj.1.symm, hj.2.symm⟩
  · right; exact ⟨hj.2.symm, hj.1.symm⟩
  · left; exact ⟨hj.2.symm, hj.1.symm⟩

theorem traversEdges_spec (g : Graph) (hwf : g.WF)
    (recurse : Vertex → List Vertex → Option (SpanningResult × List Vertex)) (F : Nat)
    (hrec : ∀ nb vis, nb ∈ g.vertexes → nb ∈ vis → unvisitedCount g vis < F →
      ∃ r vis1, recurse nb vis = some (r, vis1) ∧ TraversPost g nb vis r vis1)
    (v : Vertex) (hv : v ∈ g.vertexes) :
    ∀ (es : List Edge) (st : TraversState), (∀ e ∈ es, e ∈ g.getEdges v) →
      unvisitedCount g st.visited ≤ F →
      ∃ kids vis1,
        traversEdges g recurse v es st
          = some { result := (kids.foldl (addKid g v) (st.result, st.longestTargetNeighborEdge)).1,
                   longestTargetNeighborEdge :=
                     (kids.foldl (addKid g v) (st.result, st.longestTargetNeighborEdge)).2,
                   visited := vis1 } ∧
        (∀ k ∈ kids, k.1 ∈ g.getEdges v) ∧
        (∀ k ∈ kids, STree g (g.getNeighborOnEdge v k.1) k.2) ∧
        (∀ x, x ∈ vis1 ↔ x ∈ st.visited ∨ x ∈ kidVerts g v kids) ∧
        (kidVerts g v kids).Nodup ∧
        (∀ x ∈ kidVerts g v kids, x ∉ st.visited ∧ x ∈ g.vertexes) ∧
        (∀ x ∈ kidVerts g v kids, ∀ e ∈ g.getEdges x, g.getNeighborOnEdge x e ∈ vis1) ∧
        (∀ e ∈ es, g.getNeighborOnEdge v e ∈ vis1) := by
  intro es
  induction es with
  | nil =>
    intro st _ _
    exact ⟨[], st.visited, by simp [traversEdges], by simp, by simp, by simp [kidVerts],
      by simp [kidVerts], by simp [kidVerts], by simp [kidVerts], by simp⟩
  | cons e rest ih =>
    intro st hes hF
    have he : e ∈ g.getEdges v := hes e (List.mem_cons_self _ _)
    have hrest : ∀ e1 ∈ rest, e1 ∈ g.getEdges v := fun e1 h => hes e1 (List.mem_cons_of_mem _ h)
    by_cases hvis : g.getNeighborOnEdge v e ∈ st.visited
    · obtain ⟨kids, vis1, h1, h2, h3, h4, h5, h6, h7, h8⟩ := ih st hrest hF
      refine ⟨kids, vis1, ?_, h2, h3, h4, h5, h6, h7, ?_⟩
      · simp only [traversEdges, hvis, if_true]
        exact h1
      · intro e1 he1
        rcases List.mem_cons.mp he1 with h | h
        · subst h; exact (h4 _).mpr (Or.inl hvis)
        · exact h8 e1 h
    · have hnbV : g.getNeighborOnEdge v e ∈ g.vertexes := (hwf.neighbor hv he).1
      have hlt : unvisitedCount g (g.getNeighborOnEdge v e :: st.visited) < F :=
        lt_of_lt_of_le (unvisitedCount_cons_lt g _ _ hnbV hvis) hF
      obtain ⟨r, visr, hr, hT, hmem, hnd, hnew, hcl, hclv⟩ :=
        hrec (g.getNeighborOnEdge v e) (g.getNeighborOnEdge v e :: st.visited) hnbV
          (List.mem_cons_self _ _) hlt
      have hsub : ∀ x, x ∈ st.visited → x ∈ visr := fun x hx =>
        (hmem x).mpr (Or.inl (List.mem_cons_of_mem _ hx))
      have hF1 : unvisitedCount g visr ≤ F :=
        le_trans (unvisitedCount_mono g _ _ hsub) hF
      obtain ⟨kids, vis1, h1, h2, h3, h4, h5, h6, h7, h8⟩ :=
        ih { result := (addKid g v (st.result, st.longestTargetNeighborEdge) (e, r)).1,
             longestTargetNeighborEdge :=
               (addKid g v (st.result, st.longestTargetNeighborEdge) (e, r)).2,
             visited := visr } hrest hF1
      have hkv : kidVerts g v ((e, r) :: kids)
          = (g.getNeighborOnEdge v e :: r.vertexes) ++ kidVerts g v kids := by
        simp [kidVerts]
      have hvisr1 : ∀ x, x ∈ visr → x ∈ vis1 := fun x hx => (h4 x).mpr (Or.inl hx)
      refine ⟨(e, r) :: kids, vis1, ?_, ?_, ?_, ?_, ?_, ?_, ?_, ?_⟩
      · simp only [traversEdges, hvis, if_false, hr, List.foldl_cons]
        rw [← h1]
        unfold addKid
        split <;> rfl
      · intro k hk
        rcases List.mem_cons.mp hk with h | h
        · subst h; exact he
        · exact h2 k h
      · intro k hk
        rcases List.mem_cons.mp hk with h | h
        · subst h; exact hT
        · exact h3 k h
      · intro x
        rw [hkv, h4 x, hmem x]
        simp only [List.mem_cons, List.mem_append]
        tauto
      · rw [hkv]
        refine List.Nodup.append ?_ h5 ?_
        · refine List.nodup_cons.mpr ⟨?_, hnd⟩
          intro hc
          exact (hnew _ hc).1 (List.mem_cons_self _ _)
        · intro x hx1 hx2
          have : x ∈ visr := by
            rcases List.mem_cons.mp hx1 with h | h
            · subst h; exact (hmem _).mpr (Or.inl (List.mem_cons_self _ _))
            · exact (hmem _).mpr (Or.inr h)
          exact (h6 x hx2).1 this
      · intro x hx
        rw [hkv] at hx
        rcases List.mem_append.mp hx with hx | hx
        · rcases List.mem_cons.mp hx with h | h
          · subst h; exact ⟨hvis, hnbV⟩
          · exact ⟨fun hc => (hnew x h).1 (List.mem_cons_of_mem _ hc), (hnew x h).2⟩
        · exact ⟨fun hc => (h6 x hx).1 (hsub x hc), (h6 x hx).2⟩
      · intro x hx
        rw [hkv] at hx
        rcases List.mem_append.mp hx with hx | hx
        · rcases List.mem_cons.mp hx with h | h
          · subst h; exact fun e1 he1 => hvisr1 _ (hclv e1 he1)
          · exact fun e1 he1 => hvisr1 _ (hcl x h e1 he1)
        · exact h7 x hx
      · intro e1 he1
        rcases List.mem_cons.mp he1 with h | h
        · subst h
          exact hvisr1 _ ((hmem _).mpr (Or.inl (List.mem_cons_self _ _)))
        · exact h8 e1 h

theorem finishTravers_vertexes (v : Vertex) (acc : SpanningResult × Option Edge) :
    (finishTravers v acc).vertexes = acc.1.vertexes := by
  unfold finishTravers; split <;> rfl

theorem finishTravers_edges (v : Vertex) (acc : SpanningResult × Option Edge) :
    (finishTravers v acc).edges = acc.1.edges := by
  unfold finishTravers; split <;> rfl

theorem doTravers_visited (g : Graph) (fuel : Nat) (v : Vertex) (vis : List Vertex)
    (hvis : v ∈ vis) :
    doTravers g (fuel + 1) v vis
      = (traversEdges g (doTravers g fuel) v (g.getEdges v)
          { result := emptyResult, longestTargetNeighborEdge := none, visited := vis }).map
          (fun st => (finishTravers v (st.result, st.longestTargetNeighborEdge), st.visited)) := by
  simp only [doTravers, hvis, if_true, emptyResult]
  cases traversEdges g (doTravers g fuel) v (g.getEdges v)
      { result := { vertexes := [], edges := [],
                    longestPath := { vertexes := [], edges := [], length := 0 } },
        longestTargetNeighborEdge := none, visited := vis } with
  | none => rfl
  | some st =>
    simp only [Option.map_some', finishTravers]
    cases st.longestTargetNeighborEdge <;> rfl

theorem doTravers_spec (g : Graph) (hwf : g.WF) :
    ∀ (fuel : Nat) (v : Vertex) (vis : List Vertex), v ∈ g.vertexes → v ∈ vis →
      unvisitedCount g vis < fuel →
      ∃ r vis1, doTravers g fuel v vis = some (r, vis1) ∧ TraversPost g v vis r vis1 := by
  intro fuel
  induction fuel with
  | zero => intro v vis _ _ h; omega
  | succ n ih =>
    intro v vis hv hvis hlt
    obtain ⟨kids, vis1, h1, h2, h3, h4, h5, h6, h7, h8⟩ :=
      traversEdges_spec g hwf (doTravers g n) n ih v hv (g.getEdges v)
        { result := emptyResult, longestTargetNeighborEdge := none, visited := vis }
        (fun _ h => h) (by simp only []; omega)
    have hvs : (finishTravers v (kids.foldl (addKid g v) (emptyResult, none))).vertexes
        = kidVerts g v kids := by
      rw [finishTravers_vertexes, foldl_addKid_vertexes]
      simp [emptyResult]
    refine ⟨finishTravers v (kids.foldl (addKid g v) (emptyResult, none)), vis1, ?_,
      STree.mk v kids h2 h3, ?_, ?_, ?_, ?_, h8⟩
    · rw [doTravers_visited g n v vis hvis, h1]
      rfl
    · intro x; rw [hvs]; exact h4 x
    · rw [hvs]; exact h5
    · rw [hvs]; exact h6
    · rw [hvs]; exact h7

theorem traversEdges_prepend (g : Graph)
    (recurse : Vertex → List Vertex → Option (SpanningResult × List Vertex))
    (v : Vertex) (pre : List Vertex) :
    ∀ (es : List Edge) (st : TraversState),
      traversEdges g recurse v es (prependVertexes pre st)
        = (traversEdges g recurse v es st).map (prependVertexes pre) := by
  intro es
  induction es with
  | nil => intro st; simp [traversEdges]
  | cons e rest ih =>
    intro st
    by_cases hvis : g.getNeighborOnEdge v e ∈ st.visited
    · have hvis1 : g.getNeighborOnEdge v e ∈ (prependVertexes pre st).visited := hvis
      simp only [traversEdges, hvis, hvis1, if_true]
      exact ih st
    · have hvis1 : g.getNeighborOnEdge v e ∉ (prependVertexes pre st).visited := hvis
      simp only [traversEdges, hvis, hvis1, if_false]
      have hv2 : (prependVertexes pre st).visited = st.visited := rfl
      rw [hv2]
      cases recurse (g.getNeighborOnEdge v e) (g.getNeighborOnEdge v e :: st.visited) with
      | none => rfl
      | some p =>
        obtain ⟨r, visr⟩ := p
        simp only []
        have hlp : (prependVertexes pre st).result.longestPath = st.result.longestPath := rfl
        rw [hlp]
        split
        · rw [← ih]
          simp [prependVertexes]
        · rw [← ih]
          simp [prependVertexes]

theorem doTravers_unvisited (g : Graph) (fuel : Nat) (v : Vertex) (vis : List Vertex)
    (hvis : v ∉ vis) :
    doTravers g (fuel + 1) v vis
      = (doTravers g (fuel + 1) v (v :: vis)).map (fun p => (withRoot v p.1, p.2)) := by
  rw [doTravers_visited g fuel v (v :: vis) (List.mem_cons_self _ _)]
  have h := traversEdges_prepend g (doTravers g fuel) v [v] (g.getEdges v)
    { result := emptyResult, longestTargetNeighborEdge := none, visited := v :: vis }
  simp only [doTravers, hvis, if_false]
  simp only [prependVertexes, emptyResult, List.append_nil] at h
  rw [h]
  simp only [emptyResult]
  cases traversEdges g (doTravers g fuel) v (g.getEdges v)
      { result := { vertexes := [], edges := [],
                    longestPath := { vertexes := [], edges := [], length := 0 } },
        longestTargetNeighborEdge := none, visited := v :: vis } with
  | none => rfl
  | some st =>
    obtain ⟨⟨vs, es, lp⟩, tgt, visd⟩ := st
    cases tgt <;> rfl

theorem spanningLoop_succ (g : Graph) (startingVertex : Option Vertex) (fuel : Nat)
    (first : Vertex) (rest visited : List Vertex) (result : List SpanningResult) :
    spanningLoop g startingVertex (fuel + 1) (first :: rest) visited result
      = (doTravers g (g.vertexes.length + 1) (currVertexOf startingVertex first rest) visited).bind
          (fun p => spanningLoop g startingVertex fuel
            ((first :: rest).filter (fun v => v ∉ p.1.vertexes)) p.2 (result ++ [p.1])) := by
  simp only [spanningLoop]
  have hc : (match startingVertex with
      | some s => if s ∈ first :: rest then s else first
      | none => first) = currVertexOf startingVertex first rest := rfl
  simp only [hc]
  cases doTravers g (g.vertexes.length + 1) (currVertexOf startingVertex first rest) visited with
  | none => rfl
  | some p =>
    obtain ⟨⟨vs, es, ⟨lv, le, ll⟩⟩, vis1⟩ := p
    simp only [Option.some_bind, List.nil_append, Nat.zero_add]

theorem currVertexOf_mem (startingVertex : Option Vertex) (first : Vertex) (rest : List Vertex) :
    currVertexOf startingVertex first rest ∈ first :: rest := by
  unfold currVertexOf
  split
  · split
    · assumption
    · exact List.mem_cons_self _ _
  · exact List.mem_cons_self _ _

theorem STree.reach {g : Graph} {v : Vertex} {r : SpanningResult} (h : STree g v r) :
    ∀ x ∈ r.vertexes, g.Reach v x := by
  induction h with
  | mk v kids hk _ ih =>
    intro x hx
    rw [finishTravers_vertexes, foldl_addKid_vertexes] at hx
    simp only [emptyResult, List.nil_append, kidVerts, List.mem_flatMap, List.mem_cons] at hx
    obtain ⟨k, hkm, hx⟩ := hx
    have hadj : g.Adj v (g.getNeighborOnEdge v k.1) := ⟨k.1, hk k hkm, rfl⟩
    rcases hx with hx | hx
    · subst hx
      exact Relation.ReflTransGen.single hadj
    · exact Relation.ReflTransGen.head hadj (ih k hkm x hx)

theorem doTravers_component (g : Graph) (hwf : g.WF) (curr : Vertex) (vis : List Vertex)
    (hcV : curr ∈ g.vertexes) (hcvis : curr ∉ vis)
    (hclosed : ∀ x ∈ g.vertexes, x ∈ vis → ∀ e ∈ g.getEdges x, g.getNeighborOnEdge x e ∈ vis) :
    ∃ r vis1, doTravers g (g.vertexes.length + 1) curr vis = some (r, vis1) ∧
      IsComponentResult g curr r ∧ (∀ x ∈ r.vertexes, x ∉ vis) ∧
      (∀ x, x ∈ vis1 ↔ x ∈ vis ∨ x ∈ r.vertexes) ∧
      (∀ x ∈ g.vertexes, x ∈ vis1 → ∀ e ∈ g.getEdges x, g.getNeighborOnEdge x e ∈ vis1) := by
  have hlt : unvisitedCount g (curr :: vis) < g.vertexes.length + 1 :=
    Nat.lt_succ_of_le (List.countP_le_length _)
  obtain ⟨inner, vis1, hrun, hT, hmem, hnd, hnew, hcl, hclv⟩ :=
    doTravers_spec g hwf (g.vertexes.length + 1) curr (curr :: vis) hcV
      (List.mem_cons_self _ _) hlt
  have hmem1 : ∀ x, x ∈ vis1 ↔ x ∈ vis ∨ x ∈ (withRoot curr inner).vertexes := by
    intro x
    rw [hmem x]
    simp only [withRoot, List.mem_cons]
    tauto
  have hnotvis : ∀ x ∈ (withRoot curr inner).vertexes, x ∉ vis := by
    intro x hx
    rcases List.mem_cons.mp hx with h | h
    · subst h; exact hcvis
    · exact fun hc => (hnew x h).1 (List.mem_cons_of_mem _ hc)
  have hinV : ∀ x ∈ (withRoot curr inner).vertexes, x ∈ g.vertexes := by
    intro x hx
    rcases List.mem_cons.mp hx with h | h
    · subst h; exact hcV
    · exact (hnew x h).2
  have hclN : ∀ x ∈ (withRoot curr inner).vertexes, ∀ e ∈ g.getEdges x,
      g.getNeighborOnEdge x e ∈ vis1 := by
    intro x hx
    rcases List.mem_cons.mp hx with h | h
    · subst h; exact hclv
    · exact hcl x h
  have hclosedN : ∀ x ∈ (withRoot curr inner).vertexes, ∀ e ∈ g.getEdges x,
      g.getNeighborOnEdge x e ∈ (withRoot curr inner).vertexes := by
    intro x hx e he
    rcases (hmem1 _).mp (hclN x hx e he) with h | h
    · exfalso
      obtain ⟨hnV, hne, hback, _⟩ := hwf.neighbor (hinV x hx) he
      have := hclosed _ hnV h e hne
      rw [hback] at this
      exact hnotvis x hx this
    · exact h
  refine ⟨withRoot curr inner, vis1, ?_, ⟨inner, rfl, hT, hcV, ?_, hinV, ?_⟩, hnotvis, hmem1, ?_⟩
  · rw [doTravers_unvisited g _ curr vis hcvis, hrun]
    rfl
  · exact List.nodup_cons.mpr ⟨fun hc => (hnew _ hc).1 (List.mem_cons_self _ _), hnd⟩
  · intro x
    constructor
    · intro hx
      rcases List.mem_cons.mp hx with h | h
      · subst h; exact Relation.ReflTransGen.refl
      · exact hT.reach x h
    · intro hx
      induction hx with
      | refl => exact List.mem_cons_self _ _
      | tail _ hadj ih =>
        obtain ⟨e, he, hnb⟩ := hadj
        rw [← hnb]
        exact hclosedN _ ih e he
  · intro x hxV hx e he
    rcases (hmem1 x).mp hx with h | h
    · exact (hmem1 _).mpr (Or.inl (hclosed x hxV h e he))
    · exact hclN x h e he

theorem spanningLoop_spec (g : Graph) (hwf : g.WF) (startingVertex : Option Vertex) :
    ∀ (fuel : Nat) (remaining vis : List Vertex) (acc : List SpanningResult),
      remaining.length ≤ fuel →
      (∀ x ∈ remaining, x ∈ g.vertexes ∧ x ∉ vis) →
      (∀ x ∈ g.vertexes, x ∈ vis → ∀ e ∈ g.getEdges x, g.getNeighborOnEdge x e ∈ vis) →
      (∀ x ∈ g.vertexes, x ∈ remaining ∨ x ∈ vis) →
      ∃ rs vis1, spanningLoop g startingVertex fuel remaining vis acc = some (acc ++ rs, vis1) ∧
        (∀ r ∈ rs, ∃ root, IsComponentResult g root r) ∧
        (∀ r ∈ rs, ∀ x ∈ r.vertexes, x ∈ remaining) ∧
        rs.Pairwise (fun r1 r2 => ∀ x, x ∈ r1.vertexes → x ∉ r2.vertexes) ∧
        (∀ x ∈ remaining, ∃ r ∈ rs, x ∈ r.vertexes) := by
  intro fuel
  induction fuel with
  | zero =>
    intro remaining vis acc hlen _ _ _
    have : remaining = [] := List.length_eq_zero.mp (Nat.le_zero.mp hlen)
    subst this
    exact ⟨[], vis, by simp [spanningLoop], by simp, by simp, by simp, by simp⟩
  | succ n ih =>
    intro remaining vis acc hlen hrem hclosed hcover
    cases remaining with
    | nil => exact ⟨[], vis, by simp [spanningLoop], by simp, by simp, by simp, by simp⟩
    | cons first rest =>
      have hcm := currVertexOf_mem startingVertex first rest
      obtain ⟨r, vis1, hrun, hcomp, hnotvis, hmem1, hclosed1⟩ :=
        doTravers_component g hwf (currVertexOf startingVertex first rest) vis
          (hrem _ hcm).1 (hrem _ hcm).2 hclosed
      have hcr : currVertexOf startingVertex first rest ∈ r.vertexes := by
        obtain ⟨inner, hr, _⟩ := hcomp
        rw [hr]; exact List.mem_cons_self _ _
      have hlen1 : ((first :: rest).filter (fun v => v ∉ r.vertexes)).length ≤ n := by
        have : ((first :: rest).filter (fun v => v ∉ r.vertexes)).length
            < (first :: rest).length := by
          rw [List.length_filter_lt_length_iff_exists]
          exact ⟨_, hcm, by simpa using hcr⟩
        omega
      have hrem1 : ∀ x ∈ (first :: rest).filter (fun v => v ∉ r.vertexes),
          x ∈ g.vertexes ∧ x ∉ vis1 := by
        intro x hx
        rw [List.mem_filter] at hx
        have hxr : x ∉ r.vertexes := by simpa using hx.2
        refine ⟨(hrem x hx.1).1, fun hc => ?_⟩
        rcases (hmem1 x).mp hc with h | h
        · exact (hrem x hx.1).2 h
        · exact hxr h
      have hcover1 : ∀ x ∈ g.vertexes,
          x ∈ (first :: rest).filter (fun v => v ∉ r.vertexes) ∨ x ∈ vis1 := by
        intro x hx
        by_cases hxr : x ∈ r.vertexes
        · exact Or.inr ((hmem1 x).mpr (Or.inr hxr))
        · rcases hcover x hx with h | h
          · exact Or.inl (List.mem_filter.mpr ⟨h, by simpa using hxr⟩)
          · exact Or.inr ((hmem1 x).mpr (Or.inl h))
      obtain ⟨rs, vis2, hloop, hall, hsub, hpw, hcov⟩ :=
        ih ((first :: rest).filter (fun v => v ∉ r.vertexes)) vis1 (acc ++ [r]) hlen1 hrem1
          hclosed1 hcover1
      refine ⟨r :: rs, vis2, ?_, ?_, ?_, ?_, ?_⟩
      · rw [spanningLoop_succ, hrun, Option.some_bind, hloop]
        simp
      · intro r1 hr1
        rcases List.mem_cons.mp hr1 with h | h
        · subst h; exact ⟨_, hcomp⟩
        · exact hall r1 h
      · intro r1 hr1 x hx
        rcases List.mem_cons.mp hr1 with h | h
        · subst h
          obtain ⟨inner, _, _, _, _, hinV, _⟩ := hcomp
          rcases hcover x (hinV x hx) with hc | hc
          · exact hc
          · exact absurd hc (hnotvis x hx)
        · exact (List.mem_filter.mp (hsub r1 h x hx)).1
      · refine List.pairwise_cons.mpr ⟨?_, hpw⟩
        intro r2 hr2 x hx1 hx2
        have := (List.mem_filter.mp (hsub r2 hr2 x hx2)).2
        simp only [decide_eq_true_eq] at this
        exact this hx1
      · intro x hx
        by_cases hxr : x ∈ r.vertexes
        · exact ⟨r, List.mem_cons_self _ _, hxr⟩
        · obtain ⟨r1, hr1, hx1⟩ := hcov x (List.mem_filter.mpr ⟨hx, by simpa using hxr⟩)
          exact ⟨r1, List.mem_cons_of_mem _ hr1, hx1⟩

theorem createGraphDepthSpanningTreesEx_spec (g : Graph) (hwf : g.WF)
    (startingVertex : Option Vertex) (flags : List Vertex) :
    ∃ rs flags1, createGraphDepthSpanningTreesEx g startingVertex flags = some (rs, flags1) ∧
      (∀ r ∈ rs, ∃ root, IsComponentResult g root r) ∧
      rs.Pairwise (fun r1 r2 => ∀ x, x ∈ r1.vertexes → x ∉ r2.vertexes) ∧
      (∀ x ∈ g.vertexes, ∃ r ∈ rs, x ∈ r.vertexes) := by
  obtain ⟨rs, vis1, hloop, hall, _, hpw, hcov⟩ :=
    spanningLoop_spec g hwf startingVertex g.vertexes.length g.vertexes
      (flags.filter (fun v => v ∉ g.vertexes)) [] (le_refl _)
      (fun x hx => ⟨hx, fun hc => by simpa [hx] using (List.mem_filter.mp hc).2⟩)
      (fun x hx hc => absurd hx (by simpa using (List.mem_filter.mp hc).2))
      (fun x hx => Or.inl hx)
  refine ⟨rs, vis1, ?_, hall, hpw, hcov⟩
  unfold createGraphDepthSpanningTreesEx
  rw [hloop]
  simp

/-! ## The spanning tree of a component -/

theorem STree.inv {g : Graph} {v : Vertex} {r : SpanningResult} (h : STree g v r) :
    ∃ kids : List (Edge × SpanningResult), r = finishTravers v (kids.foldl (addKid g v) (emptyResult, none)) ∧
      (∀ k ∈ kids, k.1 ∈ g.getEdges v) ∧
      (∀ k ∈ kids, STree g (g.getNeighborOnEdge v k.1) k.2) := by
  cases h with
  | mk _ kids hk hs => exact ⟨kids, rfl, hk, hs⟩

theorem finish_vertexes (g : Graph) (v : Vertex) (kids : List (Edge × SpanningResult)) :
    (finishTravers v (kids.foldl (addKid g v) (emptyResult, none))).vertexes
      = kidVerts g v kids := by
  rw [finishTravers_vertexes, foldl_addKid_vertexes]
  simp [emptyResult]

theorem finish_edges (g : Graph) (v : Vertex) (kids : List (Edge × SpanningResult)) :
    (finishTravers v (kids.foldl (addKid g v) (emptyResult, none))).edges = kidEdges kids := by
  rw [finishTravers_edges, foldl_addKid_edges]
  simp [emptyResult]

theorem mem_kidVerts {g : Graph} {v : Vertex} {kids : List (Edge × SpanningResult)} {x : Vertex} :
    x ∈ kidVerts g v kids ↔
      ∃ k ∈ kids, x = g.getNeighborOnEdge v k.1 ∨ x ∈ k.2.vertexes := by
  simp [kidVerts]

theorem mem_kidEdges {kids : List (Edge × SpanningResult)} {e : Edge} :
    e ∈ kidEdges kids ↔ ∃ k ∈ kids, e = k.1 ∨ e ∈ k.2.edges := by
  simp [kidEdges]

/-- Two followed edges whose vertex lists share a vertex are the same. -/
theorem kid_unique {g : Graph} {v : Vertex} {kids : List (Edge × SpanningResult)}
    (hnd : (kidVerts g v kids).Nodup) {k1 k2 : Edge × SpanningResult}
    (h1 : k1 ∈ kids) (h2 : k2 ∈ kids) {x : Vertex}
    (hx1 : x ∈ g.getNeighborOnEdge v k1.1 :: k1.2.vertexes)
    (hx2 : x ∈ g.getNeighborOnEdge v k2.1 :: k2.2.vertexes) : k1 = k2 := by
  unfold kidVerts at hnd
  rw [List.nodup_flatMap] at hnd
  by_contra hne
  have hpw := hnd.2
  have hsymm : Symmetric (fun (a b : Edge × SpanningResult) =>
      List.Disjoint (g.getNeighborOnEdge v a.1 :: a.2.vertexes)
        (g.getNeighborOnEdge v b.1 :: b.2.vertexes)) :=
    fun a b hab => hab.symm
  have := List.Pairwise.forall hsymm hpw h1 h2 hne
  exact this hx1 hx2

theorem kid_nodup {g : Graph} {v : Vertex} {kids : List (Edge × SpanningResult)}
    (hnd : (kidVerts g v kids).Nodup) {k : Edge × SpanningResult} (hk : k ∈ kids) :
    (g.getNeighborOnEdge v k.1 :: k.2.vertexes).Nodup := by
  unfold kidVerts at hnd
  rw [List.nodup_flatMap] at hnd
  exact hnd.1 k hk

/-- The vertices found through a followed edge are vertices of the graph, found
once each, and the vertex the edge was followed from is not among them. -/
theorem kid_good {g : Graph} {v : Vertex} {kids : List (Edge × SpanningResult)}
    (hV : ∀ x ∈ kidVerts g v kids, x ∈ g.vertexes)
    (hnd : (v :: kidVerts g v kids).Nodup) {k : Edge × SpanningResult} (hk : k ∈ kids) :
    g.getNeighborOnEdge v k.1 ∈ g.vertexes ∧ (∀ x ∈ k.2.vertexes, x ∈ g.vertexes) ∧
      (g.getNeighborOnEdge v k.1 :: k.2.vertexes).Nodup ∧
      v ∉ g.getNeighborOnEdge v k.1 :: k.2.vertexes := by
  have hsub : ∀ x ∈ g.getNeighborOnEdge v k.1 :: k.2.vertexes, x ∈ kidVerts g v kids := by
    intro x hx
    rw [mem_kidVerts]
    exact ⟨k, hk, by simpa using hx⟩
  refine ⟨hV _ (hsub _ (List.mem_cons_self _ _)),
    fun x hx => hV _ (hsub _ (List.mem_cons_of_mem _ hx)),
    kid_nodup (List.nodup_cons.mp hnd).2 hk, ?_⟩
  intro hc
  exact (List.nodup_cons.mp hnd).1 (hsub _ hc)

theorem STree.length_edges {g : Graph} {v : Vertex} {r : SpanningResult} (h : STree g v r) :
    r.edges.length = r.vertexes.length := by
  induction h with
  | mk v kids _ _ ih =>
    rw [finish_vertexes, finish_edges]
    clear * - ih
    induction kids with
    | nil => rfl
    | cons k ks ihk =>
      have h1 := ih k (List.mem_cons_self _ _)
      have h2 := ihk (fun k1 hk1 => ih k1 (List.mem_cons_of_mem _ hk1))
      simp only [kidEdges, kidVerts, List.flatMap_cons, List.length_append, List.length_cons]
        at h2 ⊢
      omega

/-- Every tree edge is an edge of the graph, has both ends among the root and the
found vertices, and one end among the found vertices. -/
theorem STree.edge_ends {g : Graph} (hwf : g.WF) {v : Vertex} {r : SpanningResult}
    (h : STree g v r) : v ∈ g.vertexes → (∀ x ∈ r.vertexes, x ∈ g.vertexes) →
    ∀ e ∈ r.edges, e ∈ g.edges ∧ (g.getVertexes e).1 ∈ v :: r.vertexes ∧
      (g.getVertexes e).2 ∈ v :: r.vertexes ∧
      ((g.getVertexes e).1 ∈ r.vertexes ∨ (g.getVertexes e).2 ∈ r.vertexes) := by
  induction h with
  | mk v kids hk _ ih =>
    intro hv hV e he
    rw [finish_vertexes] at hV ⊢
    rw [finish_edges, mem_kidEdges] at he
    obtain ⟨k, hkm, he⟩ := he
    have hnbk : g.getNeighborOnEdge v k.1 ∈ kidVerts g v kids :=
      mem_kidVerts.mpr ⟨k, hkm, Or.inl rfl⟩
    have hsubk : ∀ x ∈ k.2.vertexes, x ∈ kidVerts g v kids :=
      fun x hx => mem_kidVerts.mpr ⟨k, hkm, Or.inr hx⟩
    rcases he with he | he
    · subst he
      obtain ⟨_, _, _, _, hj, hE⟩ := hwf.neighbor hv (hk k hkm)
      refine ⟨hE, ?_⟩
      rcases hj with hj | hj <;> rw [hj] <;> simp [hnbk]
    · obtain ⟨hE, h1, h2, h3⟩ := ih k hkm (hV _ hnbk) (fun x hx => hV x (hsubk x hx)) e he
      have hsub : ∀ x ∈ g.getNeighborOnEdge v k.1 :: k.2.vertexes, x ∈ kidVerts g v kids := by
        intro x hx
        rcases List.mem_cons.mp hx with h | h
        · subst h; exact hnbk
        · exact hsubk x h
      refine ⟨hE, List.mem_cons_of_mem _ (hsub _ h1), List.mem_cons_of_mem _ (hsub _ h2), ?_⟩
      rcases h3 with h3 | h3
      · exact Or.inl (hsubk _ h3)
      · exact Or.inr (hsubk _ h3)

/-- An edge added through the followed edge `k` has both ends among the vertex the
edge was followed from and the vertices found through `k`, and one end among the
latter. -/
theorem kid_edge_info {g : Graph} (hwf : g.WF) {v : Vertex}
    {kids : List (Edge × SpanningResult)} (hv : v ∈ g.vertexes)
    (hk : ∀ k ∈ kids, k.1 ∈ g.getEdges v)
    (hs : ∀ k ∈ kids, STree g (g.getNeighborOnEdge v k.1) k.2)
    (hV : ∀ x ∈ kidVerts g v kids, x ∈ g.vertexes)
    {k : Edge × SpanningResult} (hkm : k ∈ kids) {e : Edge} (he : e ∈ k.1 :: k.2.edges) :
    ((g.getVertexes e).1 ∈ g.getNeighborOnEdge v k.1 :: k.2.vertexes ∨
        (g.getVertexes e).2 ∈ g.getNeighborOnEdge v k.1 :: k.2.vertexes) ∧
      (g.getVertexes e).1 ∈ v :: g.getNeighborOnEdge v k.1 :: k.2.vertexes ∧
      (g.getVertexes e).2 ∈ v :: g.getNeighborOnEdge v k.1 :: k.2.vertexes ∧
      (e ∈ k.2.edges → (g.getVertexes e).1 ∈ g.getNeighborOnEdge v k.1 :: k.2.vertexes ∧
        (g.getVertexes e).2 ∈ g.getNeighborOnEdge v k.1 :: k.2.vertexes) := by
  have hnbk : g.getNeighborOnEdge v k.1 ∈ kidVerts g v kids :=
    mem_kidVerts.mpr ⟨k, hkm, Or.inl rfl⟩
  have hsubk : ∀ x ∈ k.2.vertexes, x ∈ kidVerts g v kids :=
    fun x hx => mem_kidVerts.mpr ⟨k, hkm, Or.inr hx⟩
  have hin : ∀ e1 ∈ k.2.edges,
      (g.getVertexes e1).1 ∈ g.getNeighborOnEdge v k.1 :: k.2.vertexes ∧
        (g.getVertexes e1).2 ∈ g.getNeighborOnEdge v k.1 :: k.2.vertexes ∧
        ((g.getVertexes e1).1 ∈ k.2.vertexes ∨ (g.getVertexes e1).2 ∈ k.2.vertexes) :=
    fun e1 he1 => ((hs k hkm).edge_ends hwf (hV _ hnbk) (fun x hx => hV x (hsubk x hx)) e1 he1).2
  rcases List.mem_cons.mp he with he | he
  · subst he
    obtain ⟨_, _, _, _, hj, _⟩ := hwf.neighbor hv (hk k hkm)
    refine ⟨?_, ?_, ?_, ?_⟩
    · rcases hj with hj | hj <;> rw [hj] <;> simp
    · rcases hj with hj | hj <;> rw [hj] <;> simp
    · rcases hj with hj | hj <;> rw [hj] <;> simp
    · intro he1
      exact ⟨(hin _ he1).1, (hin _ he1).2.1⟩
  · obtain ⟨h1, h2, h3⟩ := hin e he
    refine ⟨?_, List.mem_cons_of_mem _ h1, List.mem_cons_of_mem _ h2, fun _ => ⟨h1, h2⟩⟩
    rcases h3 with h3 | h3
    · exact Or.inl (List.mem_cons_of_mem _ h3)
    · exact Or.inr (List.mem_cons_of_mem _ h3)

/-- An edge that two followed edges both added: the two followed edges are the same. -/
theorem kid_edge_unique {g : Graph} (hwf : g.WF) {v : Vertex}
    {kids : List (Edge × SpanningResult)} (hv : v ∈ g.vertexes)
    (hk : ∀ k ∈ kids, k.1 ∈ g.getEdges v)
    (hs : ∀ k ∈ kids, STree g (g.getNeighborOnEdge v k.1) k.2)
    (hV : ∀ x ∈ kidVerts g v kids, x ∈ g.vertexes)
    (hnd : (v :: kidVerts g v kids).Nodup)
    {k1 k2 : Edge × SpanningResult} (h1 : k1 ∈ kids) (h2 : k2 ∈ kids) {e : Edge}
    (he1 : e ∈ k1.1 :: k1.2.edges) (he2 : e ∈ k2.1 :: k2.2.edges) : k1 = k2 := by
  obtain ⟨hlow, _, _, _⟩ := kid_edge_info hwf hv hk hs hV h1 he1
  obtain ⟨_, hb1, hb2, _⟩ := kid_edge_info hwf hv hk hs hV h2 he2
  have hvn : ∀ x ∈ g.getNeighborOnEdge v k1.1 :: k1.2.vertexes, x ≠ v := by
    intro x hx hc
    subst hc
    exact (kid_good hV hnd h1).2.2.2 hx
  have hnd1 := (List.nodup_cons.mp hnd).2
  rcases hlow with hl | hl
  · rcases List.mem_cons.mp hb1 with hc | hc
    · exact absurd hc (hvn _ hl)
    · exact kid_unique hnd1 h1 h2 hl hc
  · rcases List.mem_cons.mp hb2 with hc | hc
    · exact absurd hc (hvn _ hl)
    · exact kid_unique hnd1 h1 h2 hl hc

theorem STree.edges_nodup {g : Graph} (hwf : g.WF) {v : Vertex} {r : SpanningResult}
    (h : STree g v r) : v ∈ g.vertexes → (∀ x ∈ r.vertexes, x ∈ g.vertexes) →
    (v :: r.vertexes).Nodup → r.edges.Nodup := by
  induction h with
  | mk v kids hk hs ih =>
    intro hv hV hnd
    rw [finish_vertexes] at hV hnd
    rw [finish_edges]
    unfold kidEdges
    rw [List.nodup_flatMap]
    constructor
    · intro k hkm
      obtain ⟨g1, g2, g3, g4⟩ := kid_good hV hnd hkm
      refine List.nodup_cons.mpr ⟨?_, ih k hkm g1 g2 g3⟩
      intro hc
      obtain ⟨_, _, _, hin⟩ := kid_edge_info hwf hv hk hs hV hkm (List.mem_cons_self k.1 _)
      obtain ⟨e1, e2⟩ := hin hc
      obtain ⟨_, _, _, _, hj, _⟩ := hwf.neighbor hv (hk k hkm)
      rcases hj with hj | hj
      · rw [hj] at e1; exact g4 e1
      · rw [hj] at e2; exact g4 e2
    · have hrefl : ∀ k ∈ kids, ∀ k2 ∈ kids, k ≠ k2 →
          List.Disjoint (k.1 :: k.2.edges) (k2.1 :: k2.2.edges) := by
        intro k hkm k2 hkm2 hne e he1 he2
        exact hne (kid_edge_unique hwf hv hk hs hV hnd hkm hkm2 he1 he2)
      have hndk : kids.Nodup := by
        have := (List.nodup_cons.mp hnd).2
        unfold kidVerts at this
        rw [List.nodup_flatMap] at this
        refine List.Pairwise.imp_of_mem ?_ this.2
        intro a b _ _ hab hc
        subst hc
        exact hab (List.mem_cons_self _ _) (List.mem_cons_self _ _)
      exact List.Pairwise.imp_of_mem (fun ha hb hab => hrefl _ ha _ hb hab) hndk

theorem Graph.isPath_cons_cons (g : Graph) (a b : Vertex) (vs : List Vertex) (e : Edge)
    (es : List Edge) :
    g.IsPath (a :: b :: vs) (e :: es) ↔ g.Joins e a b ∧ g.IsPath (b :: vs) es := by
  simp [Graph.IsPath]

theorem Graph.isPath_single (g : Graph) (a : Vertex) (es : List Edge) :
    g.IsPath [a] es ↔ es = [] := by
  cases es <;> simp [Graph.IsPath]

theorem Graph.IsPath.length_eq {g : Graph} :
    ∀ {vs : List Vertex} {es : List Edge}, g.IsPath vs es → vs.length = es.length + 1
  | [], es, h => by cases es <;> simp [Graph.IsPath] at h
  | [_], es, h => by
    rw [Graph.isPath_single] at h
    subst h; rfl
  | _ :: b :: vs, [], h => by simp [Graph.IsPath] at h
  | a :: b :: vs, e :: es, h => by
    rw [Graph.isPath_cons_cons] at h
    have := Graph.IsPath.length_eq h.2
    simp only [List.length_cons] at this ⊢
    omega

/-- The tree edges connect the root with every found vertex. -/
theorem STree.connected {g : Graph} (hwf : g.WF) {v : Vertex} {r : SpanningResult}
    (h : STree g v r) : v ∈ g.vertexes → (∀ x ∈ r.vertexes, x ∈ g.vertexes) →
    ∀ x ∈ r.vertexes, ∃ vs es, g.IsPath (v :: vs) es ∧ (v :: vs).getLast? = some x ∧
      (∀ e ∈ es, e ∈ r.edges) := by
  induction h with
  | mk v kids hk _ ih =>
    intro hv hV x hx
    rw [finish_vertexes] at hV hx
    rw [finish_edges]
    obtain ⟨k, hkm, hx⟩ := mem_kidVerts.mp hx
    have hnbk : g.getNeighborOnEdge v k.1 ∈ kidVerts g v kids :=
      mem_kidVerts.mpr ⟨k, hkm, Or.inl rfl⟩
    have hsubk : ∀ x ∈ k.2.vertexes, x ∈ kidVerts g v kids :=
      fun x hx => mem_kidVerts.mpr ⟨k, hkm, Or.inr hx⟩
    have hj := (hwf.neighbor hv (hk k hkm)).2.2.2.2.1
    rcases hx with hx | hx
    · subst hx
      refine ⟨[g.getNeighborOnEdge v k.1], [k.1], ?_, rfl, ?_⟩
      · rw [Graph.isPath_cons_cons, Graph.isPath_single]
        exact ⟨hj, rfl⟩
      · intro e he
        rw [List.mem_singleton] at he
        exact mem_kidEdges.mpr ⟨k, hkm, Or.inl he⟩
    · obtain ⟨vs, es, hp, hl, hes⟩ :=
        ih k hkm (hV _ hnbk) (fun x hx => hV x (hsubk x hx)) x hx
      refine ⟨g.getNeighborOnEdge v k.1 :: vs, k.1 :: es, ?_, ?_, ?_⟩
      · rw [Graph.isPath_cons_cons]
        exact ⟨hj, hp⟩
      · rw [List.getLast?_cons_cons]
        exact hl
      · intro e he
        rcases List.mem_cons.mp he with h | h
        · exact mem_kidEdges.mpr ⟨k, hkm, Or.inl h⟩
        · exact mem_kidEdges.mpr ⟨k, hkm, Or.inr (hes e h)⟩

/-- The longest path after the loop of `_doTravers`: nothing when no edge was
followed, and otherwise the path of one followed edge whose path is at least as
long as the path of every followed edge. -/
theorem foldl_addKid_longest (g : Graph) (v : Vertex) :
    ∀ (kids : List (Edge × SpanningResult)) (acc : SpanningResult × Option Edge),
      (∀ k ∈ kids, k.2.longestPath.length
          ≤ (kids.foldl (addKid g v) acc).1.longestPath.length) ∧
      acc.1.longestPath.length ≤ (kids.foldl (addKid g v) acc).1.longestPath.length ∧
      (((kids.foldl (addKid g v) acc).2 = acc.2 ∧
          (kids.foldl (addKid g v) acc).1.longestPath = acc.1.longestPath ∧
          (kids = [] ∨ acc.1.longestPath.length ≠ 0)) ∨
        ∃ k ∈ kids, (kids.foldl (addKid g v) acc).2 = some k.1 ∧
          (kids.foldl (addKid g v) acc).1.longestPath = k.2.longestPath) := by
  intro kids
  induction kids with
  | nil => intro acc; simp
  | cons k ks ih =>
    intro acc
    rw [List.foldl_cons]
    obtain ⟨h1, h2, h3⟩ := ih (addKid g v acc k)
    by_cases hc : k.2.longestPath.length > acc.1.longestPath.length
        ∨ acc.1.longestPath.length = 0
    · have hlp : (addKid g v acc k).1.longestPath = k.2.longestPath := by
        unfold addKid; rw [if_pos hc]
      have htg : (addKid g v acc k).2 = some k.1 := by
        unfold addKid; rw [if_pos hc]
      rw [hlp] at h2
      refine ⟨?_, ?_, Or.inr ?_⟩
      · intro k1 hk1
        rcases List.mem_cons.mp hk1 with h | h
        · subst h; exact h2
        · exact h1 k1 h
      · rcases hc with hc | hc <;> omega
      · rcases h3 with ⟨e1, e2, _⟩ | ⟨k1, hk1, e1, e2⟩
        · exact ⟨k, List.mem_cons_self _ _, by rw [e1, htg], by rw [e2, hlp]⟩
        · exact ⟨k1, List.mem_cons_of_mem _ hk1, e1, e2⟩
    · have hlp : (addKid g v acc k).1.longestPath = acc.1.longestPath := by
        unfold addKid; rw [if_neg hc]
      have htg : (addKid g v acc k).2 = acc.2 := by
        unfold addKid; rw [if_neg hc]
      rw [hlp] at h2
      have hc1 : k.2.longestPath.length ≤ acc.1.longestPath.length ∧
          acc.1.longestPath.length ≠ 0 := by
        constructor
        · by_contra hh; exact hc (Or.inl (by omega))
        · exact fun hh => hc (Or.inr hh)
      refine ⟨?_, h2, ?_⟩
      · intro k1 hk1
        rcases List.mem_cons.mp hk1 with h | h
        · subst h; omega
        · exact h1 k1 h
      · rcases h3 with ⟨e1, e2, _⟩ | ⟨k1, hk1, e1, e2⟩
        · exact Or.inl ⟨by rw [e1, htg], by rw [e2, hlp], Or.inr hc1.2⟩
        · exact Or.inr ⟨k1, List.mem_cons_of_mem _ hk1, e1, e2⟩

/-- The longest path of a result, in terms of the followed edges. -/
theorem finish_longest (g : Graph) (v : Vertex) (kids : List (Edge × SpanningResult)) :
    (kids = [] ∧
        (finishTravers v (kids.foldl (addKid g v) (emptyResult, none))).longestPath
          = { vertexes := [v], edges := [], length := 0 }) ∨
      ∃ k ∈ kids,
        (finishTravers v (kids.foldl (addKid g v) (emptyResult, none))).longestPath
          = { vertexes := v :: k.2.longestPath.vertexes, edges := k.1 :: k.2.longestPath.edges,
              length := k.2.longestPath.length + 1 } ∧
        ∀ k1 ∈ kids, k1.2.longestPath.length ≤ k.2.longestPath.length := by
  obtain ⟨h1, _, h3⟩ := foldl_addKid_longest g v kids (emptyResult, none)
  rcases h3 with ⟨e1, e2, h | h⟩ | ⟨k, hk, e1, e2⟩
  · left
    subst h
    exact ⟨rfl, rfl⟩
  · exact absurd rfl h
  · right
    refine ⟨k, hk, ?_, ?_⟩
    · unfold finishTravers
      rw [e1]
      simp only [e2]
    · intro k1 hk1
      have := h1 k1 hk1
      rw [e2] at this
      exact this

/-- The longest path of a result starts at the root, is a walk along tree edges
through found vertices, visits no vertex twice, and its `length` counts its edges. -/
theorem STree.longest_path {g : Graph} (hwf : g.WF) {v : Vertex} {r : SpanningResult}
    (h : STree g v r) : v ∈ g.vertexes → (∀ x ∈ r.vertexes, x ∈ g.vertexes) →
    (v :: r.vertexes).Nodup →
    (∃ tail, r.longestPath.vertexes = v :: tail ∧ (∀ x ∈ tail, x ∈ r.vertexes) ∧ tail.Nodup) ∧
      r.longestPath.length = r.longestPath.edges.length ∧
      g.IsPath r.longestPath.vertexes r.longestPath.edges ∧
      (∀ e ∈ r.longestPath.edges, e ∈ r.edges) := by
  induction h with
  | mk v kids hk hs ih =>
    intro hv hV hnd
    rw [finish_vertexes] at hV hnd ⊢
    rw [finish_edges]
    rcases finish_longest g v kids with ⟨_, hlp⟩ | ⟨k, hkm, hlp, _⟩
    · rw [hlp]
      exact ⟨⟨[], rfl, by simp, by simp⟩, rfl, by simp [Graph.IsPath], by simp⟩
    · rw [hlp]
      obtain ⟨g1, g2, g3, g4⟩ := kid_good hV hnd hkm
      obtain ⟨⟨tail, ht, hts, htn⟩, hlen, hp, hes⟩ := ih k hkm g1 g2 g3
      have hj := (hwf.neighbor hv (hk k hkm)).2.2.2.2.1
      refine ⟨⟨k.2.longestPath.vertexes, rfl, ?_, ?_⟩, ?_, ?_, ?_⟩
      · intro x hx
        rw [ht] at hx
        rcases List.mem_cons.mp hx with h | h
        · exact mem_kidVerts.mpr ⟨k, hkm, Or.inl h⟩
        · exact mem_kidVerts.mpr ⟨k, hkm, Or.inr (hts x h)⟩
      · rw [ht]
        refine List.nodup_cons.mpr ⟨?_, htn⟩
        intro hc
        exact (List.nodup_cons.mp g3).1 (hts _ hc)
      · simp only [List.length_cons, hlen]
      · simp only []
        rw [ht] at hp ⊢
        rw [Graph.isPath_cons_cons]
        exact ⟨hj, hp⟩
      · intro e he
        rcases List.mem_cons.mp he with h | h
        · exact mem_kidEdges.mpr ⟨k, hkm, Or.inl h⟩
        · exact mem_kidEdges.mpr ⟨k, hkm, Or.inr (hes e h)⟩

/-- The two ends of an edge that joins `a` and `b`. -/
theorem Graph.Joins.ends {g : Graph} {e : Edge} {a b : Vertex} (h : g.Joins e a b) :
    (a = (g.getVertexes e).1 ∧ b = (g.getVertexes e).2) ∨
      (a = (g.getVertexes e).2 ∧ b = (g.getVertexes e).1) := by
  rcases h with h | h <;> rw [h] <;> simp

/-- A walk along tree edges that starts among the vertices found through the
followed edge `k` and avoids the vertex the edge was followed from uses only
edges found through `k`. -/
theorem path_stays {g : Graph} (hwf : g.WF) {v : Vertex}
    {kids : List (Edge × SpanningResult)} (hv : v ∈ g.vertexes)
    (hk : ∀ k ∈ kids, k.1 ∈ g.getEdges v)
    (hs : ∀ k ∈ kids, STree g (g.getNeighborOnEdge v k.1) k.2)
    (hV : ∀ x ∈ kidVerts g v kids, x ∈ g.vertexes)
    (hnd : (v :: kidVerts g v kids).Nodup)
    {k : Edge × SpanningResult} (hkm : k ∈ kids) :
    ∀ (vs : List Vertex) (es : List Edge) (x : Vertex),
      x ∈ g.getNeighborOnEdge v k.1 :: k.2.vertexes → g.IsPath (x :: vs) es →
      v ∉ x :: vs → (∀ e ∈ es, e ∈ kidEdges kids) → ∀ e ∈ es, e ∈ k.2.edges := by
  intro vs
  induction vs with
  | nil =>
    intro es x _ hp _ _ e he
    rw [Graph.isPath_single] at hp
    subst hp
    simp at he
  | cons y vs ih =>
    intro es x hx hp hvn hes
    cases es with
    | nil => simp [Graph.IsPath] at hp
    | cons e es =>
      rw [Graph.isPath_cons_cons] at hp
      obtain ⟨hj, hp⟩ := hp
      have hxv : x ≠ v := fun hc => hvn (by rw [hc]; exact List.mem_cons_self _ _)
      have hyv : y ≠ v := fun hc =>
        hvn (by rw [hc]; exact List.mem_cons_of_mem _ (List.mem_cons_self _ _))
      obtain ⟨k1, hk1, he1⟩ := mem_kidEdges.mp (hes e (List.mem_cons_self _ _))
      have he1' : e ∈ k1.1 :: k1.2.edges := by simpa using he1
      obtain ⟨_, hb1, hb2, _⟩ := kid_edge_info hwf hv hk hs hV hk1 he1'
      have hxy : x ∈ v :: g.getNeighborOnEdge v k1.1 :: k1.2.vertexes ∧
          y ∈ v :: g.getNeighborOnEdge v k1.1 :: k1.2.vertexes := by
        rcases hj.ends with ⟨ha, hb⟩ | ⟨ha, hb⟩
        · rw [ha, hb]; exact ⟨hb1, hb2⟩
        · rw [ha, hb]; exact ⟨hb2, hb1⟩
      have hx1 : x ∈ g.getNeighborOnEdge v k1.1 :: k1.2.vertexes := by
        rcases List.mem_cons.mp hxy.1 with h | h
        · exact absurd h hxv
        · exact h
      have hy1 : y ∈ g.getNeighborOnEdge v k1.1 :: k1.2.vertexes := by
        rcases List.mem_cons.mp hxy.2 with h | h
        · exact absurd h hyv
        · exact h
      have hkk : k = k1 := kid_unique (List.nodup_cons.mp hnd).2 hkm hk1 hx hx1
      subst hkk
      have hek : e ∈ k.2.edges := by
        rcases he1 with h | h
        · exfalso
          subst h
          have hjv := (hwf.neighbor hv (hk k hkm)).2.2.2.2.1
          rcases hjv.ends with ⟨ha, _⟩ | ⟨ha, _⟩ <;> rcases hj.ends with ⟨hc, hd⟩ | ⟨hc, hd⟩
          · exact hxv (by rw [hc, ← ha])
          · exact hyv (by rw [hd, ← ha])
          · exact hyv (by rw [hd, ← ha])
          · exact hxv (by rw [hc, ← ha])
        · exact h
      have hrest := ih es y hy1 hp (fun hc => hvn (List.mem_cons_of_mem _ hc))
        (fun e1 h1 => hes e1 (List.mem_cons_of_mem _ h1))
      intro e1 h1
      rcases List.mem_cons.mp h1 with h | h
      · subst h; exact hek
      · exact hrest e1 h

/-- No walk along tree edges that starts at the root and visits no vertex twice has
more edges than the longest path: its length is the height of the tree. -/
theorem STree.height {g : Graph} (hwf : g.WF) {v : Vertex} {r : SpanningResult}
    (h : STree g v r) : v ∈ g.vertexes → (∀ x ∈ r.vertexes, x ∈ g.vertexes) →
    (v :: r.vertexes).Nodup →
    ∀ (vs : List Vertex) (es : List Edge), g.IsPath (v :: vs) es → (v :: vs).Nodup →
      (∀ e ∈ es, e ∈ r.edges) → es.length ≤ r.longestPath.length := by
  induction h with
  | mk v kids hk hs ih =>
    intro hv hV hnd vs es hp hpn hes
    rw [finish_vertexes] at hV hnd
    rw [finish_edges] at hes
    cases vs with
    | nil =>
      rw [Graph.isPath_single] at hp
      subst hp
      exact Nat.zero_le _
    | cons y vs =>
      cases es with
      | nil => simp [Graph.IsPath] at hp
      | cons e es =>
        rw [Graph.isPath_cons_cons] at hp
        obtain ⟨hj, hp⟩ := hp
        obtain ⟨k, hkm, he⟩ := mem_kidEdges.mp (hes e (List.mem_cons_self _ _))
        obtain ⟨g1, g2, g3, g4⟩ := kid_good hV hnd hkm
        have hjv := (hwf.neighbor hv (hk k hkm)).2.2.2.2.1
        have hek : e = k.1 := by
          rcases he with h | h
          · exact h
          · exfalso
            obtain ⟨_, _, _, hin⟩ :=
              kid_edge_info hwf hv hk hs hV hkm (List.mem_cons_of_mem k.1 h)
            obtain ⟨e1, e2⟩ := hin h
            rcases hj.ends with ⟨ha, _⟩ | ⟨ha, _⟩
            · rw [← ha] at e1; exact g4 e1
            · rw [← ha] at e2; exact g4 e2
        subst hek
        have hy : y = g.getNeighborOnEdge v k.1 := by
          have hyv : y ≠ v := by
            intro hc
            rw [hc] at hpn
            exact (List.nodup_cons.mp hpn).1 (List.mem_cons_self _ _)
          rcases hwf.joins_of_mem hv (hk k hkm) hj with ⟨_, hb⟩ | ⟨hb, _⟩
          · exact hb
          · exact absurd hb hyv
        have hvn : v ∉ y :: vs := (List.nodup_cons.mp hpn).1
        have hes1 : ∀ e1 ∈ es, e1 ∈ kidEdges kids :=
          fun e1 h1 => hes e1 (List.mem_cons_of_mem _ h1)
        have hstay := path_stays hwf hv hk hs hV hnd hkm vs es y
          (by rw [hy]; exact List.mem_cons_self _ _) hp hvn hes1
        have hle := ih k hkm g1 g2 g3 vs es (by rw [← hy]; exact hp)
          (by rw [← hy]; exact (List.nodup_cons.mp hpn).2) hstay
        rcases finish_longest g v kids with ⟨hnil, _⟩ | ⟨k1, _, hlp, hmax⟩
        · subst hnil; simp at hkm
        · rw [hlp]
          have := hmax k hkm
          simp only [List.length_cons]
          omega

/-! ## Claims about `createGraphDepthSpanningTreesEx` -/

theorem Graph.Reach.mem {g : Graph} (hwf : g.WF) {a b : Vertex} (ha : a ∈ g.vertexes)
    (h : g.Reach a b) : b ∈ g.vertexes := by
  induction h with
  | refl => exact ha
  | tail _ hadj ih =>
    obtain ⟨e, he, hnb⟩ := hadj
    rw [← hnb]
    exact (hwf.neighbor ih he).1

theorem Graph.Reach.symm {g : Graph} (hwf : g.WF) {a b : Vertex} (ha : a ∈ g.vertexes)
    (h : g.Reach a b) : g.Reach b a := by
  induction h with
  | refl => exact Relation.ReflTransGen.refl
  | tail hab hadj ih =>
    obtain ⟨e, he, hnb⟩ := hadj
    have hb := Graph.Reach.mem hwf ha hab
    obtain ⟨_, he1, hback, _⟩ := hwf.neighbor hb he
    rw [hnb] at he1 hback
    exact Relation.ReflTransGen.head ⟨e, he1, hback⟩ ih

theorem STree.longestPath_head {g : Graph} {v : Vertex} {r : SpanningResult}
    (h : STree g v r) : r.longestPath.vertexes.head? = some v := by
  cases h with
  | mk _ kids _ _ =>
    unfold finishTravers
    split <;> rfl

/-- C1. On a well-formed graph, for every starting vertex and every initial state of
the visited flags, `createGraphDepthSpanningTreesEx` returns a list of results such
that: the vertex list of each result has no duplicates and holds exactly the
vertices reachable from the result's root `longestPath.vertexes[0]`; every vertex of
the graph lies in a result and no vertex lies in two results; hence two vertices of
the graph lie in a common result exactly when they are connected, that is, there
is exactly one result per connected component. -/
theorem createGraphDepthSpanningTreesEx_components (g : Graph) (hwf : g.WF)
    (startingVertex : Option Vertex) (flags : List Vertex) :
    ∃ rs flags1, createGraphDepthSpanningTreesEx g startingVertex flags = some (rs, flags1) ∧
      (∀ r ∈ rs, r.vertexes.Nodup ∧
        ∃ root, r.longestPath.vertexes.head? = some root ∧ root ∈ g.vertexes ∧
          ∀ x, x ∈ r.vertexes ↔ g.Reach root x) ∧
      (∀ x ∈ g.vertexes, ∃ r ∈ rs, x ∈ r.vertexes) ∧
      rs.Pairwise (fun r1 r2 => ∀ x, x ∈ r1.vertexes → x ∉ r2.vertexes) ∧
      (∀ x ∈ g.vertexes, ∀ y ∈ g.vertexes,
        (∃ r ∈ rs, x ∈ r.vertexes ∧ y ∈ r.vertexes) ↔ g.Reach x y) := by
  obtain ⟨rs, flags1, hrun, hall, hpw, hcov⟩ :=
    createGraphDepthSpanningTreesEx_spec g hwf startingVertex flags
  refine ⟨rs, flags1, hrun, ?_, hcov, hpw, ?_⟩
  · intro r hr
    obtain ⟨root, inner, hri, hT, hroot, hnd, _, hreach⟩ := hall r hr
    refine ⟨hnd, root, ?_, hroot, hreach⟩
    rw [hri]
    exact hT.longestPath_head
  · intro x hx y _
    constructor
    · rintro ⟨r, hr, hxr, hyr⟩
      obtain ⟨root, inner, _, _, hroot, _, _, hreach⟩ := hall r hr
      exact Relation.ReflTransGen.trans
        (Graph.Reach.symm hwf hroot ((hreach x).mp hxr)) ((hreach y).mp hyr)
    · intro hxy
      obtain ⟨r, hr, hxr⟩ := hcov x hx
      obtain ⟨root, inner, _, _, hroot, _, _, hreach⟩ := hall r hr
      exact ⟨r, hr, hxr,
        (hreach y).mpr (Relation.ReflTransGen.trans ((hreach x).mp hxr) hxy)⟩

/-- Witness of C1: the example graph, started at its last vertex. -/
theorem createGraphDepthSpanningTreesEx_components_witness :
    exampleGraph.WF ∧
    ∃ rs flags1, createGraphDepthSpanningTreesEx exampleGraph (some 4) [0, 7]
        = some (rs, flags1) ∧
      (∀ r ∈ rs, r.vertexes.Nodup ∧
        ∃ root, r.longestPath.vertexes.head? = some root ∧ root ∈ exampleGraph.vertexes ∧
          ∀ x, x ∈ r.vertexes ↔ exampleGraph.Reach root x) ∧
      (∀ x ∈ exampleGraph.vertexes, ∃ r ∈ rs, x ∈ r.vertexes) ∧
      rs.Pairwise (fun r1 r2 => ∀ x, x ∈ r1.vertexes → x ∉ r2.vertexes) ∧
      (∀ x ∈ exampleGraph.vertexes, ∀ y ∈ exampleGraph.vertexes,
        (∃ r ∈ rs, x ∈ r.vertexes ∧ y ∈ r.vertexes) ↔ exampleGraph.Reach x y) :=
  ⟨by decide,
    createGraphDepthSpanningTreesEx_components exampleGraph (by decide) (some 4) [0, 7]⟩

theorem traversEdges_all_visited (g : Graph)
    (recurse : Vertex → List Vertex → Option (SpanningResult × List Vertex)) (v : Vertex) :
    ∀ (es : List Edge) (st : TraversState),
      (∀ e ∈ es, g.getNeighborOnEdge v e ∈ st.visited) →
      traversEdges g recurse v es st = some st := by
  intro es
  induction es with
  | nil => intro st _; rfl
  | cons e rest ih =>
    intro st h
    have h1 : g.getNeighborOnEdge v e ∈ st.visited := h e (List.mem_cons_self _ _)
    simp only [traversEdges, h1, if_true]
    exact ih st (fun e1 he1 => h e1 (List.mem_cons_of_mem _ he1))

/-- C5. On a well-formed graph every result of `createGraphDepthSpanningTreesEx` has a
`longestPath` that starts at the root of the result, whose `length` is the number of
its edges and one less than the number of its vertices, in which `edges[i]` joins
`vertexes[i]` and `vertexes[i+1]`, which visits no vertex twice, and whose vertices
and edges are vertices and edges of the result; no walk along edges of the result
that starts at the root and visits no vertex twice has more edges, so `length` is
the height of the spanning tree. Moreover `_doTravers` at a vertex all of whose
neighbours are flagged returns the path of length 0 that holds only the vertex. -/
theorem createGraphDepthSpanningTreesEx_longestPath (g : Graph) (hwf : g.WF)
    (startingVertex : Option Vertex) (flags : List Vertex) :
    (∃ rs flags1, createGraphDepthSpanningTreesEx g startingVertex flags = some (rs, flags1) ∧
      ∀ r ∈ rs, ∃ root, r.vertexes.head? = some root ∧
        r.longestPath.vertexes.head? = some root ∧
        r.longestPath.length = r.longestPath.edges.length ∧
        r.longestPath.edges.length = r.longestPath.vertexes.length - 1 ∧
        g.IsPath r.longestPath.vertexes r.longestPath.edges ∧
        r.longestPath.vertexes.Nodup ∧
        (∀ x ∈ r.longestPath.vertexes, x ∈ r.vertexes) ∧
        (∀ e ∈ r.longestPath.edges, e ∈ r.edges) ∧
        (∀ vs es, g.IsPath (root :: vs) es → (root :: vs).Nodup →
          (∀ e ∈ es, e ∈ r.edges) → es.length ≤ r.longestPath.length)) ∧
    (∀ (fuel : Nat) (v : Vertex) (vis : List Vertex),
      (∀ e ∈ g.getEdges v, g.getNeighborOnEdge v e ∈ v :: vis) →
      ∃ r vis1, doTravers g (fuel + 1) v vis = some (r, vis1) ∧
        r.longestPath = { vertexes := [v], edges := [], length := 0 }) := by
  constructor
  · obtain ⟨rs, flags1, hrun, hall, _, _⟩ :=
      createGraphDepthSpanningTreesEx_spec g hwf startingVertex flags
    refine ⟨rs, flags1, hrun, ?_⟩
    intro r hr
    obtain ⟨root, inner, hri, hT, hroot, hnd, hV, _⟩ := hall r hr
    subst hri
    have hVi : ∀ x ∈ inner.vertexes, x ∈ g.vertexes :=
      fun x hx => hV x (List.mem_cons_of_mem _ hx)
    obtain ⟨⟨tail, ht, hts, htn⟩, hlen, hp, hes⟩ := hT.longest_path hwf hroot hVi hnd
    have hh := hT.height hwf hroot hVi hnd
    refine ⟨root, rfl, hT.longestPath_head, hlen, ?_, hp, ?_, ?_, hes, hh⟩
    · have := hp.length_eq
      simp only [withRoot]
      omega
    · simp only [withRoot]
      rw [ht]
      refine List.nodup_cons.mpr ⟨?_, htn⟩
      intro hc
      exact (List.nodup_cons.mp hnd).1 (hts _ hc)
    · intro x hx
      simp only [withRoot] at hx ⊢
      rw [ht] at hx
      rcases List.mem_cons.mp hx with h | h
      · rw [h]; exact List.mem_cons_self _ _
      · exact List.mem_cons_of_mem _ (hts x h)
  · intro fuel v vis h
    by_cases hv : v ∈ vis
    · have h1 : ∀ e ∈ g.getEdges v, g.getNeighborOnEdge v e ∈ vis := by
        intro e he
        rcases List.mem_cons.mp (h e he) with hc | hc
        · rw [hc]; exact hv
        · exact hc
      rw [doTravers_visited g fuel v vis hv,
        traversEdges_all_visited g _ v _ _ (by simpa using h1)]
      exact ⟨_, _, rfl, rfl⟩
    · rw [doTravers_unvisited g fuel v vis hv,
        doTravers_visited g fuel v (v :: vis) (List.mem_cons_self _ _),
        traversEdges_all_visited g _ v _ _ (by simpa using h)]
      exact ⟨_, _, rfl, rfl⟩

/-- Witness of C5: the example graph, started at its last vertex. -/
theorem createGraphDepthSpanningTreesEx_longestPath_witness :
    exampleGraph.WF ∧
    ((∃ rs flags1, createGraphDepthSpanningTreesEx exampleGraph (some 4) []
        = some (rs, flags1) ∧
      ∀ r ∈ rs, ∃ root, r.vertexes.head? = some root ∧
        r.longestPath.vertexes.head? = some root ∧
        r.longestPath.length = r.longestPath.edges.length ∧
        r.longestPath.edges.length = r.longestPath.vertexes.length - 1 ∧
        exampleGraph.IsPath r.longestPath.vertexes r.longestPath.edges ∧
        r.longestPath.vertexes.Nodup ∧
        (∀ x ∈ r.longestPath.vertexes, x ∈ r.vertexes) ∧
        (∀ e ∈ r.longestPath.edges, e ∈ r.edges) ∧
        (∀ vs es, exampleGraph.IsPath (root :: vs) es → (root :: vs).Nodup →
          (∀ e ∈ es, e ∈ r.edges) → es.length ≤ r.longestPath.length)) ∧
    (∀ (fuel : Nat) (v : Vertex) (vis : List Vertex),
      (∀ e ∈ exampleGraph.getEdges v, exampleGraph.getNeighborOnEdge v e ∈ v :: vis) →
      ∃ r vis1, doTravers exampleGraph (fuel + 1) v vis = some (r, vis1) ∧
        r.longestPath = { vertexes := [v], edges := [], length := 0 })) :=
  ⟨by decide,
    createGraphDepthSpanningTreesEx_longestPath exampleGraph (by decide) (some 4) []⟩

/-- C6. On a well-formed graph every result of `createGraphDepthSpanningTreesEx` has
an edge list without duplicates, with exactly `vertexes.length - 1` members, each
an edge of the graph that joins two vertices of the result, and the edges of the
result connect its root with every vertex of the result: they form a spanning tree
of the component. -/
theorem createGraphDepthSpanningTreesEx_spanningTree (g : Graph) (hwf : g.WF)
    (startingVertex : Option Vertex) (flags : List Vertex) :
    ∃ rs flags1, createGraphDepthSpanningTreesEx g startingVertex flags = some (rs, flags1) ∧
      ∀ r ∈ rs, r.edges.Nodup ∧ r.edges.length = r.vertexes.length - 1 ∧
        (∀ e ∈ r.edges, e ∈ g.edges ∧ (g.getVertexes e).1 ∈ r.vertexes ∧
          (g.getVertexes e).2 ∈ r.vertexes) ∧
        ∃ root, r.vertexes.head? = some root ∧
          ∀ x ∈ r.vertexes, ∃ vs es, g.IsPath (root :: vs) es ∧
            (root :: vs).getLast? = some x ∧ ∀ e ∈ es, e ∈ r.edges := by
  obtain ⟨rs, flags1, hrun, hall, _, _⟩ :=
    createGraphDepthSpanningTreesEx_spec g hwf startingVertex flags
  refine ⟨rs, flags1, hrun, ?_⟩
  intro r hr
  obtain ⟨root, inner, hri, hT, hroot, hnd, hV, _⟩ := hall r hr
  subst hri
  have hVi : ∀ x ∈ inner.vertexes, x ∈ g.vertexes :=
    fun x hx => hV x (List.mem_cons_of_mem _ hx)
  refine ⟨hT.edges_nodup hwf hroot hVi hnd, ?_, ?_, root, rfl, ?_⟩
  · have := hT.length_edges
    simp only [withRoot, List.length_cons]
    omega
  · intro e he
    obtain ⟨h1, h2, h3, _⟩ := hT.edge_ends hwf hroot hVi e he
    exact ⟨h1, h2, h3⟩
  · intro x hx
    rcases List.mem_cons.mp hx with h | h
    · subst h
      exact ⟨[], [], by simp [Graph.IsPath], rfl, by simp⟩
    · exact hT.connected hwf hroot hVi x h

/-- Witness of C6: the example graph, started at its last vertex. -/
theorem createGraphDepthSpanningTreesEx_spanningTree_witness :
    exampleGraph.WF ∧
    ∃ rs flags1, createGraphDepthSpanningTreesEx exampleGraph (some 4) []
        = some (rs, flags1) ∧
      ∀ r ∈ rs, r.edges.Nodup ∧ r.edges.length = r.vertexes.length - 1 ∧
        (∀ e ∈ r.edges, e ∈ exampleGraph.edges ∧ (exampleGraph.getVertexes e).1 ∈ r.vertexes ∧
          (exampleGraph.getVertexes e).2 ∈ r.vertexes) ∧
        ∃ root, r.vertexes.head? = some root ∧
          ∀ x ∈ r.vertexes, ∃ vs es, exampleGraph.IsPath (root :: vs) es ∧
            (root :: vs).getLast? = some x ∧ ∀ e ∈ es, e ∈ r.edges :=
  ⟨by decide,
    createGraphDepthSpanningTreesEx_spanningTree exampleGraph (by decide) (some 4) []⟩

/-! ## Claims about the result string of `_writeMolVertex` -/

theorem render_append (env : WriterEnv) (a b : List Tok) :
    render env (a ++ b) = render env a ++ render env b := by
  induction a with
  | nil => simp [render]
  | cons t ts ih => simp [render, ih, String.append_assoc]

theorem render_eq_concatStrs (env : WriterEnv) (a : List Tok) :
    render env a = concatStrs (a.map (Tok.text env)) := by
  induction a with
  | nil => simp [render, concatStrs]
  | cons t ts ih => simp [render, concatStrs, ih]

theorem render_branches (env : WriterEnv) (bs : List (List Tok)) :
    render env (bs.map (fun b => [Tok.branchLeft] ++ b ++ [Tok.branchRight])).flatten
      = concatStrs (bs.map (fun b => "(" ++ render env b ++ ")")) := by
  induction bs with
  | nil => simp [render, concatStrs]
  | cons b bs ih =>
    simp only [List.map_cons, List.flatten_cons, render_append, ih, concatStrs]
    simp [render, Tok.text, SMARTS.BRANCH_BRACKET_LEFT, SMARTS.BRANCH_BRACKET_RIGHT,
      String.append_assoc]

theorem writeMolVertex_succ (env : WriterEnv) (fuel : Nat) (vertex : Vertex)
    (prevEdge : Option Edge) (mainChainEdges spanningTreeEdges ringEdgeRepo : List Edge) :
    writeMolVertex env (fuel + 1) vertex prevEdge mainChainEdges spanningTreeEdges ringEdgeRepo
      = (writeEdges env
          (fun v e repo => writeMolVertex env fuel v e mainChainEdges spanningTreeEdges repo)
          vertex prevEdge mainChainEdges spanningTreeEdges (env.graph.getEdges vertex).reverse
          { mainChainStr := none, branchStrs := [], mainChainVertex := none,
            branchVertexes := [], ringStrs := [], ringedVertexes := [],
            ringEdgeRepo := ringEdgeRepo }).map
          (fun st => (formResult env vertex prevEdge st, st.ringEdgeRepo)) := by
  simp only [writeMolVertex]
  cases writeEdges env
          (fun v e repo => writeMolVertex env fuel v e mainChainEdges spanningTreeEdges repo)
          vertex prevEdge mainChainEdges spanningTreeEdges (env.graph.getEdges vertex).reverse
          { mainChainStr := none, branchStrs := [], mainChainVertex := none,
            branchVertexes := [], ringStrs := [], ringedVertexes := [],
            ringEdgeRepo := ringEdgeRepo } <;> rfl

theorem render_formResult (env : WriterEnv) (vertex : Vertex) (prevEdge : Option Edge)
    (st : WriteState) :
    render env (formResult env vertex prevEdge st) =
        (prevEdge.map (edgeConnectorStr env)).getD ""
        ++ outputNodeStr env.calcRotation (env.node vertex)
            ((env.node vertex).id ∈ env.aromaticNodes)
            (prevEdge.map (fun e => (env.node (env.graph.getNeighborOnEdge vertex e)).id))
            ((st.ringedVertexes ++ st.branchVertexes ++ st.mainChainVertex.toList).map
              (fun v => (env.node v).id)) env.options
        ++ concatStrs (st.ringStrs.map (Tok.text env))
        ++ (if strTruthy env st.mainChainStr then
              concatStrs (st.branchStrs.map (fun b => "(" ++ render env b ++ ")"))
                ++ render env (st.mainChainStr.getD [])
            else
              concatStrs (st.branchStrs.tail.map (fun b => "(" ++ render env b ++ ")"))
                ++ render env (st.branchStrs.head?.getD [])) := by
  have hpre : render env
        ((prevEdge.toList.map Tok.connector) ++
          [Tok.node vertex (prevEdge.map (fun e => env.graph.getNeighborOnEdge vertex e))
            (st.ringedVertexes ++ st.branchVertexes ++ st.mainChainVertex.toList)] ++ st.ringStrs)
        = (prevEdge.map (edgeConnectorStr env)).getD ""
        ++ outputNodeStr env.calcRotation (env.node vertex)
            ((env.node vertex).id ∈ env.aromaticNodes)
            (prevEdge.map (fun e => (env.node (env.graph.getNeighborOnEdge vertex e)).id))
            ((st.ringedVertexes ++ st.branchVertexes ++ st.mainChainVertex.toList).map
              (fun v => (env.node v).id)) env.options
        ++ concatStrs (st.ringStrs.map (Tok.text env)) := by
    rw [render_append, render_append, render_eq_concatStrs env st.ringStrs]
    cases prevEdge <;> simp [render, Tok.text]
  obtain ⟨mcs, bss, mcv, bvs, rs, rvs, repo⟩ := st
  simp only [formResult] at hpre ⊢
  generalize ((prevEdge.toList.map Tok.connector) ++
          [Tok.node vertex (prevEdge.map (fun e => env.graph.getNeighborOnEdge vertex e))
            (rvs ++ bvs ++ mcv.toList)] ++ rs) = P at hpre ⊢
  by_cases hm : strTruthy env mcs = true
  · simp only [hm, not_true_eq_false, false_and, decide_False, Bool.false_eq_true, if_false,
      if_true, render_append, render_branches, hpre, String.append_assoc]
  · simp only [Bool.not_eq_true] at hm
    cases bss with
    | nil =>
      simp only [hm, List.length_nil, ne_eq, not_true_eq_false, and_false, decide_False,
        Bool.false_eq_true, if_false, List.map_nil, List.flatten_nil, List.append_nil, hpre,
        String.append_empty, List.tail_nil, List.head?_nil, Option.getD_none, concatStrs, render]
    | cons b bs =>
      simp only [hm, List.length_cons, ne_eq, Nat.add_one_ne_zero, not_false_eq_true, and_self,
        decide_True, if_true, List.head?_cons, List.tail_cons, Bool.not_eq_true, Bool.false_eq_true,
        not_false_eq_true, if_false]
      by_cases hbt : strTruthy env (some b) = true
      · simp only [hbt, if_true, Option.getD_some, render_append, render_branches, hpre,
          String.append_assoc]
      · have hbe : render env b = "" := by
          simpa [strTruthy] using hbt
        simp only [hbt, Bool.false_eq_true, if_false, render_append, render_branches, hpre,
          String.append_assoc, hbe, String.append_empty, Option.getD_some]

/-- C4. Whenever `_writeMolVertex` returns, its result string is the concatenation, in
this order and with nothing in between, of: the bond symbol of `prevEdge` (only
when `prevEdge` is given), the atom token of the vertex, the ring-closure strings of
the vertex, every remaining branch string wrapped in `(` and `)`, and the
main-chain continuation. The continuation is `mainChainStr` when that is set (and
not empty), and otherwise the first branch string, which is then not among the
wrapped ones. -/
theorem writeMolVertex_concatenation (env : WriterEnv) (fuel : Nat) (vertex : Vertex)
    (prevEdge : Option Edge) (mainChainEdges spanningTreeEdges ringEdgeRepo : List Edge)
    (toks : List Tok) (repo1 : List Edge)
    (h : writeMolVertex env (fuel + 1) vertex prevEdge mainChainEdges spanningTreeEdges
          ringEdgeRepo = some (toks, repo1)) :
    ∃ st : WriteState,
      writeEdges env
          (fun v e repo => writeMolVertex env fuel v e mainChainEdges spanningTreeEdges repo)
          vertex prevEdge mainChainEdges spanningTreeEdges (env.graph.getEdges vertex).reverse
          { mainChainStr := none, branchStrs := [], mainChainVertex := none,
            branchVertexes := [], ringStrs := [], ringedVertexes := [],
            ringEdgeRepo := ringEdgeRepo } = some st ∧
      repo1 = st.ringEdgeRepo ∧
      render env toks =
        (prevEdge.map (edgeConnectorStr env)).getD ""
        ++ outputNodeStr env.calcRotation (env.node vertex)
            ((env.node vertex).id ∈ env.aromaticNodes)
            (prevEdge.map (fun e => (env.node (env.graph.getNeighborOnEdge vertex e)).id))
            ((st.ringedVertexes ++ st.branchVertexes ++ st.mainChainVertex.toList).map
              (fun v => (env.node v).id)) env.options
        ++ concatStrs (st.ringStrs.map (Tok.text env))
        ++ (if strTruthy env st.mainChainStr then
              concatStrs (st.branchStrs.map (fun b => "(" ++ render env b ++ ")"))
                ++ render env (st.mainChainStr.getD [])
            else
              concatStrs (st.branchStrs.tail.map (fun b => "(" ++ render env b ++ ")"))
                ++ render env (st.branchStrs.head?.getD [])) := by
  rw [writeMolVertex_succ, Option.map_eq_some'] at h
  obtain ⟨st, hst, heq⟩ := h
  simp only [Prod.mk.injEq] at heq
  refine ⟨st, hst, heq.2.symm, ?_⟩
  rw [← heq.1]
  exact render_formResult env vertex prevEdge st

/-- Witness of C4: the root of the ring component of the example graph. -/
theorem writeMolVertex_concatenation_witness :
    writeMolVertex exampleEnv (3 + 1) 0 none [10, 13] [10, 11, 13] []
      = some ([Tok.node 0 none [2, 1], Tok.ring 0 12 1, Tok.connector 10,
          Tok.node 1 (some 0) [2, 3], Tok.branchLeft, Tok.connector 11, Tok.node 2 (some 1) [0],
          Tok.ring 2 12 1, Tok.branchRight, Tok.connector 13, Tok.node 3 (some 1) []], [12]) ∧
    ∃ st : WriteState,
      writeEdges exampleEnv
          (fun v e repo => writeMolVertex exampleEnv 3 v e [10, 13] [10, 11, 13] repo)
          0 none [10, 13] [10, 11, 13] (exampleEnv.graph.getEdges 0).reverse
          { mainChainStr := none, branchStrs := [], mainChainVertex := none,
            branchVertexes := [], ringStrs := [], ringedVertexes := [],
            ringEdgeRepo := [] } = some st ∧
      [12] = st.ringEdgeRepo ∧
      render exampleEnv [Tok.node 0 none [2, 1], Tok.ring 0 12 1, Tok.connector 10,
          Tok.node 1 (some 0) [2, 3], Tok.branchLeft, Tok.connector 11, Tok.node 2 (some 1) [0],
          Tok.ring 2 12 1, Tok.branchRight, Tok.connector 13, Tok.node 3 (some 1) []] =
        ((none : Option Edge).map (edgeConnectorStr exampleEnv)).getD ""
        ++ outputNodeStr exampleEnv.calcRotation (exampleEnv.node 0)
            ((exampleEnv.node 0).id ∈ exampleEnv.aromaticNodes)
            ((none : Option Edge).map
              (fun e => (exampleEnv.node (exampleEnv.graph.getNeighborOnEdge 0 e)).id))
            ((st.ringedVertexes ++ st.branchVertexes ++ st.mainChainVertex.toList).map
              (fun v => (exampleEnv.node v).id)) exampleEnv.options
        ++ concatStrs (st.ringStrs.map (Tok.text exampleEnv))
        ++ (if strTruthy exampleEnv st.mainChainStr then
              concatStrs (st.branchStrs.map (fun b => "(" ++ render exampleEnv b ++ ")"))
                ++ render exampleEnv (st.mainChainStr.getD [])
            else
              concatStrs (st.branchStrs.tail.map (fun b => "(" ++ render exampleEnv b ++ ")"))
                ++ render exampleEnv (st.branchStrs.head?.getD [])) :=
  ⟨by decide,
    writeMolVertex_concatenation exampleEnv 3 0 none [10, 13] [10, 11, 13] [] _ _ (by decide)⟩

/-! ## Claims about the ring-closure registry -/

theorem writeEdges_ring (env : WriterEnv)
    (recurse : Vertex → Option Edge → List Edge → Option (List Tok × List Edge))
    (vertex : Vertex) (prevEdge : Option Edge) (mainChainEdges spanningTreeEdges : List Edge)
    (edge : Edge) (rest : List Edge) (st : WriteState)
    (hprev : some edge ≠ prevEdge) (htree : edge ∉ spanningTreeEdges) :
    writeEdges env recurse vertex prevEdge mainChainEdges spanningTreeEdges (edge :: rest) st
      = writeEdges env recurse vertex prevEdge mainChainEdges spanningTreeEdges rest
          { st with
            ringedVertexes := st.ringedVertexes ++ [env.graph.getNeighborOnEdge vertex edge],
            ringStrs := st.ringStrs
              ++ [Tok.ring vertex edge (ringEdgeNumber st.ringEdgeRepo edge).1],
            ringEdgeRepo := (ringEdgeNumber st.ringEdgeRepo edge).2 } := by
  simp only [writeEdges, hprev, htree, if_false]

/-- C7. In the loop of `_writeMolVertex` an edge that is neither `prevEdge` nor a
spanning-tree edge gets the closure number and leaves the registry that
`ringEdgeNumber` computes, and for every registry and edge: an edge not yet
registered is appended and gets the previous registry length plus 1; an edge already
registered gets its 0-based position plus 1 and the registry is unchanged; in both
cases the number is the 0-based position of the edge in the registry afterwards plus
1, it is never 0, and registering the same edge again, whatever was appended to the
registry meanwhile, gives the same number and changes nothing. -/
theorem ringEdgeNumber_spec (env : WriterEnv)
    (recurse : Vertex → Option Edge → List Edge → Option (List Tok × List Edge))
    (vertex : Vertex) (prevEdge : Option Edge) (mainChainEdges spanningTreeEdges : List Edge)
    (ringEdgeRepo : List Edge) (edge : Edge) :
    (∀ (rest : List Edge) (st : WriteState), some edge ≠ prevEdge → edge ∉ spanningTreeEdges →
      writeEdges env recurse vertex prevEdge mainChainEdges spanningTreeEdges (edge :: rest) st
        = writeEdges env recurse vertex prevEdge mainChainEdges spanningTreeEdges rest
            { st with
              ringedVertexes := st.ringedVertexes ++ [env.graph.getNeighborOnEdge vertex edge],
              ringStrs := st.ringStrs
                ++ [Tok.ring vertex edge (ringEdgeNumber st.ringEdgeRepo edge).1],
              ringEdgeRepo := (ringEdgeNumber st.ringEdgeRepo edge).2 }) ∧
    (edge ∉ ringEdgeRepo →
        ringEdgeNumber ringEdgeRepo edge = (ringEdgeRepo.length + 1, ringEdgeRepo ++ [edge])) ∧
    (edge ∈ ringEdgeRepo →
        ringEdgeNumber ringEdgeRepo edge = (ringEdgeRepo.indexOf edge + 1, ringEdgeRepo)) ∧
    (ringEdgeNumber ringEdgeRepo edge).1 = (ringEdgeNumber ringEdgeRepo edge).2.indexOf edge + 1 ∧
    (ringEdgeNumber ringEdgeRepo edge).2[(ringEdgeNumber ringEdgeRepo edge).1 - 1]? = some edge ∧
    (ringEdgeNumber ringEdgeRepo edge).1 ≠ 0 ∧
    (∀ later : List Edge,
        ringEdgeNumber ((ringEdgeNumber ringEdgeRepo edge).2 ++ later) edge
          = ((ringEdgeNumber ringEdgeRepo edge).1,
              (ringEdgeNumber ringEdgeRepo edge).2 ++ later)) := by
  refine ⟨fun rest st h1 h2 => writeEdges_ring env recurse vertex prevEdge mainChainEdges
    spanningTreeEdges edge rest st h1 h2, ?_⟩
  by_cases h : edge ∈ ringEdgeRepo
  · refine ⟨fun h1 => absurd h h1, fun _ => by simp [ringEdgeNumber, h], ?_, ?_, ?_, ?_⟩
    · simp [ringEdgeNumber, h]
    · simp [ringEdgeNumber, h, List.getElem?_indexOf]
    · simp [ringEdgeNumber, h]
    · intro later
      simp [ringEdgeNumber, h, List.indexOf_append_of_mem]
  · refine ⟨fun _ => by simp [ringEdgeNumber, h], fun h1 => absurd h1 h, ?_, ?_, ?_, ?_⟩
    · simp [ringEdgeNumber, h, List.indexOf_append_of_not_mem]
    · simp [ringEdgeNumber, h]
    · simp [ringEdgeNumber, h]
    · intro later
      have hm : edge ∈ ringEdgeRepo ++ [edge] := by simp
      simp [ringEdgeNumber, h, List.indexOf_append_of_mem hm,
        List.indexOf_append_of_not_mem h]

/-- C8, as amended. A closure number `n` with `1 ≤ n ≤ 9` is written as the single
decimal digit `n`; a closure number with `10 ≤ n ≤ 99` is written as `%` followed by
exactly two decimal digits, the tens and the units of `n`; and every closure number
`n ≥ 10` is written as `%` followed by the decimal representation of `n`, which has
more than two digits from 100 on. The string of a ring-closure token is the bond
symbol of the edge followed by this text. -/
theorem ringNumberStr_spec :
    (∀ n, 1 ≤ n → n ≤ 9 → ringNumberStr n = String.singleton (Nat.digitChar n)) ∧
    (∀ n, 10 ≤ n → n ≤ 99 →
      ringNumberStr n = String.mk ['%', Nat.digitChar (n / 10), Nat.digitChar (n % 10)]) ∧
    (∀ n, 10 ≤ n → ringNumberStr n = "%" ++ toString n) ∧
    (∀ (env : WriterEnv) (v : Vertex) (e : Edge) (n : Nat),
      (Tok.ring v e n).text env = edgeConnectorStr env e ++ ringNumberStr n) := by
  refine ⟨?_, ?_, ?_, fun _ _ _ _ => rfl⟩
  · intro n h1 h2
    interval_cases n <;> rfl
  · intro n h1 h2
    interval_cases n <;> rfl
  · intro n h
    have : ¬ n < 10 := by omega
    simp [ringNumberStr, this, SMARTS.RING_BOND_TWO_DIGIT_NO_PREFIX]

/-- Counterexample to C8 as stated: the closure number 100 is written as `%100`,
which is not `%` followed by exactly two characters. -/
theorem ringNumberStr_hundred :
    ringNumberStr 100 = "%100" ∧
    ¬ ∃ a b : Char, ringNumberStr 100 = String.mk ['%', a, b] := by
  refine ⟨by decide, ?_⟩
  rintro ⟨a, b, h⟩
  rw [show ringNumberStr 100 = "%100" by decide] at h
  have := congrArg String.length h
  simp [String.length] at this

/-! ## Claims about `_outputNodeStr` -/

theorem simpleOrgAtom_iff (calcRotation : Node → Option Nat → List Nat → Bool → RotationDir)
    (node : Node) (isAromatic : Bool) (prevNode : Option Nat) (nextNodes : List Nat)
    (options : Options) :
    simpleOrgAtom calcRotation node isAromatic prevNode nextNodes options = true ↔
      (nodeChiralRot calcRotation node prevNode nextNodes options = "" ∧
        nodeOutputExplicitH node isAromatic "" options = false ∧
        node.charge = 0 ∧ (node.massNumber = none ∨ node.massNumber = some 0) ∧
        node.radical = 0 ∧
        ∃ symbol, nodeSymbol node = some symbol ∧
          (if isAromatic then symbol ∈ SMARTS.AROMATIC_SUBSET_ATOMS
           else symbol ∈ SMARTS.ORGAN_SUBSET_ATOMS)) := by
  unfold simpleOrgAtom
  constructor
  · intro h
    simp only at h
    split at h
    · rename_i hc
      obtain ⟨h1, h2, h3, h4, h5⟩ := hc
      rw [h4] at h1
      refine ⟨h4, by simpa using h1, h2, h3, h5, ?_⟩
      split at h
      · rename_i symbol hs
        refine ⟨symbol, hs, ?_⟩
        cases isAromatic <;> simpa using h
      · simp at h
    · simp at h
  · rintro ⟨h1, h2, h3, h4, h5, symbol, hs, hmem⟩
    simp only [h1, h2, h3, h4, h5, hs]
    cases isAromatic <;> simpa using hmem

theorem nodeSymbol_some (node : Node) (symbol : String) (h : nodeSymbol node = some symbol) :
    node.isAtom = true ∧ truthy node.smarts = false ∧ symbol = node.symbol := by
  unfold nodeSymbol at h
  split at h
  · split at h
    · simp at h
    · rename_i h1 h2
      simp at h
      exact ⟨h1, by simpa using h2, h.symm⟩
  · simp at h

theorem outputNodeStr_of_simple
    (calcRotation : Node → Option Nat → List Nat → Bool → RotationDir)
    (node : Node) (isAromatic : Bool) (prevNode : Option Nat) (nextNodes : List Nat)
    (options : Options)
    (hs : simpleOrgAtom calcRotation node isAromatic prevNode nextNodes options = true) :
    outputNodeStr calcRotation node isAromatic prevNode nextNodes options
      = (if isAromatic then toLowerCase node.symbol else node.symbol)
          ++ nodeChemEnvStr node.chemEnv := by
  obtain ⟨h1, h2, h3, h4, h5, symbol, hsym, _⟩ :=
    (simpleOrgAtom_iff calcRotation node isAromatic prevNode nextNodes options).mp hs
  obtain ⟨ha, hb, _⟩ := nodeSymbol_some node symbol hsym
  have hmass : nodeMassStr node.massNumber = "" := by
    rcases h4 with h4 | h4 <;> simp [nodeMassStr, h4]
  have hbody : nodeBody calcRotation node isAromatic prevNode nextNodes options
      = (if isAromatic then toLowerCase node.symbol else node.symbol) := by
    simp [nodeBody, h1, h2, h3, hmass, nodeHydrogenStr, nodeChargeStr, nodeSymbolStr, ha, hb]
  simp only [outputNodeStr, hs, if_true, hbody]

/-- C9, as amended. `_outputNodeStr` returns the token unbracketed, and the token is
then exactly the element symbol (lower-cased when the atom is aromatic) followed by
the environment annotation if there is one, when the token gets no chirality marker,
the hydrogen count is not to be written (`outputExplicitH` is false), the charge is
0, no mass number is set, the atom has no radical, and the variable `symbol` is set
(an atom without override pattern) and lies in `ORGAN_SUBSET_ATOMS` for a
non-aromatic atom or in `AROMATIC_SUBSET_ATOMS` for an aromatic one. In every other
case the token is wrapped in `[` and `]`. -/
theorem outputNodeStr_bracket_decision
    (calcRotation : Node → Option Nat → List Nat → Bool → RotationDir)
    (node : Node) (isAromatic : Bool) (prevNode : Option Nat) (nextNodes : List Nat)
    (options : Options) :
    ((nodeChiralRot calcRotation node prevNode nextNodes options = "" ∧
        nodeOutputExplicitH node isAromatic "" options = false ∧
        node.charge = 0 ∧ (node.massNumber = none ∨ node.massNumber = some 0) ∧
        node.radical = 0 ∧
        ∃ symbol, nodeSymbol node = some symbol ∧
          (if isAromatic then symbol ∈ SMARTS.AROMATIC_SUBSET_ATOMS
           else symbol ∈ SMARTS.ORGAN_SUBSET_ATOMS)) →
      outputNodeStr calcRotation node isAromatic prevNode nextNodes options
        = (if isAromatic then toLowerCase node.symbol else node.symbol)
            ++ nodeChemEnvStr node.chemEnv) ∧
    (¬ (nodeChiralRot calcRotation node prevNode nextNodes options = "" ∧
        nodeOutputExplicitH node isAromatic "" options = false ∧
        node.charge = 0 ∧ (node.massNumber = none ∨ node.massNumber = some 0) ∧
        node.radical = 0 ∧
        ∃ symbol, nodeSymbol node = some symbol ∧
          (if isAromatic then symbol ∈ SMARTS.AROMATIC_SUBSET_ATOMS
           else symbol ∈ SMARTS.ORGAN_SUBSET_ATOMS)) →
      outputNodeStr calcRotation node isAromatic prevNode nextNodes options
        = "[" ++ nodeBody calcRotation node isAromatic prevNode nextNodes options ++ "]"
            ++ nodeChemEnvStr node.chemEnv) := by
  constructor
  · intro h
    exact outputNodeStr_of_simple calcRotation node isAromatic prevNode nextNodes options
      ((simpleOrgAtom_iff calcRotation node isAromatic prevNode nextNodes options).mpr h)
  · intro h
    have hs : simpleOrgAtom calcRotation node isAromatic prevNode nextNodes options = false := by
      cases hq : simpleOrgAtom calcRotation node isAromatic prevNode nextNodes options
      · rfl
      · exact absurd
          ((simpleOrgAtom_iff calcRotation node isAromatic prevNode nextNodes options).mp hq) h
    simp [outputNodeStr, hs, SMARTS.ATOM_BRACKET_LEFT, SMARTS.ATOM_BRACKET_RIGHT]

/-- Counterexample to C9 as stated: a non-aromatic carbon atom whose explicit
hydrogen count is set to 0 gets no chirality marker, no hydrogen-count text, no
charge and no isotope, has no radical, and its symbol is in `ORGAN_SUBSET_ATOMS`;
yet its token is bracketed. -/
theorem outputNodeStr_carbonWithoutHydrogens :
    nodeChiralRot noRotation carbonWithoutHydrogens none [] Options.empty = "" ∧
    nodeHydrogenStr (nodeOutputExplicitH carbonWithoutHydrogens false "" Options.empty)
      (getNodeHydrogenCount carbonWithoutHydrogens Options.empty) = "" ∧
    nodeChargeStr carbonWithoutHydrogens.charge = "" ∧
    nodeMassStr carbonWithoutHydrogens.massNumber = "" ∧
    carbonWithoutHydrogens.radical = 0 ∧
    nodeSymbol carbonWithoutHydrogens = some "C" ∧ "C" ∈ SMARTS.ORGAN_SUBSET_ATOMS ∧
    outputNodeStr noRotation carbonWithoutHydrogens false none [] Options.empty = "[C]" := by
  decide

/-- C10, as amended. For an atom that carries an override pattern, `_outputNodeStr`
bypasses the symbol step only: the pattern stands in the place of the element
symbol (it is not lower-cased), the chirality marker, the hydrogen count and the
charge are appended and the mass number is put in front as for every atom, and the
token is always wrapped in `[` and `]`. -/
theorem outputNodeStr_override
    (calcRotation : Node → Option Nat → List Nat → Bool → RotationDir)
    (node : Node) (isAromatic : Bool) (prevNode : Option Nat) (nextNodes : List Nat)
    (options : Options) (pattern : String)
    (hatom : node.isAtom = true) (hsmarts : node.smarts = some pattern) (hne : pattern ≠ "") :
    outputNodeStr calcRotation node isAromatic prevNode nextNodes options
      = "[" ++ (nodeMassStr node.massNumber
          ++ (pattern ++ nodeChiralRot calcRotation node prevNode nextNodes options
            ++ nodeHydrogenStr
                (nodeOutputExplicitH node isAromatic
                  (nodeChiralRot calcRotation node prevNode nextNodes options) options)
                (getNodeHydrogenCount node options)
            ++ nodeChargeStr node.charge)) ++ "]"
        ++ nodeChemEnvStr node.chemEnv := by
  have ht : truthy node.smarts = true := by simp [truthy, hsmarts, hne]
  have ht1 : truthy (some pattern) = true := by rw [← hsmarts]; exact ht
  have hsym : nodeSymbol node = none := by simp [nodeSymbol, hatom, ht]
  have hs : simpleOrgAtom calcRotation node isAromatic prevNode nextNodes options = false := by
    unfold simpleOrgAtom
    simp [hsym]
  simp [outputNodeStr, hs, nodeBody, nodeSymbolStr, hatom, ht1, hsmarts,
    SMARTS.ATOM_BRACKET_LEFT, SMARTS.ATOM_BRACKET_RIGHT]

/-- Witness of C10, as amended: the atom with the override pattern `C,N`. -/
theorem outputNodeStr_override_witness :
    overrideAtom.isAtom = true ∧ overrideAtom.smarts = some "C,N" ∧ "C,N" ≠ "" ∧
    outputNodeStr noRotation overrideAtom false none [] Options.empty
      = "[" ++ (nodeMassStr overrideAtom.massNumber
          ++ ("C,N" ++ nodeChiralRot noRotation overrideAtom none [] Options.empty
            ++ nodeHydrogenStr
                (nodeOutputExplicitH overrideAtom false
                  (nodeChiralRot noRotation overrideAtom none [] Options.empty) Options.empty)
                (getNodeHydrogenCount overrideAtom Options.empty)
            ++ nodeChargeStr overrideAtom.charge)) ++ "]"
        ++ nodeChemEnvStr overrideAtom.chemEnv :=
  ⟨rfl, rfl, by decide,
    outputNodeStr_override noRotation overrideAtom false none [] Options.empty "C,N" rfl rfl
      (by decide)⟩

/-- Counterexample to C10 as stated: for the atom with the override pattern `C,N`,
mass number 13, one hydrogen and charge +1 the token is not the pattern verbatim:
the mass number, the hydrogen count, the charge and the brackets are added. -/
theorem outputNodeStr_overrideAtom :
    overrideAtom.isAtom = true ∧ overrideAtom.smarts = some "C,N" ∧
    outputNodeStr noRotation overrideAtom false none [] Options.empty = "[13C,NH+]" ∧
    outputNodeStr noRotation overrideAtom false none [] Options.empty ≠ "C,N" := by
  decide

/-! ## The traversal of `_writeMolVertex` -/

theorem atomsOf_append (a b : List Tok) : atomsOf (a ++ b) = atomsOf a ++ atomsOf b := by
  simp [atomsOf, List.filterMap_append]

theorem ringsOf_append (a b : List Tok) : ringsOf (a ++ b) = ringsOf a ++ ringsOf b := by
  simp [ringsOf, List.filterMap_append]

theorem atomsOf_branches (bs : List (List Tok)) :
    atomsOf (bs.map (fun b => [Tok.branchLeft] ++ b ++ [Tok.branchRight])).flatten
      = atomsOf bs.flatten := by
  induction bs with
  | nil => rfl
  | cons b bs ih =>
    simp only [List.map_cons, List.flatten_cons, atomsOf_append, ih]
    simp [atomsOf]

theorem ringsOf_branches (bs : List (List Tok)) :
    ringsOf (bs.map (fun b => [Tok.branchLeft] ++ b ++ [Tok.branchRight])).flatten
      = ringsOf bs.flatten := by
  induction bs with
  | nil => rfl
  | cons b bs ih =>
    simp only [List.map_cons, List.flatten_cons, ringsOf_append, ih]
    simp [ringsOf]

theorem String.append_ne_empty_left {s t : String} (h : s ≠ "") : s ++ t ≠ "" := by
  intro hc
  apply h
  have := congrArg String.length hc
  simp only [String.length_append] at this
  have h0 : s.length = 0 := by
    have : ("" : String).length = 0 := rfl
    omega
  exact String.ext (List.length_eq_zero.mp h0)

theorem String.append_ne_empty_right {s t : String} (h : t ≠ "") : s ++ t ≠ "" := by
  intro hc
  apply h
  have := congrArg String.length hc
  simp only [String.length_append] at this
  have h0 : t.length = 0 := by
    have : ("" : String).length = 0 := rfl
    omega
  exact String.ext (List.length_eq_zero.mp h0)

/-- The atom token is never the empty string. -/
theorem outputNodeStr_ne_empty
    (calcRotation : Node → Option Nat → List Nat → Bool → RotationDir)
    (node : Node) (isAromatic : Bool) (prevNode : Option Nat) (nextNodes : List Nat)
    (options : Options) :
    outputNodeStr calcRotation node isAromatic prevNode nextNodes options ≠ "" := by
  by_cases hs : simpleOrgAtom calcRotation node isAromatic prevNode nextNodes options = true
  · have h := (simpleOrgAtom_iff calcRotation node isAromatic prevNode nextNodes options).mp hs
    rw [outputNodeStr_of_simple calcRotation node isAromatic prevNode nextNodes options hs]
    obtain ⟨_, _, _, _, _, symbol, hsym, hmem⟩ := h
    obtain ⟨_, _, heq⟩ := nodeSymbol_some node symbol hsym
    subst heq
    apply String.append_ne_empty_left
    cases isAromatic
    · simp only [Bool.false_eq_true, if_false, SMARTS.ORGAN_SUBSET_ATOMS, List.mem_cons,
        List.mem_singleton, List.not_mem_nil, or_false] at hmem ⊢
      rcases hmem with h | h | h | h | h | h | h | h | h | h <;> rw [h] <;> decide
    · simp only [if_true, SMARTS.AROMATIC_SUBSET_ATOMS, List.mem_cons,
        List.mem_singleton, List.not_mem_nil, or_false] at hmem ⊢
      rcases hmem with h | h | h | h | h | h <;> rw [h] <;> decide
  · simp only [outputNodeStr, hs, SMARTS.ATOM_BRACKET_LEFT, SMARTS.ATOM_BRACKET_RIGHT]
    apply String.append_ne_empty_left
    apply String.append_ne_empty_left
    apply String.append_ne_empty_left
    decide

theorem RingsOK.append_repo {toks : List Tok} {repo : List Edge} (h : RingsOK toks repo)
    (ext : List Edge) : RingsOK toks (repo ++ ext) := by
  intro t ht
  obtain ⟨h1, h2⟩ := h t ht
  exact ⟨List.mem_append_left _ h1, by rw [List.indexOf_append_of_mem h1]; exact h2⟩

theorem RingsOK.append {a b : List Tok} {repo : List Edge} (ha : RingsOK a repo)
    (hb : RingsOK b repo) : RingsOK (a ++ b) repo := by
  intro t ht
  rw [ringsOf_append, List.mem_append] at ht
  rcases ht with h | h
  · exact ha t h
  · exact hb t h

theorem RingsOK.of_perm {a b : List Tok} {repo : List Edge} (h : RingsOK a repo)
    (hp : b.Perm a) : RingsOK b repo := by
  intro t ht
  exact h t ((hp.filterMap _).mem_iff.mp ht)

theorem atomsOf_perm {a b : List Tok} (hp : a.Perm b) : (atomsOf a).Perm (atomsOf b) :=
  hp.filterMap _

theorem ringsOf_perm {a b : List Tok} (hp : a.Perm b) : (ringsOf a).Perm (ringsOf b) :=
  hp.filterMap _

theorem render_ne_empty_of_node (env : WriterEnv) (a b : List Tok) (v : Vertex)
    (pv : Option Vertex) (nv : List Vertex) :
    render env (a ++ Tok.node v pv nv :: b) ≠ "" := by
  rw [render_append]
  apply String.append_ne_empty_right
  simp only [render]
  apply String.append_ne_empty_left
  exact outputNodeStr_ne_empty _ _ _ _ _ _

theorem formResult_prefix (env : WriterEnv) (vertex : Vertex) (prevEdge : Option Edge)
    (nv : List Vertex) :
    atomsOf ((prevEdge.toList.map Tok.connector) ++
        [Tok.node vertex (prevEdge.map (fun e => env.graph.getNeighborOnEdge vertex e)) nv])
      = [vertex] ∧
    ringsOf ((prevEdge.toList.map Tok.connector) ++
        [Tok.node vertex (prevEdge.map (fun e => env.graph.getNeighborOnEdge vertex e)) nv])
      = [] ∧
    ∀ rest : List Tok, render env (((prevEdge.toList.map Tok.connector) ++
        [Tok.node vertex (prevEdge.map (fun e => env.graph.getNeighborOnEdge vertex e)) nv])
        ++ rest) ≠ "" := by
  refine ⟨?_, ?_, ?_⟩
  · cases prevEdge <;> simp [atomsOf]
  · cases prevEdge <;> simp [ringsOf]
  · intro rest
    rw [List.append_assoc]
    exact render_ne_empty_of_node env _ _ _ _ _

/-- The tokens of the result string, up to their order: the atom token of the
vertex and the tokens held by the loop variables, besides bond symbols and
brackets. -/
theorem formResult_tokens (env : WriterEnv) (vertex : Vertex) (prevEdge : Option Edge)
    (st : WriteState) (hb : ∀ b ∈ st.branchStrs, render env b ≠ "")
    (hm : ∀ s, st.mainChainStr = some s → render env s ≠ "") :
    (atomsOf (formResult env vertex prevEdge st)).Perm (vertex :: atomsOf (payload st)) ∧
    (ringsOf (formResult env vertex prevEdge st)).Perm (ringsOf (payload st)) ∧
    render env (formResult env vertex prevEdge st) ≠ "" := by
  obtain ⟨mcs, bss, mcv, bvs, rs, rvs, repo⟩ := st
  simp only at hb hm
  obtain ⟨hP1, hP2, hP3⟩ := formResult_prefix env vertex prevEdge (rvs ++ bvs ++ mcv.toList)
  simp only [formResult, payload]
  generalize ((prevEdge.toList.map Tok.connector) ++
        [Tok.node vertex (prevEdge.map (fun e => env.graph.getNeighborOnEdge vertex e))
          (rvs ++ bvs ++ mcv.toList)]) = P at hP1 hP2 hP3 ⊢
  cases mcs with
  | some s =>
    have hs : strTruthy env (some s) = true := by
      simpa [strTruthy] using hm s rfl
    simp only [hs, not_true_eq_false, false_and, decide_False, Bool.false_eq_true, if_false,
      if_true, Option.getD_some]
    refine ⟨?_, ?_, ?_⟩
    · simp only [atomsOf_append, atomsOf_branches, hP1]
      simp only [List.singleton_append, List.cons_append, List.nil_append, List.append_assoc]
      exact List.Perm.refl _
    · simp only [ringsOf_append, ringsOf_branches, hP2]
      simp only [List.nil_append, List.append_assoc]
      exact List.Perm.refl _
    · rw [List.append_assoc, List.append_assoc]
      exact hP3 _
  | none =>
    have hs : strTruthy env none = false := rfl
    cases bss with
    | nil =>
      simp only [hs, List.length_nil, ne_eq, not_true_eq_false, and_false, decide_False,
        Bool.false_eq_true, if_false, List.map_nil, List.flatten_nil, List.append_nil,
        Option.getD_none]
      refine ⟨?_, ?_, hP3 _⟩
      · simp only [atomsOf_append, hP1, List.singleton_append]
        exact List.Perm.refl _
      · simp only [ringsOf_append, hP2, List.nil_append]
        exact List.Perm.refl _
    | cons b bs =>
      have hbt : strTruthy env (some b) = true := by
        simpa [strTruthy] using hb b (List.mem_cons_self _ _)
      simp only [hs, List.length_cons, ne_eq, Nat.add_one_ne_zero, not_false_eq_true, and_self,
        decide_True, if_true, List.head?_cons, List.tail_cons, Bool.not_eq_true,
        Bool.false_eq_true, hbt, Option.getD_some, Option.getD_none, List.append_nil,
        List.flatten_cons]
      refine ⟨?_, ?_, ?_⟩
      · simp only [atomsOf_append, atomsOf_branches, hP1]
        simp only [List.singleton_append, List.cons_append, List.nil_append, List.append_assoc]
        exact List.Perm.cons _ (List.Perm.append_left _ List.perm_append_comm)
      · simp only [ringsOf_append, ringsOf_branches, hP2]
        simp only [List.nil_append, List.append_assoc]
        exact List.Perm.append_left _ List.perm_append_comm
      · rw [List.append_assoc, List.append_assoc]
        exact hP3 _

theorem ringEdgeNumber_props (repo : List Edge) (e : Edge) :
    e ∈ (ringEdgeNumber repo e).2 ∧
    (ringEdgeNumber repo e).1 = (ringEdgeNumber repo e).2.indexOf e + 1 ∧
    (∃ ext, (ringEdgeNumber repo e).2 = repo ++ ext) ∧
    (∀ x, x ∈ (ringEdgeNumber repo e).2 ↔ x ∈ repo ∨ x = e) ∧
    (repo.Nodup → (ringEdgeNumber repo e).2.Nodup) := by
  by_cases h : e ∈ repo
  · have hr : ringEdgeNumber repo e = (repo.indexOf e + 1, repo) := by
      simp only [ringEdgeNumber, h, if_true]
    rw [hr]
    refine ⟨h, rfl, ⟨[], by simp⟩, ?_, fun hn => hn⟩
    intro x
    constructor
    · exact fun hx => Or.inl hx
    · rintro (hx | hx)
      · exact hx
      · rw [hx]; exact h
  · have hr : ringEdgeNumber repo e = (repo.length + 1, repo ++ [e]) := by
      simp only [ringEdgeNumber, h, if_false]
    rw [hr]
    refine ⟨by simp, ?_, ⟨[e], rfl⟩, ?_, ?_⟩
    · rw [List.indexOf_append_of_not_mem h]
      simp
    · intro x; simp
    · intro hn
      exact List.Nodup.append hn (List.nodup_singleton e) (by
        intro x hx hx1
        rw [List.mem_singleton] at hx1
        rw [hx1] at hx
        exact h hx)

theorem writeEdges_skip (env : WriterEnv)
    (recurse : Vertex → Option Edge → List Edge → Option (List Tok × List Edge))
    (vertex : Vertex) (prevEdge : Option Edge) (mainChainEdges spanningTreeEdges : List Edge)
    (edge : Edge) (rest : List Edge) (st : WriteState) (hprev : some edge = prevEdge) :
    writeEdges env recurse vertex prevEdge mainChainEdges spanningTreeEdges (edge :: rest) st
      = writeEdges env recurse vertex prevEdge mainChainEdges spanningTreeEdges rest st := by
  simp only [writeEdges, hprev, if_true]

theorem writeEdges_tree (env : WriterEnv)
    (recurse : Vertex → Option Edge → List Edge → Option (List Tok × List Edge))
    (vertex : Vertex) (prevEdge : Option Edge) (mainChainEdges spanningTreeEdges : List Edge)
    (edge : Edge) (rest : List Edge) (st : WriteState)
    (hprev : some edge ≠ prevEdge) (htree : edge ∈ spanningTreeEdges)
    (str : List Tok) (repo1 : List Edge)
    (hrec : recurse (env.graph.getNeighborOnEdge vertex edge) (some edge) st.ringEdgeRepo
      = some (str, repo1)) :
    writeEdges env recurse vertex prevEdge mainChainEdges spanningTreeEdges (edge :: rest) st
      = writeEdges env recurse vertex prevEdge mainChainEdges spanningTreeEdges rest
          (if edge ∈ mainChainEdges then
            { st with mainChainVertex := some (env.graph.getNeighborOnEdge vertex edge),
                      mainChainStr := some str, ringEdgeRepo := repo1 }
          else
            { st with branchVertexes :=
                        st.branchVertexes ++ [env.graph.getNeighborOnEdge vertex edge],
                      branchStrs := st.branchStrs ++ [str], ringEdgeRepo := repo1 }) := by
  simp only [writeEdges, hprev, htree, if_false, if_true, hrec]
  split <;> rfl

theorem writeEdges_spec (env : WriterEnv) (M T : List Edge)
    (recurse : Vertex → Option Edge → List Edge → Option (List Tok × List Edge))
    (v : Vertex) (p : Option Edge) (hp : ∀ e, p = some e → e ∈ T) (sub : Edge → List Vertex) :
    ∀ (L : List Edge) (st : WriteState),
      (∀ e ∈ L, some e ≠ p → e ∈ T → ∀ repo, ∃ toks repo1,
          recurse (env.graph.getNeighborOnEdge v e) (some e) repo = some (toks, repo1) ∧
          WritePost env T (sub e) repo toks repo1) →
      (if st.mainChainStr.isSome then 1 else 0)
          + (L.filter (fun e => some e ≠ p ∧ e ∈ T ∧ e ∈ M)).length ≤ 1 →
      (∀ b ∈ st.branchStrs, render env b ≠ "") →
      (∀ s, st.mainChainStr = some s → render env s ≠ "") →
      ∃ st1 newToks, writeEdges env recurse v p M T L st = some st1 ∧
        (payload st1).Perm (payload st ++ newToks) ∧
        (atomsOf newToks).Perm ((L.filter (fun e => some e ≠ p ∧ e ∈ T)).flatMap sub) ∧
        ((ringsOf newToks).map (fun t => (t.1, t.2.1))).Perm
          ((L.filter (fun e => e ∉ T)).map (fun e => (v, e))
            ++ ((L.filter (fun e => some e ≠ p ∧ e ∈ T)).flatMap sub).flatMap
                (ringPairsAt env.graph T)) ∧
        RingsOK newToks st1.ringEdgeRepo ∧
        (∃ ext, st1.ringEdgeRepo = st.ringEdgeRepo ++ ext) ∧
        (∀ e, e ∈ st1.ringEdgeRepo ↔ e ∈ st.ringEdgeRepo ∨ (e ∈ L ∧ e ∉ T) ∨
            ∃ x ∈ (L.filter (fun e => some e ≠ p ∧ e ∈ T)).flatMap sub,
              e ∈ env.graph.getEdges x ∧ e ∉ T) ∧
        (st.ringEdgeRepo.Nodup → st1.ringEdgeRepo.Nodup) ∧
        (∀ b ∈ st1.branchStrs, render env b ≠ "") ∧
        (∀ s, st1.mainChainStr = some s → render env s ≠ "") := by
  intro L
  induction L with
  | nil =>
    intro st _ _ hb hm
    refine ⟨st, [], rfl, by simp, by simp [atomsOf], by simp [ringsOf], ?_, ⟨[], by simp⟩,
      by simp, fun h => h, hb, hm⟩
    intro t ht
    simp [ringsOf] at ht
  | cons e rest ih =>
    intro st hrec hM hb hm
    have hrec1 : ∀ e1 ∈ rest, some e1 ≠ p → e1 ∈ T → ∀ repo, ∃ toks repo1,
        recurse (env.graph.getNeighborOnEdge v e1) (some e1) repo = some (toks, repo1) ∧
        WritePost env T (sub e1) repo toks repo1 :=
      fun e1 h1 => hrec e1 (List.mem_cons_of_mem _ h1)
    by_cases hprev : some e = p
    · -- the edge the vertex was reached by
      have heT : e ∈ T := hp e hprev.symm
      have hf1 : (e :: rest).filter (fun e => decide (some e ≠ p ∧ e ∈ T))
          = rest.filter (fun e => decide (some e ≠ p ∧ e ∈ T)) :=
        List.filter_cons_of_neg (by simp [hprev])
      have hf2 : (e :: rest).filter (fun e => decide (e ∉ T))
          = rest.filter (fun e => decide (e ∉ T)) :=
        List.filter_cons_of_neg (by simp [heT])
      have hf3 : (e :: rest).filter (fun e => decide (some e ≠ p ∧ e ∈ T ∧ e ∈ M))
          = rest.filter (fun e => decide (some e ≠ p ∧ e ∈ T ∧ e ∈ M)) :=
        List.filter_cons_of_neg (by simp [hprev])
      rw [hf3] at hM
      obtain ⟨st1, newToks, h1, h2, h3, h4, h5, h6, h7, h8, h9, h10⟩ := ih st hrec1 hM hb hm
      refine ⟨st1, newToks, ?_, h2, ?_, ?_, h5, h6, ?_, h8, h9, h10⟩
      · rw [writeEdges_skip env recurse v p M T e rest st hprev]; exact h1
      · rw [hf1]; exact h3
      · rw [hf1, hf2]; exact h4
      · intro e1
        rw [hf1, h7 e1]
        constructor
        · rintro (h | ⟨h, hn⟩ | h)
          · exact Or.inl h
          · exact Or.inr (Or.inl ⟨List.mem_cons_of_mem _ h, hn⟩)
          · exact Or.inr (Or.inr h)
        · rintro (h | ⟨h, hn⟩ | h)
          · exact Or.inl h
          · rcases List.mem_cons.mp h with hc | hc
            · rw [hc] at hn; exact absurd heT hn
            · exact Or.inr (Or.inl ⟨hc, hn⟩)
          · exact Or.inr (Or.inr h)
    · by_cases htree : e ∈ T
      · -- a spanning-tree edge to a child
        obtain ⟨toks, repo1, hrun, ha, hr, hok, ⟨ext0, hext⟩, hmem, hnd, hne⟩ :=
          hrec e (List.mem_cons_self _ _) hprev htree st.ringEdgeRepo
        have hf1 : (e :: rest).filter (fun e => decide (some e ≠ p ∧ e ∈ T))
            = e :: rest.filter (fun e => decide (some e ≠ p ∧ e ∈ T)) :=
          List.filter_cons_of_pos (by simp [hprev, htree])
        have hf2 : (e :: rest).filter (fun e => decide (e ∉ T))
            = rest.filter (fun e => decide (e ∉ T)) :=
          List.filter_cons_of_neg (by simp [htree])
        rw [writeEdges_tree env recurse v p M T e rest st hprev htree toks repo1 hrun]
        -- the state after this pass of the loop
        have hst2 : ∃ st2 : WriteState,
            (if e ∈ M then
              { st with mainChainVertex := some (env.graph.getNeighborOnEdge v e),
                        mainChainStr := some toks, ringEdgeRepo := repo1 }
            else
              { st with branchVertexes := st.branchVertexes ++ [env.graph.getNeighborOnEdge v e],
                        branchStrs := st.branchStrs ++ [toks], ringEdgeRepo := repo1 }) = st2 ∧
            st2.ringEdgeRepo = repo1 ∧ (payload st2).Perm (payload st ++ toks) ∧
            (if st2.mainChainStr.isSome then 1 else 0)
              + (rest.filter (fun e => decide (some e ≠ p ∧ e ∈ T ∧ e ∈ M))).length ≤ 1 ∧
            (∀ b ∈ st2.branchStrs, render env b ≠ "") ∧
            (∀ s, st2.mainChainStr = some s → render env s ≠ "") := by
          by_cases hmain : e ∈ M
          · have hf3 : (e :: rest).filter (fun e => decide (some e ≠ p ∧ e ∈ T ∧ e ∈ M))
                = e :: rest.filter (fun e => decide (some e ≠ p ∧ e ∈ T ∧ e ∈ M)) :=
              List.filter_cons_of_pos (by simp [hprev, htree, hmain])
            rw [hf3, List.length_cons] at hM
            have hnone : st.mainChainStr = none := by
              cases hq : st.mainChainStr with
              | none => rfl
              | some s => rw [hq] at hM; simp at hM
            refine ⟨_, rfl, ?_, ?_, ?_, ?_, ?_⟩
            · simp only [hmain, if_true]
            · simp only [hmain, if_true, payload, hnone, Option.getD_none, Option.getD_some,
                List.append_nil]
              exact List.Perm.refl _
            · simp only [hmain, if_true, Option.isSome_some]
              omega
            · simpa only [hmain, if_true] using hb
            · intro s hs
              simp only [hmain, if_true, Option.some.injEq] at hs
              rw [← hs]; exact hne
          · have hf3 : (e :: rest).filter (fun e => decide (some e ≠ p ∧ e ∈ T ∧ e ∈ M))
                = rest.filter (fun e => decide (some e ≠ p ∧ e ∈ T ∧ e ∈ M)) :=
              List.filter_cons_of_neg (by simp [hmain])
            rw [hf3] at hM
            refine ⟨_, rfl, ?_, ?_, ?_, ?_, ?_⟩
            · simp only [hmain, if_false]
            · simp only [hmain, if_false, payload, List.flatten_append, List.flatten_cons,
                List.flatten_nil, List.append_nil, List.append_assoc]
              exact List.Perm.append_left _ (List.Perm.append_left _ List.perm_append_comm)
            · simpa only [hmain, if_false] using hM
            · intro b hbm
              simp only [hmain, if_false, List.mem_append, List.mem_singleton] at hbm
              rcases hbm with h | h
              · exact hb b h
              · rw [h]; exact hne
            · simpa only [hmain, if_false] using hm
        obtain ⟨st2, hst2eq, hrepo2, hpay2, hM2, hb2, hm2⟩ := hst2
        rw [hst2eq]
        obtain ⟨st1, newToks, h1, h2, h3, h4, h5, ⟨ext1, h6⟩, h7, h8, h9, h10⟩ :=
          ih st2 hrec1 hM2 hb2 hm2
        rw [hrepo2] at h6 h7 h8
        refine ⟨st1, toks ++ newToks, h1, ?_, ?_, ?_, ?_, ⟨ext0 ++ ext1, ?_⟩, ?_, ?_, h9, h10⟩
        · rw [← List.append_assoc]
          exact h2.trans (hpay2.append_right _)
        · rw [atomsOf_append, hf1, List.flatMap_cons]
          exact ha.append h3
        · rw [ringsOf_append, List.map_append, hf1, hf2, List.flatMap_cons, List.flatMap_append]
          exact (hr.append h4).trans (List.perm_append_comm_assoc _ _ _)
        · refine RingsOK.append ?_ h5
          rw [h6]
          exact hok.append_repo ext1
        · rw [h6, hext, List.append_assoc]
        · intro e1
          rw [h7 e1, hmem e1, hf1, List.flatMap_cons]
          simp only [List.mem_append, List.mem_cons]
          constructor
          · rintro ((h | ⟨x, hx, hx1⟩) | ⟨h, hn⟩ | ⟨x, hx, hx1⟩)
            · exact Or.inl h
            · exact Or.inr (Or.inr ⟨x, Or.inl hx, hx1⟩)
            · exact Or.inr (Or.inl ⟨Or.inr h, hn⟩)
            · exact Or.inr (Or.inr ⟨x, Or.inr hx, hx1⟩)
          · rintro (h | ⟨h | h, hn⟩ | ⟨x, hx | hx, hx1⟩)
            · exact Or.inl (Or.inl h)
            · rw [h] at hn; exact absurd htree hn
            · exact Or.inr (Or.inl ⟨h, hn⟩)
            · exact Or.inl (Or.inr ⟨x, hx, hx1⟩)
            · exact Or.inr (Or.inr ⟨x, hx, hx1⟩)
        · exact fun h => h8 (hnd h)
      · -- a ring edge
        obtain ⟨g1, g2, ⟨ext0, g3⟩, g4, g5⟩ := ringEdgeNumber_props st.ringEdgeRepo e
        have hf1 : (e :: rest).filter (fun e => decide (some e ≠ p ∧ e ∈ T))
            = rest.filter (fun e => decide (some e ≠ p ∧ e ∈ T)) :=
          List.filter_cons_of_neg (by simp [htree])
        have hf2 : (e :: rest).filter (fun e => decide (e ∉ T))
            = e :: rest.filter (fun e => decide (e ∉ T)) :=
          List.filter_cons_of_pos (by simp [htree])
        have hf3 : (e :: rest).filter (fun e => decide (some e ≠ p ∧ e ∈ T ∧ e ∈ M))
            = rest.filter (fun e => decide (some e ≠ p ∧ e ∈ T ∧ e ∈ M)) :=
          List.filter_cons_of_neg (by simp [htree])
        rw [hf3] at hM
        rw [writeEdges_ring env recurse v p M T e rest st hprev htree]
        obtain ⟨st1, newToks, h1, h2, h3, h4, h5, ⟨ext1, h6⟩, h7, h8, h9, h10⟩ :=
          ih { st with
               ringedVertexes := st.ringedVertexes ++ [env.graph.getNeighborOnEdge v e],
               ringStrs := st.ringStrs ++ [Tok.ring v e (ringEdgeNumber st.ringEdgeRepo e).1],
               ringEdgeRepo := (ringEdgeNumber st.ringEdgeRepo e).2 } hrec1 hM hb hm
        simp only at h6 h7 h8
        refine ⟨st1, Tok.ring v e (ringEdgeNumber st.ringEdgeRepo e).1 :: newToks, h1, ?_, ?_,
          ?_, ?_, ⟨ext0 ++ ext1, ?_⟩, ?_, ?_, h9, h10⟩
        · refine h2.trans ?_
          simp only [payload, List.append_assoc, List.singleton_append, List.cons_append]
          refine List.Perm.append_left _ ?_
          have hmid := @List.perm_middle _ (Tok.ring v e (ringEdgeNumber st.ringEdgeRepo e).1)
            (st.branchStrs.flatten ++ st.mainChainStr.getD []) newToks
          simp only [List.append_assoc] at hmid
          exact hmid.symm
        · rw [hf1]
          simpa [atomsOf] using h3
        · rw [hf1, hf2]
          simpa [ringsOf] using h4
        · intro t ht
          have : t = (v, e, (ringEdgeNumber st.ringEdgeRepo e).1) ∨ t ∈ ringsOf newToks := by
            simpa [ringsOf] using ht
          rcases this with h | h
          · rw [h, h6]
            exact ⟨List.mem_append_left _ g1, by
              rw [List.indexOf_append_of_mem g1]; exact g2⟩
          · exact h5 t h
        · rw [h6, g3, List.append_assoc]
        · intro e1
          rw [h7 e1, g4 e1, hf1]
          simp only [List.mem_cons]
          constructor
          · rintro ((h | h) | ⟨h, hn⟩ | h)
            · exact Or.inl h
            · exact Or.inr (Or.inl ⟨Or.inl h, by rw [h]; exact htree⟩)
            · exact Or.inr (Or.inl ⟨Or.inr h, hn⟩)
            · exact Or.inr (Or.inr h)
          · rintro (h | ⟨h | h, hn⟩ | h)
            · exact Or.inl (Or.inl h)
            · exact Or.inl (Or.inr h)
            · exact Or.inr (Or.inl ⟨h, hn⟩)
            · exact Or.inr (Or.inr h)
        · exact fun h => h8 (g5 h)

theorem length_le_flatMap {α β : Type} (f : α → List β) (l : List α) (a : α) (h : a ∈ l) :
    (f a).length ≤ (l.flatMap f).length := by
  rw [List.flatMap_def]
  exact (List.sublist_flatten_of_mem (List.mem_map_of_mem f h)).length_le

theorem payload_start (repo : List Edge) :
    payload { mainChainStr := none, branchStrs := [], mainChainVertex := none,
              branchVertexes := [], ringStrs := [], ringedVertexes := [],
              ringEdgeRepo := repo } = [] := rfl

/-- A call of `_writeMolVertex` returns when it has fuel for the vertices of the
calls it gives rise to, and then the guarantees of `WritePost` hold. -/
theorem writeMolVertex_desc (env : WriterEnv) (M T : List Edge) {v : Vertex}
    {p : Option Edge} {vs : List Vertex} (h : Desc env.graph M T v p vs) :
    (∀ e, p = some e → e ∈ T) →
    ∀ (fuel : Nat) (repo : List Edge), vs.length ≤ fuel →
      ∃ toks repo1, writeMolVertex env fuel v p M T repo = some (toks, repo1) ∧
        WritePost env T vs repo toks repo1 := by
  induction h with
  | mk v p sub _ hM ih =>
    intro hp fuel repo hlen
    cases fuel with
    | zero => simp at hlen
    | succ F =>
      have hrec : ∀ e ∈ (env.graph.getEdges v).reverse, some e ≠ p → e ∈ T → ∀ repo, ∃ toks repo1,
          (fun v e repo => writeMolVertex env F v e M T repo)
            (env.graph.getNeighborOnEdge v e) (some e) repo = some (toks, repo1) ∧
          WritePost env T (sub e) repo toks repo1 := by
        intro e he hne hT repo1
        have hef : e ∈ (env.graph.getEdges v).reverse.filter
            (fun e => decide (some e ≠ p ∧ e ∈ T)) :=
          List.mem_filter.mpr ⟨he, by simp [hne, hT]⟩
        have hle := length_le_flatMap sub _ e hef
        simp only [List.length_cons] at hlen
        exact ih e (List.mem_reverse.mp he) hne hT
          (fun e1 h1 => by rw [Option.some.injEq] at h1; rw [← h1]; exact hT) F repo1
          (by omega)
      have hM1 : (if (none : Option (List Tok)).isSome then 1 else 0)
          + ((env.graph.getEdges v).reverse.filter
              (fun e => decide (some e ≠ p ∧ e ∈ T ∧ e ∈ M))).length ≤ 1 := by
        rw [List.filter_reverse, List.length_reverse]
        simpa using hM
      obtain ⟨st1, newToks, h1, h2, h3, h4, h5, h6, h7, h8, h9, h10⟩ :=
        writeEdges_spec env M T (fun v e repo => writeMolVertex env F v e M T repo) v p hp sub
          (env.graph.getEdges v).reverse
          { mainChainStr := none, branchStrs := [], mainChainVertex := none,
            branchVertexes := [], ringStrs := [], ringedVertexes := [],
            ringEdgeRepo := repo } hrec hM1 (by simp) (by simp)
      rw [payload_start, List.nil_append] at h2
      obtain ⟨f1, f2, f3⟩ := formResult_tokens env v p st1 h9 h10
      refine ⟨formResult env v p st1, st1.ringEdgeRepo, ?_, ?_, ?_, ?_, h6, ?_, h8, f3⟩
      · rw [writeMolVertex_succ, h1]
        rfl
      · exact f1.trans (List.Perm.cons _ ((atomsOf_perm h2).trans h3))
      · rw [List.flatMap_cons]
        refine ((f2.trans (ringsOf_perm h2)).map _).trans (h4.trans ?_)
        refine List.Perm.append_right _ ?_
        unfold ringPairsAt
        rw [List.filter_reverse]
        exact (List.reverse_perm _).map _
      · intro t ht
        exact h5 t ((f2.trans (ringsOf_perm h2)).mem_iff.mp ht)
      · intro e
        rw [h7 e]
        simp only [List.mem_reverse, List.mem_cons]
        constructor
        · rintro (h | ⟨h, hn⟩ | ⟨x, hx, hx1⟩)
          · exact Or.inl h
          · exact Or.inr ⟨v, Or.inl rfl, h, hn⟩
          · exact Or.inr ⟨x, Or.inr hx, hx1⟩
        · rintro (h | ⟨x, hx | hx, hx1⟩)
          · exact Or.inl h
          · rw [hx] at hx1; exact Or.inr (Or.inl hx1)
          · exact Or.inr (Or.inr ⟨x, hx, hx1⟩)

/-! ## The calls of `_writeMolVertex` on a spanning tree -/

theorem kids_nodup {g : Graph} {v : Vertex} {kids : List (Edge × SpanningResult)}
    (hnd : (kidVerts g v kids).Nodup) : kids.Nodup := by
  unfold kidVerts at hnd
  rw [List.nodup_flatMap] at hnd
  refine List.Pairwise.imp_of_mem ?_ hnd.2
  intro a b _ _ hab hc
  subst hc
  exact hab (List.mem_cons_self _ _) (List.mem_cons_self _ _)

/-- A followed edge is not among the edges found through it. -/
theorem kid_edge_not_mem {g : Graph} (hwf : g.WF) {v : Vertex}
    {kids : List (Edge × SpanningResult)} (hv : v ∈ g.vertexes)
    (hk : ∀ k ∈ kids, k.1 ∈ g.getEdges v)
    (hs : ∀ k ∈ kids, STree g (g.getNeighborOnEdge v k.1) k.2)
    (hV : ∀ x ∈ kidVerts g v kids, x ∈ g.vertexes)
    (hnd : (v :: kidVerts g v kids).Nodup)
    {k : Edge × SpanningResult} (hkm : k ∈ kids) : k.1 ∉ k.2.edges := by
  intro hc
  obtain ⟨_, _, _, g4⟩ := kid_good hV hnd hkm
  obtain ⟨_, _, _, hin⟩ := kid_edge_info hwf hv hk hs hV hkm (List.mem_cons_self k.1 _)
  obtain ⟨e1, e2⟩ := hin hc
  obtain ⟨_, _, _, _, hj, _⟩ := hwf.neighbor hv (hk k hkm)
  rcases hj with hj | hj
  · rw [hj] at e1; exact g4 e1
  · rw [hj] at e2; exact g4 e2

/-- An edge in the adjacency list of a vertex has the vertex as an end. -/
theorem Graph.WF.end_of_mem {g : Graph} (hwf : g.WF) {x : Vertex} {e : Edge}
    (hx : x ∈ g.vertexes) (he : e ∈ g.getEdges x) :
    (g.getVertexes e).1 = x ∨ (g.getVertexes e).2 = x :=
  ((hwf.2.2.2 x hx).2 e he).2

theorem length_le_one_of_all_eq {α : Type} {l : List α} (hn : l.Nodup)
    (h : ∀ a ∈ l, ∀ b ∈ l, a = b) : l.length ≤ 1 := by
  match l, hn, h with
  | [], _, _ => simp
  | [_], _, _ => simp
  | a :: b :: _, hn, h =>
    exfalso
    have hab : a = b := h a (List.mem_cons_self _ _) b
      (List.mem_cons_of_mem _ (List.mem_cons_self _ _))
    rw [hab] at hn
    exact (List.nodup_cons.mp hn).1 (List.mem_cons_self _ _)

/-- The main-chain edges among the tree edges of a result lie on its longest path:
then the same holds for the result of every followed edge, and the only followed
edge that can be a main-chain edge is the one the longest path goes through. -/
theorem kid_main_chain {g : Graph} (hwf : g.WF) {v : Vertex}
    {kids : List (Edge × SpanningResult)} (hv : v ∈ g.vertexes)
    (hk : ∀ k ∈ kids, k.1 ∈ g.getEdges v)
    (hs : ∀ k ∈ kids, STree g (g.getNeighborOnEdge v k.1) k.2)
    (hV : ∀ x ∈ kidVerts g v kids, x ∈ g.vertexes)
    (hnd : (v :: kidVerts g v kids).Nodup) (M : List Edge)
    (hM : ∀ e ∈ kidEdges kids, e ∈ M →
      e ∈ (finishTravers v (kids.foldl (addKid g v) (emptyResult, none))).longestPath.edges) :
    (∀ k ∈ kids, ∀ e ∈ k.2.edges, e ∈ M → e ∈ k.2.longestPath.edges) ∧
    (∀ k1 ∈ kids, ∀ k2 ∈ kids, k1.1 ∈ M → k2.1 ∈ M → k1 = k2) := by
  rcases finish_longest g v kids with ⟨hnil, _⟩ | ⟨ks, hks, hlp, _⟩
  · subst hnil
    exact ⟨by simp, by simp⟩
  · rw [hlp] at hM
    simp only [List.mem_cons] at hM
    obtain ⟨g1, g2, g3, _⟩ := kid_good hV hnd hks
    have hlpe : ∀ e ∈ ks.2.longestPath.edges, e ∈ ks.2.edges :=
      ((hs ks hks).longest_path hwf g1 g2 g3).2.2.2
    -- an edge found through `k` that is a main-chain edge: `k` is the chosen edge
    have key : ∀ k ∈ kids, ∀ e ∈ k.1 :: k.2.edges, e ∈ M →
        k = ks ∧ (e = ks.1 ∨ e ∈ ks.2.longestPath.edges) := by
      intro k hkm e he heM
      have hek : e ∈ kidEdges kids := mem_kidEdges.mpr ⟨k, hkm, by simpa using he⟩
      rcases hM e hek heM with h | h
      · exact ⟨kid_edge_unique hwf hv hk hs hV hnd hkm hks he
          (by rw [h]; exact List.mem_cons_self _ _), Or.inl h⟩
      · exact ⟨kid_edge_unique hwf hv hk hs hV hnd hkm hks he
          (List.mem_cons_of_mem _ (hlpe e h)), Or.inr h⟩
    constructor
    · intro k hkm e he heM
      obtain ⟨hkk, h⟩ := key k hkm e (List.mem_cons_of_mem _ he) heM
      subst hkk
      rcases h with h | h
      · rw [h] at he
        exact absurd he (kid_edge_not_mem hwf hv hk hs hV hnd hkm)
      · exact h
    · intro k1 hk1 k2 hk2 h1 h2
      rw [(key k1 hk1 k1.1 (List.mem_cons_self _ _) h1).1,
        (key k2 hk2 k2.1 (List.mem_cons_self _ _) h2).1]

/-- The calls of `_writeMolVertex` on the tree of a result reach exactly the root and
the found vertices, each once. `T` holds the tree edges, `M` the main-chain edges,
and `p` is the edge the root was reached by. -/
theorem STree.desc {g : Graph} (hwf : g.WF) {v : Vertex} {r : SpanningResult}
    (h : STree g v r) :
    v ∈ g.vertexes → (∀ x ∈ r.vertexes, x ∈ g.vertexes) → (v :: r.vertexes).Nodup →
    ∀ (M T : List Edge) (p : Option Edge),
      (∀ e ∈ r.edges, e ∈ T) →
      (∀ e ∈ T, ∀ x ∈ v :: r.vertexes, e ∈ g.getEdges x → e ∈ r.edges ∨ some e = p) →
      (∀ e, p = some e → ∀ x ∈ r.vertexes, e ∉ g.getEdges x) →
      (∀ e ∈ r.edges, e ∈ M → e ∈ r.longestPath.edges) →
      ∃ vs, Desc g M T v p vs ∧ vs.Perm (v :: r.vertexes) := by
  induction h with
  | mk v kids hk hs ih =>
    intro hv hV hnd M T p hT hinc hp hM
    rw [finish_vertexes] at hV hnd hinc hp ⊢
    rw [finish_edges] at hT hinc hM
    obtain ⟨hMk, hMu⟩ := kid_main_chain hwf hv hk hs hV hnd M hM
    have hvnot : v ∉ kidVerts g v kids := (List.nodup_cons.mp hnd).1
    have hndk : (kidVerts g v kids).Nodup := (List.nodup_cons.mp hnd).2
    have hkvsub : ∀ k ∈ kids, ∀ x ∈ g.getNeighborOnEdge v k.1 :: k.2.vertexes,
        x ∈ kidVerts g v kids := by
      intro k hkm x hx
      exact mem_kidVerts.mpr ⟨k, hkm, by simpa using hx⟩
    -- a tree edge in the adjacency list of a vertex found through `k` was found through `k`
    have hown : ∀ k ∈ kids, ∀ e ∈ T, ∀ x ∈ g.getNeighborOnEdge v k.1 :: k.2.vertexes,
        e ∈ g.getEdges x → e ∈ k.1 :: k.2.edges := by
      intro k hkm e heT x hx hex
      have hxk := hkvsub k hkm x hx
      have hxV := hV x hxk
      rcases hinc e heT x (List.mem_cons_of_mem _ hxk) hex with h | h
      · obtain ⟨k1, hk1, he1⟩ := mem_kidEdges.mp h
        have he1' : e ∈ k1.1 :: k1.2.edges := by simpa using he1
        obtain ⟨_, hb1, hb2, _⟩ := kid_edge_info hwf hv hk hs hV hk1 he1'
        have hx1 : x ∈ v :: g.getNeighborOnEdge v k1.1 :: k1.2.vertexes := by
          rcases hwf.end_of_mem hxV hex with hc | hc
          · rw [← hc]; exact hb1
          · rw [← hc]; exact hb2
        have hxv : x ≠ v := by
          intro hc
          rw [hc] at hxk
          exact hvnot hxk
        have hx2 : x ∈ g.getNeighborOnEdge v k1.1 :: k1.2.vertexes := by
          rcases List.mem_cons.mp hx1 with hc | hc
          · exact absurd hc hxv
          · exact hc
        have hkk : k = k1 := kid_unique hndk hkm hk1 hx hx2
        rw [hkk]; exact he1'
      · exact absurd hex (hp e h.symm x hxk)
    have hkid : ∀ k ∈ kids, ∃ vs, Desc g M T (g.getNeighborOnEdge v k.1) (some k.1) vs ∧
        vs.Perm (g.getNeighborOnEdge v k.1 :: k.2.vertexes) := by
      intro k hkm
      obtain ⟨g1, g2, g3, g4⟩ := kid_good hV hnd hkm
      refine ih k hkm g1 g2 g3 M T (some k.1) ?_ ?_ ?_ (hMk k hkm)
      · exact fun e he => hT e (mem_kidEdges.mpr ⟨k, hkm, Or.inr he⟩)
      · intro e heT x hx hex
        rcases List.mem_cons.mp (hown k hkm e heT x hx hex) with h | h
        · exact Or.inr (by rw [h])
        · exact Or.inl h
      · intro e he x hx hex
        rw [Option.some.injEq] at he
        subst he
        have hxV := g2 x hx
        obtain ⟨_, _, _, _, hj, _⟩ := hwf.neighbor hv (hk k hkm)
        have hxe := hwf.end_of_mem hxV hex
        have hx' : x = v ∨ x = g.getNeighborOnEdge v k.1 := by
          rcases hj with hj | hj <;> rw [hj] at hxe <;> simp only at hxe
          · rcases hxe with hc | hc
            · exact Or.inl hc.symm
            · exact Or.inr hc.symm
          · rcases hxe with hc | hc
            · exact Or.inr hc.symm
            · exact Or.inl hc.symm
        rcases hx' with hc | hc
        · rw [hc] at hx
          exact g4 (List.mem_cons_of_mem _ hx)
        · rw [hc] at hx
          exact (List.nodup_cons.mp g3).1 hx
    have hsubE : ∀ e : Edge, ∃ vs : List Vertex, ∀ k ∈ kids, k.1 = e →
        Desc g M T (g.getNeighborOnEdge v k.1) (some k.1) vs ∧
        vs.Perm (g.getNeighborOnEdge v k.1 :: k.2.vertexes) := by
      intro e
      by_cases hex : ∃ k ∈ kids, k.1 = e
      · obtain ⟨k, hkm, hke⟩ := hex
        obtain ⟨vs, hvs⟩ := hkid k hkm
        refine ⟨vs, fun k1 hk1 hke1 => ?_⟩
        have hkk : k1 = k := kid_edge_unique hwf hv hk hs hV hnd hk1 hkm
          (List.mem_cons_self _ _) (by rw [hke1, ← hke]; exact List.mem_cons_self _ _)
        rw [hkk]; exact hvs
      · exact ⟨[], fun k hkm hke => absurd ⟨k, hkm, hke⟩ hex⟩
    choose sub hsub using hsubE
    have hchild : ∀ e ∈ g.getEdges v, (some e ≠ p ∧ e ∈ T) ↔ ∃ k ∈ kids, k.1 = e := by
      intro e he
      constructor
      · rintro ⟨hne, heT⟩
        rcases hinc e heT v (List.mem_cons_self _ _) he with h | h
        · obtain ⟨k, hkm, hek⟩ := mem_kidEdges.mp h
          rcases hek with hek | hek
          · exact ⟨k, hkm, hek.symm⟩
          · exfalso
            obtain ⟨_, _, _, g4⟩ := kid_good hV hnd hkm
            obtain ⟨_, _, _, hin⟩ :=
              kid_edge_info hwf hv hk hs hV hkm (List.mem_cons_of_mem k.1 hek)
            obtain ⟨e1, e2⟩ := hin hek
            rcases hwf.end_of_mem hv he with hc | hc
            · rw [hc] at e1; exact g4 e1
            · rw [hc] at e2; exact g4 e2
        · exact absurd h hne
      · rintro ⟨k, hkm, hke⟩
        subst hke
        refine ⟨?_, hT _ (mem_kidEdges.mpr ⟨k, hkm, Or.inl rfl⟩)⟩
        intro hc
        exact hp k.1 hc.symm _ (hkvsub k hkm _ (List.mem_cons_self _ _))
          (hwf.neighbor hv (hk k hkm)).2.1
    have hadjnd : (g.getEdges v).Nodup := (hwf.2.2.2 v hv).1
    refine ⟨_, Desc.mk v p sub ?_ ?_, ?_⟩
    · intro e he hne heT
      obtain ⟨k, hkm, hke⟩ := (hchild e he).mp ⟨hne, heT⟩
      have := (hsub e k hkm hke).1
      rw [hke] at this
      exact this
    · refine length_le_one_of_all_eq (hadjnd.filter _) ?_
      intro a ha b hb
      rw [List.mem_filter] at ha hb
      have ha2 : some a ≠ p ∧ a ∈ T ∧ a ∈ M := by simpa using ha.2
      have hb2 : some b ≠ p ∧ b ∈ T ∧ b ∈ M := by simpa using hb.2
      obtain ⟨ka, hka, hkae⟩ := (hchild a ha.1).mp ⟨ha2.1, ha2.2.1⟩
      obtain ⟨kb, hkb, hkbe⟩ := (hchild b hb.1).mp ⟨hb2.1, hb2.2.1⟩
      have := hMu ka hka kb hkb (by rw [hkae]; exact ha2.2.2) (by rw [hkbe]; exact hb2.2.2)
      rw [← hkae, ← hkbe, this]
    · refine List.Perm.cons _ ?_
      have hmapnd : (kids.map (fun k => k.1)).Nodup := by
        refine List.Nodup.map_on ?_ (kids_nodup hndk)
        intro k1 hk1 k2 hk2 h12
        exact kid_edge_unique hwf hv hk hs hV hnd hk1 hk2 (List.mem_cons_self _ _)
          (by rw [h12]; exact List.mem_cons_self _ _)
      have hperm : ((g.getEdges v).reverse.filter (fun e => decide (some e ≠ p ∧ e ∈ T))).Perm
          (kids.map (fun k => k.1)) := by
        rw [List.perm_ext_iff_of_nodup ((List.nodup_reverse.mpr hadjnd).filter _) hmapnd]
        intro e
        rw [List.mem_filter, List.mem_reverse, List.mem_map]
        constructor
        · rintro ⟨he, hc⟩
          exact (hchild e he).mp (by simpa using hc)
        · rintro ⟨k, hkm, hke⟩
          have he : e ∈ g.getEdges v := by rw [← hke]; exact hk k hkm
          exact ⟨he, by simpa using (hchild e he).mpr ⟨k, hkm, hke⟩⟩
      refine (hperm.flatMap_right sub).trans ?_
      rw [List.flatMap_map]
      unfold kidVerts
      exact List.Perm.flatMap_left _ (fun k hkm => (hsub k.1 k hkm rfl).2)

theorem WritePost.perm_vertexes {env : WriterEnv} {T : List Edge} {vs ws : List Vertex}
    {repo : List Edge} {toks : List Tok} {repo1 : List Edge}
    (h : WritePost env T vs repo toks repo1) (hp : vs.Perm ws) :
    WritePost env T ws repo toks repo1 := by
  obtain ⟨h1, h2, h3, h4, h5, h6, h7⟩ := h
  refine ⟨h1.trans hp, h2.trans (hp.flatMap_right _), h3, h4, ?_, h6, h7⟩
  intro e
  rw [h5 e]
  constructor
  · rintro (h | ⟨x, hx, hx1⟩)
    · exact Or.inl h
    · exact Or.inr ⟨x, hp.mem_iff.mp hx, hx1⟩
  · rintro (h | ⟨x, hx, hx1⟩)
    · exact Or.inl h
    · exact Or.inr ⟨x, hp.mem_iff.mpr hx, hx1⟩

/-- Writing a component from its root, with the tree edges and the longest path of
its spanning result and any registry, returns. -/
theorem writeMolVertex_component (env : WriterEnv) (hwf : env.graph.WF) {root : Vertex}
    {r : SpanningResult} (hc : IsComponentResult env.graph root r) (repo : List Edge) :
    ∃ toks repo1,
      writeMolVertex env r.vertexes.length root none r.longestPath.edges r.edges repo
        = some (toks, repo1) ∧
      WritePost env r.edges r.vertexes repo toks repo1 := by
  obtain ⟨inner, hri, hT, hroot, hnd, hV, _⟩ := hc
  subst hri
  have hVi : ∀ x ∈ inner.vertexes, x ∈ env.graph.vertexes :=
    fun x hx => hV x (List.mem_cons_of_mem _ hx)
  obtain ⟨vs, hdesc, hperm⟩ := hT.desc hwf hroot hVi hnd inner.longestPath.edges inner.edges none
    (fun e he => he) (fun e he _ _ _ => Or.inl he) (fun e he => by simp at he)
    (fun e _ he => he)
  obtain ⟨toks, repo1, hrun, hpost⟩ :=
    writeMolVertex_desc env inner.longestPath.edges inner.edges hdesc (fun e he => by simp at he)
      (withRoot root inner).vertexes.length repo (by rw [hperm.length_eq]; rfl)
  exact ⟨toks, repo1, hrun, hpost.perm_vertexes hperm⟩

/-! ## The ring-closure tokens of a component -/

theorem mem_ringsOf {toks : List Tok} {a : Vertex} {e : Edge} {n : Nat} :
    (a, e, n) ∈ ringsOf toks ↔ Tok.ring a e n ∈ toks := by
  unfold ringsOf
  rw [List.mem_filterMap]
  constructor
  · rintro ⟨t, ht, hq⟩
    cases t <;> simp at hq
    obtain ⟨h1, h2, h3⟩ := hq
    subst h1 h2 h3
    exact ht
  · intro h
    exact ⟨_, h, rfl⟩

theorem count_ring_eq_one {toks : List Tok} (hnd : (ringsOf toks).Nodup) {a : Vertex}
    {e : Edge} {n : Nat} (hm : Tok.ring a e n ∈ toks) : toks.count (Tok.ring a e n) = 1 := by
  induction toks with
  | nil => simp at hm
  | cons t ts ih =>
    have hcons : ringsOf (t :: ts) = ringsOf [t] ++ ringsOf ts := ringsOf_append [t] ts
    rw [hcons] at hnd
    have hts : (ringsOf ts).Nodup := (List.nodup_append.mp hnd).2.1
    by_cases hq : t = Tok.ring a e n
    · subst hq
      have hnot : Tok.ring a e n ∉ ts := by
        intro hc
        have h1 : (a, e, n) ∈ ringsOf [Tok.ring a e n] := by simp [ringsOf]
        exact (List.nodup_append.mp hnd).2.2 h1 (mem_ringsOf.mpr hc)
      rw [List.count_cons_self, List.count_eq_zero.mpr hnot]
    · have hm1 : Tok.ring a e n ∈ ts := by
        rcases List.mem_cons.mp hm with h | h
        · exact absurd h.symm hq
        · exact h
      rw [List.count_cons_of_ne (fun hc => hq hc.symm)]
      exact ih hts hm1

theorem mem_ringPairs {g : Graph} {T : List Edge} {vs : List Vertex} {a : Vertex} {e : Edge} :
    (a, e) ∈ vs.flatMap (ringPairsAt g T) ↔ a ∈ vs ∧ e ∈ g.getEdges a ∧ e ∉ T := by
  simp only [List.mem_flatMap, ringPairsAt, List.mem_map, List.mem_filter, decide_eq_true_eq,
    Prod.mk.injEq]
  constructor
  · rintro ⟨x, hx, f, ⟨hf, hfT⟩, hxa, hfe⟩
    subst hxa hfe
    exact ⟨hx, hf, hfT⟩
  · rintro ⟨h1, h2, h3⟩
    exact ⟨a, h1, e, ⟨h2, h3⟩, rfl, rfl⟩

theorem ringPairs_nodup {g : Graph} (hwf : g.WF) (T : List Edge) {vs : List Vertex}
    (hV : ∀ x ∈ vs, x ∈ g.vertexes) (hnd : vs.Nodup) :
    (vs.flatMap (ringPairsAt g T)).Nodup := by
  rw [List.nodup_flatMap]
  constructor
  · intro x hx
    unfold ringPairsAt
    refine List.Nodup.map ?_ ((hwf.2.2.2 x (hV x hx)).1.filter _)
    intro a b hab
    simp only [Prod.mk.injEq] at hab
    exact hab.2
  · refine List.Pairwise.imp_of_mem ?_ hnd
    intro a b _ _ hab t ht1 ht2
    unfold ringPairsAt at ht1 ht2
    rw [List.mem_map] at ht1 ht2
    obtain ⟨_, _, h1⟩ := ht1
    obtain ⟨_, _, h2⟩ := ht2
    rw [← h2] at h1
    simp only [Prod.mk.injEq] at h1
    exact hab h1.1

/-- A component is closed under adjacency. -/
theorem IsComponentResult.closed {g : Graph} {root : Vertex} {r : SpanningResult}
    (hc : IsComponentResult g root r) {x : Vertex} (hx : x ∈ r.vertexes) {e : Edge}
    (he : e ∈ g.getEdges x) : g.getNeighborOnEdge x e ∈ r.vertexes := by
  obtain ⟨_, _, _, _, _, _, hreach⟩ := hc
  exact (hreach _).mpr (Relation.ReflTransGen.tail ((hreach x).mp hx) ⟨e, he, rfl⟩)

/-- An edge of the graph with one end in a component: both ends are different
vertices of the component, and the edge is in the adjacency list of both. -/
theorem IsComponentResult.both_ends {g : Graph} (hwf : g.WF) {root : Vertex}
    {r : SpanningResult} (hc : IsComponentResult g root r) {e : Edge} (he : e ∈ g.edges)
    (hend : (g.getVertexes e).1 ∈ r.vertexes ∨ (g.getVertexes e).2 ∈ r.vertexes) :
    (g.getVertexes e).1 ∈ r.vertexes ∧ (g.getVertexes e).2 ∈ r.vertexes ∧
      (g.getVertexes e).1 ≠ (g.getVertexes e).2 ∧
      e ∈ g.getEdges (g.getVertexes e).1 ∧ e ∈ g.getEdges (g.getVertexes e).2 := by
  obtain ⟨hne, h1, h2, h3, h4⟩ := hwf.2.2.1 e he
  have hn1 : g.getNeighborOnEdge (g.getVertexes e).1 e = (g.getVertexes e).2 := by
    simp [Graph.getNeighborOnEdge]
  have hn2 : g.getNeighborOnEdge (g.getVertexes e).2 e = (g.getVertexes e).1 := by
    simp [Graph.getNeighborOnEdge, hne]
  rcases hend with h | h
  · exact ⟨h, by rw [← hn1]; exact hc.closed h h3, hne, h3, h4⟩
  · exact ⟨by rw [← hn2]; exact hc.closed h h4, h, hne, h3, h4⟩

/-- The ring-closure tokens in the output of a component: every edge of the
component that is not a tree edge has one token at each of its two ends, with the
position of the edge in the registry plus 1, and there are no other ring-closure
tokens. -/
theorem component_ring_tokens (env : WriterEnv) (hwf : env.graph.WF) {root : Vertex}
    {r : SpanningResult} (hc : IsComponentResult env.graph root r)
    {repo : List Edge} {toks : List Tok} {repo1 : List Edge}
    (hpost : WritePost env r.edges r.vertexes repo toks repo1) :
    (∀ e ∈ env.graph.edges, e ∉ r.edges →
      ((env.graph.getVertexes e).1 ∈ r.vertexes ∨ (env.graph.getVertexes e).2 ∈ r.vertexes) →
      toks.count (Tok.ring (env.graph.getVertexes e).1 e (repo1.indexOf e + 1)) = 1 ∧
      toks.count (Tok.ring (env.graph.getVertexes e).2 e (repo1.indexOf e + 1)) = 1) ∧
    (∀ x e m, Tok.ring x e m ∈ toks →
      e ∈ env.graph.edges ∧ e ∉ r.edges ∧ x ∈ r.vertexes ∧
      (x = (env.graph.getVertexes e).1 ∨ x = (env.graph.getVertexes e).2) ∧
      e ∈ repo1 ∧ m = repo1.indexOf e + 1) := by
  obtain ⟨_, hpairs, hok, _, _, _, _⟩ := hpost
  have hc' := hc
  obtain ⟨_, _, _, _, hnd, hV, _⟩ := hc'
  have hRnd := ringPairs_nodup hwf r.edges hV hnd
  have hpnd : ((ringsOf toks).map (fun t => (t.1, t.2.1))).Nodup := hpairs.nodup_iff.mpr hRnd
  have hrnd : (ringsOf toks).Nodup := List.Nodup.of_map _ hpnd
  have hone : ∀ a e, a ∈ r.vertexes → e ∈ env.graph.getEdges a → e ∉ r.edges →
      toks.count (Tok.ring a e (repo1.indexOf e + 1)) = 1 := by
    intro a e ha he hT
    have hm : (a, e) ∈ (ringsOf toks).map (fun t => (t.1, t.2.1)) :=
      hpairs.mem_iff.mpr (mem_ringPairs.mpr ⟨ha, he, hT⟩)
    rw [List.mem_map] at hm
    obtain ⟨t, ht, hte⟩ := hm
    obtain ⟨t1, t2, t3⟩ := t
    simp only [Prod.mk.injEq] at hte
    obtain ⟨h1, h2⟩ := hte
    subst h1 h2
    have := (hok _ ht).2
    simp only at this
    rw [this] at ht
    exact count_ring_eq_one hrnd (mem_ringsOf.mp ht)
  constructor
  · intro e he hT hend
    obtain ⟨h1, h2, _, h3, h4⟩ := hc.both_ends hwf he hend
    exact ⟨hone _ e h1 h3 hT, hone _ e h2 h4 hT⟩
  · intro x e m hx
    have ht : (x, e, m) ∈ ringsOf toks := mem_ringsOf.mpr hx
    have hp : (x, e) ∈ (ringsOf toks).map (fun t => (t.1, t.2.1)) :=
      List.mem_map.mpr ⟨(x, e, m), ht, rfl⟩
    obtain ⟨h1, h2, h3⟩ := mem_ringPairs.mp (hpairs.mem_iff.mp hp)
    obtain ⟨h4, h5⟩ := hok _ ht
    have hxV := hV x h1
    refine ⟨((hwf.2.2.2 x hxV).2 e h2).1, h3, h1, ?_, h4, h5⟩
    rcases hwf.end_of_mem hxV h2 with h | h
    · exact Or.inl h.symm
    · exact Or.inr h.symm

/-- The tree edges of a component: no duplicates, one less than vertices, each an
edge of the graph between vertices of the component. -/
theorem IsComponentResult.tree_edges {g : Graph} (hwf : g.WF) {root : Vertex}
    {r : SpanningResult} (hc : IsComponentResult g root r) :
    r.edges.Nodup ∧ r.edges.length + 1 = r.vertexes.length ∧
      ∀ e ∈ r.edges, e ∈ g.edges ∧ (g.getVertexes e).1 ∈ r.vertexes ∧
        (g.getVertexes e).2 ∈ r.vertexes := by
  obtain ⟨inner, hri, hT, hroot, hnd, hV, _⟩ := hc
  subst hri
  have hVi : ∀ x ∈ inner.vertexes, x ∈ g.vertexes :=
    fun x hx => hV x (List.mem_cons_of_mem _ hx)
  refine ⟨hT.edges_nodup hwf hroot hVi hnd, ?_, ?_⟩
  · have := hT.length_edges
    simp only [withRoot, List.length_cons]
    omega
  · intro e he
    obtain ⟨h1, h2, h3, _⟩ := hT.edge_ends hwf hroot hVi e he
    exact ⟨h1, h2, h3⟩

theorem length_filter_add_length_filter_not {α : Type} (p : α → Bool) (l : List α) :
    (l.filter p).length + (l.filter (fun a => !p a)).length = l.length := by
  induction l with
  | nil => rfl
  | cons a l ih =>
    cases h : p a <;> simp [List.filter_cons, h] <;> omega

theorem length_filter_mem_eq {l A : List Edge} (hA : A.Nodup) (hl : l.Nodup)
    (hsub : ∀ e ∈ A, e ∈ l) : (l.filter (fun e => e ∈ A)).length = A.length := by
  apply List.Perm.length_eq
  rw [List.perm_ext_iff_of_nodup (hl.filter _) hA]
  intro e
  rw [List.mem_filter]
  constructor
  · rintro ⟨_, h⟩
    simpa using h
  · intro h
    exact ⟨hsub e h, by simpa using h⟩

/-- The number of distinct closure numbers in the output of a component. -/
theorem component_ring_count (env : WriterEnv) (hwf : env.graph.WF) {root : Vertex}
    {r : SpanningResult} (hc : IsComponentResult env.graph root r)
    {repo : List Edge} {toks : List Tok} {repo1 : List Edge}
    (hpost : WritePost env r.edges r.vertexes repo toks repo1) :
    ((ringsOf toks).map (fun t => t.2.2)).dedup.length + r.vertexes.length
      = (env.graph.edges.filter (fun e => (env.graph.getVertexes e).1 ∈ r.vertexes)).length
        + 1 := by
  obtain ⟨h1, h2⟩ := component_ring_tokens env hwf hc hpost
  obtain ⟨hTnd, hTlen, hTe⟩ := hc.tree_edges hwf
  have hEnd : (env.graph.edges.filter
      (fun e => decide ((env.graph.getVertexes e).1 ∈ r.vertexes))).Nodup :=
    hwf.2.1.filter _
  -- the non-tree edges of the component
  have hYmem : ∀ e, e ∈ (env.graph.edges.filter
      (fun e => decide ((env.graph.getVertexes e).1 ∈ r.vertexes))).filter
        (fun e => !decide (e ∈ r.edges)) ↔
      e ∈ env.graph.edges ∧ (env.graph.getVertexes e).1 ∈ r.vertexes ∧ e ∉ r.edges := by
    intro e
    simp only [List.mem_filter, decide_eq_true_eq, Bool.not_eq_true', decide_eq_false_iff_not]
    tauto
  have hYtok : ∀ e, e ∈ (env.graph.edges.filter
      (fun e => decide ((env.graph.getVertexes e).1 ∈ r.vertexes))).filter
        (fun e => !decide (e ∈ r.edges)) →
      Tok.ring (env.graph.getVertexes e).1 e (repo1.indexOf e + 1) ∈ toks := by
    intro e he
    obtain ⟨g1, g2, g3⟩ := (hYmem e).mp he
    have := (h1 e g1 g3 (Or.inl g2)).1
    exact List.count_pos_iff.mp (by omega)
  have hperm : ((ringsOf toks).map (fun t => t.2.2)).dedup.Perm
      (((env.graph.edges.filter
        (fun e => decide ((env.graph.getVertexes e).1 ∈ r.vertexes))).filter
          (fun e => !decide (e ∈ r.edges))).map (fun e => repo1.indexOf e + 1)) := by
    rw [List.perm_ext_iff_of_nodup (List.nodup_dedup _)]
    · intro n
      rw [List.mem_dedup, List.mem_map, List.mem_map]
      constructor
      · rintro ⟨t, ht, htn⟩
        obtain ⟨x, e, m⟩ := t
        simp only at htn
        subst htn
        obtain ⟨g1, g2, g3, g4, _, g6⟩ := h2 x e m (mem_ringsOf.mp ht)
        have hend : (env.graph.getVertexes e).1 ∈ r.vertexes ∨
            (env.graph.getVertexes e).2 ∈ r.vertexes := by
          rcases g4 with h | h
          · left; rw [← h]; exact g3
          · right; rw [← h]; exact g3
        exact ⟨e, (hYmem e).mpr ⟨g1, (hc.both_ends hwf g1 hend).1, g2⟩, g6.symm⟩
      · rintro ⟨e, he, hen⟩
        exact ⟨_, mem_ringsOf.mpr (hYtok e he), hen⟩
    · refine List.Nodup.map_on ?_ (hEnd.filter _)
      intro a ha b hb hab
      obtain ⟨_, _, _, _, ga, _⟩ := h2 _ a _ (hYtok a ha)
      obtain ⟨_, _, _, _, gb, _⟩ := h2 _ b _ (hYtok b hb)
      exact (List.indexOf_inj ga gb).mp (Nat.succ_injective hab)
  have hlen1 := hperm.length_eq
  rw [List.length_map] at hlen1
  have hlen2 := length_filter_add_length_filter_not (fun e => decide (e ∈ r.edges))
    (env.graph.edges.filter (fun e => decide ((env.graph.getVertexes e).1 ∈ r.vertexes)))
  have hlen3 := length_filter_mem_eq hTnd hEnd (fun e he =>
    List.mem_filter.mpr ⟨(hTe e he).1, by simpa using (hTe e he).2.1⟩)
  omega

/-! ## All components together -/

/-- The loop of `writeStructFragment` over components that are each a component
result: it returns, and the registry grows by the edges that lie at a vertex of a
component without being a tree edge of this component. -/
theorem writeTrees_spec (env : WriterEnv) (hwf : env.graph.WF) :
    ∀ (rs : List SpanningResult) (first : Bool) (result : List Tok) (repo : List Edge),
      (∀ r ∈ rs, ∃ root, IsComponentResult env.graph root r) →
      ∃ toks repo1, writeTrees env rs first result repo = some (toks, repo1) ∧
        (repo.Nodup → repo1.Nodup) ∧
        ∀ e, e ∈ repo1 ↔ e ∈ repo ∨
          ∃ r ∈ rs, ∃ x ∈ r.vertexes, e ∈ env.graph.getEdges x ∧ e ∉ r.edges := by
  intro rs
  induction rs with
  | nil =>
    intro first result repo _
    exact ⟨result, repo, rfl, id, fun e => by simp⟩
  | cons r rest ih =>
    intro first result repo hall
    obtain ⟨root, hc⟩ := hall r (List.mem_cons_self _ _)
    have hhead : r.longestPath.vertexes.head? = some root := by
      obtain ⟨inner, hri, hT, _⟩ := hc
      rw [hri]
      exact hT.longestPath_head
    obtain ⟨tl, htl⟩ := List.head?_eq_some_iff.mp hhead
    obtain ⟨part, repo1, hw, hpost⟩ := writeMolVertex_component env hwf hc repo
    obtain ⟨_, _, _, _, hmem, hnd, _⟩ := hpost
    obtain ⟨toks, repo2, hrun, hnd2, hmem2⟩ :=
      ih false (if first then part else result ++ [Tok.fake] ++ part) repo1
        (fun r1 hr1 => hall r1 (List.mem_cons_of_mem _ hr1))
    refine ⟨toks, repo2, ?_, fun h => hnd2 (hnd h), ?_⟩
    · simp only [writeTrees, htl, hw]
      exact hrun
    · intro e
      rw [hmem2, hmem]
      simp only [List.mem_cons, exists_eq_or_imp]
      exact or_assoc

theorem length_flatMap_edges_add (rs : List SpanningResult)
    (h : ∀ r ∈ rs, r.edges.length + 1 = r.vertexes.length) :
    (rs.flatMap (fun r => r.edges)).length + rs.length
      = (rs.flatMap (fun r => r.vertexes)).length := by
  induction rs with
  | nil => rfl
  | cons r rest ih =>
    have h1 := h r (List.mem_cons_self _ _)
    have h2 := ih (fun r1 hr1 => h r1 (List.mem_cons_of_mem _ hr1))
    simp only [List.flatMap_cons, List.length_append, List.length_cons]
    omega

/-- Counting the edges outside the spanning forest: as many as the cyclomatic
number `|E| - |V| + c` of the graph. -/
theorem forest_ring_count (g : Graph) (hwf : g.WF) (rs : List SpanningResult)
    (hall : ∀ r ∈ rs, ∃ root, IsComponentResult g root r)
    (hpw : rs.Pairwise (fun r1 r2 => ∀ x, x ∈ r1.vertexes → x ∉ r2.vertexes))
    (hcov : ∀ x ∈ g.vertexes, ∃ r ∈ rs, x ∈ r.vertexes)
    (repo : List Edge) (hnd : repo.Nodup)
    (hmem : ∀ e, e ∈ repo ↔
      ∃ r ∈ rs, ∃ x ∈ r.vertexes, e ∈ g.getEdges x ∧ e ∉ r.edges) :
    repo.length + g.vertexes.length = g.edges.length + rs.length := by
  have hsym : Symmetric (fun r1 r2 : SpanningResult =>
      ∀ x, x ∈ r1.vertexes → x ∉ r2.vertexes) :=
    fun r1 r2 h x hx2 hx1 => h x hx1 hx2
  have hsame : ∀ r1 ∈ rs, ∀ r2 ∈ rs, ∀ x, x ∈ r1.vertexes → x ∈ r2.vertexes → r1 = r2 := by
    intro r1 h1 r2 h2 x hx1 hx2
    by_contra hne
    exact hpw.forall hsym h1 h2 hne x hx1 hx2
  have hinfo : ∀ r ∈ rs, r.vertexes.Nodup ∧ (∀ x ∈ r.vertexes, x ∈ g.vertexes) ∧
      r.edges.Nodup ∧ r.edges.length + 1 = r.vertexes.length ∧
      ∀ e ∈ r.edges, e ∈ g.edges ∧ (g.getVertexes e).1 ∈ r.vertexes ∧
        (g.getVertexes e).2 ∈ r.vertexes := by
    intro r hr
    obtain ⟨root, hc⟩ := hall r hr
    obtain ⟨a, b, c⟩ := hc.tree_edges hwf
    obtain ⟨_, _, _, _, hn, hV, _⟩ := hc
    exact ⟨hn, hV, a, b, c⟩
  -- the vertices
  have hV : (rs.flatMap (fun r => r.vertexes)).Perm g.vertexes := by
    rw [List.perm_ext_iff_of_nodup _ hwf.1]
    · intro x
      rw [List.mem_flatMap]
      constructor
      · rintro ⟨r, hr, hx⟩
        exact (hinfo r hr).2.1 x hx
      · exact fun hx => hcov x hx
    · rw [List.nodup_flatMap]
      refine ⟨fun r hr => (hinfo r hr).1, hpw.imp ?_⟩
      intro r1 r2 h
      exact List.disjoint_left.mpr (fun x hx => h x hx)
  -- the tree edges
  have hA : (rs.flatMap (fun r => r.edges)).Nodup := by
    rw [List.nodup_flatMap]
    refine ⟨fun r hr => (hinfo r hr).2.2.1, ?_⟩
    refine ((List.Pairwise.and_mem.mp hpw).imp ?_)
    rintro r1 r2 ⟨h1, h2, h⟩
    refine List.disjoint_left.mpr (fun e he1 he2 => ?_)
    exact h _ ((hinfo r1 h1).2.2.2.2 e he1).2.1 ((hinfo r2 h2).2.2.2.2 e he2).2.1
  have hAsub : ∀ e ∈ rs.flatMap (fun r => r.edges), e ∈ g.edges := by
    intro e he
    obtain ⟨r, hr, her⟩ := List.mem_flatMap.mp he
    exact ((hinfo r hr).2.2.2.2 e her).1
  -- the registry
  have hR : repo.Perm (g.edges.filter
      (fun e => !decide (e ∈ rs.flatMap (fun r => r.edges)))) := by
    rw [List.perm_ext_iff_of_nodup hnd (hwf.2.1.filter _)]
    intro e
    rw [hmem, List.mem_filter]
    simp only [Bool.not_eq_true', decide_eq_false_iff_not, List.mem_flatMap, not_exists,
      not_and]
    constructor
    · rintro ⟨r, hr, x, hx, hex, hne⟩
      have hxg := (hinfo r hr).2.1 x hx
      have heg := ((hwf.2.2.2 x hxg).2 e hex).1
      refine ⟨heg, ?_⟩
      intro r1 hr1 he1
      obtain ⟨_, e1, e2⟩ := (hinfo r1 hr1).2.2.2.2 e he1
      have hx1 : x ∈ r1.vertexes := by
        rcases hwf.end_of_mem hxg hex with h | h
        · rw [← h]; exact e1
        · rw [← h]; exact e2
      have := hsame r hr r1 hr1 x hx hx1
      subst this
      exact hne he1
    · rintro ⟨heg, hne⟩
      obtain ⟨_, h1, _, h3, _⟩ := hwf.2.2.1 e heg
      obtain ⟨r, hr, hx⟩ := hcov _ h1
      exact ⟨r, hr, _, hx, h3, hne r hr⟩
  have l1 := hV.length_eq
  have l2 := hR.length_eq
  have l3 := length_filter_add_length_filter_not
    (fun e => decide (e ∈ rs.flatMap (fun r => r.edges))) g.edges
  have l4 := length_filter_mem_eq hA hwf.2.1 hAsub
  have l5 := length_flatMap_edges_add rs (fun r hr => (hinfo r hr).2.2.2.1)
  omega

/-! ## The direction map -/

theorem lookup_mapSet (map : MapEx) (key : Nat) (value : String) (k : Nat) :
    (mapSet map key value).lookup k = if k = key then some value else map.lookup k := by
  unfold mapSet
  rw [List.lookup_cons]
  by_cases h : k = key
  · simp [h]
  · have hb : (k == key) = false := by simpa using h
    simp [h, hb]

theorem mapHas_eq_false {map : MapEx} {k : Nat} : mapHas map k = false ↔ map.lookup k = none := by
  unfold mapHas
  cases map.lookup k <;> simp

theorem mapHas_eq_true {map : MapEx} {k : Nat} :
    mapHas map k = true ↔ ∃ v, map.lookup k = some v := by
  unfold mapHas
  cases map.lookup k <;> simp

/-- The initial direction symbols of a bond with a parity. -/
theorem initialDirectionSymbols_of_parity (bond : Connector) (hpar : bond.parity ≠ 0) :
    getStereoDoubleBondInitialDirectionSymbols bond
      = ("/", if bond.parity = StereoParity.EVEN then "/" else "\\") := by
  unfold getStereoDoubleBondInitialDirectionSymbols
  simp only [hpar, if_false]
  by_cases h : bond.parity = StereoParity.EVEN <;> simp [h, SMARTS.DIRECTION_BOND_SYMBOLS]

/-- One pass of the loop never changes an entry the map holds. -/
theorem stereoBondStep_preserves (refs : Connector → Nat × Nat) (map : MapEx)
    (connector : Connector) (k : Nat) (v : String) (h : map.lookup k = some v) :
    (stereoBondStep refs map connector).lookup k = some v := by
  unfold stereoBondStep
  simp only
  split
  · by_cases h0 : mapHas map (refs connector).1 = true <;>
      by_cases h1 : mapHas map (refs connector).2 = true
    · simp [h0, h1, h]
    · have hk : k ≠ (refs connector).2 := by
        rintro rfl
        rw [Bool.not_eq_true, mapHas_eq_false] at h1
        rw [h1] at h; cases h
      simp [h0, h1, lookup_mapSet, hk, h]
    · have hk : k ≠ (refs connector).1 := by
        rintro rfl
        rw [Bool.not_eq_true, mapHas_eq_false] at h0
        rw [h0] at h; cases h
      simp [h0, h1, lookup_mapSet, hk, h]
    · have hk : k ≠ (refs connector).1 := by
        rintro rfl
        rw [Bool.not_eq_true, mapHas_eq_false] at h0
        rw [h0] at h; cases h
      have hk1 : k ≠ (refs connector).2 := by
        rintro rfl
        rw [Bool.not_eq_true, mapHas_eq_false] at h1
        rw [h1] at h; cases h
      simp [h0, h1, lookup_mapSet, hk, hk1, h]
  · exact h

theorem getInvertBondDirectionSymbol_vals (s : String) :
    getInvertBondDirectionSymbol s = "/" ∨ getInvertBondDirectionSymbol s = "\\" := by
  unfold getInvertBondDirectionSymbol
  split
  · left; rfl
  · right; rfl

/-- One pass of the loop for a bond with a parity stores direction symbols only. -/
theorem stereoBondStep_vals (refs : Connector → Nat × Nat) (map : MapEx)
    (connector : Connector) (hpar : connector.parity ≠ 0) (hv : DirVals map) :
    DirVals (stereoBondStep refs map connector) := by
  have hd := initialDirectionSymbols_of_parity connector hpar
  have hd1 : (getStereoDoubleBondInitialDirectionSymbols connector).1 = "/" := by rw [hd]
  have hd2 : (getStereoDoubleBondInitialDirectionSymbols connector).2 = "/" ∨
      (getStereoDoubleBondInitialDirectionSymbols connector).2 = "\\" := by
    rw [hd]
    by_cases h : connector.parity = StereoParity.EVEN <;> simp [h]
  have hval : ∀ (b : Prop) [Decidable b] (s : String), (s = "/" ∨ s = "\\") →
      ((if b then getInvertBondDirectionSymbol s else s) = "/" ∨
        (if b then getInvertBondDirectionSymbol s else s) = "\\") := by
    intro b _ s hs
    split
    · exact getInvertBondDirectionSymbol_vals s
    · exact hs
  intro k v hk
  unfold stereoBondStep at hk
  simp only at hk
  split at hk
  · split at hk <;> split at hk
    · exact hv k v hk
    · rw [lookup_mapSet] at hk
      split at hk
      · cases hk
        exact hval _ _ (Or.inl hd1)
      · exact hv k v hk
    · rw [lookup_mapSet] at hk
      split at hk
      · cases hk
        exact hval _ _ hd2
      · exact hv k v hk
    · rw [lookup_mapSet] at hk
      split at hk
      · cases hk
        exact hval _ _ hd2
      · rw [lookup_mapSet] at hk
        split at hk
        · cases hk
          exact hval _ _ (Or.inl hd1)
        · exact hv k v hk
  · exact hv k v hk

theorem prepareLoop_append (refs : Connector → Nat × Nat) :
    ∀ (a b : List Connector) (n : Nat) (map : MapEx),
      prepareLoop refs (a ++ b) n map
        = prepareLoop refs b (prepareLoop refs a n map).1 (prepareLoop refs a n map).2 := by
  intro a
  induction a with
  | nil => intro b n map; rfl
  | cons c a ih =>
    intro b n map
    simp only [List.cons_append, prepareLoop]
    split
    · exact ih _ _ _
    · exact ih _ _ _

/-- The loop never changes an entry the map holds, and never lowers the count. -/
theorem prepareLoop_preserves (refs : Connector → Nat × Nat) :
    ∀ (l : List Connector) (n : Nat) (map : MapEx),
      n ≤ (prepareLoop refs l n map).1 ∧
      ∀ k v, map.lookup k = some v → (prepareLoop refs l n map).2.lookup k = some v := by
  intro l
  induction l with
  | nil => intro n map; exact ⟨le_refl _, fun _ _ h => h⟩
  | cons c l ih =>
    intro n map
    simp only [prepareLoop]
    split
    · obtain ⟨h1, h2⟩ := ih (n + 1) (stereoBondStep refs map c)
      exact ⟨by omega, fun k v h => h2 k v (stereoBondStep_preserves refs map c k v h)⟩
    · exact ih n map

theorem prepareLoop_vals (refs : Connector → Nat × Nat) :
    ∀ (l : List Connector) (n : Nat) (map : MapEx), DirVals map →
      DirVals (prepareLoop refs l n map).2 := by
  intro l
  induction l with
  | nil => intro n map h; exact h
  | cons c l ih =>
    intro n map h
    simp only [prepareLoop]
    split
    · rename_i hpar
      exact ih _ _ (stereoBondStep_vals refs map c hpar h)
    · exact ih _ _ h

theorem dirVals_nil : DirVals [] := by
  intro k v h
  simp at h


/-- What one pass of the loop does for a bond with a parity and two different
reference connectors: afterwards the map holds both; their symbols agree with the
parity (equal for even, different otherwise) except when the map held both before
with exactly one of them different from the initial symbol; and when the map held
neither, the initial symbols are stored. -/
theorem stereoBondStep_spec (refs : Connector → Nat × Nat) (map : MapEx)
    (c : Connector) (hpar : c.parity ≠ 0) (hne : (refs c).1 ≠ (refs c).2)
    (hv : DirVals map) :
    ∃ a b, (stereoBondStep refs map c).lookup (refs c).1 = some a ∧
      (stereoBondStep refs map c).lookup (refs c).2 = some b ∧
      ((a = b ↔ c.parity = StereoParity.EVEN) ↔
        ¬ (mapHas map (refs c).1 = true ∧ mapHas map (refs c).2 = true ∧
            invertCountOf map (refs c) (getStereoDoubleBondInitialDirectionSymbols c) = 1)) ∧
      (mapHas map (refs c).1 = false → mapHas map (refs c).2 = false →
        a = "/" ∧ b = if c.parity = StereoParity.EVEN then "/" else "\\") := by
  have hd := initialDirectionSymbols_of_parity c hpar
  have hne1 : (refs c).2 ≠ (refs c).1 := Ne.symm hne
  unfold stereoBondStep invertCountOf mapHas
  rw [hd]
  cases h0 : map.lookup (refs c).1 with
  | none =>
    cases h1 : map.lookup (refs c).2 with
    | none =>
      by_cases he : c.parity = StereoParity.EVEN <;>
        simp [lookup_mapSet, hne, hne1, he, h0, h1]
    | some y =>
      rcases hv _ _ h1 with rfl | rfl <;>
        by_cases he : c.parity = StereoParity.EVEN <;>
          simp [lookup_mapSet, hne, hne1, he, h0, h1, getInvertBondDirectionSymbol,
            SMARTS.DIRECTION_BOND_SYMBOLS]
  | some x =>
    cases h1 : map.lookup (refs c).2 with
    | none =>
      rcases hv _ _ h0 with rfl | rfl <;>
        by_cases he : c.parity = StereoParity.EVEN <;>
          simp [lookup_mapSet, hne, hne1, he, h0, h1, getInvertBondDirectionSymbol,
            SMARTS.DIRECTION_BOND_SYMBOLS]
    | some y =>
      rcases hv _ _ h0 with rfl | rfl <;> rcases hv _ _ h1 with rfl | rfl <;>
        by_cases he : c.parity = StereoParity.EVEN <;>
          simp [he, h0, h1]

/-- With bond stereo not ignored and a bond with a parity in the connection table,
`_prepareStereoBondsInformation` returns the map the loop builds; the map after the
bond `c` holds what the pass for `c` stored. -/
theorem prepareStereoBondsInformation_eq (refs : Connector → Nat × Nat) (options : Options)
    (pre : List Connector) (c : Connector) (post : List Connector)
    (hopt : options.ignoreStereoBond = some false ∨
      (options.ignoreStereoBond = none ∧ options.ignoreStereo = false))
    (hpar : c.parity ≠ 0) :
    prepareStereoBondsInformation refs (pre ++ c :: post) options
      = some (prepareLoop refs (pre ++ c :: post) 0 []).2 ∧
    DirVals (prepareLoop refs pre 0 []).2 ∧
    ∀ k v, (stereoBondStep refs (prepareLoop refs pre 0 []).2 c).lookup k = some v →
      (prepareLoop refs (pre ++ c :: post) 0 []).2.lookup k = some v := by
  have hloop : prepareLoop refs (pre ++ c :: post) 0 []
      = prepareLoop refs post ((prepareLoop refs pre 0 []).1 + 1)
          (stereoBondStep refs (prepareLoop refs pre 0 []).2 c) := by
    rw [prepareLoop_append]
    simp only [prepareLoop, hpar, ne_eq, not_false_eq_true, if_true]
  refine ⟨?_, prepareLoop_vals refs pre 0 [] dirVals_nil, ?_⟩
  · have hcount : (prepareLoop refs (pre ++ c :: post) 0 []).1 ≠ 0 := by
      rw [hloop]
      have := (prepareLoop_preserves refs post ((prepareLoop refs pre 0 []).1 + 1)
        (stereoBondStep refs (prepareLoop refs pre 0 []).2 c)).1
      omega
    unfold prepareStereoBondsInformation
    rcases hopt with h | ⟨h1, h2⟩
    · simp [h, hcount]
    · simp [h1, h2, hcount]
  · intro k v h
    rw [hloop]
    exact (prepareLoop_preserves refs post _ _).2 k v h

/-! ## Claims about the ring closures of a component -/

/-- C2. On a well-formed graph, for every result of
`createGraphDepthSpanningTreesEx` and every state of the registry, writing the
component with `_writeMolVertex` from its root `longestPath.vertexes[0]`, with the
longest path as main chain and the edges of the result as tree edges, returns, and
in the output: every edge of the component that is not a tree edge has exactly one
ring-closure token in the text of each of its two (different) end vertices, both
with the same closure number, which is not 0, and no other ring-closure token; two
ring-closure tokens with the same number belong to the same edge; and every
ring-closure token belongs to a non-tree edge of the component. -/
theorem writeMolVertex_ringClosures (env : WriterEnv) (hwf : env.graph.WF)
    (startingVertex : Option Vertex) (flags : List Vertex) :
    ∃ rs flags1,
      createGraphDepthSpanningTreesEx env.graph startingVertex flags = some (rs, flags1) ∧
      ∀ r ∈ rs, ∃ root, r.longestPath.vertexes.head? = some root ∧
        ∀ repo : List Edge, ∃ toks repo1,
          writeMolVertex env r.vertexes.length root none r.longestPath.edges r.edges repo
            = some (toks, repo1) ∧
          (∀ e ∈ env.graph.edges, e ∉ r.edges →
            ((env.graph.getVertexes e).1 ∈ r.vertexes ∨
              (env.graph.getVertexes e).2 ∈ r.vertexes) →
            ∃ n, n ≠ 0 ∧
              toks.count (Tok.ring (env.graph.getVertexes e).1 e n) = 1 ∧
              toks.count (Tok.ring (env.graph.getVertexes e).2 e n) = 1 ∧
              (env.graph.getVertexes e).1 ≠ (env.graph.getVertexes e).2 ∧
              ∀ x m, Tok.ring x e m ∈ toks →
                (x = (env.graph.getVertexes e).1 ∨ x = (env.graph.getVertexes e).2) ∧ m = n) ∧
          (∀ x e n x1 e1 n1, Tok.ring x e n ∈ toks → Tok.ring x1 e1 n1 ∈ toks → n = n1 →
            e = e1) ∧
          (∀ x e n, Tok.ring x e n ∈ toks →
            e ∈ env.graph.edges ∧ e ∉ r.edges ∧ x ∈ r.vertexes) := by
  obtain ⟨rs, flags1, hrun, hall, _, _⟩ :=
    createGraphDepthSpanningTreesEx_spec env.graph hwf startingVertex flags
  refine ⟨rs, flags1, hrun, ?_⟩
  intro r hr
  obtain ⟨root, hc⟩ := hall r hr
  have hhead : r.longestPath.vertexes.head? = some root := by
    obtain ⟨inner, hri, hT, _⟩ := hc
    rw [hri]
    exact hT.longestPath_head
  refine ⟨root, hhead, ?_⟩
  intro repo
  obtain ⟨toks, repo1, hw, hpost⟩ := writeMolVertex_component env hwf hc repo
  obtain ⟨h1, h2⟩ := component_ring_tokens env hwf hc hpost
  refine ⟨toks, repo1, hw, ?_, ?_, ?_⟩
  · intro e he hT hend
    obtain ⟨c1, c2⟩ := h1 e he hT hend
    refine ⟨repo1.indexOf e + 1, Nat.succ_ne_zero _, c1, c2,
      (hc.both_ends hwf he hend).2.2.1, ?_⟩
    intro x m hx
    obtain ⟨_, _, _, g4, _, g6⟩ := h2 x e m hx
    exact ⟨g4, g6⟩
  · intro x e n x1 e1 n1 hx hx1 hn
    obtain ⟨_, _, _, _, g5, g6⟩ := h2 x e n hx
    obtain ⟨_, _, _, _, k5, k6⟩ := h2 x1 e1 n1 hx1
    rw [g6, k6] at hn
    exact (List.indexOf_inj g5 k5).mp (Nat.succ_injective hn)
  · intro x e n hx
    obtain ⟨g1, g2, g3, _⟩ := h2 x e n hx
    exact ⟨g1, g2, g3⟩

/-- Witness of C2: the example graph with a carbon atom on every vertex. -/
theorem writeMolVertex_ringClosures_witness :
    exampleEnv.graph.WF ∧
    ∃ rs flags1,
      createGraphDepthSpanningTreesEx exampleEnv.graph (some 4) [] = some (rs, flags1) ∧
      ∀ r ∈ rs, ∃ root, r.longestPath.vertexes.head? = some root ∧
        ∀ repo : List Edge, ∃ toks repo1,
          writeMolVertex exampleEnv r.vertexes.length root none r.longestPath.edges r.edges repo
            = some (toks, repo1) ∧
          (∀ e ∈ exampleEnv.graph.edges, e ∉ r.edges →
            ((exampleEnv.graph.getVertexes e).1 ∈ r.vertexes ∨
              (exampleEnv.graph.getVertexes e).2 ∈ r.vertexes) →
            ∃ n, n ≠ 0 ∧
              toks.count (Tok.ring (exampleEnv.graph.getVertexes e).1 e n) = 1 ∧
              toks.count (Tok.ring (exampleEnv.graph.getVertexes e).2 e n) = 1 ∧
              (exampleEnv.graph.getVertexes e).1 ≠ (exampleEnv.graph.getVertexes e).2 ∧
              ∀ x m, Tok.ring x e m ∈ toks →
                (x = (exampleEnv.graph.getVertexes e).1 ∨
                  x = (exampleEnv.graph.getVertexes e).2) ∧ m = n) ∧
          (∀ x e n x1 e1 n1, Tok.ring x e n ∈ toks → Tok.ring x1 e1 n1 ∈ toks → n = n1 →
            e = e1) ∧
          (∀ x e n, Tok.ring x e n ∈ toks →
            e ∈ exampleEnv.graph.edges ∧ e ∉ r.edges ∧ x ∈ r.vertexes) :=
  ⟨by decide, writeMolVertex_ringClosures exampleEnv (by decide) (some 4) []⟩

/-! ## The cyclomatic number -/

/-- C3. On a well-formed graph, for every result of
`createGraphDepthSpanningTreesEx`: writing the component with `_writeMolVertex`
from its root, whatever the registry holds before, returns an output in which the
number of distinct closure numbers plus the number of vertices of the component
equals the number of edges of the graph between vertices of the component plus 1;
and the loop of `writeStructFragment` over all results, started with an empty
registry, returns with a registry whose length plus the number of vertices of the
graph equals the number of edges of the graph plus the number of results. -/
theorem writeTrees_cyclomatic (env : WriterEnv) (hwf : env.graph.WF)
    (startingVertex : Option Vertex) (flags : List Vertex) :
    ∃ rs flags1,
      createGraphDepthSpanningTreesEx env.graph startingVertex flags = some (rs, flags1) ∧
      (∀ r ∈ rs, ∃ root, r.longestPath.vertexes.head? = some root ∧
        ∀ repo : List Edge, ∃ toks repo1,
          writeMolVertex env r.vertexes.length root none r.longestPath.edges r.edges repo
            = some (toks, repo1) ∧
          ((ringsOf toks).map (fun t => t.2.2)).dedup.length + r.vertexes.length
            = (env.graph.edges.filter (fun e =>
                decide ((env.graph.getVertexes e).1 ∈ r.vertexes ∧
                  (env.graph.getVertexes e).2 ∈ r.vertexes))).length + 1) ∧
      ∃ toks repo, writeTrees env rs true [] [] = some (toks, repo) ∧
        repo.length + env.graph.vertexes.length = env.graph.edges.length + rs.length := by
  obtain ⟨rs, flags1, hrun, hall, hpw, hcov⟩ :=
    createGraphDepthSpanningTreesEx_spec env.graph hwf startingVertex flags
  refine ⟨rs, flags1, hrun, ?_, ?_⟩
  · intro r hr
    obtain ⟨root, hc⟩ := hall r hr
    have hhead : r.longestPath.vertexes.head? = some root := by
      obtain ⟨inner, hri, hT, _⟩ := hc
      rw [hri]
      exact hT.longestPath_head
    refine ⟨root, hhead, ?_⟩
    intro repo
    obtain ⟨toks, repo1, hw, hpost⟩ := writeMolVertex_component env hwf hc repo
    refine ⟨toks, repo1, hw, ?_⟩
    have hcount := component_ring_count env hwf hc hpost
    have hfil : env.graph.edges.filter (fun e =>
          decide ((env.graph.getVertexes e).1 ∈ r.vertexes ∧
            (env.graph.getVertexes e).2 ∈ r.vertexes))
        = env.graph.edges.filter
          (fun e => decide ((env.graph.getVertexes e).1 ∈ r.vertexes)) := by
      apply List.filter_congr
      intro e he
      by_cases h1 : (env.graph.getVertexes e).1 ∈ r.vertexes
      · have h2 := (hc.both_ends hwf he (Or.inl h1)).2.1
        simp [h1, h2]
      · simp [h1]
    rw [hfil]
    exact hcount
  · obtain ⟨toks, repo, hw, hnd, hmem⟩ := writeTrees_spec env hwf rs true [] [] hall
    refine ⟨toks, repo, hw, ?_⟩
    exact forest_ring_count env.graph hwf rs hall hpw hcov repo (hnd List.nodup_nil)
      (fun e => by simpa using hmem e)

/-- Witness of C3: the example graph (a triangle with a pendant vertex, and an
isolated vertex) with a carbon atom on every vertex. -/
theorem writeTrees_cyclomatic_witness :
    exampleEnv.graph.WF ∧
    ∃ rs flags1,
      createGraphDepthSpanningTreesEx exampleEnv.graph (some 4) [] = some (rs, flags1) ∧
      (∀ r ∈ rs, ∃ root, r.longestPath.vertexes.head? = some root ∧
        ∀ repo : List Edge, ∃ toks repo1,
          writeMolVertex exampleEnv r.vertexes.length root none r.longestPath.edges r.edges
            repo = some (toks, repo1) ∧
          ((ringsOf toks).map (fun t => t.2.2)).dedup.length + r.vertexes.length
            = (exampleEnv.graph.edges.filter (fun e =>
                decide ((exampleEnv.graph.getVertexes e).1 ∈ r.vertexes ∧
                  (exampleEnv.graph.getVertexes e).2 ∈ r.vertexes))).length + 1) ∧
      ∃ toks repo, writeTrees exampleEnv rs true [] [] = some (toks, repo) ∧
        repo.length + exampleEnv.graph.vertexes.length
          = exampleEnv.graph.edges.length + rs.length :=
  ⟨by decide, writeTrees_cyclomatic exampleEnv (by decide) (some 4) []⟩

/-! ## The visited flags and the roots of the results -/

theorem FlagsAgree.cons {g : Graph} {a b : List Vertex} (h : FlagsAgree g a b) (v : Vertex) :
    FlagsAgree g (v :: a) (v :: b) := by
  intro x hx
  simp only [List.mem_cons]
  rw [h x hx]

/-- The loop of `_doTravers` does the same from two flag states that agree on the
graph, when the recursive call does. -/
theorem traversEdges_agree (g : Graph)
    (recurse : Vertex → List Vertex → Option (SpanningResult × List Vertex))
    (hrec : ∀ nb vis1 vis2, nb ∈ g.vertexes → FlagsAgree g vis1 vis2 →
      ∀ r w1, recurse nb vis1 = some (r, w1) →
        ∃ w2, recurse nb vis2 = some (r, w2) ∧ FlagsAgree g w1 w2)
    (v : Vertex) :
    ∀ (es : List Edge) (st1 st2 out1 : TraversState),
      (∀ e ∈ es, g.getNeighborOnEdge v e ∈ g.vertexes) →
      st1.result = st2.result →
      st1.longestTargetNeighborEdge = st2.longestTargetNeighborEdge →
      FlagsAgree g st1.visited st2.visited →
      traversEdges g recurse v es st1 = some out1 →
      ∃ out2, traversEdges g recurse v es st2 = some out2 ∧ out1.result = out2.result ∧
        out1.longestTargetNeighborEdge = out2.longestTargetNeighborEdge ∧
        FlagsAgree g out1.visited out2.visited := by
  intro es
  induction es with
  | nil =>
    intro st1 st2 out1 _ h1 h2 h3 hrun
    simp only [traversEdges, Option.some.injEq] at hrun
    subst hrun
    exact ⟨st2, rfl, h1, h2, h3⟩
  | cons e rest ih =>
    intro st1 st2 out1 hnb h1 h2 h3 hrun
    have hn := hnb e (List.mem_cons_self _ _)
    have hrest : ∀ e ∈ rest, g.getNeighborOnEdge v e ∈ g.vertexes :=
      fun e he => hnb e (List.mem_cons_of_mem _ he)
    simp only [traversEdges] at hrun ⊢
    by_cases hv : g.getNeighborOnEdge v e ∈ st1.visited
    · have hv2 : g.getNeighborOnEdge v e ∈ st2.visited := (h3 _ hn).mp hv
      rw [if_pos hv] at hrun
      rw [if_pos hv2]
      exact ih st1 st2 out1 hrest h1 h2 h3 hrun
    · have hv2 : g.getNeighborOnEdge v e ∉ st2.visited := fun h => hv ((h3 _ hn).mpr h)
      rw [if_neg hv] at hrun
      rw [if_neg hv2]
      cases hr : recurse (g.getNeighborOnEdge v e) (g.getNeighborOnEdge v e :: st1.visited) with
      | none => rw [hr] at hrun; cases hrun
      | some p =>
        obtain ⟨r, w1⟩ := p
        obtain ⟨w2, hr2, hag⟩ := hrec _ _ _ hn (h3.cons (g.getNeighborOnEdge v e)) r w1 hr
        rw [hr] at hrun
        rw [hr2]
        simp only at hrun ⊢
        rw [← h1, ← h2]
        split at hrun
        · rename_i hc
          rw [if_pos hc]
          refine ih _ _ out1 hrest ?_ ?_ ?_ hrun
          · rfl
          · rfl
          · exact hag
        · rename_i hc
          rw [if_neg hc]
          refine ih _ _ out1 hrest ?_ ?_ ?_ hrun
          · rfl
          · rfl
          · exact hag

/-- `_doTravers` returns the same result from two flag states that agree on the
vertices of the graph. -/
theorem doTravers_agree (g : Graph) (hwf : g.WF) :
    ∀ (fuel : Nat) (v : Vertex) (vis1 vis2 : List Vertex), v ∈ g.vertexes →
      FlagsAgree g vis1 vis2 →
      ∀ r w1, doTravers g fuel v vis1 = some (r, w1) →
        ∃ w2, doTravers g fuel v vis2 = some (r, w2) ∧ FlagsAgree g w1 w2 := by
  intro fuel
  induction fuel with
  | zero =>
    intro v vis1 vis2 _ _ r w1 h
    simp [doTravers] at h
  | succ fuel ih =>
    intro v vis1 vis2 hv hag r w1 hrun
    have hnb : ∀ e ∈ g.getEdges v, g.getNeighborOnEdge v e ∈ g.vertexes :=
      fun e he => (hwf.neighbor hv he).1
    simp only [doTravers] at hrun ⊢
    by_cases hvis : v ∈ vis1
    · have hvis2 : v ∈ vis2 := (hag v hv).mp hvis
      rw [if_pos hvis] at hrun
      rw [if_pos hvis2]
      cases ht : traversEdges g (doTravers g fuel) v (g.getEdges v)
          { result := { vertexes := [], edges := [],
                        longestPath := { vertexes := [], edges := [], length := 0 } },
            longestTargetNeighborEdge := none, visited := vis1 } with
      | none => rw [ht] at hrun; cases hrun
      | some out1 =>
        obtain ⟨out2, ht2, e1, e2, e3⟩ := traversEdges_agree g (doTravers g fuel) ih v
          (g.getEdges v)
          { result := { vertexes := [], edges := [],
                        longestPath := { vertexes := [], edges := [], length := 0 } },
            longestTargetNeighborEdge := none, visited := vis1 }
          { result := { vertexes := [], edges := [],
                        longestPath := { vertexes := [], edges := [], length := 0 } },
            longestTargetNeighborEdge := none, visited := vis2 } out1 hnb rfl rfl hag ht
        rw [ht] at hrun
        rw [ht2]
        simp only [Option.some.injEq, Prod.mk.injEq] at hrun ⊢
        obtain ⟨hr, hw⟩ := hrun
        subst hr hw
        rw [← e1, ← e2]
        exact ⟨_, ⟨rfl, rfl⟩, e3⟩
    · have hvis2 : v ∉ vis2 := fun h => hvis ((hag v hv).mpr h)
      rw [if_neg hvis] at hrun
      rw [if_neg hvis2]
      cases ht : traversEdges g (doTravers g fuel) v (g.getEdges v)
          { result := { vertexes := [v], edges := [],
                        longestPath := { vertexes := [], edges := [], length := 0 } },
            longestTargetNeighborEdge := none, visited := v :: vis1 } with
      | none => rw [ht] at hrun; cases hrun
      | some out1 =>
        obtain ⟨out2, ht2, e1, e2, e3⟩ := traversEdges_agree g (doTravers g fuel) ih v
          (g.getEdges v)
          { result := { vertexes := [v], edges := [],
                        longestPath := { vertexes := [], edges := [], length := 0 } },
            longestTargetNeighborEdge := none, visited := v :: vis1 }
          { result := { vertexes := [v], edges := [],
                        longestPath := { vertexes := [], edges := [], length := 0 } },
            longestTargetNeighborEdge := none, visited := v :: vis2 } out1 hnb rfl rfl
          (hag.cons v) ht
        rw [ht] at hrun
        rw [ht2]
        simp only [Option.some.injEq, Prod.mk.injEq] at hrun ⊢
        obtain ⟨hr, hw⟩ := hrun
        subst hr hw
        rw [← e1, ← e2]
        exact ⟨_, ⟨rfl, rfl⟩, e3⟩

theorem spanningLoop_nil (g : Graph) (startingVertex : Option Vertex) (fuel : Nat)
    (visited : List Vertex) (result : List SpanningResult) :
    spanningLoop g startingVertex fuel [] visited result = some (result, visited) := by
  cases fuel <;> simp [spanningLoop]

/-- The `while` loop of `createGraphDepthSpanningTreesEx` returns the same results
from two flag states that agree on the vertices of the graph. -/
theorem spanningLoop_agree (g : Graph) (hwf : g.WF) (startingVertex : Option Vertex) :
    ∀ (fuel : Nat) (remaining vis1 vis2 : List Vertex) (acc res : List SpanningResult)
      (w1 : List Vertex),
      (∀ x ∈ remaining, x ∈ g.vertexes) → FlagsAgree g vis1 vis2 →
      spanningLoop g startingVertex fuel remaining vis1 acc = some (res, w1) →
      ∃ w2, spanningLoop g startingVertex fuel remaining vis2 acc = some (res, w2) ∧
        FlagsAgree g w1 w2 := by
  intro fuel
  induction fuel with
  | zero =>
    intro remaining vis1 vis2 acc res w1 _ hag hrun
    cases remaining with
    | nil =>
      rw [spanningLoop_nil] at hrun ⊢
      simp only [Option.some.injEq, Prod.mk.injEq] at hrun
      obtain ⟨h1, h2⟩ := hrun
      subst h1 h2
      exact ⟨vis2, rfl, hag⟩
    | cons first rest => simp [spanningLoop] at hrun
  | succ fuel ih =>
    intro remaining vis1 vis2 acc res w1 hrem hag hrun
    cases remaining with
    | nil =>
      rw [spanningLoop_nil] at hrun ⊢
      simp only [Option.some.injEq, Prod.mk.injEq] at hrun
      obtain ⟨h1, h2⟩ := hrun
      subst h1 h2
      exact ⟨vis2, rfl, hag⟩
    | cons first rest =>
      rw [spanningLoop_succ] at hrun ⊢
      cases hd : doTravers g (g.vertexes.length + 1)
          (currVertexOf startingVertex first rest) vis1 with
      | none => rw [hd] at hrun; cases hrun
      | some p =>
        obtain ⟨r, v1⟩ := p
        obtain ⟨v2, hd2, hag2⟩ := doTravers_agree g hwf _ _ vis1 vis2
          (hrem _ (currVertexOf_mem startingVertex first rest)) hag r v1 hd
        rw [hd] at hrun
        rw [hd2]
        simp only [Option.some_bind] at hrun ⊢
        exact ih _ v1 v2 _ res w1
          (fun x hx => hrem x (List.mem_filter.mp hx).1) hag2 hrun

/-- The result of `createGraphDepthSpanningTreesEx` does not depend on the flags the
vertices held beforehand. -/
theorem createGraphDepthSpanningTreesEx_agree (g : Graph) (hwf : g.WF)
    (startingVertex : Option Vertex) (flagsA flagsB : List Vertex) :
    ∃ rs wA wB, createGraphDepthSpanningTreesEx g startingVertex flagsA = some (rs, wA) ∧
      createGraphDepthSpanningTreesEx g startingVertex flagsB = some (rs, wB) ∧
      FlagsAgree g wA wB := by
  obtain ⟨rs, wA, hA, _⟩ := createGraphDepthSpanningTreesEx_spec g hwf startingVertex flagsA
  have hag : FlagsAgree g (flagsA.filter (fun v => v ∉ g.vertexes))
      (flagsB.filter (fun v => v ∉ g.vertexes)) := by
    intro x hx
    simp [List.mem_filter, hx]
  unfold createGraphDepthSpanningTreesEx at hA ⊢
  obtain ⟨wB, hB, hag2⟩ := spanningLoop_agree g hwf startingVertex _ _ _ _ _ _ _
    (fun x hx => hx) hag hA
  exact ⟨rs, wA, wB, hA, hB, hag2⟩

theorem doTravers_head (g : Graph) (fuel : Nat) (v : Vertex) (vis : List Vertex)
    (r : SpanningResult) (w : List Vertex) (h : doTravers g fuel v vis = some (r, w)) :
    r.longestPath.vertexes.head? = some v := by
  cases fuel with
  | zero => simp [doTravers] at h
  | succ fuel =>
    simp only [doTravers] at h
    split at h
    · cases h
    · simp only [Option.some.injEq, Prod.mk.injEq] at h
      obtain ⟨h1, _⟩ := h
      subst h1
      rfl

/-- The roots of the results of the `while` loop: each result is rooted at the
vertex chosen among the vertices that remain, which are those not in an earlier
result. -/
theorem spanningLoop_roots (g : Graph) (startingVertex : Option Vertex) :
    ∀ (fuel : Nat) (remaining vis : List Vertex) (acc res : List SpanningResult)
      (w : List Vertex),
      spanningLoop g startingVertex fuel remaining vis acc = some (res, w) →
      ∃ rs, res = acc ++ rs ∧
        ∀ pre r post, rs = pre ++ r :: post →
          r.longestPath.vertexes.head?
            = rootAt startingVertex
                (remaining.filter (fun v => v ∉ pre.flatMap (fun p => p.vertexes))) := by
  intro fuel
  induction fuel with
  | zero =>
    intro remaining vis acc res w hrun
    cases remaining with
    | nil =>
      rw [spanningLoop_nil] at hrun
      simp only [Option.some.injEq, Prod.mk.injEq] at hrun
      refine ⟨[], by simp [hrun.1], ?_⟩
      intro pre r post h
      simp at h
    | cons first rest => simp [spanningLoop] at hrun
  | succ fuel ih =>
    intro remaining vis acc res w hrun
    cases remaining with
    | nil =>
      rw [spanningLoop_nil] at hrun
      simp only [Option.some.injEq, Prod.mk.injEq] at hrun
      refine ⟨[], by simp [hrun.1], ?_⟩
      intro pre r post h
      simp at h
    | cons first rest =>
      rw [spanningLoop_succ] at hrun
      cases hd : doTravers g (g.vertexes.length + 1)
          (currVertexOf startingVertex first rest) vis with
      | none => rw [hd] at hrun; cases hrun
      | some p =>
        obtain ⟨r0, v1⟩ := p
        rw [hd] at hrun
        simp only [Option.some_bind] at hrun
        obtain ⟨rs, hres, hroots⟩ := ih _ _ _ _ _ hrun
        refine ⟨r0 :: rs, by simp [hres], ?_⟩
        intro pre r post hsplit
        cases pre with
        | nil =>
          simp only [List.nil_append, List.cons.injEq] at hsplit
          obtain ⟨h1, _⟩ := hsplit
          subst h1
          rw [doTravers_head g _ _ _ _ _ hd]
          simp [rootAt]
        | cons p0 pre1 =>
          simp only [List.cons_append, List.cons.injEq] at hsplit
          obtain ⟨h1, h2⟩ := hsplit
          subst h1
          rw [hroots pre1 r post h2, List.filter_filter]
          congr 1
          apply List.filter_congr
          intro x _
          simp only [List.flatMap_cons, List.mem_append, not_or, Bool.decide_and,
            Bool.and_comm]

/-! ## Claims about the bond symbol and the hydrogen count -/

/-- C19. `_outputConnectorStr` returns the override pattern verbatim when the
connector has one; otherwise, for a covalent bond, the empty string when the bond is
in the aromatic connector set, and else `=`, `#` or `$` for the bond order double,
triple or quadruple, `-` for any other order when both connected nodes are in the
aromatic node set, and the empty string for any other order otherwise, each of these
followed by the direction symbol of the bond when the stereo map holds one; and `.`
for every connector that is not a covalent bond. -/
theorem outputConnectorStr_spec (connector : Connector) (connectedNode1 connectedNode2 : Nat)
    (aromaticNodes aromaticConnectors : List Nat) (stereoDirectionMap : Option MapEx) :
    (∀ pattern, connector.smarts = some pattern → pattern ≠ "" →
      outputConnectorStr connector connectedNode1 connectedNode2 aromaticNodes
        aromaticConnectors stereoDirectionMap = pattern) ∧
    ((connector.smarts = none ∨ connector.smarts = some "") →
      (connector.isBond = true → connector.bondType = BondType.covalent →
        (connector.id ∈ aromaticConnectors →
          outputConnectorStr connector connectedNode1 connectedNode2 aromaticNodes
            aromaticConnectors stereoDirectionMap = "") ∧
        (connector.id ∉ aromaticConnectors →
          outputConnectorStr connector connectedNode1 connectedNode2 aromaticNodes
            aromaticConnectors stereoDirectionMap
          = (if connector.bondOrder = BondOrder.double then "="
              else if connector.bondOrder = BondOrder.triple then "#"
              else if connector.bondOrder = BondOrder.quad then "$"
              else if connectedNode1 ∈ aromaticNodes ∧ connectedNode2 ∈ aromaticNodes then "-"
              else "")
            ++ ((stereoDirectionMap.bind (fun map => map.lookup connector.id)).getD ""))) ∧
      (¬ (connector.isBond = true ∧ connector.bondType = BondType.covalent) →
        outputConnectorStr connector connectedNode1 connectedNode2 aromaticNodes
          aromaticConnectors stereoDirectionMap = ".")) := by
  refine ⟨?_, ?_⟩
  · intro pattern hs hne
    simp [outputConnectorStr, truthy, hs, hne]
  · intro hs
    have ht : truthy connector.smarts = false := by
      rcases hs with h | h <;> simp [truthy, h]
    refine ⟨?_, ?_⟩
    · intro hb hc
      refine ⟨?_, ?_⟩
      · intro ha
        simp [outputConnectorStr, ht, hb, hc, ha]
      · intro ha
        simp only [outputConnectorStr, ht, hb, hc, ha]
        cases ho : connector.bondOrder <;> cases stereoDirectionMap with
          | none => simp [SMARTS.BOND_DOUBLE, SMARTS.BOND_TRIPLE, SMARTS.BOND_QUAD,
              SMARTS.BOND_SINGLE]
          | some map =>
            cases hl : map.lookup connector.id <;>
              simp [hl, SMARTS.BOND_DOUBLE, SMARTS.BOND_TRIPLE, SMARTS.BOND_QUAD,
                SMARTS.BOND_SINGLE]
    · intro hn
      simp only [outputConnectorStr, ht]
      rw [if_neg (by simp), if_neg hn]
      rfl

/-- C20. `_getNodeHydrogenCount(node, options)` is the number of singly bonded
hydrogen atoms, plus the explicit hydrogen count unless `ignoreExplicitHydrogens` is
set, plus the implicit hydrogen count when the explicit count is unset and
`ignoreImplicitHydrogens` is not set, a missing value counting as 0; an atom whose
explicit count is set never has its implicit count added, also when
`ignoreExplicitHydrogens` is set. -/
theorem getNodeHydrogenCount_spec (node : Node) (options : Options) :
    getNodeHydrogenCount node options
      = node.linkedHydrogenAtomsWithSingleBondCount
        + (if options.ignoreExplicitHydrogens = true then 0
           else node.explicitHydrogenCount.getD 0)
        + (if node.explicitHydrogenCount = none ∧ options.ignoreImplicitHydrogens = false
           then node.implicitHydrogenCount else 0) ∧
    (∀ n, node.explicitHydrogenCount = some n →
      getNodeHydrogenCount node options
        = node.linkedHydrogenAtomsWithSingleBondCount
          + (if options.ignoreExplicitHydrogens = true then 0 else n)) := by
  refine ⟨?_, ?_⟩
  · unfold getNodeHydrogenCount
    cases he : node.explicitHydrogenCount <;> cases hi : options.ignoreExplicitHydrogens <;>
      cases hj : options.ignoreImplicitHydrogens <;> simp
  · intro n hn
    unfold getNodeHydrogenCount
    cases hi : options.ignoreExplicitHydrogens <;> simp [hn]

/-! ## The strings of the components -/

/-- The loop of `writeStructFragment` behind the first component: every further
component adds `SMI.BOND_FAKE` and its string. -/
theorem writeTrees_later (env : WriterEnv) :
    ∀ (rs : List SpanningResult) (result : List Tok) (repo : List Edge) (toks : List Tok)
      (repo1 : List Edge),
      writeTrees env rs false result repo = some (toks, repo1) →
      ∃ parts, List.Forall₂ (IsPart env) rs parts ∧
        toks = result ++ (parts.map (fun q => Tok.fake :: q)).flatten := by
  intro rs
  induction rs with
  | nil =>
    intro result repo toks repo1 h
    simp only [writeTrees, Option.some.injEq, Prod.mk.injEq] at h
    exact ⟨[], List.Forall₂.nil, by simp [h.1]⟩
  | cons r rest ih =>
    intro result repo toks repo1 h
    simp only [writeTrees] at h
    cases hv : r.longestPath.vertexes with
    | nil => rw [hv] at h; cases h
    | cons root tl =>
      rw [hv] at h
      simp only at h
      cases hw : writeMolVertex env r.vertexes.length root none r.longestPath.edges r.edges
          repo with
      | none => rw [hw] at h; cases h
      | some p =>
        obtain ⟨part, repo2⟩ := p
        rw [hw] at h
        simp only [Bool.false_eq_true, if_false] at h
        obtain ⟨parts, hfa, htoks⟩ := ih _ _ _ _ h
        refine ⟨part :: parts, List.Forall₂.cons ⟨root, tl, repo, repo2, hv, hw⟩ hfa, ?_⟩
        rw [htoks]
        simp

/-- The loop of `writeStructFragment` from its start: the strings of the components
joined by `SMI.BOND_FAKE`. -/
theorem writeTrees_first (env : WriterEnv) (r : SpanningResult) (rest : List SpanningResult)
    (result : List Tok) (repo : List Edge) (toks : List Tok) (repo1 : List Edge)
    (h : writeTrees env (r :: rest) true result repo = some (toks, repo1)) :
    ∃ part parts, List.Forall₂ (IsPart env) (r :: rest) (part :: parts) ∧
      toks = joinParts (part :: parts) := by
  simp only [writeTrees] at h
  cases hv : r.longestPath.vertexes with
  | nil => rw [hv] at h; cases h
  | cons root tl =>
    rw [hv] at h
    simp only at h
    cases hw : writeMolVertex env r.vertexes.length root none r.longestPath.edges r.edges
        repo with
    | none => rw [hw] at h; cases h
    | some p =>
      obtain ⟨part, repo2⟩ := p
      rw [hw] at h
      simp only [if_true] at h
      obtain ⟨parts, hfa, htoks⟩ := writeTrees_later env _ _ _ _ _ h
      exact ⟨part, parts, List.Forall₂.cons ⟨root, tl, repo, repo2, hv, hw⟩ hfa, htoks⟩

theorem render_fake_parts (env : WriterEnv) (ps : List (List Tok)) :
    render env (ps.map (fun q => Tok.fake :: q)).flatten
      = concatStrs (ps.map (fun q => "." ++ render env q)) := by
  induction ps with
  | nil => rfl
  | cons p ps ih =>
    simp only [List.map_cons, List.flatten_cons, render_append, ih, concatStrs]
    rfl

theorem render_joinParts (env : WriterEnv) (p : List Tok) (ps : List (List Tok)) :
    render env (joinParts (p :: ps))
      = render env p ++ concatStrs (ps.map (fun q => "." ++ render env q)) := by
  simp only [joinParts, render_append, render_fake_parts]

theorem formResult_head (env : WriterEnv) (vertex : Vertex) (st : WriteState) :
    ∃ tl, formResult env vertex none st
      = Tok.node vertex none
          (st.ringedVertexes ++ st.branchVertexes ++ st.mainChainVertex.toList) :: tl := by
  unfold formResult
  simp only [Option.toList, List.map_nil, List.nil_append, Option.map_none']
  split_ifs <;> exact ⟨_, rfl⟩

/-- The string of a component starts with the atom token of its root. -/
theorem IsPart.head {env : WriterEnv} {r : SpanningResult} {part : List Tok}
    (h : IsPart env r part) :
    ∃ root nv tl, r.longestPath.vertexes.head? = some root ∧
      part = Tok.node root none nv :: tl := by
  obtain ⟨root, tl, repo, repo1, hv, hw⟩ := h
  cases hn : r.vertexes.length with
  | zero => rw [hn] at hw; simp [writeMolVertex] at hw
  | succ n =>
    rw [hn, writeMolVertex_succ] at hw
    simp only [Option.map_eq_some', Prod.mk.injEq] at hw
    obtain ⟨st, _, hst, _⟩ := hw
    obtain ⟨tl1, htl⟩ := formResult_head env root st
    exact ⟨root, _, tl1, by rw [hv]; rfl, by rw [← hst, htl]⟩

/-- With a well-formed graph, `writeStructFragment` on a molecule with a non-empty
connection table returns, and its tokens are those of the loop over the results of
`createGraphDepthSpanningTreesEx` started at the last vertex. -/
theorem writeStructFragment_eq (mol : Mol) (hwf : mol.graph.WF) (options : Options)
    (flags : List Vertex) (hctab : mol.hasCtab = true) (hempty : mol.isEmpty = false) :
    ∃ rs flags1 toks repo,
      createGraphDepthSpanningTreesEx mol.graph mol.graph.vertexes.getLast? flags
        = some (rs, flags1) ∧
      (∀ r ∈ rs, ∃ root, IsComponentResult mol.graph root r) ∧
      (∀ x ∈ mol.graph.vertexes, ∃ r ∈ rs, x ∈ r.vertexes) ∧
      writeTrees (writerEnv mol options) rs true [] [] = some (toks, repo) ∧
      writeStructFragmentToks mol options flags = some (rs, toks, flags1) ∧
      writeStructFragment mol options flags
        = some (if rs.isEmpty then none else some (render (writerEnv mol options) toks),
            flags1) := by
  obtain ⟨rs, flags1, hrun, hall, _, hcov⟩ :=
    createGraphDepthSpanningTreesEx_spec mol.graph hwf mol.graph.vertexes.getLast? flags
  obtain ⟨toks, repo, hw, _⟩ :=
    writeTrees_spec (writerEnv mol options) hwf rs true [] [] hall
  have htoks : writeStructFragmentToks mol options flags = some (rs, toks, flags1) := by
    unfold writeStructFragmentToks
    simp only [hrun, hw]
  refine ⟨rs, flags1, toks, repo, hrun, hall, hcov, hw, htoks, ?_⟩
  unfold writeStructFragment
  simp [hctab, hempty, htoks]

theorem rootAt_of_not_mem (startingVertex : Option Vertex) (remaining : List Vertex)
    (h : ∀ sv, startingVertex = some sv → sv ∉ remaining) :
    rootAt startingVertex remaining = remaining.head? := by
  cases remaining with
  | nil => rfl
  | cons first rest =>
    cases startingVertex with
    | none => rfl
    | some sv =>
      simp only [rootAt, currVertexOf, List.head?_cons, if_neg (h sv rfl)]

theorem rootAt_of_mem (sv : Vertex) (remaining : List Vertex) (h : sv ∈ remaining) :
    rootAt (some sv) remaining = some sv := by
  cases remaining with
  | nil => simp at h
  | cons first rest => simp only [rootAt, currVertexOf, if_pos h]

theorem IsComponentResult.heads {g : Graph} {root : Vertex} {r : SpanningResult}
    (hc : IsComponentResult g root r) :
    r.longestPath.vertexes.head? = some root ∧ r.vertexes.head? = some root := by
  obtain ⟨inner, hri, hT, _⟩ := hc
  subst hri
  exact ⟨hT.longestPath_head, rfl⟩

/-- The roots of the results of `createGraphDepthSpanningTreesEx` on a well-formed
graph. -/
theorem createGraphDepthSpanningTreesEx_rootAt (g : Graph) (hwf : g.WF)
    (startingVertex : Option Vertex) (flags : List Vertex) :
    ∃ rs flags1, createGraphDepthSpanningTreesEx g startingVertex flags = some (rs, flags1) ∧
      ∀ pre r post, rs = pre ++ r :: post →
        ∃ root, r.longestPath.vertexes.head? = some root ∧ r.vertexes.head? = some root ∧
          rootAt startingVertex
            (g.vertexes.filter (fun v => v ∉ pre.flatMap (fun p => p.vertexes))) = some root := by
  obtain ⟨rs, flags1, hrun, hall, _, _⟩ :=
    createGraphDepthSpanningTreesEx_spec g hwf startingVertex flags
  refine ⟨rs, flags1, hrun, ?_⟩
  unfold createGraphDepthSpanningTreesEx at hrun
  obtain ⟨rs1, hrs, hroots⟩ := spanningLoop_roots g startingVertex _ _ _ _ _ _ hrun
  simp only [List.nil_append] at hrs
  subst hrs
  intro pre r post hsplit
  obtain ⟨root, hc⟩ := hall r (by rw [hsplit]; simp)
  obtain ⟨h1, h2⟩ := hc.heads
  refine ⟨root, h1, h2, ?_⟩
  rw [← hroots pre r post hsplit, h1]

/-! ## Claims about the direction symbols of stereo double bonds -/

/-- C11, as amended. After `_prepareStereoBondsInformation` has run with bond stereo
not ignored, for every stereo double bond `c` of the connection table with two
different reference connectors, both reference connectors are in the direction map,
and their symbols are equal when the parity of `c` is even and different otherwise,
except for a bond that found both reference connectors already in the map with
exactly one of them different from its initial symbol (`invertCount == 1`): such a
bond stores nothing and the two symbols contradict its parity. -/
theorem prepareStereoBondsInformation_consistent (refs : Connector → Nat × Nat)
    (options : Options) (pre : List Connector) (c : Connector) (post : List Connector)
    (hopt : options.ignoreStereoBond = some false ∨
      (options.ignoreStereoBond = none ∧ options.ignoreStereo = false))
    (hpar : c.parity ≠ 0) (hne : (refs c).1 ≠ (refs c).2) :
    ∃ m a b, prepareStereoBondsInformation refs (pre ++ c :: post) options = some m ∧
      m.lookup (refs c).1 = some a ∧ m.lookup (refs c).2 = some b ∧
      ((a = b ↔ c.parity = StereoParity.EVEN) ↔
        ¬ (mapHas (prepareLoop refs pre 0 []).2 (refs c).1 = true ∧
            mapHas (prepareLoop refs pre 0 []).2 (refs c).2 = true ∧
            invertCountOf (prepareLoop refs pre 0 []).2 (refs c)
              (getStereoDoubleBondInitialDirectionSymbols c) = 1)) := by
  obtain ⟨heq, hvals, hkeep⟩ := prepareStereoBondsInformation_eq refs options pre c post hopt hpar
  obtain ⟨a, b, ha, hb, hiff, _⟩ :=
    stereoBondStep_spec refs (prepareLoop refs pre 0 []).2 c hpar hne hvals
  exact ⟨_, a, b, heq, hkeep _ _ ha, hkeep _ _ hb, hiff⟩

/-- Witness of C11: the second double bond of the ring of eight atoms. -/
theorem prepareStereoBondsInformation_consistent_witness :
    (Options.empty.ignoreStereoBond = some false ∨
      (Options.empty.ignoreStereoBond = none ∧ Options.empty.ignoreStereo = false)) ∧
    (doubleBond 3 StereoParity.EVEN).parity ≠ 0 ∧
    (ringRefs (doubleBond 3 StereoParity.EVEN)).1 ≠ (ringRefs (doubleBond 3 StereoParity.EVEN)).2 ∧
    ∃ m a b, prepareStereoBondsInformation ringRefs
        ([doubleBond 1 StereoParity.ODD, singleBond 2] ++ doubleBond 3 StereoParity.EVEN ::
          [singleBond 4, doubleBond 5 StereoParity.EVEN, singleBond 6,
            doubleBond 7 StereoParity.EVEN, singleBond 8]) Options.empty = some m ∧
      m.lookup (ringRefs (doubleBond 3 StereoParity.EVEN)).1 = some a ∧
      m.lookup (ringRefs (doubleBond 3 StereoParity.EVEN)).2 = some b ∧
      ((a = b ↔ (doubleBond 3 StereoParity.EVEN).parity = StereoParity.EVEN) ↔
        ¬ (mapHas (prepareLoop ringRefs [doubleBond 1 StereoParity.ODD, singleBond 2] 0 []).2
              (ringRefs (doubleBond 3 StereoParity.EVEN)).1 = true ∧
            mapHas (prepareLoop ringRefs [doubleBond 1 StereoParity.ODD, singleBond 2] 0 []).2
              (ringRefs (doubleBond 3 StereoParity.EVEN)).2 = true ∧
            invertCountOf (prepareLoop ringRefs [doubleBond 1 StereoParity.ODD, singleBond 2] 0 []).2
              (ringRefs (doubleBond 3 StereoParity.EVEN))
              (getStereoDoubleBondInitialDirectionSymbols (doubleBond 3 StereoParity.EVEN)) = 1)) :=
  ⟨Or.inr ⟨rfl, rfl⟩, by decide, by decide,
    prepareStereoBondsInformation_consistent ringRefs Options.empty
      [doubleBond 1 StereoParity.ODD, singleBond 2] (doubleBond 3 StereoParity.EVEN)
      [singleBond 4, doubleBond 5 StereoParity.EVEN, singleBond 6,
        doubleBond 7 StereoParity.EVEN, singleBond 8]
      (Or.inr ⟨rfl, rfl⟩) (by decide) (by decide)⟩

/-- Counterexample to C11 as stated: in the ring of eight atoms with one double bond
of odd parity, the last double bond (identity 7, even parity) finds both reference
connectors 6 and 8 in the map with `invertCount == 1`, so it is not skipped for
`invertCount == 2`; yet the map holds different symbols for 6 and 8. -/
theorem prepareStereoBondsInformation_ring :
    prepareStereoBondsInformation ringRefs ringCtab Options.empty
      = some [(6, "\\"), (4, "\\"), (2, "\\"), (8, "/")] ∧
    doubleBond 7 StereoParity.EVEN ∈ ringCtab ∧
    ringRefs (doubleBond 7 StereoParity.EVEN) = (6, 8) ∧
    invertCountOf (prepareLoop ringRefs (ringCtab.take 6) 0 []).2 (6, 8)
      (getStereoDoubleBondInitialDirectionSymbols (doubleBond 7 StereoParity.EVEN)) = 1 ∧
    (doubleBond 7 StereoParity.EVEN).parity = StereoParity.EVEN ∧
    List.lookup 6 [(6, "\\"), (4, "\\"), (2, "\\"), (8, "/")] = some "\\" ∧
    List.lookup 8 [(6, "\\"), (4, "\\"), (2, "\\"), (8, "/")] = some "/" ∧
    "\\" ≠ "/" := by
  decide

/-- C12. With bond stereo not ignored, for a stereo double bond `c` with two
different reference connectors neither of which is in the direction map when `c` is
reached, `_prepareStereoBondsInformation` stores `/` on the first and, on the
second, `/` when the parity is even and `\` otherwise (so for odd parity); both
entries are in the map that is returned. -/
theorem prepareStereoBondsInformation_initial (refs : Connector → Nat × Nat)
    (options : Options) (pre : List Connector) (c : Connector) (post : List Connector)
    (hopt : options.ignoreStereoBond = some false ∨
      (options.ignoreStereoBond = none ∧ options.ignoreStereo = false))
    (hpar : c.parity ≠ 0) (hne : (refs c).1 ≠ (refs c).2)
    (h0 : mapHas (prepareLoop refs pre 0 []).2 (refs c).1 = false)
    (h1 : mapHas (prepareLoop refs pre 0 []).2 (refs c).2 = false) :
    stereoBondStep refs (prepareLoop refs pre 0 []).2 c
      = mapSet (mapSet (prepareLoop refs pre 0 []).2 (refs c).1 "/") (refs c).2
          (if c.parity = StereoParity.EVEN then "/" else "\\") ∧
    ∃ m, prepareStereoBondsInformation refs (pre ++ c :: post) options = some m ∧
      m.lookup (refs c).1 = some "/" ∧
      m.lookup (refs c).2 = some (if c.parity = StereoParity.EVEN then "/" else "\\") ∧
      (c.parity = StereoParity.EVEN → m.lookup (refs c).1 = m.lookup (refs c).2) ∧
      (c.parity = StereoParity.ODD → m.lookup (refs c).2 = some "\\") := by
  obtain ⟨heq, hvals, hkeep⟩ := prepareStereoBondsInformation_eq refs options pre c post hopt hpar
  obtain ⟨a, b, ha, hb, _, hinit⟩ :=
    stereoBondStep_spec refs (prepareLoop refs pre 0 []).2 c hpar hne hvals
  obtain ⟨ha1, hb1⟩ := hinit h0 h1
  subst ha1 hb1
  refine ⟨?_, _, heq, hkeep _ _ ha, hkeep _ _ hb, ?_, ?_⟩
  · unfold stereoBondStep invertCountOf
    rw [initialDirectionSymbols_of_parity c hpar]
    simp [h0, h1]
  · intro he
    rw [hkeep _ _ ha, hkeep _ _ hb]
    simp [he]
  · intro ho
    rw [hkeep _ _ hb]
    have : c.parity ≠ StereoParity.EVEN := by rw [ho]; decide
    simp [this]

/-- Witness of C12: the first double bond of the ring of eight atoms. -/
theorem prepareStereoBondsInformation_initial_witness :
    (Options.empty.ignoreStereoBond = some false ∨
      (Options.empty.ignoreStereoBond = none ∧ Options.empty.ignoreStereo = false)) ∧
    (doubleBond 1 StereoParity.ODD).parity ≠ 0 ∧
    (ringRefs (doubleBond 1 StereoParity.ODD)).1 ≠ (ringRefs (doubleBond 1 StereoParity.ODD)).2 ∧
    mapHas (prepareLoop ringRefs [] 0 []).2 (ringRefs (doubleBond 1 StereoParity.ODD)).1 = false ∧
    mapHas (prepareLoop ringRefs [] 0 []).2 (ringRefs (doubleBond 1 StereoParity.ODD)).2 = false ∧
    (stereoBondStep ringRefs (prepareLoop ringRefs [] 0 []).2 (doubleBond 1 StereoParity.ODD)
      = mapSet (mapSet (prepareLoop ringRefs [] 0 []).2
            (ringRefs (doubleBond 1 StereoParity.ODD)).1 "/")
          (ringRefs (doubleBond 1 StereoParity.ODD)).2
          (if (doubleBond 1 StereoParity.ODD).parity = StereoParity.EVEN then "/" else "\\") ∧
    ∃ m, prepareStereoBondsInformation ringRefs
        ([] ++ doubleBond 1 StereoParity.ODD :: ringCtab.tail) Options.empty = some m ∧
      m.lookup (ringRefs (doubleBond 1 StereoParity.ODD)).1 = some "/" ∧
      m.lookup (ringRefs (doubleBond 1 StereoParity.ODD)).2
        = some (if (doubleBond 1 StereoParity.ODD).parity = StereoParity.EVEN
            then "/" else "\\") ∧
      ((doubleBond 1 StereoParity.ODD).parity = StereoParity.EVEN →
        m.lookup (ringRefs (doubleBond 1 StereoParity.ODD)).1
          = m.lookup (ringRefs (doubleBond 1 StereoParity.ODD)).2) ∧
      ((doubleBond 1 StereoParity.ODD).parity = StereoParity.ODD →
        m.lookup (ringRefs (doubleBond 1 StereoParity.ODD)).2 = some "\\")) :=
  ⟨Or.inr ⟨rfl, rfl⟩, by decide, by decide, by decide, by decide,
    prepareStereoBondsInformation_initial ringRefs Options.empty [] (doubleBond 1 StereoParity.ODD)
      ringCtab.tail (Or.inr ⟨rfl, rfl⟩) (by decide) (by decide) (by decide) (by decide)⟩

/-- C13, as amended. `ignoreStereo` is the fallback for a sub-flag that is unset:
when `options.ignoreStereo` is true, `_prepareStereoBondsInformation` returns `null`
unless `ignoreStereoBond` is explicitly `false`, and `_outputNodeStr` computes no
chirality marker unless `ignoreStereoAtom` is explicitly `false`; a sub-flag that is
explicitly `false` decides by itself, as if `ignoreStereo` were not set. -/
theorem ignoreStereo_fallback (refs : Connector → Nat × Nat) (ctab : List Connector)
    (calcRotation : Node → Option Nat → List Nat → Bool → RotationDir)
    (node : Node) (isAromatic : Bool) (prevNode : Option Nat) (nextNodes : List Nat)
    (options : Options) (h : options.ignoreStereo = true) :
    (options.ignoreStereoBond ≠ some false →
      prepareStereoBondsInformation refs ctab options = none) ∧
    (options.ignoreStereoAtom ≠ some false →
      nodeChiralRot calcRotation node prevNode nextNodes options = "" ∧
      nodeBody calcRotation node isAromatic prevNode nextNodes options
        = nodeMassStr node.massNumber
          ++ (nodeSymbolStr node isAromatic ++ ""
            ++ nodeHydrogenStr (nodeOutputExplicitH node isAromatic "" options)
                (getNodeHydrogenCount node options)
            ++ nodeChargeStr node.charge)) ∧
    (options.ignoreStereoBond = some false →
      prepareStereoBondsInformation refs ctab options
        = prepareStereoBondsInformation refs ctab { options with ignoreStereo := false }) ∧
    (options.ignoreStereoAtom = some false →
      nodeChiralRot calcRotation node prevNode nextNodes options
        = nodeChiralRot calcRotation node prevNode nextNodes
            { options with ignoreStereo := false }) := by
  refine ⟨?_, ?_, ?_, ?_⟩
  · intro hb
    unfold prepareStereoBondsInformation
    cases hx : options.ignoreStereoBond with
    | none => simp [h]
    | some b =>
      cases b with
      | false => exact absurd hx hb
      | true => simp
  · intro ha
    have hrot : nodeChiralRot calcRotation node prevNode nextNodes options = "" := by
      unfold nodeChiralRot
      cases hx : options.ignoreStereoAtom with
      | none => simp [h]
      | some b =>
        cases b with
        | false => exact absurd hx ha
        | true => simp
    refine ⟨hrot, ?_⟩
    unfold nodeBody
    simp only [hrot]
  · intro hb
    unfold prepareStereoBondsInformation
    simp [hb]
  · intro ha
    unfold nodeChiralRot
    simp [ha]

/-- Witness of C13: `ignoreStereo` alone, on the ring of eight atoms and a chiral
carbon atom. -/
theorem ignoreStereo_fallback_witness :
    ({ Options.empty with ignoreStereo := true } : Options).ignoreStereo = true ∧
    prepareStereoBondsInformation ringRefs ringCtab { Options.empty with ignoreStereo := true }
      = none ∧
    outputNodeStr alwaysClockwise (chiralCarbon 0) false none [1, 2, 3]
      { Options.empty with ignoreStereo := true } = "C" ∧
    ((({ Options.empty with ignoreStereo := true } : Options).ignoreStereoBond ≠ some false →
      prepareStereoBondsInformation ringRefs ringCtab { Options.empty with ignoreStereo := true }
        = none) ∧
    (({ Options.empty with ignoreStereo := true } : Options).ignoreStereoAtom ≠ some false →
      nodeChiralRot alwaysClockwise (chiralCarbon 0) none [1, 2, 3]
        { Options.empty with ignoreStereo := true } = "" ∧
      nodeBody alwaysClockwise (chiralCarbon 0) false none [1, 2, 3]
          { Options.empty with ignoreStereo := true }
        = nodeMassStr (chiralCarbon 0).massNumber
          ++ (nodeSymbolStr (chiralCarbon 0) false ++ ""
            ++ nodeHydrogenStr
                (nodeOutputExplicitH (chiralCarbon 0) false ""
                  { Options.empty with ignoreStereo := true })
                (getNodeHydrogenCount (chiralCarbon 0)
                  { Options.empty with ignoreStereo := true })
            ++ nodeChargeStr (chiralCarbon 0).charge)) ∧
    (({ Options.empty with ignoreStereo := true } : Options).ignoreStereoBond = some false →
      prepareStereoBondsInformation ringRefs ringCtab { Options.empty with ignoreStereo := true }
        = prepareStereoBondsInformation ringRefs ringCtab
            { ({ Options.empty with ignoreStereo := true } : Options) with
              ignoreStereo := false }) ∧
    (({ Options.empty with ignoreStereo := true } : Options).ignoreStereoAtom = some false →
      nodeChiralRot alwaysClockwise (chiralCarbon 0) none [1, 2, 3]
          { Options.empty with ignoreStereo := true }
        = nodeChiralRot alwaysClockwise (chiralCarbon 0) none [1, 2, 3]
            { ({ Options.empty with ignoreStereo := true } : Options) with
              ignoreStereo := false })) :=
  ⟨rfl, by decide, by decide,
    ignoreStereo_fallback ringRefs ringCtab alwaysClockwise (chiralCarbon 0) false none [1, 2, 3]
      { Options.empty with ignoreStereo := true } rfl⟩

/-- Counterexample to C13 as stated: with `ignoreStereo` set and both sub-flags
explicitly `false`, `_prepareStereoBondsInformation` returns a map with direction
symbols for the ring of eight atoms, and `_outputNodeStr` writes the marker `@@` for
a chiral carbon atom. -/
theorem ignoreStereo_explicit_false :
    ignoreStereoOnly.ignoreStereo = true ∧
    ignoreStereoOnly.ignoreStereoBond = some false ∧
    ignoreStereoOnly.ignoreStereoAtom = some false ∧
    prepareStereoBondsInformation ringRefs ringCtab ignoreStereoOnly
      = some [(6, "\\"), (4, "\\"), (2, "\\"), (8, "/")] ∧
    prepareStereoBondsInformation ringRefs ringCtab ignoreStereoOnly ≠ none ∧
    nodeChiralRot alwaysClockwise (chiralCarbon 0) none [1, 2, 3] ignoreStereoOnly = "@@" ∧
    outputNodeStr alwaysClockwise (chiralCarbon 0) false none [1, 2, 3] ignoreStereoOnly
      = "[C@@H2]" := by
  decide

/-! ## Claims about the components of the output -/

/-- C16. For a molecule with a non-empty connection table whose graph is well-formed
and has a vertex, so that there are `n ≥ 1` spanning results (the connected
components), `writeStructFragment` returns the `n` strings that `_writeMolVertex`
returns for the results, in the order of the results, with one `.` in front of every
string but the first and nothing else added; and two carbon atoms without a bond
give `C.C`. -/
theorem writeStructFragment_components (mol : Mol) (hwf : mol.graph.WF) (options : Options)
    (flags : List Vertex) (hctab : mol.hasCtab = true) (hempty : mol.isEmpty = false)
    (hv : mol.graph.vertexes ≠ []) :
    (∃ rs flags1 part parts,
      createGraphDepthSpanningTreesEx mol.graph mol.graph.vertexes.getLast? flags
        = some (rs, flags1) ∧
      rs.length = parts.length + 1 ∧
      List.Forall₂ (IsPart (writerEnv mol options)) rs (part :: parts) ∧
      writeStructFragmentToks mol options flags
        = some (rs, joinParts (part :: parts), flags1) ∧
      writeStructFragment mol options flags
        = some (some (render (writerEnv mol options) part
            ++ concatStrs (parts.map (fun q => "." ++ render (writerEnv mol options) q))),
          flags1)) ∧
    writeStructFragment twoCarbons Options.empty [] = some (some "C.C", [0, 1]) := by
  refine ⟨?_, by decide⟩
  obtain ⟨rs, flags1, toks, repo, hrun, _, hcov, hw, htoks, hout⟩ :=
    writeStructFragment_eq mol hwf options flags hctab hempty
  cases rs with
  | nil =>
    cases hvs : mol.graph.vertexes with
    | nil => exact absurd hvs hv
    | cons x xs =>
      obtain ⟨r, hr, _⟩ := hcov x (by rw [hvs]; simp)
      simp at hr
  | cons r rest =>
    obtain ⟨part, parts, hfa, hjoin⟩ := writeTrees_first _ r rest [] [] toks repo hw
    subst hjoin
    refine ⟨r :: rest, flags1, part, parts, hrun, ?_, hfa, htoks, ?_⟩
    · have := hfa.length_eq
      simpa using this
    · rw [hout, render_joinParts]
      rfl

/-- Witness of C16: the example graph as a molecule of carbon atoms. -/
theorem writeStructFragment_components_witness :
    exampleMol.graph.WF ∧ exampleMol.hasCtab = true ∧ exampleMol.isEmpty = false ∧
    exampleMol.graph.vertexes ≠ [] ∧
    writeStructFragment exampleMol Options.empty [3] = some (some "C.C1C(C1)C", [3, 2, 1, 0, 4]) ∧
    ((∃ rs flags1 part parts,
      createGraphDepthSpanningTreesEx exampleMol.graph exampleMol.graph.vertexes.getLast? [3]
        = some (rs, flags1) ∧
      rs.length = parts.length + 1 ∧
      List.Forall₂ (IsPart (writerEnv exampleMol Options.empty)) rs (part :: parts) ∧
      writeStructFragmentToks exampleMol Options.empty [3]
        = some (rs, joinParts (part :: parts), flags1) ∧
      writeStructFragment exampleMol Options.empty [3]
        = some (some (render (writerEnv exampleMol Options.empty) part
            ++ concatStrs
              (parts.map (fun q => "." ++ render (writerEnv exampleMol Options.empty) q))),
          flags1)) ∧
    writeStructFragment twoCarbons Options.empty [] = some (some "C.C", [0, 1])) :=
  ⟨by decide, rfl, rfl, by decide, by decide,
    writeStructFragment_components exampleMol (by decide) Options.empty [3] rfl rfl
      (by decide)⟩

/-- C17. On a well-formed graph every result of `createGraphDepthSpanningTreesEx` is
rooted (first vertex of `longestPath.vertexes` and of `vertexes`) as follows: the
first result at `startingVertex` when that is a vertex of the graph; every later
result, and the first one when `startingVertex` is missing or not in the graph, at
the earliest vertex in the order of `graph.getVertexes()` that is in no earlier
result. `writeStructFragment` starts at the last vertex of the graph, and its output
begins with the atom token of that vertex. -/
theorem createGraphDepthSpanningTreesEx_roots (mol : Mol) (hwf : mol.graph.WF)
    (options : Options) (startingVertex : Option Vertex) (flags : List Vertex) :
    (∃ rs flags1,
      createGraphDepthSpanningTreesEx mol.graph startingVertex flags = some (rs, flags1) ∧
      ∀ pre r post, rs = pre ++ r :: post →
        ∃ root, r.longestPath.vertexes.head? = some root ∧ r.vertexes.head? = some root ∧
          (∀ sv, pre = [] → startingVertex = some sv → sv ∈ mol.graph.vertexes → root = sv) ∧
          ((pre ≠ [] ∨ startingVertex = none ∨
              ∃ sv, startingVertex = some sv ∧ sv ∉ mol.graph.vertexes) →
            (mol.graph.vertexes.filter
              (fun v => v ∉ pre.flatMap (fun p => p.vertexes))).head? = some root)) ∧
    (mol.hasCtab = true → mol.isEmpty = false →
      ∀ last, mol.graph.vertexes.getLast? = some last →
        ∃ rs nv rest flags1,
          writeStructFragmentToks mol options flags
            = some (rs, Tok.node last none nv :: rest, flags1) ∧
          writeStructFragment mol options flags
            = some (some ((Tok.node last none nv).text (writerEnv mol options)
                ++ render (writerEnv mol options) rest), flags1)) := by
  refine ⟨?_, ?_⟩
  · obtain ⟨rs, flags1, hrun, hroots⟩ :=
      createGraphDepthSpanningTreesEx_rootAt mol.graph hwf startingVertex flags
    refine ⟨rs, flags1, hrun, ?_⟩
    intro pre r post hsplit
    obtain ⟨root, h1, h2, h3⟩ := hroots pre r post hsplit
    refine ⟨root, h1, h2, ?_, ?_⟩
    · intro sv hpre hs hsv
      subst hpre hs
      have hf : mol.graph.vertexes.filter
          (fun v => v ∉ ([] : List SpanningResult).flatMap (fun p => p.vertexes))
          = mol.graph.vertexes := by simp
      rw [hf, rootAt_of_mem sv _ hsv] at h3
      exact (Option.some.inj h3).symm
    · intro hcase
      rw [← h3]
      symm
      apply rootAt_of_not_mem
      intro sv hs hmem
      obtain ⟨hsv, hnot⟩ := List.mem_filter.mp hmem
      rcases hcase with hpre | hnone | ⟨sv1, hs1, hsv1⟩
      · cases pre with
        | nil => exact hpre rfl
        | cons r0 pre1 =>
          obtain ⟨root0, _, g2, g3⟩ := hroots [] r0 (pre1 ++ r :: post) (by simp [hsplit])
          have hf : mol.graph.vertexes.filter
              (fun v => v ∉ ([] : List SpanningResult).flatMap (fun p => p.vertexes))
              = mol.graph.vertexes := by simp
          rw [hf, hs, rootAt_of_mem sv _ hsv] at g3
          have hroot0 : root0 = sv := (Option.some.inj g3).symm
          subst hroot0
          have hin : root0 ∈ r0.vertexes := List.mem_of_mem_head? g2
          simp only [decide_not, Bool.not_eq_true', decide_eq_false_iff_not, List.flatMap_cons,
            List.mem_append, not_or, decide_eq_true_eq] at hnot
          exact hnot.1 hin
      · rw [hnone] at hs; cases hs
      · rw [hs1] at hs
        cases hs
        exact hsv1 hsv
  · intro hctab hempty last hlast
    obtain ⟨rs, flags1, toks, repo, hrun, _, hcov, hw, htoks, hout⟩ :=
      writeStructFragment_eq mol hwf options flags hctab hempty
    obtain ⟨rs1, flags2, hrun1, hroots⟩ :=
      createGraphDepthSpanningTreesEx_rootAt mol.graph hwf mol.graph.vertexes.getLast? flags
    rw [hrun] at hrun1
    simp only [Option.some.injEq, Prod.mk.injEq] at hrun1
    obtain ⟨h1, h2⟩ := hrun1
    subst h1 h2
    have hlastmem : last ∈ mol.graph.vertexes := List.mem_of_getLast?_eq_some hlast
    cases rs with
    | nil =>
      obtain ⟨r, hr, _⟩ := hcov last hlastmem
      simp at hr
    | cons r rest =>
      obtain ⟨part, parts, hfa, hjoin⟩ := writeTrees_first _ r rest [] [] toks repo hw
      obtain ⟨root, g1, _, g3⟩ := hroots [] r rest rfl
      have hf : mol.graph.vertexes.filter
          (fun v => v ∉ ([] : List SpanningResult).flatMap (fun p => p.vertexes))
          = mol.graph.vertexes := by simp
      rw [hf, hlast, rootAt_of_mem last _ hlastmem] at g3
      have hroot : root = last := (Option.some.inj g3).symm
      subst hroot
      cases hfa with
      | cons hpart _ =>
        obtain ⟨root1, nv, tl, k1, k2⟩ := hpart.head
        rw [g1] at k1
        have hr1 : root1 = root := (Option.some.inj k1).symm
        subst hr1 k2 hjoin
        refine ⟨r :: rest, nv, tl ++ (parts.map (fun q => Tok.fake :: q)).flatten, flags1,
          ?_, ?_⟩
        · rw [htoks]; rfl
        · rw [hout]; rfl

/-- Witness of C17: the example graph as a molecule, started at vertex 2. -/
theorem createGraphDepthSpanningTreesEx_roots_witness :
    exampleMol.graph.WF ∧
    ((∃ rs flags1,
      createGraphDepthSpanningTreesEx exampleMol.graph (some 2) [3] = some (rs, flags1) ∧
      ∀ pre r post, rs = pre ++ r :: post →
        ∃ root, r.longestPath.vertexes.head? = some root ∧ r.vertexes.head? = some root ∧
          (∀ sv, pre = [] → some 2 = some sv → sv ∈ exampleMol.graph.vertexes → root = sv) ∧
          ((pre ≠ [] ∨ some 2 = none ∨
              ∃ sv, some 2 = some sv ∧ sv ∉ exampleMol.graph.vertexes) →
            (exampleMol.graph.vertexes.filter
              (fun v => v ∉ pre.flatMap (fun p => p.vertexes))).head? = some root)) ∧
    (exampleMol.hasCtab = true → exampleMol.isEmpty = false →
      ∀ last, exampleMol.graph.vertexes.getLast? = some last →
        ∃ rs nv rest flags1,
          writeStructFragmentToks exampleMol Options.empty [3]
            = some (rs, Tok.node last none nv :: rest, flags1) ∧
          writeStructFragment exampleMol Options.empty [3]
            = some (some ((Tok.node last none nv).text (writerEnv exampleMol Options.empty)
                ++ render (writerEnv exampleMol Options.empty) rest), flags1))) :=
  ⟨by decide,
    createGraphDepthSpanningTreesEx_roots exampleMol (by decide) Options.empty (some 2) [3]⟩

/-- C18. On a well-formed graph `createGraphDepthSpanningTreesEx`, which first
clears the visited flag of every vertex of the graph, returns the same results
(components, tree edges and longest paths) from any two initial flag assignments, and
leaves flags that agree on the graph; `writeStructFragment` returns the same string
from any two initial flag assignments, and a second write that starts from the flags
the first one left returns the same string again. -/
theorem createGraphDepthSpanningTreesEx_flags (mol : Mol) (hwf : mol.graph.WF)
    (options : Options) (startingVertex : Option Vertex) (flagsA flagsB : List Vertex) :
    (∃ rs wA wB,
      createGraphDepthSpanningTreesEx mol.graph startingVertex flagsA = some (rs, wA) ∧
      createGraphDepthSpanningTreesEx mol.graph startingVertex flagsB = some (rs, wB) ∧
      FlagsAgree mol.graph wA wB) ∧
    (∃ out wA wB wC,
      writeStructFragment mol options flagsA = some (out, wA) ∧
      writeStructFragment mol options flagsB = some (out, wB) ∧
      writeStructFragment mol options wA = some (out, wC)) := by
  refine ⟨createGraphDepthSpanningTreesEx_agree mol.graph hwf startingVertex flagsA flagsB, ?_⟩
  by_cases hc : mol.hasCtab = true ∧ mol.isEmpty = false
  · obtain ⟨hctab, hempty⟩ := hc
    have key : ∀ f1 f2 : List Vertex, ∃ out w1 w2,
        writeStructFragment mol options f1 = some (out, w1) ∧
        writeStructFragment mol options f2 = some (out, w2) := by
      intro f1 f2
      obtain ⟨rs1, w1, toks1, repo1, hrun1, _, _, hw1, _, hout1⟩ :=
        writeStructFragment_eq mol hwf options f1 hctab hempty
      obtain ⟨rs2, w2, toks2, repo2, hrun2, _, _, hw2, _, hout2⟩ :=
        writeStructFragment_eq mol hwf options f2 hctab hempty
      obtain ⟨rs, v1, v2, g1, g2, _⟩ :=
        createGraphDepthSpanningTreesEx_agree mol.graph hwf mol.graph.vertexes.getLast? f1 f2
      rw [hrun1] at g1
      rw [hrun2] at g2
      simp only [Option.some.injEq, Prod.mk.injEq] at g1 g2
      obtain ⟨e1, _⟩ := g1
      obtain ⟨e2, _⟩ := g2
      subst e1
      subst e2
      rw [hw1] at hw2
      simp only [Option.some.injEq, Prod.mk.injEq] at hw2
      obtain ⟨e3, _⟩ := hw2
      subst e3
      exact ⟨_, w1, w2, hout1, hout2⟩
    obtain ⟨out, wA, wB, hA, hB⟩ := key flagsA flagsB
    obtain ⟨out1, wA1, wC, hA1, hC⟩ := key flagsA wA
    rw [hA] at hA1
    simp only [Option.some.injEq, Prod.mk.injEq] at hA1
    obtain ⟨e1, e2⟩ := hA1
    subst e1 e2
    exact ⟨out, wA, wB, wC, hA, hB, hC⟩
  · have hw : ∀ f : List Vertex, writeStructFragment mol options f = some (some "", f) := by
      intro f
      unfold writeStructFragment
      rw [if_neg]
      simpa using hc
    exact ⟨some "", flagsA, flagsB, flagsA, hw _, hw _, hw _⟩

/-- Witness of C18: the example graph as a molecule, with and without flags set
beforehand. -/
theorem createGraphDepthSpanningTreesEx_flags_witness :
    exampleMol.graph.WF ∧
    writeStructFragment exampleMol Options.empty [] = some (some "C.C1C(C1)C", [3, 2, 1, 0, 4]) ∧
    ((∃ rs wA wB,
      createGraphDepthSpanningTreesEx exampleMol.graph (some 2) [] = some (rs, wA) ∧
      createGraphDepthSpanningTreesEx exampleMol.graph (some 2) [0, 3, 7] = some (rs, wB) ∧
      FlagsAgree exampleMol.graph wA wB) ∧
    (∃ out wA wB wC,
      writeStructFragment exampleMol Options.empty [] = some (out, wA) ∧
      writeStructFragment exampleMol Options.empty [0, 3, 7] = some (out, wB) ∧
      writeStructFragment exampleMol Options.empty wA = some (out, wC))) :=
  ⟨by decide, by decide,
    createGraphDepthSpanningTreesEx_flags exampleMol (by decide) Options.empty (some 2) []
      [0, 3, 7]⟩

/-! ## The branches of a vertex -/

theorem getLast?_map_getD_cons {α β : Type} (f : α → β) (a : α) (l : List α) (d : β) :
    (((a :: l).getLast?).map f).getD d = ((l.getLast?).map f).getD (f a) := by
  cases l with
  | nil => rfl
  | cons b l => rw [List.getLast?_cons_cons]; rfl

/-- The loop of `_writeMolVertex`, edge by edge: the strings of the recursive calls,
one for each edge that is followed, go to `branchStrs` in the order of the calls,
except those for a main-chain edge, of which the last one is kept in
`mainChainStr`; `ringStrs` gets ring-closure strings only. -/
theorem writeEdges_children (env : WriterEnv) (M T : List Edge)
    (recurse : Vertex → Option Edge → List Edge → Option (List Tok × List Edge))
    (v : Vertex) (p : Option Edge) :
    ∀ (L : List Edge) (st st1 : WriteState),
      writeEdges env recurse v p M T L st = some st1 →
      ∃ (ps : List (Edge × List Tok)) (rings : List Tok),
        ps.map (fun q => q.1) = L.filter (fun e => some e ≠ p ∧ e ∈ T) ∧
        (∀ q ∈ ps, ∃ r r1,
          recurse (env.graph.getNeighborOnEdge v q.1) (some q.1) r = some (q.2, r1)) ∧
        (∀ t ∈ rings, ∃ a b c, t = Tok.ring a b c) ∧
        st1.ringStrs = st.ringStrs ++ rings ∧
        st1.branchStrs = st.branchStrs ++ (ps.filter (fun q => q.1 ∉ M)).map (fun q => q.2) ∧
        st1.mainChainStr
          = (((ps.filter (fun q => q.1 ∈ M)).getLast?).map (fun q => some q.2)).getD
              st.mainChainStr := by
  intro L
  induction L with
  | nil =>
    intro st st1 h
    simp only [writeEdges, Option.some.injEq] at h
    subst h
    exact ⟨[], [], rfl, by simp, by simp, by simp, by simp, rfl⟩
  | cons e rest ih =>
    intro st st1 h
    by_cases hprev : some e = p
    · rw [writeEdges_skip env recurse v p M T e rest st hprev] at h
      obtain ⟨ps, rings, h1, h2, h3, h4, h5, h6⟩ := ih st st1 h
      refine ⟨ps, rings, ?_, h2, h3, h4, h5, h6⟩
      rw [h1, List.filter_cons_of_neg (by simp [hprev])]
    · by_cases htree : e ∈ T
      · simp only [writeEdges, if_neg hprev, if_pos htree] at h
        cases hr : recurse (env.graph.getNeighborOnEdge v e) (some e) st.ringEdgeRepo with
        | none => rw [hr] at h; cases h
        | some res =>
          obtain ⟨str, repo1⟩ := res
          rw [hr] at h
          simp only at h
          by_cases hM : e ∈ M
          · rw [if_pos hM] at h
            obtain ⟨ps, rings, h1, h2, h3, h4, h5, h6⟩ := ih _ st1 h
            refine ⟨(e, str) :: ps, rings, ?_, ?_, h3, h4, ?_, ?_⟩
            · rw [List.map_cons, h1, List.filter_cons_of_pos (by simp [hprev, htree])]
            · intro q hq
              rcases List.mem_cons.mp hq with hq | hq
              · subst hq
                exact ⟨_, _, hr⟩
              · exact h2 q hq
            · rw [h5, List.filter_cons_of_neg (by simp [hM])]
            · rw [h6, List.filter_cons_of_pos (by simp [hM]), getLast?_map_getD_cons]
          · rw [if_neg hM] at h
            obtain ⟨ps, rings, h1, h2, h3, h4, h5, h6⟩ := ih _ st1 h
            refine ⟨(e, str) :: ps, rings, ?_, ?_, h3, h4, ?_, ?_⟩
            · rw [List.map_cons, h1, List.filter_cons_of_pos (by simp [hprev, htree])]
            · intro q hq
              rcases List.mem_cons.mp hq with hq | hq
              · subst hq
                exact ⟨_, _, hr⟩
              · exact h2 q hq
            · rw [h5, List.filter_cons_of_pos (by simp [hM])]
              simp
            · rw [h6, List.filter_cons_of_neg (by simp [hM])]
      · rw [writeEdges_ring env recurse v p M T e rest st hprev htree] at h
        obtain ⟨ps, rings, h1, h2, h3, h4, h5, h6⟩ := ih _ st1 h
        refine ⟨ps, Tok.ring v e (ringEdgeNumber st.ringEdgeRepo e).1 :: rings, ?_, h2, ?_, ?_,
          h5, h6⟩
        · rw [h1, List.filter_cons_of_neg (by simp [htree])]
        · intro t ht
          rcases List.mem_cons.mp ht with ht | ht
          · exact ⟨_, _, _, ht⟩
          · exact h3 t ht
        · rw [h4]
          simp

theorem formResult_shape (env : WriterEnv) (vertex : Vertex) (prevEdge : Option Edge)
    (st : WriteState) :
    formResult env vertex prevEdge st
      = (prevEdge.toList.map Tok.connector
          ++ [Tok.node vertex (prevEdge.map (fun e => env.graph.getNeighborOnEdge vertex e))
                (st.ringedVertexes ++ st.branchVertexes ++ st.mainChainVertex.toList)]
          ++ st.ringStrs)
        ++ (((if strTruthy env st.mainChainStr = true ∨ st.branchStrs = [] then st.branchStrs
              else st.branchStrs.tail).map branchGroup).flatten
          ++ (if strTruthy env st.mainChainStr = true then st.mainChainStr.getD []
              else if strTruthy env st.branchStrs.head? = true then st.branchStrs.head?.getD []
              else [])) := by
  have hn : strTruthy env (none : Option (List Tok)) = false := rfl
  unfold formResult
  rw [show (fun b : List Tok => [Tok.branchLeft] ++ b ++ [Tok.branchRight]) = branchGroup
    from rfl]
  by_cases hm : strTruthy env st.mainChainStr = true
  · simp [hm]
  · cases hb : st.branchStrs with
    | nil => simp [hm, hn]
    | cons b bs =>
      by_cases hh : strTruthy env (some b) = true
      · simp [hm, hh]
      · simp [hm, hh]

/-- Every string `_writeMolVertex` returns is non-empty. -/
theorem writeMolVertex_ne_empty (env : WriterEnv) (fuel : Nat) (v : Vertex) (p : Option Edge)
    (M T repo : List Edge) (toks : List Tok) (repo1 : List Edge)
    (h : writeMolVertex env fuel v p M T repo = some (toks, repo1)) : render env toks ≠ "" := by
  cases fuel with
  | zero => simp [writeMolVertex] at h
  | succ n =>
    rw [writeMolVertex_succ] at h
    simp only [Option.map_eq_some', Prod.mk.injEq] at h
    obtain ⟨st, _, hst, _⟩ := h
    rw [← hst, formResult_shape]
    simp only [List.append_assoc, List.singleton_append]
    exact render_ne_empty_of_node env _ _ _ _ _

/-- The string of a call of `_writeMolVertex`, in terms of the strings `ps` of the
recursive calls for the edges it follows: the bond symbol, the atom token and the
ring-closure strings, then the branch groups, then the continuation. The
continuation is the string for the (last) main-chain edge, and the groups are the
other strings; without a main-chain edge the continuation is the first string and
the groups are the rest. -/
theorem writeMolVertex_children (env : WriterEnv) (fuel : Nat) (v : Vertex) (p : Option Edge)
    (M T repo : List Edge) (toks : List Tok) (repo1 : List Edge)
    (h : writeMolVertex env (fuel + 1) v p M T repo = some (toks, repo1)) :
    ∃ (ps : List (Edge × List Tok)) (nv : List Vertex) (rings : List Tok),
      ps.map (fun q => q.1) = childEdges env v p T ∧
      (∀ q ∈ ps, ∃ r r1,
        writeMolVertex env fuel (env.graph.getNeighborOnEdge v q.1) (some q.1) M T r
          = some (q.2, r1)) ∧
      (∀ t ∈ rings, ∃ a b c, t = Tok.ring a b c) ∧
      toks = (p.toList.map Tok.connector
            ++ [Tok.node v (p.map (fun e => env.graph.getNeighborOnEdge v e)) nv] ++ rings)
          ++ (((if ps.filter (fun q => q.1 ∈ M) = []
                then ((ps.filter (fun q => q.1 ∉ M)).map (fun q => q.2)).tail
                else (ps.filter (fun q => q.1 ∉ M)).map (fun q => q.2)).map branchGroup).flatten
            ++ (((ps.filter (fun q => q.1 ∈ M)).getLast?).map (fun q => q.2)).getD
                ((((ps.filter (fun q => q.1 ∉ M)).map (fun q => q.2)).head?).getD [])) := by
  rw [writeMolVertex_succ] at h
  simp only [Option.map_eq_some', Prod.mk.injEq] at h
  obtain ⟨st, hloop, hst, _⟩ := h
  obtain ⟨ps, rings, h1, h2, h3, h4, h5, h6⟩ := writeEdges_children env M T _ v p _ _ _ hloop
  simp only [List.nil_append] at h4 h5
  have hne : ∀ q ∈ ps, render env q.2 ≠ "" := by
    intro q hq
    obtain ⟨r, r1, hr⟩ := h2 q hq
    exact writeMolVertex_ne_empty env _ _ _ _ _ _ _ _ hr
  refine ⟨ps, st.ringedVertexes ++ st.branchVertexes ++ st.mainChainVertex.toList, rings,
    h1, h2, h3, ?_⟩
  rw [← hst, formResult_shape, h4, h5, h6]
  congr 1
  cases hl : (ps.filter (fun q => decide (q.1 ∈ M))).getLast? with
  | none =>
    have hnil : ps.filter (fun q => decide (q.1 ∈ M)) = [] := List.getLast?_eq_none_iff.mp hl
    have hn : strTruthy env (none : Option (List Tok)) = false := rfl
    simp only [Option.map_none', Option.getD_none, hn, Bool.false_eq_true, false_or, if_false,
      hnil, if_true]
    cases hb : (ps.filter (fun q => decide (q.1 ∉ M))).map (fun q => q.2) with
    | nil => simp [hn]
    | cons b bs =>
      have hbm : b ∈ (ps.filter (fun q => decide (q.1 ∉ M))).map (fun q => q.2) := by
        rw [hb]; exact List.mem_cons_self _ _
      obtain ⟨q, hq, hqb⟩ := List.mem_map.mp hbm
      have hbne : render env b ≠ "" := by
        rw [← hqb]; exact hne q (List.mem_filter.mp hq).1
      have ht : strTruthy env (some b) = true := by simp [strTruthy, hbne]
      simp [ht]
  | some q =>
    have hq : q ∈ ps := (List.mem_filter.mp (List.mem_of_mem_getLast? hl)).1
    have ht : strTruthy env (some q.2) = true := by simp [strTruthy, hne q hq]
    have hnn : ps.filter (fun q => decide (q.1 ∈ M)) ≠ [] := by
      intro hc; rw [hc] at hl; cases hl
    simp [ht, hnn]

/-! ## The nesting of the branch brackets -/

theorem shift_zero (l : List (Vertex × Nat)) : l.map (fun x => (x.1, x.2 + 0)) = l := by
  induction l with
  | nil => rfl
  | cons a l ih => simp

theorem shift_shift (l : List (Vertex × Nat)) (a b : Nat) :
    (l.map (fun x => (x.1, x.2 + a))).map (fun x => (x.1, x.2 + b))
      = l.map (fun x => (x.1, x.2 + (a + b))) := by
  simp [List.map_map, Function.comp_def, Nat.add_assoc]

theorem atomDepths_nil (d : Nat) : atomDepths [] d = [] := rfl

theorem atomDepths_left (ts : List Tok) (d : Nat) :
    atomDepths (Tok.branchLeft :: ts) d = atomDepths ts (d + 1) := rfl

theorem atomDepths_right (ts : List Tok) (d : Nat) :
    atomDepths (Tok.branchRight :: ts) d = atomDepths ts (d - 1) := rfl

theorem atomDepths_node (v : Vertex) (pv : Option Vertex) (nv : List Vertex) (ts : List Tok)
    (d : Nat) : atomDepths (Tok.node v pv nv :: ts) d = (v, d) :: atomDepths ts d := rfl

theorem atomDepths_connector (e : Edge) (ts : List Tok) (d : Nat) :
    atomDepths (Tok.connector e :: ts) d = atomDepths ts d := rfl

theorem atomDepths_ring (a : Vertex) (b : Edge) (c : Nat) (ts : List Tok) (d : Nat) :
    atomDepths (Tok.ring a b c :: ts) d = atomDepths ts d := rfl

theorem atomDepths_fake (ts : List Tok) (d : Nat) :
    atomDepths (Tok.fake :: ts) d = atomDepths ts d := rfl

theorem balancedFrom_nil (d : Nat) : balancedFrom [] d = decide (d = 0) := rfl

theorem balancedFrom_left (ts : List Tok) (d : Nat) :
    balancedFrom (Tok.branchLeft :: ts) d = balancedFrom ts (d + 1) := rfl

theorem balancedFrom_right (ts : List Tok) (d : Nat) :
    balancedFrom (Tok.branchRight :: ts) d = decide (d ≠ 0 ∧ balancedFrom ts (d - 1) = true) :=
  rfl

theorem balancedFrom_node (v : Vertex) (pv : Option Vertex) (nv : List Vertex) (ts : List Tok)
    (d : Nat) : balancedFrom (Tok.node v pv nv :: ts) d = balancedFrom ts d := rfl

theorem balancedFrom_connector (e : Edge) (ts : List Tok) (d : Nat) :
    balancedFrom (Tok.connector e :: ts) d = balancedFrom ts d := rfl

theorem balancedFrom_ring (a : Vertex) (b : Edge) (c : Nat) (ts : List Tok) (d : Nat) :
    balancedFrom (Tok.ring a b c :: ts) d = balancedFrom ts d := rfl

theorem balancedFrom_fake (ts : List Tok) (d : Nat) :
    balancedFrom (Tok.fake :: ts) d = balancedFrom ts d := rfl

theorem seg_nil : Seg [] := by
  intro d rest
  simp [atomDepths_nil]

theorem Seg.concat {a b : List Tok} (ha : Seg a) (hb : Seg b) : Seg (a ++ b) := by
  intro d rest
  have h1 := ha d (b ++ rest)
  have h2 := hb d rest
  have h3 := ha 0 b
  have h4 := hb 0 []
  simp only [List.append_nil, shift_zero, atomDepths_nil] at h3 h4
  rw [List.append_assoc, h1.1, h1.2, h2.1, h2.2, h3.1]
  simp [List.map_append]

theorem Seg.atomDepths_eq {a : List Tok} (ha : Seg a) (d : Nat) :
    atomDepths a d = (atomDepths a 0).map (fun x => (x.1, x.2 + d)) := by
  have := (ha d []).1
  simpa [atomDepths_nil] using this

theorem Seg.balanced {a : List Tok} (ha : Seg a) : balancedFrom a 0 = true := by
  have := (ha 0 []).2
  simpa [balancedFrom_nil] using this

/-- A token sequence without branch brackets. -/
theorem seg_of_plain (l : List Tok) (h : ∀ t ∈ l, t ≠ Tok.branchLeft ∧ t ≠ Tok.branchRight) :
    Seg l := by
  induction l with
  | nil => exact seg_nil
  | cons t l ih =>
    have ihl := ih (fun t ht => h t (List.mem_cons_of_mem _ ht))
    have ht := h t (List.mem_cons_self _ _)
    intro d rest
    have h1 := ihl d rest
    have h2 := ihl.atomDepths_eq
    cases t with
    | branchLeft => exact absurd rfl ht.1
    | branchRight => exact absurd rfl ht.2
    | node v pv nv =>
      simp only [List.cons_append, atomDepths_node, balancedFrom_node, h1.1, h1.2,
        List.map_cons, Nat.zero_add, and_self]
    | connector e =>
      simp only [List.cons_append, atomDepths_connector, balancedFrom_connector, h1.1, h1.2,
        and_self]
    | ring a b c =>
      simp only [List.cons_append, atomDepths_ring, balancedFrom_ring, h1.1, h1.2, and_self]
    | fake =>
      simp only [List.cons_append, atomDepths_fake, balancedFrom_fake, h1.1, h1.2, and_self]

theorem branchGroup_cons (b : List Tok) :
    branchGroup b = Tok.branchLeft :: (b ++ [Tok.branchRight]) := by
  simp [branchGroup]

theorem branchGroup_append (b rest : List Tok) :
    branchGroup b ++ rest = Tok.branchLeft :: (b ++ Tok.branchRight :: rest) := by
  simp [branchGroup]

theorem Seg.group {b : List Tok} (hb : Seg b) : Seg (branchGroup b) := by
  intro d rest
  have h1 := hb (d + 1) (Tok.branchRight :: rest)
  have h2 := hb 1 [Tok.branchRight]
  rw [branchGroup_append, branchGroup_cons, atomDepths_left, balancedFrom_left, h1.1, h1.2,
    atomDepths_right, balancedFrom_right, atomDepths_left, h2.1, atomDepths_right,
    atomDepths_nil, List.append_nil, shift_shift, Nat.add_sub_cancel]
  refine ⟨?_, ?_⟩
  · congr 1
    apply List.map_congr_left
    intro x _
    simp [Nat.add_comm]
  · simp

theorem seg_flatten (bs : List (List Tok)) (h : ∀ b ∈ bs, Seg b) : Seg bs.flatten := by
  induction bs with
  | nil => exact seg_nil
  | cons b bs ih =>
    rw [List.flatten_cons]
    exact (h b (List.mem_cons_self _ _)).concat (ih (fun c hc => h c (List.mem_cons_of_mem _ hc)))

theorem topAtoms_append {a : List Tok} (ha : Seg a) (b : List Tok) :
    topAtoms (a ++ b) = topAtoms a ++ topAtoms b := by
  unfold topAtoms
  rw [(ha 0 b).1, shift_zero, List.filter_append, List.map_append]

theorem topAtoms_branchGroup {b : List Tok} (hb : Seg b) : topAtoms (branchGroup b) = [] := by
  unfold topAtoms
  have h2 := hb 1 [Tok.branchRight]
  rw [branchGroup_cons, atomDepths_left, h2.1, atomDepths_right, atomDepths_nil,
    List.append_nil, List.map_eq_nil_iff, List.filter_eq_nil_iff]
  intro x hx
  obtain ⟨y, _, hy⟩ := List.mem_map.mp hx
  rw [← hy]
  simp

theorem topAtoms_groups (bs : List (List Tok)) (h : ∀ b ∈ bs, Seg b) :
    topAtoms (bs.map branchGroup).flatten = [] := by
  induction bs with
  | nil => rfl
  | cons b bs ih =>
    have hb := h b (List.mem_cons_self _ _)
    rw [List.map_cons, List.flatten_cons, topAtoms_append hb.group,
      topAtoms_branchGroup hb, ih (fun c hc => h c (List.mem_cons_of_mem _ hc))]
    rfl

theorem topAtoms_plain (l : List Tok) (h : ∀ t ∈ l, ∃ a b c, t = Tok.ring a b c) :
    topAtoms l = [] ∧ Seg l := by
  have hs : Seg l := seg_of_plain l (fun t ht => by
    obtain ⟨a, b, c, rfl⟩ := h t ht
    exact ⟨by simp, by simp⟩)
  refine ⟨?_, hs⟩
  induction l with
  | nil => rfl
  | cons t l ih =>
    obtain ⟨a, b, c, rfl⟩ := h t (List.mem_cons_self _ _)
    have := ih (fun t ht => h t (List.mem_cons_of_mem _ ht))
      (seg_of_plain l (fun t ht => by
        obtain ⟨a, b, c, rfl⟩ := h t (List.mem_cons_of_mem _ ht)
        exact ⟨by simp, by simp⟩))
    unfold topAtoms at this ⊢
    simpa [atomDepths_ring] using this

/-- The head of the string of a call: bond symbol, atom token, ring-closure
strings. -/
theorem topAtoms_head (v : Vertex) (p : Option Edge) (pv : Option Vertex) (nv : List Vertex)
    (rings : List Tok) (h : ∀ t ∈ rings, ∃ a b c, t = Tok.ring a b c) :
    topAtoms (p.toList.map Tok.connector ++ [Tok.node v pv nv] ++ rings) = [v] ∧
    Seg (p.toList.map Tok.connector ++ [Tok.node v pv nv] ++ rings) := by
  obtain ⟨hr, hsr⟩ := topAtoms_plain rings h
  have hn : Seg [Tok.node v pv nv] := seg_of_plain _ (fun t ht => by
    rw [List.mem_singleton] at ht
    subst ht
    exact ⟨by simp, by simp⟩)
  have hc : Seg (p.toList.map Tok.connector) := seg_of_plain _ (fun t ht => by
    obtain ⟨e, _, rfl⟩ := List.mem_map.mp ht
    exact ⟨by simp, by simp⟩)
  refine ⟨?_, (hc.concat hn).concat hsr⟩
  rw [topAtoms_append (hc.concat hn), topAtoms_append hc, hr]
  cases p with
  | none => rfl
  | some e => rfl

/-! ## The main chain in the output -/

theorem children_parts (ps : List (Edge × List Tok)) (M : List Edge) (P : List Tok → Prop)
    (hnil : P []) (hps : ∀ q ∈ ps, P q.2) :
    (∀ b ∈ (if ps.filter (fun q => q.1 ∈ M) = []
          then ((ps.filter (fun q => q.1 ∉ M)).map (fun q => q.2)).tail
          else (ps.filter (fun q => q.1 ∉ M)).map (fun q => q.2)), P b) ∧
    P ((((ps.filter (fun q => q.1 ∈ M)).getLast?).map (fun q => q.2)).getD
        ((((ps.filter (fun q => q.1 ∉ M)).map (fun q => q.2)).head?).getD [])) := by
  have hmem : ∀ b ∈ (ps.filter (fun q => decide (q.1 ∉ M))).map (fun q => q.2), P b := by
    intro b hb
    obtain ⟨q, hq, rfl⟩ := List.mem_map.mp hb
    exact hps q (List.mem_filter.mp hq).1
  refine ⟨?_, ?_⟩
  · intro b hb
    split at hb
    · exact hmem b (List.mem_of_mem_tail hb)
    · exact hmem b hb
  · cases hl : (ps.filter (fun q => decide (q.1 ∈ M))).getLast? with
    | some q =>
      exact hps q (List.mem_filter.mp (List.mem_of_mem_getLast? hl)).1
    | none =>
      cases hh : ((ps.filter (fun q => decide (q.1 ∉ M))).map (fun q => q.2)).head? with
      | none => exact hnil
      | some b => exact hmem b (List.mem_of_mem_head? hh)

/-- Every string `_writeMolVertex` returns is balanced by itself. -/
theorem writeMolVertex_seg (env : WriterEnv) (M T : List Edge) :
    ∀ (fuel : Nat) (v : Vertex) (p : Option Edge) (repo : List Edge) (toks : List Tok)
      (repo1 : List Edge),
      writeMolVertex env fuel v p M T repo = some (toks, repo1) → Seg toks := by
  intro fuel
  induction fuel with
  | zero =>
    intro v p repo toks repo1 h
    simp [writeMolVertex] at h
  | succ fuel ih =>
    intro v p repo toks repo1 h
    obtain ⟨ps, nv, rings, _, h2, h3, h4⟩ :=
      writeMolVertex_children env fuel v p M T repo toks repo1 h
    have hps : ∀ q ∈ ps, Seg q.2 := by
      intro q hq
      obtain ⟨r, r1, hr⟩ := h2 q hq
      exact ih _ _ _ _ _ hr
    obtain ⟨hg, hc⟩ := children_parts ps M Seg seg_nil hps
    rw [h4]
    exact (topAtoms_head v p _ nv rings h3).2.concat ((seg_flatten _ (by
      intro b hb
      obtain ⟨c, hc1, rfl⟩ := List.mem_map.mp hb
      exact (hg c hc1).group)).concat hc)

/-- The atoms outside all brackets in the string of a call: the vertex of the call,
then those of the continuation. -/
theorem writeMolVertex_topAtoms (env : WriterEnv) (fuel : Nat) (v : Vertex) (p : Option Edge)
    (M T repo : List Edge) (toks : List Tok) (repo1 : List Edge)
    (h : writeMolVertex env (fuel + 1) v p M T repo = some (toks, repo1)) :
    ∃ ps : List (Edge × List Tok),
      ps.map (fun q => q.1) = childEdges env v p T ∧
      (∀ q ∈ ps, ∃ r r1,
        writeMolVertex env fuel (env.graph.getNeighborOnEdge v q.1) (some q.1) M T r
          = some (q.2, r1)) ∧
      topAtoms toks = v :: topAtoms
        ((((ps.filter (fun q => q.1 ∈ M)).getLast?).map (fun q => q.2)).getD
          ((((ps.filter (fun q => q.1 ∉ M)).map (fun q => q.2)).head?).getD [])) := by
  obtain ⟨ps, nv, rings, h1, h2, h3, h4⟩ :=
    writeMolVertex_children env fuel v p M T repo toks repo1 h
  have hps : ∀ q ∈ ps, Seg q.2 := by
    intro q hq
    obtain ⟨r, r1, hr⟩ := h2 q hq
    exact writeMolVertex_seg env M T _ _ _ _ _ _ hr
  obtain ⟨hg, _⟩ := children_parts ps M Seg seg_nil hps
  obtain ⟨ht, hs⟩ := topAtoms_head v p (p.map (fun e => env.graph.getNeighborOnEdge v e)) nv
    rings h3
  refine ⟨ps, h1, h2, ?_⟩
  rw [h4, topAtoms_append hs, ht, topAtoms_append (seg_flatten _ (by
      intro b hb
      obtain ⟨c, hc1, rfl⟩ := List.mem_map.mp hb
      exact (hg c hc1).group)), topAtoms_groups _ hg]
  rfl

/-- Along a chain of main-chain children that ends in a call without a child, the
atoms outside all brackets are the vertices of the chain. -/
theorem path_topAtoms (env : WriterEnv) (M T : List Edge) :
    ∀ (vs : List Vertex) (es : List Edge) (v : Vertex) (p : Option Edge) (fuel : Nat)
      (repo : List Edge) (toks : List Tok) (repo1 : List Edge),
      PathOK env.graph M T v p vs es →
      writeMolVertex env fuel v p M T repo = some (toks, repo1) →
      topAtoms toks = v :: vs := by
  intro vs
  induction vs with
  | nil =>
    intro es v p fuel repo toks repo1 hpath h
    cases es with
    | cons e es => simp [PathOK] at hpath
    | nil =>
      simp only [PathOK] at hpath
      cases fuel with
      | zero => simp [writeMolVertex] at h
      | succ fuel =>
        obtain ⟨ps, h1, _, h3⟩ := writeMolVertex_topAtoms env fuel v p M T repo toks repo1 h
        have hch : childEdges env v p T = [] := by
          unfold childEdges
          rw [List.filter_eq_nil_iff]
          intro e he
          have he1 : e ∈ env.graph.getEdges v := List.mem_reverse.mp he
          simp only [decide_eq_true_eq, not_and]
          exact fun hp => hpath e he1 hp
        rw [hch, List.map_eq_nil_iff] at h1
        subst h1
        rw [h3]
        rfl
  | cons w vs ih =>
    intro es v p fuel repo toks repo1 hpath h
    cases es with
    | nil => simp [PathOK] at hpath
    | cons e es =>
      simp only [PathOK] at hpath
      obtain ⟨he, hp, hT, hM, hw, huniq, hrest⟩ := hpath
      cases fuel with
      | zero => simp [writeMolVertex] at h
      | succ fuel =>
        obtain ⟨ps, h1, h2, h3⟩ := writeMolVertex_topAtoms env fuel v p M T repo toks repo1 h
        have hech : e ∈ childEdges env v p T := by
          unfold childEdges
          rw [List.mem_filter]
          exact ⟨List.mem_reverse.mpr he, by simp [hp, hT]⟩
        rw [← h1] at hech
        obtain ⟨q0, hq0, hq0e⟩ := List.mem_map.mp hech
        have hF : q0 ∈ ps.filter (fun q => decide (q.1 ∈ M)) :=
          List.mem_filter.mpr ⟨hq0, by simp [hq0e, hM]⟩
        cases hl : (ps.filter (fun q => decide (q.1 ∈ M))).getLast? with
        | none =>
          rw [List.getLast?_eq_none_iff] at hl
          rw [hl] at hF
          simp at hF
        | some q =>
          have hq := List.mem_filter.mp (List.mem_of_mem_getLast? hl)
          have hqM : q.1 ∈ M := by simpa using hq.2
          have hqch : q.1 ∈ childEdges env v p T := by
            rw [← h1]; exact List.mem_map_of_mem _ hq.1
          unfold childEdges at hqch
          rw [List.mem_filter] at hqch
          have hq2 : some q.1 ≠ p ∧ q.1 ∈ T := by simpa using hqch.2
          have hqe : q.1 = e := huniq q.1 (List.mem_reverse.mp hqch.1) hq2.1 hq2.2 hqM
          obtain ⟨r, r1, hr⟩ := h2 q hq.1
          rw [hqe, hw] at hr
          rw [h3, hl]
          simp only [Option.map_some', Option.getD_some]
          rw [ih es w (some e) fuel r q.2 r1 hrest hr]

/-- The longest path of a result is a chain of main-chain children that ends in a
call without a child. `T` holds the tree edges, `M` the main-chain edges, and `p` is
the edge the root was reached by. -/
theorem STree.chain {g : Graph} (hwf : g.WF) {v : Vertex} {r : SpanningResult}
    (h : STree g v r) :
    v ∈ g.vertexes → (∀ x ∈ r.vertexes, x ∈ g.vertexes) → (v :: r.vertexes).Nodup →
    ∀ (M T : List Edge) (p : Option Edge),
      (∀ e ∈ r.edges, e ∈ T) →
      (∀ e ∈ T, ∀ x ∈ v :: r.vertexes, e ∈ g.getEdges x → e ∈ r.edges ∨ some e = p) →
      (∀ e, p = some e → ∀ x ∈ r.vertexes, e ∉ g.getEdges x) →
      (∀ e ∈ r.edges, e ∈ M → e ∈ r.longestPath.edges) →
      (∀ e ∈ r.longestPath.edges, e ∈ M) →
      PathOK g M T v p r.longestPath.vertexes.tail r.longestPath.edges := by
  induction h with
  | mk v kids hk hs ih =>
    intro hv hV hnd M T p hT hinc hp hM hMin
    rw [finish_vertexes] at hV hnd hinc hp
    rw [finish_edges] at hT hinc hM
    obtain ⟨hMk, hMu⟩ := kid_main_chain hwf hv hk hs hV hnd M hM
    have hvnot : v ∉ kidVerts g v kids := (List.nodup_cons.mp hnd).1
    have hndk : (kidVerts g v kids).Nodup := (List.nodup_cons.mp hnd).2
    have hkvsub : ∀ k ∈ kids, ∀ x ∈ g.getNeighborOnEdge v k.1 :: k.2.vertexes,
        x ∈ kidVerts g v kids := by
      intro k hkm x hx
      exact mem_kidVerts.mpr ⟨k, hkm, by simpa using hx⟩
    have hown : ∀ k ∈ kids, ∀ e ∈ T, ∀ x ∈ g.getNeighborOnEdge v k.1 :: k.2.vertexes,
        e ∈ g.getEdges x → e ∈ k.1 :: k.2.edges := by
      intro k hkm e heT x hx hex
      have hxk := hkvsub k hkm x hx
      have hxV := hV x hxk
      rcases hinc e heT x (List.mem_cons_of_mem _ hxk) hex with h | h
      · obtain ⟨k1, hk1, he1⟩ := mem_kidEdges.mp h
        have he1' : e ∈ k1.1 :: k1.2.edges := by simpa using he1
        obtain ⟨_, hb1, hb2, _⟩ := kid_edge_info hwf hv hk hs hV hk1 he1'
        have hx1 : x ∈ v :: g.getNeighborOnEdge v k1.1 :: k1.2.vertexes := by
          rcases hwf.end_of_mem hxV hex with hc | hc
          · rw [← hc]; exact hb1
          · rw [← hc]; exact hb2
        have hxv : x ≠ v := by
          intro hc
          rw [hc] at hxk
          exact hvnot hxk
        have hx2 : x ∈ g.getNeighborOnEdge v k1.1 :: k1.2.vertexes := by
          rcases List.mem_cons.mp hx1 with hc | hc
          · exact absurd hc hxv
          · exact hc
        have hkk : k = k1 := kid_unique hndk hkm hk1 hx hx2
        rw [hkk]; exact he1'
      · exact absurd hex (hp e h.symm x hxk)
    have hchild : ∀ e ∈ g.getEdges v, (some e ≠ p ∧ e ∈ T) → ∃ k ∈ kids, k.1 = e := by
      intro e he
      rintro ⟨hne, heT⟩
      rcases hinc e heT v (List.mem_cons_self _ _) he with h | h
      · obtain ⟨k, hkm, hek⟩ := mem_kidEdges.mp h
        rcases hek with hek | hek
        · exact ⟨k, hkm, hek.symm⟩
        · exfalso
          obtain ⟨_, _, _, g4⟩ := kid_good hV hnd hkm
          obtain ⟨_, _, _, hin⟩ :=
            kid_edge_info hwf hv hk hs hV hkm (List.mem_cons_of_mem k.1 hek)
          obtain ⟨e1, e2⟩ := hin hek
          rcases hwf.end_of_mem hv he with hc | hc
          · rw [hc] at e1; exact g4 e1
          · rw [hc] at e2; exact g4 e2
      · exact absurd h hne
    rcases finish_longest g v kids with ⟨hnil, hlp⟩ | ⟨k, hkm, hlp, _⟩
    · rw [hlp]
      simp only [List.tail_cons, PathOK]
      intro e he hne heT
      obtain ⟨k, hkm, _⟩ := hchild e he ⟨hne, heT⟩
      rw [hnil] at hkm
      simp at hkm
    · rw [hlp] at hMin ⊢
      simp only [List.tail_cons]
      obtain ⟨tl, htl⟩ := List.head?_eq_some_iff.mp (hs k hkm).longestPath_head
      obtain ⟨g1, g2, g3, g4⟩ := kid_good hV hnd hkm
      have hkT : k.1 ∈ T := hT _ (mem_kidEdges.mpr ⟨k, hkm, Or.inl rfl⟩)
      have hkp : some k.1 ≠ p := by
        intro hc
        exact hp k.1 hc.symm _ (hkvsub k hkm _ (List.mem_cons_self _ _))
          (hwf.neighbor hv (hk k hkm)).2.1
      have hrec := ih k hkm g1 g2 g3 M T (some k.1)
        (fun e he => hT e (mem_kidEdges.mpr ⟨k, hkm, Or.inr he⟩))
        (by
          intro e heT x hx hex
          rcases List.mem_cons.mp (hown k hkm e heT x hx hex) with h | h
          · exact Or.inr (by rw [h])
          · exact Or.inl h)
        (by
          intro e he x hx hex
          rw [Option.some.injEq] at he
          subst he
          have hxV := g2 x hx
          obtain ⟨_, _, _, _, hj, _⟩ := hwf.neighbor hv (hk k hkm)
          have hxe := hwf.end_of_mem hxV hex
          have hx' : x = v ∨ x = g.getNeighborOnEdge v k.1 := by
            rcases hj with hj | hj <;> rw [hj] at hxe <;> simp only at hxe
            · rcases hxe with hc | hc
              · exact Or.inl hc.symm
              · exact Or.inr hc.symm
            · rcases hxe with hc | hc
              · exact Or.inr hc.symm
              · exact Or.inl hc.symm
          rcases hx' with hc | hc
          · rw [hc] at hx
            exact g4 (List.mem_cons_of_mem _ hx)
          · rw [hc] at hx
            exact (List.nodup_cons.mp g3).1 hx)
        (hMk k hkm)
        (fun e he => hMin e (List.mem_cons_of_mem _ he))
      rw [htl] at hrec ⊢
      simp only [List.tail_cons] at hrec
      simp only [PathOK]
      refine ⟨hk k hkm, hkp, hkT, hMin _ (List.mem_cons_self _ _), trivial, ?_, hrec⟩
      intro e1 he1 hne1 hT1 hM1
      obtain ⟨k1, hk1, hke1⟩ := hchild e1 he1 ⟨hne1, hT1⟩
      have := hMu k1 hk1 k hkm (by rw [hke1]; exact hM1) (hMin _ (List.mem_cons_self _ _))
      rw [← hke1, this]

theorem atomDepths_map_fst (toks : List Tok) :
    ∀ d, (atomDepths toks d).map (fun x => x.1) = atomsOf toks := by
  induction toks with
  | nil => intro d; rfl
  | cons t ts ih =>
    intro d
    cases t with
    | branchLeft => rw [atomDepths_left, ih]; rfl
    | branchRight => rw [atomDepths_right, ih]; rfl
    | node v pv nv => rw [atomDepths_node, List.map_cons, ih]; rfl
    | connector e => rw [atomDepths_connector, ih]; rfl
    | ring a b c => rw [atomDepths_ring, ih]; rfl
    | fake => rw [atomDepths_fake, ih]; rfl

/-- In the string of a component the atoms outside all brackets are the vertices of
the longest path, in order, and the string is balanced by itself. -/
theorem component_topAtoms (env : WriterEnv) (hwf : env.graph.WF) {root : Vertex}
    {r : SpanningResult} (hc : IsComponentResult env.graph root r) (repo : List Edge)
    (toks : List Tok) (repo1 : List Edge)
    (hw : writeMolVertex env r.vertexes.length root none r.longestPath.edges r.edges repo
      = some (toks, repo1)) :
    topAtoms toks = r.longestPath.vertexes ∧ Seg toks := by
  refine ⟨?_, writeMolVertex_seg env _ _ _ _ _ _ _ _ hw⟩
  obtain ⟨inner, hri, hT, hroot, hnd, hV, _⟩ := hc
  subst hri
  have hVi : ∀ x ∈ inner.vertexes, x ∈ env.graph.vertexes :=
    fun x hx => hV x (List.mem_cons_of_mem _ hx)
  have hpath := hT.chain hwf hroot hVi hnd inner.longestPath.edges inner.edges none
    (fun e he => he) (fun e he _ _ _ => Or.inl he) (fun e he => by simp at he)
    (fun e _ he => he) (fun e he => he)
  obtain ⟨tl, htl⟩ := List.head?_eq_some_iff.mp hT.longestPath_head
  have := path_topAtoms env _ _ _ _ _ _ _ _ _ _ hpath hw
  rw [this]
  show root :: inner.longestPath.vertexes.tail = inner.longestPath.vertexes
  rw [htl]
  rfl

/-! ## Claims about the branches and the main chain -/

/-- C14. In a call of `_writeMolVertex` at a vertex with `k` spanning-tree child
edges (the tree edges of the vertex other than the edge it was reached by), of which
at most one is a main-chain edge, the string is the bond symbol, atom token and
ring-closure strings, then the branch groups in brackets, then the continuation
without brackets, where every group and the continuation is the string of the
recursive call for one child edge: for `k ≥ 1` there are `k - 1` groups and one
continuation, which is the string of the main-chain child when a child edge is in
`mainChainEdges` (the groups are the other children in traversal order), and
otherwise the string of the first child in traversal order (the groups are the
rest); for `k = 0` there is no group and no continuation. -/
theorem writeMolVertex_branches (env : WriterEnv) (fuel : Nat) (v : Vertex) (p : Option Edge)
    (M T repo : List Edge) (toks : List Tok) (repo1 : List Edge)
    (h : writeMolVertex env (fuel + 1) v p M T repo = some (toks, repo1))
    (hone : ((childEdges env v p T).filter (fun e => e ∈ M)).length ≤ 1) :
    ∃ (ps : List (Edge × List Tok)) (hd : List Tok) (groups : List (List Tok))
        (cont : List Tok),
      ps.map (fun q => q.1) = childEdges env v p T ∧
      (∀ q ∈ ps, ∃ r r1,
        writeMolVertex env fuel (env.graph.getNeighborOnEdge v q.1) (some q.1) M T r
          = some (q.2, r1)) ∧
      (∃ nv rings, (∀ t ∈ rings, ∃ a b c, t = Tok.ring a b c) ∧
        hd = p.toList.map Tok.connector
          ++ [Tok.node v (p.map (fun e => env.graph.getNeighborOnEdge v e)) nv] ++ rings) ∧
      toks = hd ++ ((groups.map branchGroup).flatten ++ cont) ∧
      (ps = [] → groups = [] ∧ cont = []) ∧
      (ps ≠ [] → groups.length + 1 = ps.length ∧ cont ≠ []) ∧
      (∀ q ∈ ps, q.1 ∈ M →
        cont = q.2 ∧ groups = (ps.filter (fun x => x.1 ∉ M)).map (fun x => x.2)) ∧
      ((∀ q ∈ ps, q.1 ∉ M) →
        cont = (ps.head?.map (fun x => x.2)).getD [] ∧
        groups = ps.tail.map (fun x => x.2)) := by
  obtain ⟨ps, nv, rings, h1, h2, h3, h4⟩ := writeMolVertex_children env fuel v p M T repo toks repo1 h
  have hne : ∀ q ∈ ps, q.2 ≠ [] := by
    intro q hq hc
    obtain ⟨r, r1, hr⟩ := h2 q hq
    have := writeMolVertex_ne_empty env _ _ _ _ _ _ _ _ hr
    rw [hc] at this
    exact this rfl
  have hlen : (ps.filter (fun q => decide (q.1 ∈ M))).length ≤ 1 := by
    have : ((ps.filter (fun q => decide (q.1 ∈ M))).map (fun q => q.1))
        = (childEdges env v p T).filter (fun e => decide (e ∈ M)) := by
      rw [← h1, List.filter_map]
      rfl
    have hl := congrArg List.length this
    rw [List.length_map] at hl
    omega
  have hsplit := length_filter_add_length_filter_not (fun q : Edge × List Tok => decide (q.1 ∈ M)) ps
  have hnot : ps.filter (fun q => !decide (q.1 ∈ M)) = ps.filter (fun q => decide (q.1 ∉ M)) := by
    apply List.filter_congr
    intro q _
    simp
  have hsplit2 := hsplit
  rw [hnot] at hsplit2
  refine ⟨ps, _, _, _, h1, h2, ⟨nv, rings, h3, rfl⟩, h4, ?_, ?_, ?_, ?_⟩
  · intro hps
    subst hps
    simp
  · intro hps
    cases hF : ps.filter (fun q => decide (q.1 ∈ M)) with
    | nil =>
      rw [hF] at hsplit
      have hall : ps.filter (fun q => decide (q.1 ∉ M)) = ps := by
        rw [List.filter_eq_self]
        intro q hq
        have : q ∉ ps.filter (fun q => decide (q.1 ∈ M)) := by rw [hF]; simp
        simpa [List.mem_filter, hq] using this
      simp only [if_true, hall, List.getLast?_nil, Option.map_none', Option.getD_none]
      cases ps with
      | nil => exact absurd rfl hps
      | cons q0 rest =>
        refine ⟨by simp, ?_⟩
        simpa using hne q0 (List.mem_cons_self _ _)
    | cons q0 rest =>
      rw [hF] at hlen hsplit hsplit2
      have hrest : rest = [] := by
        cases rest with
        | nil => rfl
        | cons a b => simp at hlen
      subst hrest
      have hq0 : q0 ∈ ps := (List.mem_filter.mp (by rw [hF]; exact List.mem_cons_self _ _)).1
      simp only [List.length_singleton] at hsplit hsplit2
      refine ⟨by simp; omega, ?_⟩
      simpa using hne q0 hq0
  · intro q hq hqM
    have hqF : q ∈ ps.filter (fun q => decide (q.1 ∈ M)) :=
      List.mem_filter.mpr ⟨hq, by simpa using hqM⟩
    cases hF : ps.filter (fun q => decide (q.1 ∈ M)) with
    | nil => rw [hF] at hqF; simp at hqF
    | cons q0 rest =>
      rw [hF] at hlen hqF
      have hrest : rest = [] := by
        cases rest with
        | nil => rfl
        | cons a b => simp at hlen
      subst hrest
      have hqq : q = q0 := by simpa using hqF
      subst hqq
      simp
  · intro hall
    have hF : ps.filter (fun q => decide (q.1 ∈ M)) = [] := by
      rw [List.filter_eq_nil_iff]
      intro q hq
      simpa using hall q hq
    have hall2 : ps.filter (fun q => decide (q.1 ∉ M)) = ps := by
      rw [List.filter_eq_self]
      intro q hq
      simpa using hall q hq
    simp only [hF, if_true, hall2, List.getLast?_nil, Option.map_none', Option.getD_none,
      List.head?_map, List.map_tail, and_self]

/-- Witness of C14: vertex 1 of the example graph, reached by edge 10, with the
child edges 13 (on the main chain) and 11. -/
theorem writeMolVertex_branches_witness :
    writeMolVertex exampleEnv (2 + 1) 1 (some 10) [10, 13] [10, 11, 13] [12]
      = some ([Tok.connector 10, Tok.node 1 (some 0) [2, 3], Tok.branchLeft, Tok.connector 11,
          Tok.node 2 (some 1) [0], Tok.ring 2 12 1, Tok.branchRight, Tok.connector 13,
          Tok.node 3 (some 1) []], [12]) ∧
    ((childEdges exampleEnv 1 (some 10) [10, 11, 13]).filter
      (fun e => e ∈ [10, 13])).length ≤ 1 ∧
    ∃ (ps : List (Edge × List Tok)) (hd : List Tok) (groups : List (List Tok))
        (cont : List Tok),
      ps.map (fun q => q.1) = childEdges exampleEnv 1 (some 10) [10, 11, 13] ∧
      (∀ q ∈ ps, ∃ r r1,
        writeMolVertex exampleEnv 2 (exampleEnv.graph.getNeighborOnEdge 1 q.1) (some q.1)
          [10, 13] [10, 11, 13] r = some (q.2, r1)) ∧
      (∃ nv rings, (∀ t ∈ rings, ∃ a b c, t = Tok.ring a b c) ∧
        hd = (some 10 : Option Edge).toList.map Tok.connector
          ++ [Tok.node 1 ((some 10 : Option Edge).map
                (fun e => exampleEnv.graph.getNeighborOnEdge 1 e)) nv] ++ rings) ∧
      [Tok.connector 10, Tok.node 1 (some 0) [2, 3], Tok.branchLeft, Tok.connector 11,
          Tok.node 2 (some 1) [0], Tok.ring 2 12 1, Tok.branchRight, Tok.connector 13,
          Tok.node 3 (some 1) []]
        = hd ++ ((groups.map branchGroup).flatten ++ cont) ∧
      (ps = [] → groups = [] ∧ cont = []) ∧
      (ps ≠ [] → groups.length + 1 = ps.length ∧ cont ≠ []) ∧
      (∀ q ∈ ps, q.1 ∈ [10, 13] →
        cont = q.2 ∧ groups = (ps.filter (fun x => x.1 ∉ [10, 13])).map (fun x => x.2)) ∧
      ((∀ q ∈ ps, q.1 ∉ [10, 13]) →
        cont = (ps.head?.map (fun x => x.2)).getD [] ∧
        groups = ps.tail.map (fun x => x.2)) :=
  ⟨by decide, by decide,
    writeMolVertex_branches exampleEnv 2 1 (some 10) [10, 13] [10, 11, 13] [12] _ [12]
      (by decide) (by decide)⟩

/-- C15. On a well-formed graph, for every result of
`createGraphDepthSpanningTreesEx` and every state of the registry, in the string
`_writeMolVertex` returns for the component (as tokens, so that brackets inside the
text of an atom or bond do not count): the atoms that stand outside all branch
brackets are exactly the vertices of `longestPath`, in path order; every vertex of
the component has one atom token, and the token of a vertex that is not on the
longest path stands inside at least one pair of branch brackets; and the branch
brackets are balanced. -/
theorem writeMolVertex_mainChain (env : WriterEnv) (hwf : env.graph.WF)
    (startingVertex : Option Vertex) (flags : List Vertex) :
    ∃ rs flags1,
      createGraphDepthSpanningTreesEx env.graph startingVertex flags = some (rs, flags1) ∧
      ∀ r ∈ rs, ∃ root, r.longestPath.vertexes.head? = some root ∧
        ∀ repo : List Edge, ∃ toks repo1,
          writeMolVertex env r.vertexes.length root none r.longestPath.edges r.edges repo
            = some (toks, repo1) ∧
          topAtoms toks = r.longestPath.vertexes ∧
          ((atomDepths toks 0).map (fun x => x.1)).Perm r.vertexes ∧
          (∀ v ∈ r.vertexes, v ∉ r.longestPath.vertexes →
            ∃ d, 0 < d ∧ (v, d) ∈ atomDepths toks 0) ∧
          (∀ x ∈ atomDepths toks 0, x.1 ∉ r.longestPath.vertexes → 0 < x.2) ∧
          balancedFrom toks 0 = true := by
  obtain ⟨rs, flags1, hrun, hall, _, _⟩ :=
    createGraphDepthSpanningTreesEx_spec env.graph hwf startingVertex flags
  refine ⟨rs, flags1, hrun, ?_⟩
  intro r hr
  obtain ⟨root, hc⟩ := hall r hr
  refine ⟨root, hc.heads.1, ?_⟩
  intro repo
  obtain ⟨toks, repo1, hw, hpost⟩ := writeMolVertex_component env hwf hc repo
  obtain ⟨htop, hseg⟩ := component_topAtoms env hwf hc repo toks repo1 hw
  have hperm : ((atomDepths toks 0).map (fun x => x.1)).Perm r.vertexes := by
    rw [atomDepths_map_fst]
    exact hpost.1
  have hdeep : ∀ x ∈ atomDepths toks 0, x.1 ∉ r.longestPath.vertexes → 0 < x.2 := by
    intro x hx hnot
    by_contra hd
    have hx0 : x.2 = 0 := by omega
    apply hnot
    rw [← htop]
    unfold topAtoms
    exact List.mem_map.mpr ⟨x, List.mem_filter.mpr ⟨hx, by simp [hx0]⟩, rfl⟩
  refine ⟨toks, repo1, hw, htop, hperm, ?_, hdeep, hseg.balanced⟩
  intro v hv hnot
  have hvm : v ∈ (atomDepths toks 0).map (fun x => x.1) := hperm.mem_iff.mpr hv
  obtain ⟨x, hx, hxv⟩ := List.mem_map.mp hvm
  obtain ⟨a, d⟩ := x
  simp only at hxv
  subst hxv
  exact ⟨d, hdeep (a, d) hx hnot, hx⟩

/-- Witness of C15: the example graph with a carbon atom on every vertex. -/
theorem writeMolVertex_mainChain_witness :
    exampleEnv.graph.WF ∧
    ∃ rs flags1,
      createGraphDepthSpanningTreesEx exampleEnv.graph (some 4) [] = some (rs, flags1) ∧
      ∀ r ∈ rs, ∃ root, r.longestPath.vertexes.head? = some root ∧
        ∀ repo : List Edge, ∃ toks repo1,
          writeMolVertex exampleEnv r.vertexes.length root none r.longestPath.edges r.edges
            repo = some (toks, repo1) ∧
          topAtoms toks = r.longestPath.vertexes ∧
          ((atomDepths toks 0).map (fun x => x.1)).Perm r.vertexes ∧
          (∀ v ∈ r.vertexes, v ∉ r.longestPath.vertexes →
            ∃ d, 0 < d ∧ (v, d) ∈ atomDepths toks 0) ∧
          (∀ x ∈ atomDepths toks 0, x.1 ∉ r.longestPath.vertexes → 0 < x.2) ∧
          balancedFrom toks 0 = true :=
  ⟨by decide, writeMolVertex_mainChain exampleEnv (by decide) (some 4) []⟩

/-! ## The bonds written by `_writeMolVertex` -/

/-- What holds at a vertex `v` of a spanning tree for the edges `kids` followed from
it, when the tree edges `T` at the vertices of the subtree are the edges of the
subtree and the edge `p` the vertex was reached by: the same holds at the far end of
every followed edge, the edges `_writeMolVertex` follows from `v` are the followed
edges, each once, and at most one of them is a main-chain edge. -/
theorem kid_calls {g : Graph} (hwf : g.WF) {v : Vertex}
    {kids : List (Edge × SpanningResult)} (hv : v ∈ g.vertexes)
    (hk : ∀ k ∈ kids, k.1 ∈ g.getEdges v)
    (hs : ∀ k ∈ kids, STree g (g.getNeighborOnEdge v k.1) k.2)
    (hV : ∀ x ∈ kidVerts g v kids, x ∈ g.vertexes)
    (hnd : (v :: kidVerts g v kids).Nodup) (M T : List Edge) (p : Option Edge)
    (hT : ∀ e ∈ kidEdges kids, e ∈ T)
    (hinc : ∀ e ∈ T, ∀ x ∈ v :: kidVerts g v kids, e ∈ g.getEdges x →
      e ∈ kidEdges kids ∨ some e = p)
    (hp : ∀ e, p = some e → ∀ x ∈ kidVerts g v kids, e ∉ g.getEdges x)
    (hM : ∀ e ∈ kidEdges kids, e ∈ M →
      e ∈ (finishTravers v (kids.foldl (addKid g v) (emptyResult, none))).longestPath.edges) :
    (∀ k ∈ kids,
      (∀ e ∈ k.2.edges, e ∈ T) ∧
      (∀ e ∈ T, ∀ x ∈ g.getNeighborOnEdge v k.1 :: k.2.vertexes, e ∈ g.getEdges x →
        e ∈ k.2.edges ∨ some e = some k.1) ∧
      (∀ e, some k.1 = some e → ∀ x ∈ k.2.vertexes, e ∉ g.getEdges x) ∧
      (∀ e ∈ k.2.edges, e ∈ M → e ∈ k.2.longestPath.edges)) ∧
    ((g.getEdges v).reverse.filter (fun e => decide (some e ≠ p ∧ e ∈ T))).Perm
      (kids.map (fun k => k.1)) ∧
    (kids.map (fun k => k.1)).Nodup ∧
    (∀ k1 ∈ kids, ∀ k2 ∈ kids, k1.1 ∈ M → k2.1 ∈ M → k1 = k2) := by
  obtain ⟨hMk, hMu⟩ := kid_main_chain hwf hv hk hs hV hnd M hM
  have hvnot : v ∉ kidVerts g v kids := (List.nodup_cons.mp hnd).1
  have hndk : (kidVerts g v kids).Nodup := (List.nodup_cons.mp hnd).2
  have hkvsub : ∀ k ∈ kids, ∀ x ∈ g.getNeighborOnEdge v k.1 :: k.2.vertexes,
      x ∈ kidVerts g v kids := by
    intro k hkm x hx
    exact mem_kidVerts.mpr ⟨k, hkm, by simpa using hx⟩
  have hown : ∀ k ∈ kids, ∀ e ∈ T, ∀ x ∈ g.getNeighborOnEdge v k.1 :: k.2.vertexes,
      e ∈ g.getEdges x → e ∈ k.1 :: k.2.edges := by
    intro k hkm e heT x hx hex
    have hxk := hkvsub k hkm x hx
    have hxV := hV x hxk
    rcases hinc e heT x (List.mem_cons_of_mem _ hxk) hex with h | h
    · obtain ⟨k1, hk1, he1⟩ := mem_kidEdges.mp h
      have he1' : e ∈ k1.1 :: k1.2.edges := by simpa using he1
      obtain ⟨_, hb1, hb2, _⟩ := kid_edge_info hwf hv hk hs hV hk1 he1'
      have hx1 : x ∈ v :: g.getNeighborOnEdge v k1.1 :: k1.2.vertexes := by
        rcases hwf.end_of_mem hxV hex with hc | hc
        · rw [← hc]; exact hb1
        · rw [← hc]; exact hb2
      have hxv : x ≠ v := by
        intro hc
        rw [hc] at hxk
        exact hvnot hxk
      have hx2 : x ∈ g.getNeighborOnEdge v k1.1 :: k1.2.vertexes := by
        rcases List.mem_cons.mp hx1 with hc | hc
        · exact absurd hc hxv
        · exact hc
      have hkk : k = k1 := kid_unique hndk hkm hk1 hx hx2
      rw [hkk]; exact he1'
    · exact absurd hex (hp e h.symm x hxk)
  have hchild : ∀ e ∈ g.getEdges v, (some e ≠ p ∧ e ∈ T) ↔ ∃ k ∈ kids, k.1 = e := by
    intro e he
    constructor
    · rintro ⟨hne, heT⟩
      rcases hinc e heT v (List.mem_cons_self _ _) he with h | h
      · obtain ⟨k, hkm, hek⟩ := mem_kidEdges.mp h
        rcases hek with hek | hek
        · exact ⟨k, hkm, hek.symm⟩
        · exfalso
          obtain ⟨_, _, _, g4⟩ := kid_good hV hnd hkm
          obtain ⟨_, _, _, hin⟩ :=
            kid_edge_info hwf hv hk hs hV hkm (List.mem_cons_of_mem k.1 hek)
          obtain ⟨e1, e2⟩ := hin hek
          rcases hwf.end_of_mem hv he with hc | hc
          · rw [hc] at e1; exact g4 e1
          · rw [hc] at e2; exact g4 e2
      · exact absurd h hne
    · rintro ⟨k, hkm, hke⟩
      subst hke
      refine ⟨?_, hT _ (mem_kidEdges.mpr ⟨k, hkm, Or.inl rfl⟩)⟩
      intro hc
      exact hp k.1 hc.symm _ (hkvsub k hkm _ (List.mem_cons_self _ _))
        (hwf.neighbor hv (hk k hkm)).2.1
  have hadjnd : (g.getEdges v).Nodup := (hwf.2.2.2 v hv).1
  have hmapnd : (kids.map (fun k => k.1)).Nodup := by
    refine List.Nodup.map_on ?_ (kids_nodup hndk)
    intro k1 hk1 k2 hk2 h12
    exact kid_edge_unique hwf hv hk hs hV hnd hk1 hk2 (List.mem_cons_self _ _)
      (by rw [h12]; exact List.mem_cons_self _ _)
  refine ⟨?_, ?_, hmapnd, hMu⟩
  · intro k hkm
    obtain ⟨g1, g2, g3, g4⟩ := kid_good hV hnd hkm
    refine ⟨?_, ?_, ?_, hMk k hkm⟩
    · exact fun e he => hT e (mem_kidEdges.mpr ⟨k, hkm, Or.inr he⟩)
    · intro e heT x hx hex
      rcases List.mem_cons.mp (hown k hkm e heT x hx hex) with h | h
      · exact Or.inr (by rw [h])
      · exact Or.inl h
    · intro e he x hx hex
      rw [Option.some.injEq] at he
      subst he
      have hxV := g2 x hx
      obtain ⟨_, _, _, _, hj, _⟩ := hwf.neighbor hv (hk k hkm)
      have hxe := hwf.end_of_mem hxV hex
      have hx' : x = v ∨ x = g.getNeighborOnEdge v k.1 := by
        rcases hj with hj | hj <;> rw [hj] at hxe <;> simp only at hxe
        · rcases hxe with hc | hc
          · exact Or.inl hc.symm
          · exact Or.inr hc.symm
        · rcases hxe with hc | hc
          · exact Or.inr hc.symm
          · exact Or.inl hc.symm
      rcases hx' with hc | hc
      · rw [hc] at hx
        exact g4 (List.mem_cons_of_mem _ hx)
      · rw [hc] at hx
        exact (List.nodup_cons.mp g3).1 hx
  · rw [List.perm_ext_iff_of_nodup ((List.nodup_reverse.mpr hadjnd).filter _) hmapnd]
    intro e
    rw [List.mem_filter, List.mem_reverse, List.mem_map]
    constructor
    · rintro ⟨he, hc⟩
      exact (hchild e he).mp (by simpa using hc)
    · rintro ⟨k, hkm, hke⟩
      have he : e ∈ g.getEdges v := by rw [← hke]; exact hk k hkm
      exact ⟨he, by simpa using (hchild e he).mpr ⟨k, hkm, hke⟩⟩

theorem connectorsOf_append (a b : List Tok) :
    connectorsOf (a ++ b) = connectorsOf a ++ connectorsOf b := by
  simp [connectorsOf, List.filterMap_append]

theorem connectorsOf_prev (p : Option Edge) :
    connectorsOf (p.toList.map Tok.connector) = p.toList := by
  cases p <;> simp [connectorsOf]

theorem connectorsOf_rings (rings : List Tok) (h : ∀ t ∈ rings, ∃ a b c, t = Tok.ring a b c) :
    connectorsOf rings = [] := by
  induction rings with
  | nil => rfl
  | cons t ts ih =>
    obtain ⟨a, b, c, ht⟩ := h t (List.mem_cons_self _ _)
    subst ht
    have := ih (fun t1 h1 => h t1 (List.mem_cons_of_mem _ h1))
    simpa [connectorsOf] using this

theorem connectorsOf_branchGroup (b : List Tok) :
    connectorsOf (branchGroup b) = connectorsOf b := by
  simp [branchGroup, connectorsOf, List.filterMap_append]

theorem connectorsOf_groups (bs : List (List Tok)) :
    connectorsOf (bs.map branchGroup).flatten = bs.flatMap connectorsOf := by
  induction bs with
  | nil => rfl
  | cons b bs ih =>
    simp only [List.map_cons, List.flatten_cons, connectorsOf_append, ih,
      connectorsOf_branchGroup, List.flatMap_cons]

/-- The branch strings and the continuation of a result string are the strings of
the calls, up to their order, when at most one call went along a main-chain edge. -/
theorem children_perm {α : Type} (ps : List (Edge × List Tok)) (M : List Edge)
    (f : List Tok → List α) (hnil : f [] = [])
    (hone : (ps.filter (fun q => decide (q.1 ∈ M))).length ≤ 1) :
    ((if ps.filter (fun q => q.1 ∈ M) = []
          then ((ps.filter (fun q => q.1 ∉ M)).map (fun q => q.2)).tail
          else (ps.filter (fun q => q.1 ∉ M)).map (fun q => q.2)).flatMap f
      ++ f ((((ps.filter (fun q => q.1 ∈ M)).getLast?).map (fun q => q.2)).getD
        ((((ps.filter (fun q => q.1 ∉ M)).map (fun q => q.2)).head?).getD []))).Perm
      (ps.flatMap (fun q => f q.2)) := by
  have hfun : (fun q : Edge × List Tok => decide (q.1 ∉ M))
      = (fun q => !decide (q.1 ∈ M)) := by
    funext q; simp
  cases hm : ps.filter (fun q => decide (q.1 ∈ M)) with
  | nil =>
    have hall : ps.filter (fun q => decide (q.1 ∉ M)) = ps := by
      rw [List.filter_eq_self]
      intro q hq
      have := List.filter_eq_nil_iff.mp hm q hq
      simpa using this
    rw [hall]
    simp only [if_true, List.getLast?_nil, Option.map_none', Option.getD_none]
    cases ps with
    | nil => simp [hnil]
    | cons q qs =>
      simp only [List.map_cons, List.tail_cons, List.head?_cons, Option.getD_some,
        List.flatMap_cons]
      rw [List.flatMap_map]
      exact List.perm_append_comm
  | cons m rest =>
    have hrest : rest = [] := by
      rw [hm] at hone
      cases rest with
      | nil => rfl
      | cons _ _ => simp at hone
    subst hrest
    have hperm := List.filter_append_perm (fun q : Edge × List Tok => decide (q.1 ∈ M)) ps
    rw [hm, ← hfun] at hperm
    simp only [List.cons_ne_nil, if_false, List.getLast?_singleton, Option.map_some',
      Option.getD_some]
    rw [List.flatMap_map]
    refine List.perm_append_comm.trans ?_
    have h2 := hperm.flatMap_right (fun q => f q.2)
    simpa using h2

/-- The bond symbols written for a subtree of the spanning tree are those of the edge
the call arrived on and of the edges of the subtree, each once. -/
theorem STree.connectors (env : WriterEnv) (hwf : env.graph.WF) {v : Vertex}
    {r : SpanningResult} (h : STree env.graph v r) :
    v ∈ env.graph.vertexes → (∀ x ∈ r.vertexes, x ∈ env.graph.vertexes) →
    (v :: r.vertexes).Nodup →
    ∀ (M T : List Edge) (p : Option Edge),
      (∀ e ∈ r.edges, e ∈ T) →
      (∀ e ∈ T, ∀ x ∈ v :: r.vertexes, e ∈ env.graph.getEdges x → e ∈ r.edges ∨ some e = p) →
      (∀ e, p = some e → ∀ x ∈ r.vertexes, e ∉ env.graph.getEdges x) →
      (∀ e ∈ r.edges, e ∈ M → e ∈ r.longestPath.edges) →
      ∀ (fuel : Nat) (repo : List Edge) (toks : List Tok) (repo1 : List Edge),
        writeMolVertex env fuel v p M T repo = some (toks, repo1) →
        (connectorsOf toks).Perm (p.toList ++ r.edges) := by
  induction h with
  | mk v kids hk hs ih =>
    intro hv hV hnd M T p hT hinc hp hM fuel repo toks repo1 hrun
    rw [finish_vertexes] at hV hnd hinc hp
    rw [finish_edges] at hT hinc hM ⊢
    obtain ⟨hkid, hperm, hmapnd, hMu⟩ := kid_calls hwf hv hk hs hV hnd M T p hT hinc hp hM
    cases fuel with
    | zero => simp [writeMolVertex] at hrun
    | succ F =>
      obtain ⟨ps, nv, rings, h1, h2, h3, h4⟩ :=
        writeMolVertex_children env F v p M T repo toks repo1 hrun
      have hpsperm : (ps.map (fun q => q.1)).Perm (kids.map (fun k => k.1)) := by
        rw [h1]; exact hperm
      have hpsnd : (ps.map (fun q => q.1)).Nodup := hpsperm.nodup_iff.mpr hmapnd
      have hone : (ps.filter (fun q => decide (q.1 ∈ M))).length ≤ 1 := by
        refine length_le_one_of_all_eq ((List.Nodup.of_map _ hpsnd).filter _) ?_
        intro a ha b hb
        rw [List.mem_filter] at ha hb
        have ha2 : a.1 ∈ M := by simpa using ha.2
        have hb2 : b.1 ∈ M := by simpa using hb.2
        obtain ⟨ka, hka, hkae⟩ := List.mem_map.mp
          (hpsperm.mem_iff.mp (List.mem_map_of_mem (fun q => q.1) ha.1))
        obtain ⟨kb, hkb, hkbe⟩ := List.mem_map.mp
          (hpsperm.mem_iff.mp (List.mem_map_of_mem (fun q => q.1) hb.1))
        have hkk := hMu ka hka kb hkb (by rw [hkae]; exact ha2) (by rw [hkbe]; exact hb2)
        have hab : a.1 = b.1 := by rw [← hkae, ← hkbe, hkk]
        exact List.inj_on_of_nodup_map hpsnd ha.1 hb.1 hab
      have hE : ∀ e : Edge, ∃ es : List Edge, ∀ k ∈ kids, k.1 = e → k.2.edges = es := by
        intro e
        by_cases hex : ∃ k ∈ kids, k.1 = e
        · obtain ⟨k, hkm, hke⟩ := hex
          refine ⟨k.2.edges, fun k1 hk1 hke1 => ?_⟩
          have hkk : k1 = k := List.inj_on_of_nodup_map hmapnd hk1 hkm (by rw [hke1, hke])
          rw [hkk]
        · exact ⟨[], fun k hkm hke => absurd ⟨k, hkm, hke⟩ hex⟩
      choose E hE using hE
      have hq : ∀ q ∈ ps, (connectorsOf q.2).Perm (q.1 :: E q.1) := by
        intro q hqm
        obtain ⟨k, hkm, hke⟩ := List.mem_map.mp
          (hpsperm.mem_iff.mp (List.mem_map_of_mem (fun q => q.1) hqm))
        obtain ⟨r0, r1, hr⟩ := h2 q hqm
        obtain ⟨g1, g2, g3, _⟩ := kid_good hV hnd hkm
        obtain ⟨c1, c2, c3, c4⟩ := hkid k hkm
        rw [← hke] at hr
        have := ih k hkm g1 g2 g3 M T (some k.1) c1 c2 c3 c4 F r0 q.2 r1 hr
        rw [← hke, ← hE k.1 k hkm rfl]
        exact this
      have hnode : connectorsOf
          [Tok.node v (p.map (fun e => env.graph.getNeighborOnEdge v e)) nv] = [] := rfl
      rw [h4]
      simp only [connectorsOf_append, connectorsOf_prev, connectorsOf_rings rings h3,
        connectorsOf_groups, hnode, List.append_nil]
      refine List.Perm.append_left _ ?_
      refine (children_perm ps M connectorsOf rfl hone).trans ?_
      refine (List.Perm.flatMap_left _ hq).trans ?_
      have e1 : ps.flatMap (fun q => q.1 :: E q.1)
          = (ps.map (fun q => q.1)).flatMap (fun e => e :: E e) := by
        rw [List.flatMap_map]
      have e2 : (kids.map (fun k => k.1)).flatMap (fun e => e :: E e)
          = kids.flatMap (fun k => k.1 :: E k.1) := by
        rw [List.flatMap_map]
      rw [e1]
      refine (hpsperm.flatMap_right _).trans ?_
      rw [e2]
      unfold kidEdges
      refine List.Perm.flatMap_left _ (fun k hkm => ?_)
      rw [hE k.1 k hkm rfl]

/-- The bond symbols written for a component are those of its tree edges, each once. -/
theorem component_connectors (env : WriterEnv) (hwf : env.graph.WF) {root : Vertex}
    {r : SpanningResult} (hc : IsComponentResult env.graph root r) (fuel : Nat)
    (repo : List Edge) (toks : List Tok) (repo1 : List Edge)
    (hrun : writeMolVertex env fuel root none r.longestPath.edges r.edges repo
      = some (toks, repo1)) :
    (connectorsOf toks).Perm r.edges ∧ r.edges.Nodup := by
  obtain ⟨inner, hri, hT, hroot, hnd, hV, _⟩ := hc
  subst hri
  have hVi : ∀ x ∈ inner.vertexes, x ∈ env.graph.vertexes :=
    fun x hx => hV x (List.mem_cons_of_mem _ hx)
  have h := hT.connectors env hwf hroot hVi hnd inner.longestPath.edges inner.edges none
    (fun e he => he) (fun e he _ _ _ => Or.inl he) (fun e he => by simp at he)
    (fun e _ he => he) fuel repo toks repo1 hrun
  exact ⟨by simpa using h, hT.edges_nodup hwf hroot hVi hnd⟩

/-- The loop of `_writeMolVertex` calls `recurse` only along the tree edges of the
vertex other than `prevEdge`: two routines that agree there give the same loop. -/
theorem writeEdges_congr (env : WriterEnv)
    (rec1 rec2 : Vertex → Option Edge → List Edge → Option (List Tok × List Edge))
    (vertex : Vertex) (prevEdge : Option Edge) (mainChainEdges spanningTreeEdges : List Edge) :
    ∀ (es : List Edge) (st : WriteState),
      (∀ e ∈ es, some e ≠ prevEdge → e ∈ spanningTreeEdges → ∀ repo,
        rec1 (env.graph.getNeighborOnEdge vertex e) (some e) repo
          = rec2 (env.graph.getNeighborOnEdge vertex e) (some e) repo) →
      writeEdges env rec1 vertex prevEdge mainChainEdges spanningTreeEdges es st
        = writeEdges env rec2 vertex prevEdge mainChainEdges spanningTreeEdges es st := by
  intro es
  induction es with
  | nil => intro st _; rfl
  | cons e rest ih =>
    intro st h
    have ih1 := fun st => ih st (fun e1 h1 => h e1 (List.mem_cons_of_mem _ h1))
    by_cases hprev : some e = prevEdge
    · rw [writeEdges_skip env rec1 vertex prevEdge _ _ e rest st hprev,
        writeEdges_skip env rec2 vertex prevEdge _ _ e rest st hprev]
      exact ih1 st
    · by_cases htree : e ∈ spanningTreeEdges
      · have hr := h e (List.mem_cons_self _ _) hprev htree st.ringEdgeRepo
        simp only [writeEdges, if_neg hprev, if_pos htree, hr]
        cases rec2 (env.graph.getNeighborOnEdge vertex e) (some e) st.ringEdgeRepo with
        | none => rfl
        | some q =>
          simp only
          split <;> exact ih1 _
      · rw [writeEdges_ring env rec1 vertex prevEdge _ _ e rest st hprev htree,
          writeEdges_ring env rec2 vertex prevEdge _ _ e rest st hprev htree]
        exact ih1 _

/-! ## The order of the traversal and the choice of the longest path -/

/-- The loop of `_doTravers` only appends to `result.vertexes` and `result.edges`. -/
theorem traversEdges_grow (g : Graph)
    (recurse : Vertex → List Vertex → Option (SpanningResult × List Vertex)) (v : Vertex) :
    ∀ (es : List Edge) (st st1 : TraversState), traversEdges g recurse v es st = some st1 →
      ∃ xs ys, st1.result.vertexes = st.result.vertexes ++ xs ∧
        st1.result.edges = st.result.edges ++ ys := by
  intro es
  induction es with
  | nil =>
    intro st st1 h
    simp only [traversEdges, Option.some.injEq] at h
    subst h
    exact ⟨[], [], by simp, by simp⟩
  | cons e rest ih =>
    intro st st1 h
    simp only [traversEdges] at h
    split at h
    · exact ih st st1 h
    · cases hr : recurse (g.getNeighborOnEdge v e) (g.getNeighborOnEdge v e :: st.visited) with
      | none => rw [hr] at h; cases h
      | some p =>
        obtain ⟨r, w⟩ := p
        rw [hr] at h
        simp only at h
        split at h
        · obtain ⟨xs, ys, h1, h2⟩ := ih _ st1 h
          exact ⟨[g.getNeighborOnEdge v e] ++ (r.vertexes ++ xs), [e] ++ (r.edges ++ ys),
            by rw [h1]; simp only [List.append_assoc],
            by rw [h2]; simp only [List.append_assoc]⟩
        · obtain ⟨xs, ys, h1, h2⟩ := ih _ st1 h
          exact ⟨[g.getNeighborOnEdge v e] ++ (r.vertexes ++ xs), [e] ++ (r.edges ++ ys),
            by rw [h1]; simp only [List.append_assoc],
            by rw [h2]; simp only [List.append_assoc]⟩

/-- The loop of `_doTravers` passes over the edges whose neighbour is flagged. -/
theorem traversEdges_skip_flagged (g : Graph)
    (recurse : Vertex → List Vertex → Option (SpanningResult × List Vertex)) (v : Vertex) :
    ∀ (pre rest : List Edge) (st : TraversState),
      (∀ e ∈ pre, g.getNeighborOnEdge v e ∈ st.visited) →
      traversEdges g recurse v (pre ++ rest) st = traversEdges g recurse v rest st := by
  intro pre
  induction pre with
  | nil => intro rest st _; rfl
  | cons e pre ih =>
    intro rest st h
    simp only [List.cons_append, traversEdges]
    rw [if_pos (h e (List.mem_cons_self _ _))]
    exact ih rest st (fun e1 h1 => h e1 (List.mem_cons_of_mem _ h1))

/-- The loop of `_doTravers` from a state without results follows first the first
edge of the list whose neighbour is not flagged. -/
theorem traversEdges_first (g : Graph)
    (recurse : Vertex → List Vertex → Option (SpanningResult × List Vertex)) (v : Vertex)
    (pre : List Edge) (e : Edge) (post : List Edge) (st st1 : TraversState)
    (hpre : ∀ e1 ∈ pre, g.getNeighborOnEdge v e1 ∈ st.visited)
    (he : g.getNeighborOnEdge v e ∉ st.visited)
    (h : traversEdges g recurse v (pre ++ e :: post) st = some st1) :
    ∃ xs ys, st1.result.vertexes = st.result.vertexes ++ g.getNeighborOnEdge v e :: xs ∧
      st1.result.edges = st.result.edges ++ e :: ys := by
  rw [traversEdges_skip_flagged g recurse v pre _ st hpre] at h
  simp only [traversEdges, if_neg he] at h
  cases hr : recurse (g.getNeighborOnEdge v e) (g.getNeighborOnEdge v e :: st.visited) with
  | none => rw [hr] at h; cases h
  | some p =>
    obtain ⟨r, w⟩ := p
    rw [hr] at h
    simp only at h
    split at h
    · obtain ⟨xs, ys, h1, h2⟩ := traversEdges_grow g recurse v _ _ st1 h
      exact ⟨r.vertexes ++ xs, r.edges ++ ys,
        by rw [h1]; simp,
        by rw [h2]; simp⟩
    · obtain ⟨xs, ys, h1, h2⟩ := traversEdges_grow g recurse v _ _ st1 h
      exact ⟨r.vertexes ++ xs, r.edges ++ ys,
        by rw [h1]; simp,
        by rw [h2]; simp⟩

/-- One pass of the loop of `_doTravers` that follows an edge is `addKid`. -/
theorem traversEdges_follow (g : Graph)
    (recurse : Vertex → List Vertex → Option (SpanningResult × List Vertex)) (v : Vertex)
    (e : Edge) (rest : List Edge) (st : TraversState) (nr : SpanningResult) (w : List Vertex)
    (hn : g.getNeighborOnEdge v e ∉ st.visited)
    (hr : recurse (g.getNeighborOnEdge v e) (g.getNeighborOnEdge v e :: st.visited)
      = some (nr, w)) :
    traversEdges g recurse v (e :: rest) st
      = traversEdges g recurse v rest
          { result := (addKid g v (st.result, st.longestTargetNeighborEdge) (e, nr)).1,
            longestTargetNeighborEdge :=
              (addKid g v (st.result, st.longestTargetNeighborEdge) (e, nr)).2,
            visited := w } := by
  simp only [traversEdges, if_neg hn, hr, addKid]
  split <;> rfl

/-- The path taken over by `addKid` when the length of the path of the followed edge
is greater than the length held, or the length held is 0. -/
theorem addKid_replace (g : Graph) (v : Vertex) (acc : SpanningResult × Option Edge)
    (k : Edge × SpanningResult)
    (h : k.2.longestPath.length > acc.1.longestPath.length ∨ acc.1.longestPath.length = 0) :
    (addKid g v acc k).2 = some k.1 ∧ (addKid g v acc k).1.longestPath = k.2.longestPath := by
  unfold addKid
  rw [if_pos h]
  exact ⟨rfl, rfl⟩

/-- The path kept by `addKid` when the length of the path of the followed edge is not
greater than the length held, which is not 0. -/
theorem addKid_keep (g : Graph) (v : Vertex) (acc : SpanningResult × Option Edge)
    (k : Edge × SpanningResult)
    (h : ¬ (k.2.longestPath.length > acc.1.longestPath.length ∨ acc.1.longestPath.length = 0)) :
    (addKid g v acc k).2 = acc.2 ∧ (addKid g v acc k).1.longestPath = acc.1.longestPath := by
  unfold addKid
  rw [if_neg h]
  exact ⟨rfl, rfl⟩

/-- Followed edges whose paths are not longer than a path of length at least 1 that
is held leave the path and its edge as they are. -/
theorem foldl_addKid_keep (g : Graph) (v : Vertex) :
    ∀ (post : List (Edge × SpanningResult)) (acc : SpanningResult × Option Edge),
      0 < acc.1.longestPath.length →
      (∀ k ∈ post, k.2.longestPath.length ≤ acc.1.longestPath.length) →
      (post.foldl (addKid g v) acc).2 = acc.2 ∧
        (post.foldl (addKid g v) acc).1.longestPath = acc.1.longestPath := by
  intro post
  induction post with
  | nil => intro acc _ _; exact ⟨rfl, rfl⟩
  | cons k ks ih =>
    intro acc h0 hle
    have hk := hle k (List.mem_cons_self _ _)
    obtain ⟨e1, e2⟩ := addKid_keep g v acc k (by omega)
    rw [List.foldl_cons]
    obtain ⟨i1, i2⟩ := ih (addKid g v acc k) (by rw [e2]; exact h0)
      (fun k1 h1 => by rw [e2]; exact hle k1 (List.mem_cons_of_mem _ h1))
    exact ⟨by rw [i1, e1], by rw [i2, e2]⟩

/-- Followed edges whose paths are shorter than `n` keep the length held below `n`,
or at 0. -/
theorem foldl_addKid_below (g : Graph) (v : Vertex) (n : Nat) :
    ∀ (pre : List (Edge × SpanningResult)) (acc : SpanningResult × Option Edge),
      (∀ k ∈ pre, k.2.longestPath.length < n) →
      (acc.1.longestPath.length < n ∨ acc.1.longestPath.length = 0) →
      ((pre.foldl (addKid g v) acc).1.longestPath.length < n ∨
        (pre.foldl (addKid g v) acc).1.longestPath.length = 0) := by
  intro pre
  induction pre with
  | nil => intro acc _ h; exact h
  | cons k ks ih =>
    intro acc hlt h
    rw [List.foldl_cons]
    refine ih (addKid g v acc k) (fun k1 h1 => hlt k1 (List.mem_cons_of_mem _ h1)) ?_
    by_cases hc : k.2.longestPath.length > acc.1.longestPath.length
        ∨ acc.1.longestPath.length = 0
    · rw [(addKid_replace g v acc k hc).2]
      exact Or.inl (hlt k (List.mem_cons_self _ _))
    · rw [(addKid_keep g v acc k hc).2]
      exact h

/-- Followed edges whose paths all have length 0 keep the length held at 0. -/
theorem foldl_addKid_zero (g : Graph) (v : Vertex) :
    ∀ (pre : List (Edge × SpanningResult)) (acc : SpanningResult × Option Edge),
      (∀ k ∈ pre, k.2.longestPath.length = 0) → acc.1.longestPath.length = 0 →
      (pre.foldl (addKid g v) acc).1.longestPath.length = 0 := by
  intro pre
  induction pre with
  | nil => intro acc _ h; exact h
  | cons k ks ih =>
    intro acc hz h
    rw [List.foldl_cons]
    refine ih (addKid g v acc k) (fun k1 h1 => hz k1 (List.mem_cons_of_mem _ h1)) ?_
    rw [(addKid_replace g v acc k (Or.inr h)).2]
    exact hz k (List.mem_cons_self _ _)

/-- The followed edge the longest path goes through: one that replaces what the
edges before it left and is not replaced by the edges after it. -/
theorem foldl_addKid_choice (g : Graph) (v : Vertex)
    (pre : List (Edge × SpanningResult)) (k : Edge × SpanningResult)
    (post : List (Edge × SpanningResult))
    (hpre : (∀ k1 ∈ pre, k1.2.longestPath.length < k.2.longestPath.length) ∨
      (∀ k1 ∈ pre, k1.2.longestPath.length = 0))
    (hpost : post = [] ∨ (0 < k.2.longestPath.length ∧
      ∀ k2 ∈ post, k2.2.longestPath.length ≤ k.2.longestPath.length)) :
    ((pre ++ k :: post).foldl (addKid g v) (emptyResult, none)).2 = some k.1 ∧
      ((pre ++ k :: post).foldl (addKid g v) (emptyResult, none)).1.longestPath
        = k.2.longestPath := by
  rw [List.foldl_append, List.foldl_cons]
  have hc : k.2.longestPath.length
        > (pre.foldl (addKid g v) (emptyResult, none)).1.longestPath.length
      ∨ (pre.foldl (addKid g v) (emptyResult, none)).1.longestPath.length = 0 := by
    rcases hpre with h | h
    · exact foldl_addKid_below g v _ pre (emptyResult, none) h (Or.inr rfl)
    · exact Or.inr (foldl_addKid_zero g v pre (emptyResult, none) h rfl)
  obtain ⟨e1, e2⟩ := addKid_replace g v _ k hc
  rcases hpost with h | ⟨h0, hle⟩
  · subst h
    exact ⟨e1, e2⟩
  · obtain ⟨i1, i2⟩ := foldl_addKid_keep g v post _ (by rw [e2]; exact h0)
      (fun k2 h2 => by rw [e2]; exact hle k2 h2)
    exact ⟨by rw [i1, e1], by rw [i2, e2]⟩

/-! ## Claims about the parts of an atom token -/

/-- Below `2 ^ 53` JavaScript prints a number that is a natural number with its
decimal digits. -/
theorem numberToString_small (n : Nat) (h : n < 2 ^ 53) : numberToString n = toString n := by
  unfold numberToString
  rw [if_pos h]

/-- C21. Inside the brackets the parts of an atom token come in the fixed order:
mass number (its absolute value as JavaScript prints the number, which is its decimal
digits below `2 ^ 53`; nothing when unset or 0), symbol (for an atom without
override pattern the element symbol, lower-cased when aromatic), chirality marker,
hydrogen count, charge; a non-aromatic nitrogen with one output hydrogen and charge
+1 gives `[NH+]`, and a non-aromatic carbon with mass number 13 and no chirality,
output hydrogen or charge gives `[13C]`. -/
theorem outputNodeStr_order
    (calcRotation : Node → Option Nat → List Nat → Bool → RotationDir)
    (node : Node) (isAromatic : Bool) (prevNode : Option Nat) (nextNodes : List Nat)
    (options : Options) :
    (simpleOrgAtom calcRotation node isAromatic prevNode nextNodes options = false →
      outputNodeStr calcRotation node isAromatic prevNode nextNodes options
        = "[" ++ (nodeMassStr node.massNumber
            ++ (nodeSymbolStr node isAromatic
              ++ nodeChiralRot calcRotation node prevNode nextNodes options
              ++ nodeHydrogenStr
                  (nodeOutputExplicitH node isAromatic
                    (nodeChiralRot calcRotation node prevNode nextNodes options) options)
                  (getNodeHydrogenCount node options)
              ++ nodeChargeStr node.charge)) ++ "]"
          ++ nodeChemEnvStr node.chemEnv) ∧
    (node.isAtom = true → (node.smarts = none ∨ node.smarts = some "") →
      nodeSymbolStr node isAromatic
        = if isAromatic = true then toLowerCase node.symbol else node.symbol) ∧
    (∀ m : Int, m ≠ 0 → nodeMassStr (some m) = numberToString m.natAbs) ∧
    (∀ m : Int, m ≠ 0 → m.natAbs < 2 ^ 53 → nodeMassStr (some m) = toString m.natAbs) ∧
    nodeMassStr none = "" ∧ nodeMassStr (some 0) = "" ∧
    outputNodeStr noRotation chargedNitrogen false none [] Options.empty = "[NH+]" ∧
    outputNodeStr noRotation carbon13 false none [] Options.empty = "[13C]" := by
  refine ⟨?_, ?_, ?_, ?_, rfl, rfl, by decide, by decide⟩
  · intro hs
    unfold outputNodeStr nodeBody
    simp only [hs, Bool.false_eq_true, if_false]
    rfl
  · intro ha hs
    have ht : truthy node.smarts = false := by
      rcases hs with h | h <;> simp [truthy, h]
    unfold nodeSymbolStr
    simp [ha, ht]
  · intro m hm
    simp [nodeMassStr, hm]
  · intro m hm hlt
    simp [nodeMassStr, hm, numberToString_small _ hlt]

/-- C22, as amended. When the hydrogen count of an atom is output, a count of 1 adds
exactly `H` to the token, a count `n > 1` adds `H` followed by `n` as JavaScript
prints the number, which is the decimal digits of `n` for `n` below `2 ^ 53`, and a
count of 0 adds nothing; when it is not output nothing is added. The text stands in
the token between the chirality marker and the charge. -/
theorem nodeHydrogenStr_spec :
    nodeHydrogenStr true 0 = "" ∧ nodeHydrogenStr true 1 = "H" ∧
    (∀ n, 1 < n → nodeHydrogenStr true n = "H" ++ numberToString n) ∧
    (∀ n, 1 < n → n < 2 ^ 53 → nodeHydrogenStr true n = "H" ++ toString n) ∧
    (∀ n : Nat, toString n = String.mk (Nat.toDigits 10 n)) ∧
    (∀ n, nodeHydrogenStr false n = "") ∧
    (∀ (calcRotation : Node → Option Nat → List Nat → Bool → RotationDir)
        (node : Node) (isAromatic : Bool) (prevNode : Option Nat) (nextNodes : List Nat)
        (options : Options),
      nodeBody calcRotation node isAromatic prevNode nextNodes options
        = nodeMassStr node.massNumber
          ++ (nodeSymbolStr node isAromatic
            ++ nodeChiralRot calcRotation node prevNode nextNodes options
            ++ nodeHydrogenStr
                (nodeOutputExplicitH node isAromatic
                  (nodeChiralRot calcRotation node prevNode nextNodes options) options)
                (getNodeHydrogenCount node options)
            ++ nodeChargeStr node.charge)) := by
  refine ⟨rfl, by decide, ?_, ?_, fun _ => rfl, fun _ => rfl, fun _ _ _ _ _ _ => rfl⟩
  · intro n hn
    have h0 : n > 0 := by omega
    simp [nodeHydrogenStr, h0, hn, SMARTS.ATOM_H]
  · intro n hn hlt
    have h0 : n > 0 := by omega
    simp [nodeHydrogenStr, h0, hn, SMARTS.ATOM_H, numberToString_small n hlt]

/-- Counterexample to C22 as stated: a hydrogen count of `10 ^ 21` adds `H1e+21`, not
`H` followed by the decimal digits of the count, and a nitrogen atom with this count
gets the token `[NH1e+21]`; a count of `2 ^ 69`, below `10 ^ 21`, adds `H` followed
by 17 significant digits and zeros, not the digits of `2 ^ 69`, which are
`590295810358705651712`. -/
theorem nodeHydrogenStr_exponent :
    nodeHydrogenStr true (10 ^ 21) = "H1e+21" ∧
    "H" ++ toString (10 ^ 21) = "H1000000000000000000000" ∧
    getNodeHydrogenCount hydrogenLoaded Options.empty = 10 ^ 21 ∧
    outputNodeStr noRotation hydrogenLoaded false none [] Options.empty = "[NH1e+21]" ∧
    nodeHydrogenStr true (2 ^ 69) = "H590295810358705700000" ∧
    "H" ++ toString (2 ^ 69) = "H590295810358705651712" := by
  decide

/-- C23, as amended. For every integer charge `c` of an atom, the charge text in its
token is empty when `c = 0`, `+` when `c = 1`, `-` when `c = -1`, `|c|` as JavaScript
prints the number followed by `+` when `c > 1` and by `-` when `c < -1`; for `|c|`
below `2 ^ 53` what JavaScript prints is the decimal digits of `|c|`. -/
theorem nodeChargeStr_spec :
    nodeChargeStr 0 = "" ∧ nodeChargeStr 1 = "+" ∧ nodeChargeStr (-1) = "-" ∧
    (∀ c : Int, 1 < c → nodeChargeStr c = numberToString c.natAbs ++ "+") ∧
    (∀ c : Int, c < -1 → nodeChargeStr c = numberToString c.natAbs ++ "-") ∧
    (∀ c : Int, 1 < c → c.natAbs < 2 ^ 53 → nodeChargeStr c = toString c.natAbs ++ "+") ∧
    (∀ c : Int, c < -1 → c.natAbs < 2 ^ 53 → nodeChargeStr c = toString c.natAbs ++ "-") ∧
    (∀ n : Nat, toString n = String.mk (Nat.toDigits 10 n)) := by
  refine ⟨by decide, by decide, by decide, ?_, ?_, ?_, ?_, fun _ => rfl⟩
  · intro c hc
    have h1 : c ≠ 0 := by omega
    have h2 : c > 0 := by omega
    simp [nodeChargeStr, h1, h2, hc]
  · intro c hc
    have h1 : c ≠ 0 := by omega
    have h2 : ¬ c > 0 := by omega
    simp [nodeChargeStr, h1, h2, hc]
  · intro c hc hlt
    have h1 : c ≠ 0 := by omega
    have h2 : c > 0 := by omega
    simp [nodeChargeStr, h1, h2, hc, numberToString_small _ hlt]
  · intro c hc hlt
    have h1 : c ≠ 0 := by omega
    have h2 : ¬ c > 0 := by omega
    simp [nodeChargeStr, h1, h2, hc, numberToString_small _ hlt]

/-- Counterexample to C23 as stated: the charge `10 ^ 21` gives the charge text
`1e+21+`, not the decimal digits of the charge followed by `+`, and an iron atom with
this charge gets the token `[Fe1e+21+]`; the charges `2 ^ 69` and `-(2 ^ 69)`, below
`10 ^ 21` in absolute value, give 17 significant digits and zeros, not the digits of
`2 ^ 69`, which are `590295810358705651712`. -/
theorem nodeChargeStr_exponent :
    nodeChargeStr (10 ^ 21) = "1e+21+" ∧
    toString (10 ^ 21) ++ "+" = "1000000000000000000000+" ∧
    outputNodeStr noRotation ironCation false none [] Options.empty = "[Fe1e+21+]" ∧
    nodeChargeStr (2 ^ 69) = "590295810358705700000+" ∧
    nodeChargeStr (-(2 ^ 69)) = "590295810358705700000-" ∧
    toString (2 ^ 69) = "590295810358705651712" := by
  decide

/-- C29. `_outputNodeStr` either wraps the token in `[` and `]` or, when it does not
(`simpleOrgAtom`), returns exactly the element symbol of the atom, lower-cased when
the atom is aromatic, followed by the environment annotation only; and then the atom
has charge 0, no mass number, no chirality marker and no radical, and its charge,
mass and chirality texts are empty. -/
theorem outputNodeStr_unbracketed
    (calcRotation : Node → Option Nat → List Nat → Bool → RotationDir)
    (node : Node) (isAromatic : Bool) (prevNode : Option Nat) (nextNodes : List Nat)
    (options : Options) :
    (simpleOrgAtom calcRotation node isAromatic prevNode nextNodes options = false →
      outputNodeStr calcRotation node isAromatic prevNode nextNodes options
        = "[" ++ nodeBody calcRotation node isAromatic prevNode nextNodes options ++ "]"
          ++ nodeChemEnvStr node.chemEnv) ∧
    (simpleOrgAtom calcRotation node isAromatic prevNode nextNodes options = true →
      outputNodeStr calcRotation node isAromatic prevNode nextNodes options
        = (if isAromatic = true then toLowerCase node.symbol else node.symbol)
          ++ nodeChemEnvStr node.chemEnv ∧
      node.isAtom = true ∧
      node.charge = 0 ∧ nodeChargeStr node.charge = "" ∧
      (node.massNumber = none ∨ node.massNumber = some 0) ∧
      nodeMassStr node.massNumber = "" ∧
      nodeChiralRot calcRotation node prevNode nextNodes options = "" ∧
      node.radical = 0) := by
  refine ⟨?_, ?_⟩
  · intro hs
    unfold outputNodeStr
    simp only [hs, Bool.false_eq_true, if_false]
    rfl
  · intro hs
    obtain ⟨h1, _, h3, h4, h5, symbol, h6, _⟩ :=
      (simpleOrgAtom_iff calcRotation node isAromatic prevNode nextNodes options).mp hs
    refine ⟨outputNodeStr_of_simple calcRotation node isAromatic prevNode nextNodes options hs,
      (nodeSymbol_some node symbol h6).1, h3, by rw [h3]; rfl, h4, ?_, h1, h5⟩
    rcases h4 with h | h <;> rw [h] <;> rfl

/-- C30. While `_prepareStereoBondsInformation` processes the connectors in order, an
entry the direction map holds is never changed or removed, neither by one stereo
bond nor by the rest of the loop; every symbol the loop stores is `/` or `\`; and a
stereo bond whose two reference connectors are both in the map leaves the map as it
is. -/
theorem stereoBondStep_frame (refs : Connector → Nat × Nat) :
    (∀ (map : MapEx) (c : Connector) (k : Nat) (v : String), map.lookup k = some v →
      (stereoBondStep refs map c).lookup k = some v) ∧
    (∀ (l : List Connector) (n : Nat) (map : MapEx) (k : Nat) (v : String),
      map.lookup k = some v → (prepareLoop refs l n map).2.lookup k = some v) ∧
    (∀ (l : List Connector) (k : Nat) (v : String),
      (prepareLoop refs l 0 []).2.lookup k = some v → v = "/" ∨ v = "\\") ∧
    (∀ (map : MapEx) (c : Connector), mapHas map (refs c).1 = true →
      mapHas map (refs c).2 = true → stereoBondStep refs map c = map) := by
  refine ⟨stereoBondStep_preserves refs, ?_, ?_, ?_⟩
  · intro l n map k v h
    exact (prepareLoop_preserves refs l n map).2 k v h
  · intro l k v h
    exact prepareLoop_vals refs l 0 [] dirVals_nil k v h
  · intro map c h0 h1
    unfold stereoBondStep
    simp [h0, h1]

/-! ## Claims about degenerate inputs -/

/-- C24. `writeStructFragment` returns the empty string, without an error, when the
molecule has no connection table or is empty, and `doWriteData` returns the empty
string when no molecule can be obtained from the object and the result of
`writeStructFragment` otherwise; for a molecule with a connection table that is not
empty, whose graph is well-formed and has a vertex, the value returned is a string,
and this string is not empty. -/
theorem writeStructFragment_degenerate (mol : Mol) (options : Options) (flags : List Vertex) :
    ((mol.hasCtab = false ∨ mol.isEmpty = true) →
      writeStructFragment mol options flags = some (some "", flags)) ∧
    doWriteData none options flags = some (some "", flags) ∧
    doWriteData (some mol) options flags = writeStructFragment mol options flags ∧
    (mol.hasCtab = true → mol.isEmpty = false → mol.graph.WF → mol.graph.vertexes ≠ [] →
      ∃ s flags1, writeStructFragment mol options flags = some (some s, flags1) ∧ s ≠ "" ∧
        doWriteData (some mol) options flags = some (some s, flags1)) ∧
    writeStructFragment exampleMol Options.empty [] = some (some "C.C1C(C1)C", [3, 2, 1, 0, 4]) := by
  refine ⟨?_, rfl, rfl, ?_, by decide⟩
  · intro h
    unfold writeStructFragment
    rw [if_neg]
    rcases h with h | h <;> simp [h]
  · intro hctab hempty hwf hv
    obtain ⟨rs, flags1, toks, repo, _, _, hcov, hw, _, hout⟩ :=
      writeStructFragment_eq mol hwf options flags hctab hempty
    cases rs with
    | nil =>
      cases hvs : mol.graph.vertexes with
      | nil => exact absurd hvs hv
      | cons x xs =>
        obtain ⟨r, hr, _⟩ := hcov x (by rw [hvs]; simp)
        simp at hr
    | cons r rest =>
      obtain ⟨part, parts, hfa, hjoin⟩ := writeTrees_first _ r rest [] [] toks repo hw
      have hne : render (writerEnv mol options) toks ≠ "" := by
        rw [hjoin, render_joinParts]
        apply String.append_ne_empty_left
        cases hfa with
        | cons hpart _ =>
          obtain ⟨root, tl, ra, rb, _, hrun⟩ := hpart
          exact writeMolVertex_ne_empty _ _ _ _ _ _ _ _ _ hrun
      refine ⟨_, flags1, ?_, hne, ?_⟩
      · rw [hout]; rfl
      · show writeStructFragment mol options flags = _
        rw [hout]; rfl

/-! ## Claims about the vertices and edges written -/

/-- C28. On a well-formed graph, for every result of
`createGraphDepthSpanningTreesEx` and every state of the registry, writing the
component with `_writeMolVertex` from its root, with the longest path as main chain
and the edges of the result as tree edges, returns, and in the output: the atom
tokens are those of the vertices of the result, which are the vertices that can be
reached from the root, every one of them exactly once, so that there are as many
atom tokens as vertices; and the bond symbols written in front of an atom are those
of the edges of the result, every one of them exactly once. The loop of
`_writeMolVertex` calls the routine only along the tree edges of the vertex other
than `prevEdge`. -/
theorem writeMolVertex_exactly_once (env : WriterEnv) (hwf : env.graph.WF)
    (startingVertex : Option Vertex) (flags : List Vertex) :
    (∃ rs flags1,
      createGraphDepthSpanningTreesEx env.graph startingVertex flags = some (rs, flags1) ∧
      ∀ r ∈ rs, ∃ root, r.longestPath.vertexes.head? = some root ∧
        ∀ repo : List Edge, ∃ toks repo1,
          writeMolVertex env r.vertexes.length root none r.longestPath.edges r.edges repo
            = some (toks, repo1) ∧
          (atomsOf toks).Perm r.vertexes ∧
          (atomsOf toks).length = r.vertexes.length ∧
          (∀ x, env.graph.Reach root x → (atomsOf toks).count x = 1) ∧
          (∀ x, x ∈ atomsOf toks → env.graph.Reach root x) ∧
          (connectorsOf toks).Perm r.edges ∧
          (∀ e ∈ r.edges, (connectorsOf toks).count e = 1) ∧
          (∀ e, e ∈ connectorsOf toks → e ∈ r.edges)) ∧
    (∀ (rec1 rec2 : Vertex → Option Edge → List Edge → Option (List Tok × List Edge))
        (vertex : Vertex) (prevEdge : Option Edge) (mainChainEdges spanningTreeEdges : List Edge)
        (es : List Edge) (st : WriteState),
      (∀ e ∈ es, some e ≠ prevEdge → e ∈ spanningTreeEdges → ∀ repo,
        rec1 (env.graph.getNeighborOnEdge vertex e) (some e) repo
          = rec2 (env.graph.getNeighborOnEdge vertex e) (some e) repo) →
      writeEdges env rec1 vertex prevEdge mainChainEdges spanningTreeEdges es st
        = writeEdges env rec2 vertex prevEdge mainChainEdges spanningTreeEdges es st) := by
  refine ⟨?_, fun rec1 rec2 vertex prevEdge M T es st h =>
    writeEdges_congr env rec1 rec2 vertex prevEdge M T es st h⟩
  obtain ⟨rs, flags1, hrun, hall, _, _⟩ :=
    createGraphDepthSpanningTreesEx_spec env.graph hwf startingVertex flags
  refine ⟨rs, flags1, hrun, ?_⟩
  intro r hr
  obtain ⟨root, hc⟩ := hall r hr
  have hhead : r.longestPath.vertexes.head? = some root := by
    obtain ⟨inner, hri, hT, _⟩ := hc
    rw [hri]
    exact hT.longestPath_head
  refine ⟨root, hhead, ?_⟩
  intro repo
  obtain ⟨toks, repo1, hw, hpost⟩ := writeMolVertex_component env hwf hc repo
  obtain ⟨hce, hend⟩ := component_connectors env hwf hc _ repo toks repo1 hw
  obtain ⟨_, _, _, _, hnd, _, hreach⟩ := hc
  have hat : (atomsOf toks).Perm r.vertexes := hpost.1
  refine ⟨toks, repo1, hw, hat, hat.length_eq, ?_, ?_, hce, ?_, ?_⟩
  · intro x hx
    exact List.count_eq_one_of_mem (hat.nodup_iff.mpr hnd) (hat.mem_iff.mpr ((hreach x).mpr hx))
  · intro x hx
    exact (hreach x).mp (hat.mem_iff.mp hx)
  · intro e he
    exact List.count_eq_one_of_mem (hce.nodup_iff.mpr hend) (hce.mem_iff.mpr he)
  · intro e he
    exact hce.mem_iff.mp he

/-- Witness of C28: the example graph with a carbon atom on every vertex. -/
theorem writeMolVertex_exactly_once_witness :
    exampleEnv.graph.WF ∧
    ∃ rs flags1,
      createGraphDepthSpanningTreesEx exampleEnv.graph (some 4) [] = some (rs, flags1) ∧
      ∀ r ∈ rs, ∃ root, r.longestPath.vertexes.head? = some root ∧
        ∀ repo : List Edge, ∃ toks repo1,
          writeMolVertex exampleEnv r.vertexes.length root none r.longestPath.edges r.edges repo
            = some (toks, repo1) ∧
          (atomsOf toks).Perm r.vertexes ∧
          (atomsOf toks).length = r.vertexes.length ∧
          (∀ x, exampleEnv.graph.Reach root x → (atomsOf toks).count x = 1) ∧
          (∀ x, x ∈ atomsOf toks → exampleEnv.graph.Reach root x) ∧
          (connectorsOf toks).Perm r.edges ∧
          (∀ e ∈ r.edges, (connectorsOf toks).count e = 1) ∧
          (∀ e, e ∈ connectorsOf toks → e ∈ r.edges) :=
  ⟨by decide, (writeMolVertex_exactly_once exampleEnv (by decide) (some 4) []).1⟩

/-! ## Claims about the order of the traversal -/

/-- C26, as amended. `_doTravers` tries the incident edges of the current vertex in
adjacency order: of the edges of a vertex that lead to unflagged neighbours, the one
with the lowest index in the edge list of the vertex is followed first, so that it
is the first edge of the result and its neighbour the first vertex found. It is
`_writeMolVertex` that runs over the edge list in reverse. -/
theorem doTravers_adjacency_order (g : Graph) (fuel : Nat) (v : Vertex) (vis : List Vertex)
    (r : SpanningResult) (vis1 : List Vertex) (pre : List Edge) (e : Edge) (post : List Edge)
    (hrun : doTravers g (fuel + 1) v vis = some (r, vis1))
    (hadj : g.getEdges v = pre ++ e :: post)
    (hpre : ∀ e1 ∈ pre, g.getNeighborOnEdge v e1 ∈ v :: vis)
    (he : g.getNeighborOnEdge v e ∉ v :: vis) :
    (∃ es, r.edges = e :: es) ∧
    (∃ vs, r.vertexes = (if v ∈ vis then [] else [v]) ++ g.getNeighborOnEdge v e :: vs) ∧
    ∀ (env : WriterEnv) (n : Nat) (vertex : Vertex) (prevEdge : Option Edge)
        (mainChainEdges spanningTreeEdges ringEdgeRepo : List Edge),
      writeMolVertex env (n + 1) vertex prevEdge mainChainEdges spanningTreeEdges ringEdgeRepo
        = (writeEdges env
            (fun v e repo => writeMolVertex env n v e mainChainEdges spanningTreeEdges repo)
            vertex prevEdge mainChainEdges spanningTreeEdges (env.graph.getEdges vertex).reverse
            { mainChainStr := none, branchStrs := [], mainChainVertex := none,
              branchVertexes := [], ringStrs := [], ringedVertexes := [],
              ringEdgeRepo := ringEdgeRepo }).map
            (fun st => (formResult env vertex prevEdge st, st.ringEdgeRepo)) := by
  refine ⟨?_, ?_, fun env n vertex prevEdge M T repo =>
    writeMolVertex_succ env n vertex prevEdge M T repo⟩
  · simp only [doTravers, hadj] at hrun
    by_cases hv : v ∈ vis
    · rw [if_pos hv] at hrun
      split at hrun
      · cases hrun
      · rename_i st hst
        simp only [Option.some.injEq, Prod.mk.injEq] at hrun
        obtain ⟨h1, _⟩ := hrun
        subst h1
        obtain ⟨xs, ys, _, h2⟩ := traversEdges_first g _ v pre e post _ st
          (fun e1 h1 => by
            rcases List.mem_cons.mp (hpre e1 h1) with h | h
            · rw [h]; exact hv
            · exact h)
          (fun h => he (List.mem_cons_of_mem _ h)) hst
        exact ⟨ys, by simpa using h2⟩
    · rw [if_neg hv] at hrun
      split at hrun
      · cases hrun
      · rename_i st hst
        simp only [Option.some.injEq, Prod.mk.injEq] at hrun
        obtain ⟨h1, _⟩ := hrun
        subst h1
        obtain ⟨xs, ys, _, h2⟩ := traversEdges_first g _ v pre e post _ st hpre he hst
        exact ⟨ys, by simpa using h2⟩
  · simp only [doTravers, hadj] at hrun
    by_cases hv : v ∈ vis
    · rw [if_pos hv] at hrun
      split at hrun
      · cases hrun
      · rename_i st hst
        simp only [Option.some.injEq, Prod.mk.injEq] at hrun
        obtain ⟨h1, _⟩ := hrun
        subst h1
        obtain ⟨xs, ys, h2, _⟩ := traversEdges_first g _ v pre e post _ st
          (fun e1 h1 => by
            rcases List.mem_cons.mp (hpre e1 h1) with h | h
            · rw [h]; exact hv
            · exact h)
          (fun h => he (List.mem_cons_of_mem _ h)) hst
        exact ⟨xs, by simpa [hv] using h2⟩
    · rw [if_neg hv] at hrun
      split at hrun
      · cases hrun
      · rename_i st hst
        simp only [Option.some.injEq, Prod.mk.injEq] at hrun
        obtain ⟨h1, _⟩ := hrun
        subst h1
        obtain ⟨xs, ys, h2, _⟩ := traversEdges_first g _ v pre e post _ st hpre he hst
        exact ⟨xs, by simpa [hv] using h2⟩

/-- Witness for C26 as amended: from vertex 0 of the example graph, whose edge list is
`[10, 12]`, edge 10 is followed first. -/
theorem doTravers_adjacency_order_witness :
    doTravers exampleGraph (4 + 1) 0 []
        = some ({ vertexes := [0, 1, 2, 3], edges := [10, 11, 13],
                  longestPath := { vertexes := [0, 1, 3], edges := [10, 13], length := 2 } },
                [3, 2, 1, 0]) ∧
      exampleGraph.getEdges 0 = [] ++ 10 :: [12] ∧
      (∃ es, ([10, 11, 13] : List Edge) = 10 :: es) ∧
      (∃ vs, ([0, 1, 2, 3] : List Vertex)
        = (if 0 ∈ ([] : List Vertex) then [] else [0])
            ++ exampleGraph.getNeighborOnEdge 0 10 :: vs) :=
  have h := doTravers_adjacency_order exampleGraph 4 0 []
    { vertexes := [0, 1, 2, 3], edges := [10, 11, 13],
      longestPath := { vertexes := [0, 1, 3], edges := [10, 13], length := 2 } }
    [3, 2, 1, 0] [] 10 [12] (by decide) (by decide) (by decide) (by decide)
  ⟨by decide, by decide, h.1, h.2.1⟩

/-- Counterexample to C26 as stated: at vertex 0 of the example graph both incident
edges, 10 (index 0) and 12 (index 1), lead to unvisited neighbours, and the traversal
follows edge 10, the one with the lowest index, first: edge 12 is never followed,
its far end being reached through edges 10 and 11. -/
theorem doTravers_follows_lowest_index :
    exampleGraph.getEdges 0 = [10, 12] ∧
    exampleGraph.getNeighborOnEdge 0 10 = 1 ∧ exampleGraph.getNeighborOnEdge 0 12 = 2 ∧
    (doTravers exampleGraph 5 0 []).map (fun p => (p.1.vertexes, p.1.edges))
      = some ([0, 1, 2, 3], [10, 11, 13]) := by
  decide

/-- C27, as amended. In `_doTravers` the child that supplies the longest path of the
current vertex is replaced by a later child when the longest-path length the later
child returns is strictly greater than the length held, or when the length held is
0. Hence, for the children `pre ++ k :: post` in the order they are traversed, the
longest path goes through `k` when every child before `k` has a shorter path or all
of them have length 0, and `k` is the last child or has a path of length at least 1
that no later child exceeds: among the children that tie for a maximum of at least
1 it is the first one traversed, and when all children are leaves of length 0 it is
the last one traversed. -/
theorem doTravers_longest_choice (g : Graph) (v : Vertex)
    (pre : List (Edge × SpanningResult)) (k : Edge × SpanningResult)
    (post : List (Edge × SpanningResult))
    (hpre : (∀ k1 ∈ pre, k1.2.longestPath.length < k.2.longestPath.length) ∨
      (∀ k1 ∈ pre, k1.2.longestPath.length = 0))
    (hpost : post = [] ∨ (0 < k.2.longestPath.length ∧
      ∀ k2 ∈ post, k2.2.longestPath.length ≤ k.2.longestPath.length)) :
    (∀ (recurse : Vertex → List Vertex → Option (SpanningResult × List Vertex)) (e : Edge)
        (rest : List Edge) (st : TraversState) (nr : SpanningResult) (w : List Vertex),
      g.getNeighborOnEdge v e ∉ st.visited →
      recurse (g.getNeighborOnEdge v e) (g.getNeighborOnEdge v e :: st.visited) = some (nr, w) →
      traversEdges g recurse v (e :: rest) st
        = traversEdges g recurse v rest
            { result := (addKid g v (st.result, st.longestTargetNeighborEdge) (e, nr)).1,
              longestTargetNeighborEdge :=
                (addKid g v (st.result, st.longestTargetNeighborEdge) (e, nr)).2,
              visited := w }) ∧
    (∀ (acc : SpanningResult × Option Edge) (k1 : Edge × SpanningResult),
      (addKid g v acc k1).2
        = if k1.2.longestPath.length > acc.1.longestPath.length ∨ acc.1.longestPath.length = 0
          then some k1.1 else acc.2) ∧
    (∀ (fuel : Nat) (vis : List Vertex), v ∈ vis →
      doTravers g (fuel + 1) v vis
        = (traversEdges g (doTravers g fuel) v (g.getEdges v)
            { result := emptyResult, longestTargetNeighborEdge := none, visited := vis }).map
            (fun st => (finishTravers v (st.result, st.longestTargetNeighborEdge), st.visited))) ∧
    (finishTravers v ((pre ++ k :: post).foldl (addKid g v) (emptyResult, none))).longestPath
      = { vertexes := v :: k.2.longestPath.vertexes, edges := k.1 :: k.2.longestPath.edges,
          length := k.2.longestPath.length + 1 } := by
  refine ⟨fun recurse e rest st nr w hn hr => traversEdges_follow g recurse v e rest st nr w hn hr,
    ?_, fun fuel vis hvis => doTravers_visited g fuel v vis hvis, ?_⟩
  · intro acc k1
    by_cases hc : k1.2.longestPath.length > acc.1.longestPath.length
        ∨ acc.1.longestPath.length = 0
    · rw [if_pos hc]; exact (addKid_replace g v acc k1 hc).1
    · rw [if_neg hc]; exact (addKid_keep g v acc k1 hc).1
  · obtain ⟨e1, e2⟩ := foldl_addKid_choice g v pre k post hpre hpost
    unfold finishTravers
    rw [e1]
    simp only [e2]

/-- Witness for C27 as amended: at vertex 1 of the fork graph the children through
edges 11 and 13 both return a longest path of length 1, and the longest path goes
through edge 11, the first one traversed. -/
theorem doTravers_longest_choice_witness :
    doTravers forkGraph 4 2 [2, 1, 0]
        = some ({ vertexes := [6], edges := [12],
                  longestPath := { vertexes := [2, 6], edges := [12], length := 1 } },
                [6, 2, 1, 0]) ∧
      doTravers forkGraph 4 3 [3, 6, 2, 1, 0]
        = some ({ vertexes := [4, 5], edges := [14, 15],
                  longestPath := { vertexes := [3, 5], edges := [15], length := 1 } },
                [5, 4, 3, 6, 2, 1, 0]) ∧
      (doTravers forkGraph 5 1 [1, 0]).map (fun p => p.1.longestPath)
        = some { vertexes := [1, 2, 6], edges := [11, 12], length := 2 } ∧
      (finishTravers 1
          (([] ++ ((11, { vertexes := [6], edges := [12],
                          longestPath := { vertexes := [2, 6], edges := [12], length := 1 } })
                : Edge × SpanningResult)
              :: [(13, { vertexes := [4, 5], edges := [14, 15],
                         longestPath := { vertexes := [3, 5], edges := [15], length := 1 } })]).foldl
            (addKid forkGraph 1) (emptyResult, none))).longestPath
        = { vertexes := [1, 2, 6], edges := [11, 12], length := 2 } :=
  ⟨by decide, by decide, by decide,
    (doTravers_longest_choice forkGraph 1 []
      (11, { vertexes := [6], edges := [12],
             longestPath := { vertexes := [2, 6], edges := [12], length := 1 } })
      [(13, { vertexes := [4, 5], edges := [14, 15],
              longestPath := { vertexes := [3, 5], edges := [15], length := 1 } })]
      (Or.inl (by simp)) (Or.inr ⟨by decide, by decide⟩)).2.2.2⟩

/-- Counterexample to C27 as stated: at vertex 1 of the example graph the children
through edges 11 and 13, traversed in this order, are both leaves whose longest
path has length 0, and the longest path of vertex 1 goes through edge 13, the last
one traversed, not the first. -/
theorem doTravers_last_leaf :
    (doTravers exampleGraph 3 2 [2, 1, 0]).map (fun p => p.1.longestPath)
        = some { vertexes := [2], edges := [], length := 0 } ∧
      (doTravers exampleGraph 3 3 [3, 2, 1, 0]).map (fun p => p.1.longestPath)
        = some { vertexes := [3], edges := [], length := 0 } ∧
      doTravers exampleGraph 4 1 [1, 0]
        = some ({ vertexes := [2, 3], edges := [11, 13],
                  longestPath := { vertexes := [1, 3], edges := [13], length := 1 } },
                [3, 2, 1, 0]) := by
  decide

/-- C25, the code at the failing input: for the fork molecule, written from vertex 0
with the main chain 0-1-2-6, vertex 3 has no main-chain edge and two branches. Its
atom token is formatted with the next-atom list `[5, 4]` (the branch neighbours in
loop order), while the text after the token has vertex 4 in the parenthesised
branch and vertex 5, the promoted first branch, as the continuation after it. At
vertex 1, which has a main-chain edge, the list `[3, 2]` is in the order of the
text. -/
theorem writeStructFragment_promoted_branch :
    (writeStructFragmentToks forkMol Options.empty []).map (fun p => p.2.1)
        = some [Tok.node 0 none [1], Tok.connector 10, Tok.node 1 (some 0) [3, 2],
            Tok.branchLeft, Tok.connector 13, Tok.node 3 (some 1) [5, 4],
            Tok.branchLeft, Tok.connector 14, Tok.node 4 (some 3) [], Tok.branchRight,
            Tok.connector 15, Tok.node 5 (some 3) [], Tok.branchRight,
            Tok.connector 11, Tok.node 2 (some 1) [6], Tok.connector 12,
            Tok.node 6 (some 2) []] ∧
      writeStructFragment forkMol Options.empty []
        = some (some "CC(C(C)C)CC", [5, 4, 3, 6, 2, 1, 0]) ∧
      writeMolVertex forkEnv 3 3 (some 13) [10, 11, 12] [10, 11, 12, 13, 14, 15] []
        = some ([Tok.connector 13, Tok.node 3 (some 1) [5, 4], Tok.branchLeft,
            Tok.connector 14, Tok.node 4 (some 3) [], Tok.branchRight, Tok.connector 15,
            Tok.node 5 (some 3) []], []) := by
  decide

end Kekule
